import Mathlib

/-!
# camFusion_Student.cpp : a shallow embedding

The translation unit `src/camFusion_Student.cpp` computes, for a pair of successive frames,
the association of Lidar points and keypoint matches with bounding boxes, the association of
bounding boxes across frames, and two time-to-collision estimates.

Conventions of the embedding.

* `float` and `double` values are modelled by the type `Dbl`: not-a-number, the two infinities,
  the two signed zeros and the non-zero finite values, the latter carried by a rational number.
  Every arithmetic operation computes the exact rational result and rounds it to the nearest
  representable value of the format (ties to even), as IEEE-754 prescribes; `binary32` is the
  format of `float`, `binary64` the format of `double`.
* `int` values are modelled by `Int`, container sizes by `Nat`.
* An unchecked `operator[]` outside the bounds of its container is undefined behaviour in C++;
  the embedding makes it explicit as the result `Except.error Fault.outOfBounds`.
* `std::sort` is taken as a parameter `sort`, constrained by `IsStdSort` (the result is a
  permutation of the input, ascending whenever the input holds no NaN); `insertionSort` is one
  such function.
* The C library function `pow` is taken as a parameter `pow`, constrained by `IsLibmPow`: the
  library does not round `pow(x, 2)` correctly, it returns one of the two `double` values that
  enclose the exact square (the square itself when it is a `double`). `powNearest` and
  `powDown` are two such functions.
-/

namespace CamFusion

/-! ## IEEE-754 binary floating point -/

/-- A binary interchange format: `prec` significand bits, `2 ^ emin` the smallest positive
subnormal value, `2 ^ emax` the overflow threshold. -/
structure Fmt where
  prec : Nat
  emin : Int
  emax : Int
deriving DecidableEq

/-- The format of a C++ `float`. -/
def binary32 : Fmt := ⟨24, -149, 128⟩

/-- The format of a C++ `double`. -/
def binary64 : Fmt := ⟨53, -1074, 1024⟩

/-- A floating-point datum. `num q` carries a non-zero finite value. -/
inductive Dbl where
  | nan : Dbl
  | inf (neg : Bool) : Dbl
  | zero (neg : Bool) : Dbl
  | num (q : ℚ) : Dbl
deriving DecidableEq

/-- The power `2 ^ e` for an integer exponent. -/
def pow2 (e : Int) : ℚ :=
  if 0 ≤ e then ((2 ^ e.toNat : Nat) : ℚ) else 1 / ((2 ^ (-e).toNat : Nat) : ℚ)

/-- Number of binary digits of `n`, by halving; `fuel` bounds the number of halvings. -/
def bitLenAux : Nat → Nat → Nat
  | 0, _ => 0
  | fuel + 1, n => if n = 0 then 0 else bitLenAux fuel (n / 2) + 1

/-- Number of binary digits of `n`. -/
def bitLen (n : Nat) : Nat := bitLenAux n n

/-- The integer `e` with `2 ^ e ≤ q < 2 ^ (e + 1)`, for a positive rational `q`. -/
def floorLog2 (q : ℚ) : Int :=
  let e : Int := (bitLen q.num.natAbs : Int) - (bitLen q.den : Int)
  if pow2 e ≤ q then e else e - 1

/-- Nearest integer to a non-negative rational, ties to the even neighbour. -/
def roundHalfEven (x : ℚ) : Int :=
  let f := x.floor
  let d := x - f
  if d < 1 / 2 then f
  else if 1 / 2 < d then f + 1
  else if f % 2 = 0 then f else f + 1

/-- Exponent of the unit in the last place used to round a value whose binary exponent is `e`. -/
def quantum (F : Fmt) (e : Int) : Int := max (e - ((F.prec : Int) - 1)) F.emin

/-- Round the magnitude `q > 0` to the format; `none` signals overflow. -/
def roundMag (F : Fmt) (q : ℚ) : Option ℚ :=
  let u := pow2 (quantum F (floorLog2 q))
  let v := (roundHalfEven (q / u) : ℚ) * u
  if pow2 F.emax ≤ v then none else some v

/-- Round the exact result `q` to the format. `neg` is the sign given to an exact zero. -/
def round (F : Fmt) (neg : Bool) (q : ℚ) : Dbl :=
  if q = 0 then Dbl.zero neg
  else
    match roundMag F |q| with
    | none => Dbl.inf (decide (q < 0))
    | some v => if v = 0 then Dbl.zero (decide (q < 0)) else Dbl.num (if q < 0 then -v else v)

namespace Dbl

/-- The sign bit. -/
def sign : Dbl → Bool
  | nan => false
  | inf s => s
  | zero s => s
  | num q => decide (q < 0)

/-- The rational value of a finite datum (0 for the others). -/
def toRat : Dbl → ℚ
  | num q => q
  | _ => 0

/-- Is the datum a NaN. -/
def isNaN : Dbl → Bool
  | nan => true
  | _ => false

/-- Is the datum finite: neither NaN nor an infinity. -/
def isFinite : Dbl → Bool
  | nan => false
  | inf _ => false
  | _ => true

/-- Unary minus. -/
def neg : Dbl → Dbl
  | nan => nan
  | inf s => inf (!s)
  | zero s => zero (!s)
  | num q => if q = 0 then zero true else num (-q)

/-- Absolute value (`std::abs` on a `double`). -/
def abs : Dbl → Dbl
  | nan => nan
  | inf _ => inf false
  | zero _ => zero false
  | num q => num |q|

/-- Addition, rounded to the format `F`. -/
def add (F : Fmt) : Dbl → Dbl → Dbl
  | nan, _ => nan
  | _, nan => nan
  | inf s, inf t => if s = t then inf s else nan
  | inf s, _ => inf s
  | _, inf t => inf t
  | a, b => round F (a.sign && b.sign) (a.toRat + b.toRat)

/-- Subtraction, rounded to the format `F`. -/
def sub (F : Fmt) (a b : Dbl) : Dbl := add F a (neg b)

/-- Multiplication, rounded to the format `F`. -/
def mul (F : Fmt) : Dbl → Dbl → Dbl
  | nan, _ => nan
  | _, nan => nan
  | inf s, b => if b.isFinite && decide (b.toRat = 0) then nan else inf (xor s b.sign)
  | a, inf t => if decide (a.toRat = 0) then nan else inf (xor a.sign t)
  | a, b => round F (xor a.sign b.sign) (a.toRat * b.toRat)

/-- Division, rounded to the format `F`. -/
def div (F : Fmt) : Dbl → Dbl → Dbl
  | nan, _ => nan
  | _, nan => nan
  | inf s, b => if b.isFinite then inf (xor s b.sign) else nan
  | a, inf t => zero (xor a.sign t)
  | a, b =>
    if b.toRat = 0 then
      if a.toRat = 0 then nan else inf (xor a.sign b.sign)
    else round F (xor a.sign b.sign) (a.toRat / b.toRat)

/-- Integer square root by Newton iteration from an upper bound `x`; `fuel` bounds the steps. -/
def isqrtAux (n : Nat) : Nat → Nat → Nat
  | 0, x => x
  | fuel + 1, x =>
    let y := (x + n / x) / 2
    if y < x then isqrtAux n fuel y else x

/-- The integer square root: the largest `r` with `r * r ≤ n`. -/
def isqrt (n : Nat) : Nat :=
  if n = 0 then 0 else isqrtAux n (bitLen n + 1) (2 ^ ((bitLen n + 1) / 2))

/-- The square root of the rational `q > 0`, correctly rounded to the format `F`. -/
def sqrtRound (F : Fmt) (q : ℚ) : ℚ :=
  let k := quantum F (floorLog2 q / 2)
  let t := q / pow2 (2 * k)
  let f : Nat := isqrt t.floor.toNat
  let h : ℚ := ((f : ℚ) + 1 / 2) * ((f : ℚ) + 1 / 2)
  let r : Nat := if t < h then f else if h < t then f + 1 else if f % 2 = 0 then f else f + 1
  (r : ℚ) * pow2 k

/-- Square root (`sqrt`), rounded to the format `F`. -/
def sqrt (F : Fmt) : Dbl → Dbl
  | nan => nan
  | inf s => if s then nan else inf false
  | zero s => zero s
  | num q => if q < 0 then nan else if q = 0 then zero false else num (sqrtRound F q)

/-- The comparison `a < b` of C++: false as soon as one operand is a NaN. -/
def lt : Dbl → Dbl → Bool
  | nan, _ => false
  | _, nan => false
  | inf s, inf t => s && !t
  | inf s, _ => s
  | _, inf t => !t
  | a, b => decide (a.toRat < b.toRat)

/-- The comparison `a == b` of C++: a NaN equals nothing, the two zeros are equal. -/
def eq : Dbl → Dbl → Bool
  | nan, _ => false
  | _, nan => false
  | inf s, inf t => s == t
  | inf _, _ => false
  | _, inf _ => false
  | a, b => decide (a.toRat = b.toRat)

/-- Conversion of an `int` (or a `size_t`) to the format `F`. -/
def ofInt (F : Fmt) (n : Int) : Dbl := round F false (n : ℚ)

/-- The value `INT_MIN`, which the x86 conversion instructions return for a NaN and for a
value outside the range of `int`. -/
def intIndefinite : Int := -2147483648

/-- Is the integer inside the range of a 32-bit `int`. -/
def inIntRange (n : Int) : Bool := decide (-2147483648 ≤ n) && decide (n ≤ 2147483647)

/-- Conversion to `int` by truncation toward zero (the implicit `double` to `int` conversion). -/
def toIntTrunc : Dbl → Int
  | num q =>
    let n : Int := if q < 0 then -((-q).floor) else q.floor
    if inIntRange n then n else intIndefinite
  | zero _ => 0
  | _ => intIndefinite

/-- Conversion to `int` by rounding to nearest, ties to even (`cvRound`, which
`cv::saturate_cast<int>` applies to a `float`). -/
def toIntRound : Dbl → Int
  | num q =>
    let n : Int := if q < 0 then -(roundHalfEven (-q)) else roundHalfEven q
    if inIntRange n then n else intIndefinite
  | zero _ => 0
  | _ => intIndefinite

end Dbl

/-- The `double` nearest to the decimal literal `q`: `dbl (2 / 5)` is the literal `0.4`. -/
def dbl (q : ℚ) : Dbl := round binary64 false q

/-- The literal `0.0`. -/
def d0 : Dbl := Dbl.zero false

/-- The value `1.0`. -/
def d1 : Dbl := Dbl.num 1

/-- The value `2.0`. -/
def d2 : Dbl := Dbl.num 2

/-- The value `90.0`. -/
def d90 : Dbl := Dbl.num 90

/-- The value of `std::numeric_limits<double>::epsilon()`, `2 ^ (-52)`. -/
def dblEpsilon : Dbl := Dbl.num (pow2 (-52))

namespace Dbl

/-- Position of a non-NaN datum on the extended rational line. -/
def key : Dbl → WithBot (WithTop ℚ)
  | nan => ⊥
  | inf true => ⊥
  | inf false => ((⊤ : WithTop ℚ) : WithBot (WithTop ℚ))
  | a => ((a.toRat : WithTop ℚ) : WithBot (WithTop ℚ))

/-- Equality up to the sign of a zero: both NaN, or both non-NaN at the same position of the
extended line. -/
def equiv (a b : Dbl) : Prop := a.isNaN = b.isNaN ∧ a.key = b.key

end Dbl

/-! ## Containers and `std::sort` -/

/-- The undefined behaviours of the translation unit that the embedding makes explicit. -/
inductive Fault where
  | outOfBounds : Fault
deriving DecidableEq

deriving instance DecidableEq for Except

/-- The unchecked `v[i]` of a `std::vector`. -/
def index {α : Type} (v : List α) (i : Int) : Except Fault α :=
  if 0 ≤ i then
    match v[i.toNat]? with
    | some a => Except.ok a
    | none => Except.error Fault.outOfBounds
  else Except.error Fault.outOfBounds

/-- A sequence of `double` in which no element is less than an earlier one. -/
def Ascending (s : List Dbl) : Prop := s.Pairwise (fun a b => Dbl.lt b a = false)

/-- No element is a NaN. -/
def NoNaN (l : List Dbl) : Prop := ∀ x ∈ l, Dbl.isNaN x = false

/-- The contract of `std::sort(first, last)` on a range of `double`: the result is a
permutation of the range and, when `operator<` is a strict weak ordering on it (no NaN), it is
ascending. The relative order of equal elements (`+0.0` and `-0.0`) is left open. -/
def IsStdSort (sort : List Dbl → List Dbl) : Prop :=
  ∀ l, (sort l).Perm l ∧ (NoNaN l → Ascending (sort l))

/-- One function meeting the contract of `std::sort`: insertion sort along `Dbl.key`. -/
def insertionSort (l : List Dbl) : List Dbl :=
  l.insertionSort (fun a b => Dbl.key a ≤ Dbl.key b)

/-- The median in the words of the specification, for an ascending sequence `s`: the middle
element when the count is odd, the average of the two middle elements when it is even. -/
def medianOf (s : List Dbl) : Dbl :=
  if s.length % 2 = 1 then s.getD (s.length / 2) Dbl.nan
  else
    Dbl.div binary64
      (Dbl.add binary64 (s.getD (s.length / 2 - 1) Dbl.nan) (s.getD (s.length / 2) Dbl.nan)) d2

/-! ## Data structures -/

/-- Modelled from the spec: `dataStructures.h`, which declares `LidarPoint`, is absent; the
specification gives a sensor point its longitudinal, lateral and vertical coordinates. -/
structure LidarPoint where
  x : Dbl
  y : Dbl
  z : Dbl
deriving DecidableEq

/-! ## computeTTCLidar -/

/-- The block that `computeTTCLidar` runs on `dPrev` and on `dCurr`, and `computeTTCCamera` on
`distRatios`: take the size, sort, and read the middle element (odd size) or the half-sum of
the two middle elements (even size). -/
def sortedMedian (sort : List Dbl → List Dbl) (d : List Dbl) : Except Fault Dbl := do
  let size : Int := (d.length : Int)
  let d := sort d
  if size % 2 = 0 then
    let hi ← index d (size / 2)
    let lo ← index d (size / 2 - 1)
    pure (Dbl.div binary64 (Dbl.add binary64 hi lo) d2)
  else
    index d (size / 2)

/-- The function `computeTTCLidar`; the result is the value left in `TTC`. -/
def computeTTCLidar (sort : List Dbl → List Dbl) (lidarPointsPrev lidarPointsCurr : List LidarPoint)
    (frameRate : Dbl) : Except Fault Dbl := do
  let dPrev := lidarPointsPrev.map (fun p => p.x)
  let dCurr := lidarPointsCurr.map (fun p => p.x)
  let dt0 ← sortedMedian sort dPrev
  let dt1 ← sortedMedian sort dCurr
  let dt := Dbl.div binary64 d1 frameRate
  pure (Dbl.mul binary64 dt1 (Dbl.div binary64 dt (Dbl.sub binary64 dt0 dt1)))

/-- Sample data: a Lidar point at the longitudinal distance `x`. -/
def lidarAt (x : ℚ) : LidarPoint := ⟨dbl x, d0, d0⟩

/-- Sample data: four Lidar points, out of order. -/
def exLidarFour : List LidarPoint := [lidarAt 4, lidarAt 1, lidarAt 3, lidarAt 2]

/-- Sample data: three Lidar points, out of order. -/
def exLidarThree : List LidarPoint := [lidarAt 5, lidarAt 1, lidarAt 3]

/-! ## Keypoints and matches -/

/-- The OpenCV type `cv::Point2f`: two `float` coordinates. -/
structure Point2f where
  x : Dbl
  y : Dbl
deriving DecidableEq

/-- The OpenCV type `cv::KeyPoint`, reduced to the field the translation unit reads. -/
structure KeyPoint where
  pt : Point2f
deriving DecidableEq

/-- The OpenCV type `cv::DMatch`, reduced to the fields the translation unit reads: the index
of the keypoint in the previous frame (`queryIdx`) and in the current frame (`trainIdx`). -/
structure DMatch where
  queryIdx : Int
  trainIdx : Int
deriving DecidableEq

/-- The difference `a - b` of two `cv::Point2f`, computed in `float`. -/
def Point2f.sub (a b : Point2f) : Point2f :=
  ⟨Dbl.sub binary32 a.x b.x, Dbl.sub binary32 a.y b.y⟩

/-- The OpenCV function `cv::norm` on a `cv::Point2f`:
`std::sqrt((double)pt.x*pt.x + (double)pt.y*pt.y)`. -/
def norm (p : Point2f) : Dbl :=
  Dbl.sqrt binary64 (Dbl.add binary64 (Dbl.mul binary64 p.x p.x) (Dbl.mul binary64 p.y p.y))

/-- Every match indexes a keypoint of the previous and of the current list. -/
def ValidMatches (kptsPrev kptsCurr : List KeyPoint) (kptMatches : List DMatch) : Prop :=
  ∀ m ∈ kptMatches, (0 ≤ m.queryIdx ∧ m.queryIdx < kptsPrev.length) ∧
    (0 ≤ m.trainIdx ∧ m.trainIdx < kptsCurr.length)

/-! ## computeTTCCamera -/

/-- The body of the inner loop of `computeTTCCamera` for the match `it2`: the distance ratio
of the pair when it passes the test of line 204, nothing otherwise. -/
def pairRatio (kptsPrev kptsCurr : List KeyPoint) (prevOutlier currOutlier : KeyPoint)
    (it2 : DMatch) : Except Fault (Option Dbl) := do
  let prevInlier ← index kptsPrev it2.queryIdx
  let currInlier ← index kptsCurr it2.trainIdx
  let currentDistance := norm (currOutlier.pt.sub currInlier.pt)
  let prevDistance := norm (prevOutlier.pt.sub prevInlier.pt)
  if Dbl.lt dblEpsilon prevDistance && Dbl.lt d90 currentDistance then
    pure (some (Dbl.div binary64 currentDistance prevDistance))
  else
    pure none

/-- The inner loop of `computeTTCCamera` over the matches `it2`, pushing onto `distRatios`. -/
def innerLoop (kptsPrev kptsCurr : List KeyPoint) (prevOutlier currOutlier : KeyPoint) :
    List DMatch → List Dbl → Except Fault (List Dbl)
  | [], distRatios => pure distRatios
  | it2 :: rest, distRatios => do
    match ← pairRatio kptsPrev kptsCurr prevOutlier currOutlier it2 with
    | some r => innerLoop kptsPrev kptsCurr prevOutlier currOutlier rest (distRatios ++ [r])
    | none => innerLoop kptsPrev kptsCurr prevOutlier currOutlier rest distRatios

/-- The outer loop of `computeTTCCamera` over the matches `it1`; `kptMatches` is the whole
list, whose inner traversal starts at `kptMatches.begin() + 1`. -/
def outerLoop (kptsPrev kptsCurr : List KeyPoint) (kptMatches : List DMatch) :
    List DMatch → List Dbl → Except Fault (List Dbl)
  | [], distRatios => pure distRatios
  | it1 :: rest, distRatios => do
    let prevOutlier ← index kptsPrev it1.queryIdx
    let currOutlier ← index kptsCurr it1.trainIdx
    let distRatios ← innerLoop kptsPrev kptsCurr prevOutlier currOutlier (kptMatches.drop 1)
      distRatios
    outerLoop kptsPrev kptsCurr kptMatches rest distRatios

/-- The vector `distRatios` at line 210 of the source. -/
def collectRatios (kptsPrev kptsCurr : List KeyPoint) (kptMatches : List DMatch) :
    Except Fault (List Dbl) :=
  outerLoop kptsPrev kptsCurr kptMatches kptMatches []

/-- The function `computeTTCCamera` (the image `visImg` is not used); the result is the value
left in `TTC`. -/
def computeTTCCamera (sort : List Dbl → List Dbl) (kptsPrev kptsCurr : List KeyPoint)
    (kptMatches : List DMatch) (frameRate : Dbl) : Except Fault Dbl := do
  let distRatios ← collectRatios kptsPrev kptsCurr kptMatches
  if distRatios.length = 0 then
    pure Dbl.nan
  else
    let dt := Dbl.div binary64 d1 frameRate
    let medianDistRatio ← sortedMedian sort distRatios
    pure (Dbl.div binary64 (Dbl.neg dt) (Dbl.sub binary64 d1 medianDistRatio))

/-- Sample data: two keypoints of a previous frame. -/
def exKptsPrev : List KeyPoint := [⟨⟨d0, d0⟩⟩, ⟨⟨dbl 100, d0⟩⟩]

/-- Sample data: the two keypoints in the current frame, 110 pixels apart. -/
def exKptsCurr : List KeyPoint := [⟨⟨d0, d0⟩⟩, ⟨⟨dbl 110, d0⟩⟩]

/-- Sample data: the two matches between `exKptsPrev` and `exKptsCurr`. -/
def exMatches : List DMatch := [⟨0, 0⟩, ⟨1, 1⟩]

/-! ## Rectangles, bounding boxes and frames -/

/-- The OpenCV type `cv::Point`: two `int` coordinates. -/
structure Point where
  x : Int
  y : Int
deriving DecidableEq

/-- The OpenCV type `cv::Rect`: top-left corner, width and height, all `int`. -/
structure Rect where
  x : Int
  y : Int
  width : Int
  height : Int
deriving DecidableEq

/-- The OpenCV method `cv::Rect::contains`:
`x <= pt.x && pt.x < x + width && y <= pt.y && pt.y < y + height`. -/
def Rect.contains (r : Rect) (pt : Point) : Bool :=
  decide (r.x ≤ pt.x) && decide (pt.x < r.x + r.width) && decide (r.y ≤ pt.y) &&
    decide (pt.y < r.y + r.height)

/-- The conversion of a `cv::Point2f` to a `cv::Point`, which `roi.contains(keypoint.pt)`
applies to its argument (OpenCV before 4.11): each coordinate goes through
`saturate_cast<int>`, that is `cvRound`. -/
def Point2f.toPoint (p : Point2f) : Point := ⟨p.x.toIntRound, p.y.toIntRound⟩

/-- Modelled from the spec: `dataStructures.h`, which declares `BoundingBox`, is absent; the
specification gives a box its identity `boxID`, its region of interest, the Lidar points
assigned to it and the keypoint matches assigned to it, and the translation unit uses these
four fields. -/
structure BoundingBox where
  boxID : Int
  roi : Rect
  lidarPoints : List LidarPoint
  kptMatches : List DMatch
deriving DecidableEq

/-- Modelled from the spec: `dataStructures.h`, which declares `DataFrame`, is absent; the
translation unit reads the keypoints and the bounding boxes of a frame. -/
structure DataFrame where
  keypoints : List KeyPoint
  boundingBoxes : List BoundingBox
deriving DecidableEq

/-! ## The library function `pow` -/

/-- The exact result `q ≥ 0` rounded to the format in one direction: downward (`up = false`) to
the greatest value of the format not above `q`, upward (`up = true`) to the least value not
below `q`. Beyond the largest finite value of the format the downward result is that value and
the upward result is `+∞`. -/
def roundDir (F : Fmt) (up : Bool) (q : ℚ) : Dbl :=
  let u := pow2 (quantum F (floorLog2 q))
  let f : Int := (q / u).floor
  let m : Int := if up && decide ((f : ℚ) < q / u) then f + 1 else f
  let v : ℚ := (m : ℚ) * u
  if pow2 F.emax ≤ v then
    if up then Dbl.inf false else Dbl.num (pow2 F.emax - pow2 (F.emax - (F.prec : Int)))
  else if v = 0 then Dbl.zero false
  else Dbl.num v

/-- The value `y` is an admissible result of `pow(x, 2)`: not-a-number for a NaN, `+∞` for an
infinity, `+0.0` for a zero (Annex F of the C standard), and for a non-zero finite `x` one of
the two `double` values that enclose the exact square `x²`, which is `x²` itself when `x²` is a
`double`. -/
def Dbl.IsSquareOf (y x : Dbl) : Prop :=
  match x with
  | Dbl.nan => y = Dbl.nan
  | Dbl.inf _ => y = Dbl.inf false
  | Dbl.zero _ => y = Dbl.zero false
  | Dbl.num q => y = roundDir binary64 false (q * q) ∨ y = roundDir binary64 true (q * q)

/-- The contract of the C library function `pow(x, y)` at the exponent `y = 2`, the only one
the translation unit uses: an error below one unit in the last place. The library does not
promise the nearest `double`, and does not return it on every argument. -/
def IsLibmPow (pow : Dbl → Dbl → Dbl) : Prop := ∀ x : Dbl, Dbl.IsSquareOf (pow x d2) x

/-- The square `x * x` rounded to the nearest `double`. -/
def Dbl.sqNearest (x : Dbl) : Dbl := Dbl.mul binary64 x x

/-- The square `x * x` rounded toward zero. -/
def Dbl.sqDown : Dbl → Dbl
  | Dbl.nan => Dbl.nan
  | Dbl.inf _ => Dbl.inf false
  | Dbl.zero _ => Dbl.zero false
  | Dbl.num q => roundDir binary64 false (q * q)

/-- One function meeting the contract of `pow`: at the exponent 2 it returns the square
rounded to nearest. Other exponents do not occur. -/
def powNearest (x y : Dbl) : Dbl := if y = d2 then Dbl.sqNearest x else Dbl.nan

/-- Another function meeting the contract of `pow`: at the exponent 2 it returns the square
rounded toward zero. Other exponents do not occur. -/
def powDown (x y : Dbl) : Dbl := if y = d2 then Dbl.sqDown x else Dbl.nan

/-- Is the square of `x` determined by the contract of `pow`: the two enclosing `double`
values coincide with the square rounded to nearest. -/
def Dbl.squareIsExact : Dbl → Bool
  | Dbl.num q =>
    decide (roundDir binary64 false (q * q) = Dbl.sqNearest (Dbl.num q)) &&
      decide (roundDir binary64 true (q * q) = Dbl.sqNearest (Dbl.num q))
  | _ => true

/-! ## clusterKptMatchesWithROI -/

/-- The distance pushed onto `distancias` at line 157:
`sqrt(pow(prev.pt.x - curr.pt.x, 2) + pow(prev.pt.y - curr.pt.y, 2))`, the differences being
computed in `float` and converted to `double` for `pow`. -/
def keypointDistance (pow : Dbl → Dbl → Dbl) (prevPoints currPoints : KeyPoint) : Dbl :=
  Dbl.sqrt binary64
    (Dbl.add binary64 (pow (Dbl.sub binary32 prevPoints.pt.x currPoints.pt.x) d2)
      (pow (Dbl.sub binary32 prevPoints.pt.y currPoints.pt.y) d2))

/-- The first loop of `clusterKptMatchesWithROI`, filling `distancias`. -/
def distanciasLoop (pow : Dbl → Dbl → Dbl) (kptsPrev kptsCurr : List KeyPoint) :
    List DMatch → List Dbl → Except Fault (List Dbl)
  | [], distancias => pure distancias
  | m :: rest, distancias => do
    let prevPoints ← index kptsPrev m.queryIdx
    let currPoints ← index kptsCurr m.trainIdx
    distanciasLoop pow kptsPrev kptsCurr rest
      (distancias ++ [keypointDistance pow prevPoints currPoints])

/-- The value of `meanDistance` after line 160: `std::accumulate` from `0.0`, divided by the
size. -/
def meanOf (distancias : List Dbl) : Dbl :=
  Dbl.div binary64 (distancias.foldl (fun acc d => Dbl.add binary64 acc d) d0)
    (Dbl.ofInt binary64 distancias.length)

/-- The value of `standarDev` after line 166. -/
def stdDevOf (pow : Dbl → Dbl → Dbl) (distancias : List Dbl) (meanDistance : Dbl) : Dbl :=
  Dbl.sqrt binary64
    (Dbl.div binary64
      (distancias.foldl
        (fun acc d => Dbl.add binary64 acc (pow (Dbl.sub binary64 d meanDistance) d2)) d0)
      (Dbl.ofInt binary64 distancias.length))

/-- The test of line 170 on one distance. -/
def withinOneStdDev (d meanDistance standarDev : Dbl) : Bool :=
  Dbl.lt (Dbl.abs (Dbl.sub binary64 d meanDistance)) standarDev

/-- The last loop of `clusterKptMatchesWithROI`, over the indices `i`. -/
def retainLoop (distancias : List Dbl) (meanDistance standarDev : Dbl) (kptMatches : List DMatch) :
    List Nat → BoundingBox → Except Fault BoundingBox
  | [], boundingBox => pure boundingBox
  | i :: rest, boundingBox => do
    let d ← index distancias (i : Int)
    if withinOneStdDev d meanDistance standarDev then
      let m ← index kptMatches (i : Int)
      retainLoop distancias meanDistance standarDev kptMatches rest
        { boundingBox with kptMatches := boundingBox.kptMatches ++ [m] }
    else
      retainLoop distancias meanDistance standarDev kptMatches rest boundingBox

/-- The function `clusterKptMatchesWithROI`; the result is the bounding box after the call. -/
def clusterKptMatchesWithROI (pow : Dbl → Dbl → Dbl) (boundingBox : BoundingBox)
    (kptsPrev kptsCurr : List KeyPoint) (kptMatches : List DMatch) : Except Fault BoundingBox := do
  let distancias ← distanciasLoop pow kptsPrev kptsCurr kptMatches []
  let meanDistance := meanOf distancias
  let standarDev := stdDevOf pow distancias meanDistance
  retainLoop distancias meanDistance standarDev kptMatches (List.range kptMatches.length)
    boundingBox

/-- The distance of one match in the words of the specification: the Euclidean pixel distance
between its previous-frame and its current-frame keypoint, the square root of the sum of the
squared coordinate differences. -/
def matchDistance (pow : Dbl → Dbl → Dbl) (kptsPrev kptsCurr : List KeyPoint) (m : DMatch) : Dbl :=
  match index kptsPrev m.queryIdx, index kptsCurr m.trainIdx with
  | Except.ok p, Except.ok c =>
    Dbl.sqrt binary64
      (Dbl.add binary64 (pow (Dbl.sub binary32 p.pt.x c.pt.x) d2)
        (pow (Dbl.sub binary32 p.pt.y c.pt.y) d2))
  | _, _ => Dbl.nan

/-- The terms of a sequence of `double` added to `acc` one after the other, in order. -/
def sumFrom (acc : Dbl) : List Dbl → Dbl
  | [] => acc
  | d :: rest => sumFrom (Dbl.add binary64 acc d) rest

/-- The sum of a sequence of `double` in the words of the specification: the terms are added
one after the other, in order, starting from `0.0`. -/
def sumSpec (ds : List Dbl) : Dbl := sumFrom d0 ds

/-- The mean in the words of the specification: the sum of the `n` values divided by `n`. -/
def meanSpec (ds : List Dbl) : Dbl :=
  Dbl.div binary64 (sumSpec ds) (Dbl.ofInt binary64 ds.length)

/-- The standard deviation in the words of the specification: the square root of the mean
squared deviation from the mean, divisor `n`. -/
def stdDevSpec (pow : Dbl → Dbl → Dbl) (ds : List Dbl) : Dbl :=
  Dbl.sqrt binary64 (meanSpec (ds.map (fun d => pow (Dbl.sub binary64 d (meanSpec ds)) d2)))

/-- Are all the squares that `clusterKptMatchesWithROI` asks of `pow` on these matches
determined by the contract of `pow`: the squares of the deviations of the distances from their
mean. -/
def deviationsExact (kptsPrev kptsCurr : List KeyPoint) (kptMatches : List DMatch) : Bool :=
  match distanciasLoop powNearest kptsPrev kptsCurr kptMatches [] with
  | Except.ok ds => ds.all (fun d => (Dbl.sub binary64 d (meanOf ds)).squareIsExact)
  | Except.error _ => true

/-- Sample data: four keypoints of a previous frame. -/
def exFourPrev : List KeyPoint :=
  [⟨⟨d0, d0⟩⟩, ⟨⟨dbl 10, d0⟩⟩, ⟨⟨dbl 20, d0⟩⟩, ⟨⟨dbl 30, d0⟩⟩]

/-- Sample data: the four keypoints in the current frame; the first three moved by one pixel,
the last one by ten. -/
def exFourCurr : List KeyPoint :=
  [⟨⟨dbl 1, d0⟩⟩, ⟨⟨dbl 11, d0⟩⟩, ⟨⟨dbl 21, d0⟩⟩, ⟨⟨dbl 40, d0⟩⟩]

/-- Sample data: the four matches between `exFourPrev` and `exFourCurr`. -/
def exFourMatches : List DMatch := [⟨0, 0⟩, ⟨1, 1⟩, ⟨2, 2⟩, ⟨3, 3⟩]

/-- Sample data: the four keypoints of `exFourPrev` in a current frame; the first two did not
move, the last two moved by one pixel. -/
def exTieCurr : List KeyPoint :=
  [⟨⟨d0, d0⟩⟩, ⟨⟨dbl 10, d0⟩⟩, ⟨⟨dbl 21, d0⟩⟩, ⟨⟨dbl 31, d0⟩⟩]

/-- Sample data: a bounding box with nothing assigned yet. -/
def exBox : BoundingBox := ⟨0, ⟨0, 0, 100, 100⟩, [], []⟩

/-! ## matchBoundingBoxes -/

/-- The array `int counts[prevSize][currentSize]`: its two dimensions and its cells. -/
structure Table where
  rows : Nat
  cols : Nat
  cell : Nat → Nat → Int

/-- The array after `int counts[prevSize][currentSize] = { }`. -/
def Table.zeros (prevSize currentSize : Nat) : Table := ⟨prevSize, currentSize, fun _ _ => 0⟩

/-- The statement `counts[prevId][currId]++`: outside the bounds of the array it is an
out-of-bounds access. -/
def Table.incr (counts : Table) (prevId currId : Int) : Except Fault Table :=
  if 0 ≤ prevId ∧ prevId < counts.rows ∧ 0 ≤ currId ∧ currId < counts.cols then
    pure { counts with
      cell := fun i j =>
        if i = prevId.toNat ∧ j = currId.toNat then counts.cell i j + 1 else counts.cell i j }
  else
    Except.error Fault.outOfBounds

/-- The loop `for (auto currId : currBoxIds) counts[prevId][currId]++`. -/
def incrRow (prevId : Int) : List Int → Table → Except Fault Table
  | [], counts => pure counts
  | currId :: rest, counts => do
    let counts ← counts.incr prevId currId
    incrRow prevId rest counts

/-- The loop `for (auto prevId : prevBoxIds)` around `incrRow`. -/
def incrAll (currBoxIds : List Int) : List Int → Table → Except Fault Table
  | [], counts => pure counts
  | prevId :: rest, counts => do
    let counts ← incrRow prevId currBoxIds counts
    incrAll currBoxIds rest counts

/-- The ids pushed by the loops of lines 319-329: the `boxID` of every box whose region
contains the point, in the order of the boxes. -/
def boxIdsContaining (boundingBoxes : List BoundingBox) (pt : Point) : List Int :=
  (boundingBoxes.filter (fun b => b.roi.contains pt)).map (fun b => b.boxID)

/-- The loop over the matches (lines 308-336), updating `counts`. Both containment tests use
`queryFrame.pt`. -/
def voteLoop (prevFrame currFrame : DataFrame) : List DMatch → Table → Except Fault Table
  | [], counts => pure counts
  | it1 :: rest, counts => do
    let queryFrame ← index prevFrame.keypoints it1.queryIdx
    let _trainFrame ← index currFrame.keypoints it1.trainIdx
    let prevBoxIds := boxIdsContaining prevFrame.boundingBoxes queryFrame.pt.toPoint
    let currBoxIds := boxIdsContaining currFrame.boundingBoxes queryFrame.pt.toPoint
    let counts ← incrAll currBoxIds prevBoxIds counts
    voteLoop prevFrame currFrame rest counts

/-- The loop over `j` of lines 342-349 for the row `i`, from the state
`(max_count, id_max)`; the result is the final `id_max`. -/
def bestInRow (counts : Table) (i : Nat) : List Nat → Int → Int → Int
  | [], _, id_max => id_max
  | j :: rest, max_count, id_max =>
    if counts.cell i j > max_count then bestInRow counts i rest (counts.cell i j) (j : Int)
    else bestInRow counts i rest max_count id_max

/-- The statement `m[key] = value` on a `std::map<int, int>`, kept as a list of entries in
ascending order of the keys. -/
def mapAssign : List (Int × Int) → Int → Int → List (Int × Int)
  | [], key, value => [(key, value)]
  | (k, v) :: rest, key, value =>
    if key = k then (key, value) :: rest
    else if key < k then (key, value) :: (k, v) :: rest
    else (k, v) :: mapAssign rest key value

/-- The value stored under `key` in a `std::map<int, int>`, if there is one. -/
def mapFind : List (Int × Int) → Int → Option Int
  | [], _ => none
  | (k, v) :: rest, key => if key = k then some v else mapFind rest key

/-- The loop over `i` of lines 338-351, assigning `bbBestMatches[i] = id_max`. -/
def bestLoop (counts : Table) (currentSize : Nat) :
    List Nat → List (Int × Int) → List (Int × Int)
  | [], bbBestMatches => bbBestMatches
  | i :: rest, bbBestMatches =>
    bestLoop counts currentSize rest
      (mapAssign bbBestMatches (i : Int) (bestInRow counts i (List.range currentSize) 0 0))

/-- The function `matchBoundingBoxes` (`matchList` is the parameter `matches`); the result is
the map `bbBestMatches` after the call. -/
def matchBoundingBoxes (matchList : List DMatch) (bbBestMatches : List (Int × Int))
    (prevFrame currFrame : DataFrame) : Except Fault (List (Int × Int)) := do
  let prevSize := prevFrame.boundingBoxes.length
  let currentSize := currFrame.boundingBoxes.length
  let counts ← voteLoop prevFrame currFrame matchList (Table.zeros prevSize currentSize)
  pure (bestLoop counts currentSize (List.range prevSize) bbBestMatches)

/-- The vote count `V(p, c)` in the words of the specification: the number of matches whose
previous-frame keypoint lies inside the region of the previous box with id `p` and inside the
region of the current box with id `c`. -/
def votes (matchList : List DMatch) (prevFrame currFrame : DataFrame) (p c : Int) : Nat :=
  (matchList.filter (fun m =>
    match index prevFrame.keypoints m.queryIdx with
    | Except.ok kp =>
      prevFrame.boundingBoxes.any (fun b => decide (b.boxID = p) && b.roi.contains kp.pt.toPoint) &&
        currFrame.boundingBoxes.any (fun b => decide (b.boxID = c) && b.roi.contains kp.pt.toPoint)
    | Except.error _ => false)).length

/-- Does the pixel lie inside the region of the box of the frame whose id is `p`. -/
def inBox (frame : DataFrame) (p : Int) (pt : Point) : Bool :=
  frame.boundingBoxes.any (fun b => decide (b.boxID = p) && b.roi.contains pt)

/-- The ids of the boxes of a frame are distinct and lie in `[0, number of boxes)`. -/
def IdsWithinBounds (frame : DataFrame) : Prop :=
  (frame.boundingBoxes.map (fun b => b.boxID)).Nodup ∧
    ∀ b ∈ frame.boundingBoxes, 0 ≤ b.boxID ∧ b.boxID < frame.boundingBoxes.length

/-- The state `(max_count, id_max)` of the loop of lines 342-349 once the columns below `k`
of a row `f` have been visited: either no positive count was met and the state is still
`(0, 0)`, or `id_max` is the first column holding the greatest count met, `max_count`. -/
def BestSoFar (f : Nat → Int) (k : Nat) (max_count id_max : Int) : Prop :=
  (id_max = 0 ∧ max_count = 0 ∧ ∀ j : Nat, j < k → f j ≤ 0) ∨
    (0 ≤ id_max ∧ id_max < k ∧ 0 < max_count ∧ f id_max.toNat = max_count ∧
      (∀ j : Nat, j < k → f j ≤ max_count) ∧ ∀ j : Nat, (j : Int) < id_max → f j < max_count)

/-- Sample data: a keypoint at the pixel `(x, y)`. -/
def kpAt (x y : ℚ) : KeyPoint := ⟨⟨dbl x, dbl y⟩⟩

/-- Sample data: a previous frame with one box and eight keypoints inside it. -/
def exPrevFrame : DataFrame :=
  { keypoints := [kpAt 10 10, kpAt 10 11, kpAt 10 12, kpAt 10 13, kpAt 10 14,
      kpAt 60 10, kpAt 60 11, kpAt 60 12],
    boundingBoxes := [⟨0, ⟨0, 0, 100, 100⟩, [], []⟩] }

/-- Sample data: a current frame with two boxes side by side; five of the keypoints of
`exPrevFrame` lie in the region of box 0 and three in the region of box 1. -/
def exCurrFrame : DataFrame :=
  { keypoints := [kpAt 11 10, kpAt 11 11, kpAt 11 12, kpAt 11 13, kpAt 11 14,
      kpAt 61 10, kpAt 61 11, kpAt 61 12],
    boundingBoxes := [⟨0, ⟨0, 0, 50, 100⟩, [], []⟩, ⟨1, ⟨50, 0, 50, 100⟩, [], []⟩] }

/-- Sample data: the eight matches between `exPrevFrame` and `exCurrFrame`. -/
def exEightMatches : List DMatch :=
  [⟨0, 0⟩, ⟨1, 1⟩, ⟨2, 2⟩, ⟨3, 3⟩, ⟨4, 4⟩, ⟨5, 5⟩, ⟨6, 6⟩, ⟨7, 7⟩]

/-- Sample data: a frame with two disjoint boxes, ids 0 and 1, and one keypoint, which lies in
box 0. -/
def exLonelyFrame : DataFrame :=
  { keypoints := [kpAt 5 5],
    boundingBoxes := [⟨0, ⟨0, 0, 10, 10⟩, [], []⟩, ⟨1, ⟨20, 20, 10, 10⟩, [], []⟩] }

/-- Sample data: a frame with two disjoint boxes, ids 0 and 1, and one keypoint in each. -/
def exPairFrame : DataFrame :=
  { keypoints := [kpAt 5 5, kpAt 25 25],
    boundingBoxes := [⟨0, ⟨0, 0, 10, 10⟩, [], []⟩, ⟨1, ⟨20, 20, 10, 10⟩, [], []⟩] }

/-! ## clusterLidarWithROI -/

/-- The rectangle `smallerBox` of lines 40-44. `shrinkFactor` is a `float`: the products with
the `int` fields are `float` products, the division by `2.0` and the sum with `roi.x` are
`double` operations, and each result is truncated to `int`. -/
def shrinkRoi (shrinkFactor : Dbl) (roi : Rect) : Rect :=
  { x := Dbl.toIntTrunc (Dbl.add binary64 (Dbl.ofInt binary64 roi.x)
      (Dbl.div binary64 (Dbl.mul binary32 shrinkFactor (Dbl.ofInt binary32 roi.width)) d2)),
    y := Dbl.toIntTrunc (Dbl.add binary64 (Dbl.ofInt binary64 roi.y)
      (Dbl.div binary64 (Dbl.mul binary32 shrinkFactor (Dbl.ofInt binary32 roi.height)) d2)),
    width := Dbl.toIntTrunc (Dbl.mul binary32 (Dbl.ofInt binary32 roi.width)
      (Dbl.sub binary32 (Dbl.ofInt binary32 1) shrinkFactor)),
    height := Dbl.toIntTrunc (Dbl.mul binary32 (Dbl.ofInt binary32 roi.height)
      (Dbl.sub binary32 (Dbl.ofInt binary32 1) shrinkFactor)) }

/-- The pixel `pt` of lines 30-34. `project` stands for the matrix expression
`P_rect_xx * R_rect_xx * RT * X`, which OpenCV evaluates: it gives the three components of
`Y` for the Lidar point assembled in `X`. The two quotients are truncated to `int`. -/
def projectedPixel (project : LidarPoint → Dbl × Dbl × Dbl) (p : LidarPoint) : Point :=
  let Y := project p
  ⟨Dbl.toIntTrunc (Dbl.div binary64 Y.1 Y.2.2), Dbl.toIntTrunc (Dbl.div binary64 Y.2.1 Y.2.2)⟩

/-- The loop of lines 37-52 from the box at position `i`: the positions (the iterators `it2`)
of the boxes whose shrunk region contains `pt`. -/
def enclosingFrom (shrinkFactor : Dbl) (pt : Point) : Nat → List BoundingBox → List Nat
  | _, [] => []
  | i, b :: rest =>
    if (shrinkRoi shrinkFactor b.roi).contains pt then
      i :: enclosingFrom shrinkFactor pt (i + 1) rest
    else enclosingFrom shrinkFactor pt (i + 1) rest

/-- The vector `enclosingBoxes` at line 54. -/
def enclosingBoxes (boundingBoxes : List BoundingBox) (shrinkFactor : Dbl) (pt : Point) :
    List Nat :=
  enclosingFrom shrinkFactor pt 0 boundingBoxes

/-- The statement `it->lidarPoints.push_back(p)` for the box at position `i`. -/
def pushLidarPoint : List BoundingBox → Nat → LidarPoint → List BoundingBox
  | [], _, _ => []
  | b :: rest, 0, p => { b with lidarPoints := b.lidarPoints ++ [p] } :: rest
  | b :: rest, i + 1, p => b :: pushLidarPoint rest i p

/-- The body of the loop over the Lidar points (lines 23-59). -/
def clusterStep (boundingBoxes : List BoundingBox) (shrinkFactor : Dbl)
    (project : LidarPoint → Dbl × Dbl × Dbl) (p : LidarPoint) : List BoundingBox :=
  let pt := projectedPixel project p
  let enclosing := enclosingBoxes boundingBoxes shrinkFactor pt
  if enclosing.length = 1 then pushLidarPoint boundingBoxes (enclosing.getD 0 0) p
  else boundingBoxes

/-- The function `clusterLidarWithROI`; the result is the vector `boundingBoxes` after the
call. -/
def clusterLidarWithROI : List BoundingBox → List LidarPoint → Dbl →
    (LidarPoint → Dbl × Dbl × Dbl) → List BoundingBox
  | boundingBoxes, [], _, _ => boundingBoxes
  | boundingBoxes, p :: rest, shrinkFactor, project =>
    clusterLidarWithROI (clusterStep boundingBoxes shrinkFactor project p) rest shrinkFactor
      project

/-- Does the shrunk region of the box at position `j` contain the pixel. -/
def shrunkContains (boundingBoxes : List BoundingBox) (shrinkFactor : Dbl) (pt : Point)
    (j : Nat) : Bool :=
  match boundingBoxes[j]? with
  | some b => (shrinkRoi shrinkFactor b.roi).contains pt
  | none => false

/-- The assignment rule in the words of the specification: the shrunk region of the box at
position `i` contains the pixel and the shrunk region of no other box does. -/
def enclosedOnlyBy (boundingBoxes : List BoundingBox) (shrinkFactor : Dbl) (pt : Point)
    (i : Nat) : Bool :=
  shrunkContains boundingBoxes shrinkFactor pt i &&
    (List.range boundingBoxes.length).all
      (fun j => decide (j = i) || !shrunkContains boundingBoxes shrinkFactor pt j)

/-- Sample data: `exCurrFrame` with every keypoint moved to the pixel `(500, 500)`. -/
def exCurrFrameMoved : DataFrame :=
  { keypoints := [kpAt 500 500, kpAt 500 500, kpAt 500 500, kpAt 500 500, kpAt 500 500,
      kpAt 500 500, kpAt 500 500, kpAt 500 500],
    boundingBoxes := exCurrFrame.boundingBoxes }

/-- Every `boxID` of the frame lies in `[0, number of boxes)`. -/
def IdsInTable (frame : DataFrame) : Prop :=
  ∀ b ∈ frame.boundingBoxes, 0 ≤ b.boxID ∧ b.boxID < frame.boundingBoxes.length

/-- The index pairs `(prevId, currId)` on which line 334, `counts[prevId][currId]++`, is
executed, in execution order. -/
def voteAccesses (prevFrame currFrame : DataFrame) : List DMatch → List (Int × Int)
  | [] => []
  | it1 :: rest =>
    match index prevFrame.keypoints it1.queryIdx with
    | Except.ok queryFrame =>
      ((boxIdsContaining prevFrame.boundingBoxes queryFrame.pt.toPoint).flatMap (fun prevId =>
        (boxIdsContaining currFrame.boundingBoxes queryFrame.pt.toPoint).map
          (fun currId => (prevId, currId)))) ++ voteAccesses prevFrame currFrame rest
    | Except.error _ => []

/-- Sample data: a frame whose boxes overlap, so that a keypoint lies in two of them. -/
def exOverlapFrame : DataFrame :=
  { keypoints := [kpAt 5 5, kpAt 12 12],
    boundingBoxes := [⟨1, ⟨0, 0, 10, 10⟩, [], []⟩, ⟨0, ⟨0, 0, 20, 20⟩, [], []⟩] }

/-- Sample data: four keypoints of a previous frame, far from the region of `exBox`. -/
def exFarPrev : List KeyPoint := [kpAt 500 500, kpAt 510 500, kpAt 520 500, kpAt 530 500]

/-- Sample data: the four keypoints in the current frame, far from the region of `exBox`; the
first three moved by one pixel, the last one by ten. -/
def exFarCurr : List KeyPoint := [kpAt 501 500, kpAt 511 500, kpAt 521 500, kpAt 540 500]

/-- The contribution of the ordered pair of matches `(m1, m2)` to `distRatios`: the ratio of
line 206 when the pair passes the test of line 204. -/
def ratioOf (kptsPrev kptsCurr : List KeyPoint) (m1 m2 : DMatch) : Option Dbl :=
  match index kptsPrev m1.queryIdx, index kptsCurr m1.trainIdx with
  | Except.ok prevOutlier, Except.ok currOutlier =>
    match pairRatio kptsPrev kptsCurr prevOutlier currOutlier m2 with
    | Except.ok o => o
    | Except.error _ => none
  | _, _ => none

/-- Sample data: three keypoints of a previous frame, on a line. -/
def exThreePrev : List KeyPoint := [kpAt 0 0, kpAt 100 0, kpAt 200 0]

/-- Sample data: the three keypoints in the current frame, further apart. -/
def exThreeCurr : List KeyPoint := [kpAt 0 0, kpAt 110 0, kpAt 230 0]

/-- Sample data: the three matches between `exThreePrev` and `exThreeCurr`. -/
def exThreeMatches : List DMatch := [⟨0, 0⟩, ⟨1, 1⟩, ⟨2, 2⟩]

/-- Sample data: a frame without any bounding box. -/
def exNoBoxFrame : DataFrame := { keypoints := [], boundingBoxes := [] }

/-- Sample data: a frame with one box whose id is 0. -/
def exOneBoxFrame : DataFrame :=
  { keypoints := [], boundingBoxes := [⟨0, ⟨0, 0, 10, 10⟩, [], []⟩] }

/-- Sample data: a frame with one box whose id is 7. -/
def exSparseFrame : DataFrame :=
  { keypoints := [], boundingBoxes := [⟨7, ⟨0, 0, 10, 10⟩, [], []⟩] }

/-- Sample data: the projection that sends the Lidar point `(x, y, z)` to itself, so that the
pixel is `(x / z, y / z)`. -/
def exProject (p : LidarPoint) : Dbl × Dbl × Dbl := (p.x, p.y, p.z)

/-- Sample data: the Lidar point that `exProject` sends to the pixel `(u, v)`. -/
def lidarPixel (u v : ℚ) : LidarPoint := ⟨dbl u, dbl v, d1⟩

/-- Sample data: two boxes whose regions overlap for `80 ≤ x < 100`. -/
def exOverlapBoxes : List BoundingBox :=
  [⟨0, ⟨0, 0, 100, 100⟩, [], []⟩, ⟨1, ⟨80, 0, 100, 100⟩, [], []⟩]

/-- Sample data: one box of width and height 10. -/
def exSmallBox : List BoundingBox := [⟨0, ⟨0, 0, 10, 10⟩, [], []⟩]

/-- Sample data: two boxes whose regions are disjoint. -/
def exDisjointBoxes : List BoundingBox :=
  [⟨0, ⟨0, 0, 10, 10⟩, [], []⟩, ⟨1, ⟨20, 20, 10, 10⟩, [], []⟩]

/-- The `float` nearest to the decimal literal `q`: `flt (1 / 5)` is the literal `0.2f`. -/
def flt (q : ℚ) : Dbl := round binary32 false q

/-- The rectangle lies within an image of at most `2 ^ 20` pixels a side: its corner and its
sizes are not negative, its right and bottom edges not beyond `2 ^ 20`. -/
def Rect.inImage (r : Rect) : Bool :=
  decide (0 ≤ r.x) && decide (0 ≤ r.y) && decide (0 ≤ r.width) && decide (0 ≤ r.height) &&
    decide (r.x + r.width ≤ 1048576) && decide (r.y + r.height ≤ 1048576)

/-- Two rectangles without a common pixel: one ends before the other starts, horizontally or
vertically. -/
def Rect.disjoint (r1 r2 : Rect) : Bool :=
  decide (r1.x + r1.width ≤ r2.x) || decide (r2.x + r2.width ≤ r1.x) ||
    decide (r1.y + r1.height ≤ r2.y) || decide (r2.y + r2.height ≤ r1.y)

/-- Sample data: two boxes side by side, the first one wider than a `float` can count. -/
def exWideBoxes : List BoundingBox :=
  [⟨0, ⟨0, 0, 16777219, 10⟩, [], []⟩, ⟨1, ⟨16777219, 0, 10, 10⟩, [], []⟩]

/-- Sample data: two keypoints of a previous frame, at the distances `√37` and `√512` of the
origin. -/
def exLibPrev : List KeyPoint := [kpAt 1 6, kpAt 16 16]

/-- Sample data: two keypoints of a current frame, both at the origin. -/
def exLibCurr : List KeyPoint := [kpAt 0 0, kpAt 0 0]


/-- Sample data: a Lidar point at the longitudinal distance `2 ^ 100`. -/
def exFarPoint : LidarPoint := ⟨Dbl.num (pow2 100), d0, d0⟩

/-- Sample data: the frame rate `2 ^ 1000`. -/
def exHugeRate : Dbl := Dbl.num (pow2 1000)

/-- Sample data: three keypoints of a previous frame; the first two lie at the same place, the
third a little farther from the origin. -/
def exNearTiePrev : List KeyPoint :=
  [kpAt (3 / 2) (5 / 134217728), kpAt (3 / 2) (5 / 134217728), kpAt (3 / 2) (3 / 67108864)]

/-- Sample data: three keypoints of a current frame, all at the origin. -/
def exOriginCurr : List KeyPoint := [kpAt 0 0, kpAt 0 0, kpAt 0 0]

/-- Sample data: one keypoint of a previous frame, at `(1, 2 ^ (-16))`. -/
def exManyPrev : List KeyPoint := [kpAt 1 (1 / 65536)]

/-- Sample data: one keypoint of a current frame, at the origin. -/
def exManyCurr : List KeyPoint := [kpAt 0 0]
/-! ## Arithmetic lemmas -/

theorem Dbl.add_swap (F : Fmt) (a b : Dbl) : Dbl.add F a b = Dbl.add F b a := by
  cases a <;> cases b <;> simp [Dbl.add, Bool.and_comm, Rat.add_comm]
  rename_i s t
  cases s <;> cases t <;> rfl

theorem keyTop_eq : (((⊤ : WithTop ℚ) : WithBot (WithTop ℚ))) = ⊤ := rfl

theorem Dbl.lt_iff_key (a b : Dbl) (ha : a.isNaN = false) (hb : b.isNaN = false) :
    Dbl.lt a b = true ↔ a.key < b.key := by
  rcases a with _ | (_|_) | _ | _ <;> rcases b with _ | (_|_) | _ | _ <;>
    simp_all [Dbl.lt, Dbl.key, Dbl.isNaN, Dbl.toRat]
  · exact WithBot.bot_lt_coe (0 : WithTop ℚ)
  · rw [← keyTop_eq]; exact WithBot.coe_lt_coe.2 (WithTop.coe_lt_top (0 : ℚ))
  · rw [← keyTop_eq]; exact WithBot.coe_lt_coe.2 (WithTop.coe_lt_top _)

theorem Dbl.lt_false_iff_key (a b : Dbl) (ha : a.isNaN = false) (hb : b.isNaN = false) :
    Dbl.lt b a = false ↔ a.key ≤ b.key := by
  rw [← not_lt, ← Dbl.lt_iff_key b a hb ha]
  simp

theorem Dbl.equiv_refl (a : Dbl) : Dbl.equiv a a := ⟨rfl, rfl⟩

theorem Dbl.equiv_symm {a b : Dbl} (h : Dbl.equiv a b) : Dbl.equiv b a := ⟨h.1.symm, h.2.symm⟩

theorem Dbl.equiv_trans {a b c : Dbl} (h : Dbl.equiv a b) (h' : Dbl.equiv b c) : Dbl.equiv a c :=
  ⟨h.1.trans h'.1, h.2.trans h'.2⟩

/-- Two data that are equal up to the sign of a zero are the same datum, or are both finite
with value zero. -/
theorem Dbl.equiv_cases {a b : Dbl} (h : Dbl.equiv a b) :
    a = b ∨ (a.isFinite = true ∧ b.isFinite = true ∧ a.toRat = 0 ∧ b.toRat = 0) := by
  obtain ⟨h1, h2⟩ := h
  rcases a with _ | (_|_) | _ | _ <;> rcases b with _ | (_|_) | _ | _ <;>
    simp_all [Dbl.key, Dbl.isNaN, Dbl.toRat, Dbl.isFinite]
  · have h3 : ((⊤ : WithTop ℚ) : WithBot (WithTop ℚ)) = (((0 : ℚ) : WithTop ℚ) : WithBot (WithTop ℚ)) := h2
    exact WithTop.top_ne_coe (WithBot.coe_injective h3)
  · have h3 : (((0 : ℚ) : WithTop ℚ) : WithBot (WithTop ℚ)) = ((⊤ : WithTop ℚ) : WithBot (WithTop ℚ)) := h2
    exact WithTop.coe_ne_top (WithBot.coe_injective h3)

theorem IsStdSort.length_eq {sort : List Dbl → List Dbl} (hs : IsStdSort sort) (l : List Dbl) :
    (sort l).length = l.length := (hs l).1.length_eq

theorem index_natCast {α : Type} (v : List α) (n : Nat) (h : n < v.length) :
    index v (n : Int) = Except.ok (v.get ⟨n, h⟩) := by
  simp [index, List.getElem?_eq_getElem h]

theorem index_natCast_getD (v : List Dbl) (n : Nat) (h : n < v.length) :
    index v (n : Int) = Except.ok (v.getD n Dbl.nan) := by
  rw [index_natCast v n h, List.getD_eq_getElem _ _ h]
  rfl

theorem index_of_length_le {α : Type} (v : List α) (i : Int) (h : (v.length : Int) ≤ i) :
    index v i = Except.error Fault.outOfBounds := by
  unfold index
  split
  · have : v.length ≤ i.toNat := by omega
    simp [List.getElem?_eq_none this]
  · rfl

/-- On a non-empty range the median block of the source returns the median, in the words of
the specification, of the sorted range. -/
theorem sortedMedian_eq_medianOf {sort : List Dbl → List Dbl} (hs : IsStdSort sort)
    (d : List Dbl) (hd : d ≠ []) :
    sortedMedian sort d = Except.ok (medianOf (sort d)) := by
  have hlen := hs.length_eq d
  have hpos : 0 < d.length := List.length_pos.2 hd
  unfold sortedMedian medianOf
  by_cases hpar : d.length % 2 = 0
  · have h1 : ((d.length : Int) % 2 = 0) := by omega
    have h2 : (d.length : Int) / 2 = ((d.length / 2 : Nat) : Int) := by omega
    have h3 : ((d.length / 2 : Nat) : Int) - 1 = ((d.length / 2 - 1 : Nat) : Int) := by omega
    have h4 : ¬ (d.length % 2 = 1) := by omega
    have i1 : d.length / 2 < (sort d).length := by omega
    have i2 : d.length / 2 - 1 < (sort d).length := by omega
    simp only [h1, if_true, h2, h3, h4, if_false, hlen, index_natCast_getD _ _ i1,
      index_natCast_getD _ _ i2, bind, Except.bind, pure, Except.pure]
    rw [Dbl.add_swap]
  · have h1 : ¬ ((d.length : Int) % 2 = 0) := by omega
    have h2 : (d.length : Int) / 2 = ((d.length / 2 : Nat) : Int) := by omega
    have h4 : d.length % 2 = 1 := by omega
    have i1 : d.length / 2 < (sort d).length := by omega
    simp only [h1, if_false, h2, h4, if_true, hlen, index_natCast_getD _ _ i1]

theorem insertionSort_isStdSort : IsStdSort insertionSort := by
  intro l
  have hperm : (insertionSort l).Perm l := List.perm_insertionSort _ l
  refine ⟨hperm, fun hn => ?_⟩
  haveI : IsTotal Dbl (fun a b => Dbl.key a ≤ Dbl.key b) := ⟨fun a b => le_total _ _⟩
  haveI : IsTrans Dbl (fun a b => Dbl.key a ≤ Dbl.key b) := ⟨fun a b c h h' => le_trans h h'⟩
  have hsorted : (insertionSort l).Pairwise (fun a b => Dbl.key a ≤ Dbl.key b) :=
    List.sorted_insertionSort _ l
  refine hsorted.imp_of_mem ?_
  intro a b ha hb hab
  exact (Dbl.lt_false_iff_key a b (hn a (hperm.subset ha)) (hn b (hperm.subset hb))).2 hab

/-! ## Uniqueness of the ascending arrangement, up to the sign of zeros -/

theorem NoNaN.of_perm {s l : List Dbl} (h : s.Perm l) (hl : NoNaN l) : NoNaN s :=
  fun x hx => hl x (h.subset hx)

theorem ascending_map_key {s : List Dbl} (hn : NoNaN s) (ha : Ascending s) :
    (s.map Dbl.key).Sorted (fun a b => a ≤ b) := by
  unfold List.Sorted
  rw [List.pairwise_map]
  refine List.Pairwise.imp_of_mem ?_ ha
  intro a b ha' hb' hab
  exact (Dbl.lt_false_iff_key a b (hn a ha') (hn b hb')).1 hab

theorem ascending_perm_key {s t : List Dbl} (hp : s.Perm t) (hn : NoNaN t)
    (hs : Ascending s) (ht : Ascending t) : s.map Dbl.key = t.map Dbl.key :=
  List.eq_of_perm_of_sorted (hp.map Dbl.key) (ascending_map_key (hn.of_perm hp) hs)
    (ascending_map_key hn ht)

theorem getD_equiv_of_map_key {s t : List Dbl} (h : s.map Dbl.key = t.map Dbl.key)
    (hs : NoNaN s) (ht : NoNaN t) (i : Nat) :
    Dbl.equiv (s.getD i Dbl.nan) (t.getD i Dbl.nan) := by
  have hlen : s.length = t.length := by
    have := congrArg List.length h
    simpa using this
  by_cases hi : i < s.length
  · have hi' : i < t.length := hlen ▸ hi
    rw [List.getD_eq_getElem _ _ hi, List.getD_eq_getElem _ _ hi']
    refine ⟨?_, ?_⟩
    · rw [hs _ (List.getElem_mem hi), ht _ (List.getElem_mem hi')]
    · have h1 : (s.map Dbl.key)[i]? = (t.map Dbl.key)[i]? := by rw [h]
      simpa [List.getElem?_eq_getElem hi, List.getElem?_eq_getElem hi'] using h1
  · have hi' : ¬ i < t.length := hlen ▸ hi
    rw [List.getD_eq_default _ _ (not_lt.1 hi), List.getD_eq_default _ _ (not_lt.1 hi')]
    exact Dbl.equiv_refl _

/-! ## Arithmetic up to the sign of a zero -/

theorem round_equiv (F : Fmt) (n n' : Bool) (q : ℚ) :
    Dbl.equiv (round F n q) (round F n' q) := by
  unfold round
  by_cases hq : q = 0
  · simp only [hq, if_true]
    exact ⟨rfl, rfl⟩
  · simp only [hq, if_false]
    exact Dbl.equiv_refl _

theorem Dbl.add_finite (F : Fmt) {a b : Dbl} (ha : a.isFinite = true) (hb : b.isFinite = true) :
    Dbl.add F a b = round F (a.sign && b.sign) (a.toRat + b.toRat) := by
  cases a <;> cases b <;> simp_all [Dbl.add, Dbl.isFinite]

theorem Dbl.equiv_finite {a b : Dbl} (h : Dbl.equiv a b) :
    (a.isFinite = true ∧ b.isFinite = true ∧ a.toRat = b.toRat) ∨ (a.isFinite = false ∧ a = b) := by
  rcases Dbl.equiv_cases h with rfl | ⟨fa, fb, za, zb⟩
  · cases a <;> simp [Dbl.isFinite]
  · exact Or.inl ⟨fa, fb, za.trans zb.symm⟩

theorem Dbl.add_equiv (F : Fmt) {a a' b b' : Dbl} (ha : Dbl.equiv a a') (hb : Dbl.equiv b b') :
    Dbl.equiv (Dbl.add F a b) (Dbl.add F a' b') := by
  rcases Dbl.equiv_finite ha with ⟨fa, fa', za⟩ | ⟨na, rfl⟩
  · rcases Dbl.equiv_finite hb with ⟨fb, fb', zb⟩ | ⟨nb, rfl⟩
    · rw [Dbl.add_finite F fa fb, Dbl.add_finite F fa' fb', za, zb]
      exact round_equiv _ _ _ _
    · have e : Dbl.add F a b = Dbl.add F a' b := by
        cases b <;> cases a <;> cases a' <;> simp_all [Dbl.add, Dbl.isFinite]
      rw [e]
      exact Dbl.equiv_refl _
  · rcases Dbl.equiv_finite hb with ⟨fb, fb', zb⟩ | ⟨nb, rfl⟩
    · have e : Dbl.add F a b = Dbl.add F a b' := by
        cases a <;> cases b <;> cases b' <;> simp_all [Dbl.add, Dbl.isFinite]
      rw [e]
      exact Dbl.equiv_refl _
    · exact Dbl.equiv_refl _

theorem Dbl.div_two_equiv (F : Fmt) {a a' : Dbl} (ha : Dbl.equiv a a') :
    Dbl.equiv (Dbl.div F a d2) (Dbl.div F a' d2) := by
  rcases Dbl.equiv_cases ha with rfl | ⟨fa, fa', za, za'⟩
  · exact Dbl.equiv_refl _
  · cases a <;> cases a' <;> simp_all [Dbl.div, Dbl.isFinite, d2, Dbl.toRat, round]
    all_goals exact ⟨rfl, rfl⟩

theorem medianOf_equiv {s t : List Dbl} (hlen : s.length = t.length)
    (h : ∀ i, Dbl.equiv (s.getD i Dbl.nan) (t.getD i Dbl.nan)) :
    Dbl.equiv (medianOf s) (medianOf t) := by
  unfold medianOf
  rw [hlen]
  split
  · exact h _
  · exact Dbl.div_two_equiv _ (Dbl.add_equiv _ (h _) (h _))

/-! ## computeTTCLidar -/

theorem computeTTCLidar_eq {sort : List Dbl → List Dbl} (hs : IsStdSort sort)
    (prev curr : List LidarPoint) (frameRate : Dbl) (hp : prev ≠ []) (hc : curr ≠ []) :
    computeTTCLidar sort prev curr frameRate =
      Except.ok (Dbl.mul binary64 (medianOf (sort (curr.map (fun p => p.x))))
        (Dbl.div binary64 (Dbl.div binary64 d1 frameRate)
          (Dbl.sub binary64 (medianOf (sort (prev.map (fun p => p.x))))
            (medianOf (sort (curr.map (fun p => p.x))))))) := by
  have h1 := sortedMedian_eq_medianOf hs (prev.map (fun p => p.x)) (by simpa using hp)
  have h2 := sortedMedian_eq_medianOf hs (curr.map (fun p => p.x)) (by simpa using hc)
  simp only [computeTTCLidar, h1, h2]
  rfl

/-- C1. For non-empty Lidar point sets, `computeTTCLidar` leaves in `TTC` the value
`dCurr * ((1 / frameRate) / (dPrev - dCurr))`, where `dPrev` and `dCurr` are the medians of the
x-coordinates of the previous and of the current point set; when the medians are 10 and 8 and
the frame rate is 10, the value is the `double` 0.4. -/
theorem computeTTCLidar_formula {sort : List Dbl → List Dbl} (hs : IsStdSort sort)
    (prev curr : List LidarPoint) (frameRate : Dbl) (hp : prev ≠ []) (hc : curr ≠ []) :
    computeTTCLidar sort prev curr frameRate =
        Except.ok (Dbl.mul binary64 (medianOf (sort (curr.map (fun p => p.x))))
          (Dbl.div binary64 (Dbl.div binary64 d1 frameRate)
            (Dbl.sub binary64 (medianOf (sort (prev.map (fun p => p.x))))
              (medianOf (sort (curr.map (fun p => p.x)))))))
      ∧ (medianOf (sort (prev.map (fun p => p.x))) = dbl 10 →
          medianOf (sort (curr.map (fun p => p.x))) = dbl 8 →
          computeTTCLidar sort prev curr (dbl 10) = Except.ok (dbl (2 / 5))) := by
  refine ⟨computeTTCLidar_eq hs prev curr frameRate hp hc, fun h10 h8 => ?_⟩
  rw [computeTTCLidar_eq hs prev curr _ hp hc, h10, h8]
  decide!

theorem computeTTCLidar_formula_witness :
    IsStdSort insertionSort ∧
      computeTTCLidar insertionSort
        [⟨dbl 11, d0, d0⟩, ⟨dbl 9, d0, d0⟩, ⟨dbl 10, d0, d0⟩] [⟨dbl 9, d0, d0⟩, ⟨dbl 7, d0, d0⟩]
        (dbl 10) = Except.ok (dbl (2 / 5)) :=
  ⟨insertionSort_isStdSort,
    (computeTTCLidar_formula insertionSort_isStdSort
      [⟨dbl 11, d0, d0⟩, ⟨dbl 9, d0, d0⟩, ⟨dbl 10, d0, d0⟩] [⟨dbl 9, d0, d0⟩, ⟨dbl 7, d0, d0⟩]
      (dbl 10) (by simp) (by simp)).2 (by decide!) (by decide!)⟩

/-! ## Degenerate inputs of computeTTCLidar -/

theorem Dbl.neg_toRat (b : Dbl) : (Dbl.neg b).toRat = -b.toRat := by
  rcases b with _ | _ | _ | q
  · simp [Dbl.neg, Dbl.toRat]
  · simp [Dbl.neg, Dbl.toRat]
  · simp [Dbl.neg, Dbl.toRat]
  · by_cases hq : q = 0 <;> simp [Dbl.neg, Dbl.toRat, hq]

theorem Dbl.neg_isFinite (b : Dbl) : (Dbl.neg b).isFinite = b.isFinite := by
  rcases b with _ | _ | _ | q
  · simp [Dbl.neg, Dbl.isFinite]
  · simp [Dbl.neg, Dbl.isFinite]
  · simp [Dbl.neg, Dbl.isFinite]
  · by_cases hq : q = 0 <;> simp [Dbl.neg, Dbl.isFinite, hq]

/-- The difference of two data that compare equal is a zero, or a NaN (for two infinities). -/
theorem Dbl.sub_of_eq (F : Fmt) {a b : Dbl} (h : Dbl.eq a b = true) :
    Dbl.sub F a b = Dbl.nan ∨ ∃ s, Dbl.sub F a b = Dbl.zero s := by
  by_cases fa : a.isFinite = true
  · by_cases fb : b.isFinite = true
    · right
      have hq : a.toRat = b.toRat := by
        cases a <;> cases b <;> simp_all [Dbl.eq, Dbl.isFinite]
      unfold Dbl.sub
      rw [Dbl.add_finite F fa (by rw [Dbl.neg_isFinite]; exact fb), Dbl.neg_toRat, hq]
      simp [round]
    · cases a <;> cases b <;> simp_all [Dbl.eq, Dbl.isFinite]
  · left
    rcases a with _ | (_|_) | _ | _ <;> rcases b with _ | (_|_) | _ | _ <;>
      simp_all [Dbl.eq, Dbl.isFinite, Dbl.sub, Dbl.neg, Dbl.add]

theorem Dbl.div_zero_not_finite (F : Fmt) (x : Dbl) (s : Bool) :
    (Dbl.div F x (Dbl.zero s)).isFinite = false := by
  rcases x with _ | _ | _ | q
  · simp [Dbl.div, Dbl.isFinite]
  · simp [Dbl.div, Dbl.isFinite]
  · simp [Dbl.div, Dbl.isFinite, Dbl.toRat]
  · by_cases hq : q = 0 <;> simp [Dbl.div, Dbl.isFinite, Dbl.toRat, hq]

theorem Dbl.div_nan (F : Fmt) (x : Dbl) : Dbl.div F x Dbl.nan = Dbl.nan := by
  cases x <;> simp [Dbl.div]

theorem Dbl.mul_not_finite (F : Fmt) (x : Dbl) {y : Dbl} (hy : y.isFinite = false) :
    (Dbl.mul F x y).isFinite = false := by
  rcases y with _ | t | _ | _
  · cases x <;> simp [Dbl.mul, Dbl.isFinite]
  · rcases x with _ | _ | _ | q
    · simp [Dbl.mul, Dbl.isFinite]
    · simp [Dbl.mul, Dbl.isFinite]
    · simp [Dbl.mul, Dbl.isFinite, Dbl.toRat]
    · by_cases hq : q = 0 <;> simp [Dbl.mul, Dbl.isFinite, Dbl.toRat, hq]
  · simp [Dbl.isFinite] at hy
  · simp [Dbl.isFinite] at hy

/-- C8. When the medians of the x-coordinates of two non-empty Lidar point sets compare equal,
the value `computeTTCLidar` leaves in `TTC` is an infinity or a NaN, for every frame rate. -/
theorem computeTTCLidar_equal_medians {sort : List Dbl → List Dbl} (hs : IsStdSort sort)
    (prev curr : List LidarPoint) (frameRate : Dbl) (hp : prev ≠ []) (hc : curr ≠ [])
    (heq : Dbl.eq (medianOf (sort (prev.map (fun p => p.x))))
      (medianOf (sort (curr.map (fun p => p.x)))) = true) :
    ∃ ttc, computeTTCLidar sort prev curr frameRate = Except.ok ttc ∧ ttc.isFinite = false := by
  refine ⟨_, computeTTCLidar_eq hs prev curr frameRate hp hc, ?_⟩
  apply Dbl.mul_not_finite
  rcases Dbl.sub_of_eq binary64 heq with h | ⟨s, h⟩
  · rw [h, Dbl.div_nan]
    rfl
  · rw [h]
    exact Dbl.div_zero_not_finite _ _ _

theorem computeTTCLidar_equal_medians_witness :
    ∃ ttc, computeTTCLidar insertionSort [⟨dbl 8, d0, d0⟩, ⟨dbl 6, d0, d0⟩] [⟨dbl 7, d0, d0⟩]
      (dbl 10) = Except.ok ttc ∧ ttc.isFinite = false :=
  computeTTCLidar_equal_medians insertionSort_isStdSort
    [⟨dbl 8, d0, d0⟩, ⟨dbl 6, d0, d0⟩] [⟨dbl 7, d0, d0⟩] (dbl 10) (by simp) (by simp) (by decide!)

/-- C9 (what the code does). With an empty previous or an empty current point set,
`computeTTCLidar` evaluates `dPrev[0]` (respectively `dCurr[0]`) on an empty vector: an
out-of-bounds read, not an explicit failure. -/
theorem computeTTCLidar_empty_reads_out_of_bounds {sort : List Dbl → List Dbl}
    (hs : IsStdSort sort) (pts : List LidarPoint) (frameRate : Dbl) :
    computeTTCLidar sort [] pts frameRate = Except.error Fault.outOfBounds ∧
      computeTTCLidar sort pts [] frameRate = Except.error Fault.outOfBounds := by
  have hnil : sort [] = [] := List.Perm.eq_nil (hs []).1
  have hmed : sortedMedian sort [] = Except.error Fault.outOfBounds := by
    simp [sortedMedian, hnil, index, bind, Except.bind]
  constructor
  · simp [computeTTCLidar, hmed, bind, Except.bind]
  · by_cases hp : pts = []
    · subst hp
      simp [computeTTCLidar, hmed, bind, Except.bind]
    · have h1 := sortedMedian_eq_medianOf hs (pts.map (fun p => p.x)) (by simpa using hp)
      simp [computeTTCLidar, hmed, h1, bind, Except.bind]

theorem computeTTCLidar_empty_reads_out_of_bounds_witness :
    computeTTCLidar insertionSort [] [⟨dbl 8, d0, d0⟩] (dbl 10) = Except.error Fault.outOfBounds ∧
      computeTTCLidar insertionSort [⟨dbl 8, d0, d0⟩] [] (dbl 10) =
        Except.error Fault.outOfBounds :=
  computeTTCLidar_empty_reads_out_of_bounds insertionSort_isStdSort [⟨dbl 8, d0, d0⟩] (dbl 10)

/-! ## The robust distance is the median -/

theorem medianOf_ascending_unique {s t : List Dbl} (hp : s.Perm t) (hn : NoNaN t)
    (hs : Ascending s) (ht : Ascending t) : Dbl.equiv (medianOf s) (medianOf t) :=
  medianOf_equiv hp.length_eq
    (getD_equiv_of_map_key (ascending_perm_key hp hn hs ht) (hn.of_perm hp) hn)

theorem Dbl.eq_of_equiv_num {m : Dbl} {q : ℚ} (hq : q ≠ 0) (h : Dbl.equiv m (Dbl.num q)) :
    m = Dbl.num q := by
  rcases Dbl.equiv_cases h with h | ⟨_, _, _, h⟩
  · exact h
  · exact absurd h hq

/-- C6. For a non-empty Lidar point set, in whatever order it is given, the robust distance
that `computeTTCLidar` derives from it (`dt0` for the previous set, `dt1` for the current one)
is the median of the x-coordinates: the middle element of the ascending arrangement when the
count is odd, the average of the two middle elements when it is even. Coordinates 1, 3, 5
give 3 and coordinates 1, 2, 3, 4 give 2.5. -/
theorem lidar_robust_distance_is_median {sort : List Dbl → List Dbl} (hs : IsStdSort sort)
    (pts : List LidarPoint) (hne : pts ≠ []) (hn : NoNaN (pts.map (fun p => p.x))) :
    sortedMedian sort (pts.map (fun p => p.x)) =
        Except.ok (medianOf (sort (pts.map (fun p => p.x))))
      ∧ (∀ (other : List LidarPoint) (frameRate : Dbl),
          computeTTCLidar sort pts other frameRate =
              (sortedMedian sort (other.map (fun p => p.x))).map (fun dt1 =>
                Dbl.mul binary64 dt1 (Dbl.div binary64 (Dbl.div binary64 d1 frameRate)
                  (Dbl.sub binary64 (medianOf (sort (pts.map (fun p => p.x)))) dt1)))
            ∧ (other ≠ [] → computeTTCLidar sort other pts frameRate =
              (sortedMedian sort (other.map (fun p => p.x))).map (fun dt0 =>
                Dbl.mul binary64 (medianOf (sort (pts.map (fun p => p.x))))
                  (Dbl.div binary64 (Dbl.div binary64 d1 frameRate)
                    (Dbl.sub binary64 dt0 (medianOf (sort (pts.map (fun p => p.x)))))))))
      ∧ (∀ s, s.Perm (pts.map (fun p => p.x)) → Ascending s →
          Dbl.equiv (medianOf (sort (pts.map (fun p => p.x)))) (medianOf s))
      ∧ (∀ qs : List LidarPoint, qs.Perm pts →
          ∃ m, sortedMedian sort (qs.map (fun p => p.x)) = Except.ok m ∧
            Dbl.equiv m (medianOf (sort (pts.map (fun p => p.x)))))
      ∧ ((pts.map (fun p => p.x)).Perm [dbl 1, dbl 3, dbl 5] →
          sortedMedian sort (pts.map (fun p => p.x)) = Except.ok (dbl 3))
      ∧ ((pts.map (fun p => p.x)).Perm [dbl 1, dbl 2, dbl 3, dbl 4] →
          sortedMedian sort (pts.map (fun p => p.x)) = Except.ok (dbl (5 / 2))) := by
  have hxs : pts.map (fun p => p.x) ≠ [] := by simpa using hne
  have hmed := sortedMedian_eq_medianOf hs _ hxs
  have huniq : ∀ s, s.Perm (pts.map (fun p => p.x)) → Ascending s →
      Dbl.equiv (medianOf (sort (pts.map (fun p => p.x)))) (medianOf s) := by
    intro s hp ha
    exact medianOf_ascending_unique ((hs _).1.trans hp.symm) (hn.of_perm hp) ((hs _).2 hn) ha
  refine ⟨hmed, ?_, huniq, ?_, ?_, ?_⟩
  · intro other frameRate
    constructor
    · simp only [computeTTCLidar, hmed, bind, Except.bind]
      cases sortedMedian sort (other.map (fun p => p.x)) <;> rfl
    · intro ho
      have h2 := sortedMedian_eq_medianOf hs (other.map (fun p => p.x)) (by simpa using ho)
      simp only [computeTTCLidar, hmed, h2, bind, Except.bind]
      rfl
  · intro qs hp
    have hq : qs.map (fun p => p.x) ≠ [] := by
      intro h
      have : qs = [] := by simpa using h
      exact hne (List.Perm.eq_nil (this ▸ hp.symm))
    have hpx : (qs.map (fun p => p.x)).Perm (pts.map (fun p => p.x)) := hp.map _
    refine ⟨_, sortedMedian_eq_medianOf hs _ hq, ?_⟩
    exact Dbl.equiv_symm
      (huniq (sort (qs.map (fun p => p.x))) ((hs _).1.trans hpx) ((hs _).2 (hn.of_perm hpx)))
  · intro hp
    rw [hmed]
    have h := huniq [dbl 1, dbl 3, dbl 5] hp.symm (by unfold Ascending; decide!)
    have e : medianOf [dbl 1, dbl 3, dbl 5] = Dbl.num 3 := by decide!
    rw [e] at h
    rw [Dbl.eq_of_equiv_num (by norm_num) h]
    decide!
  · intro hp
    rw [hmed]
    have h := huniq [dbl 1, dbl 2, dbl 3, dbl 4] hp.symm (by unfold Ascending; decide!)
    have e : medianOf [dbl 1, dbl 2, dbl 3, dbl 4] = Dbl.num (5 / 2) := by decide!
    rw [e] at h
    rw [Dbl.eq_of_equiv_num (by norm_num) h]
    decide!

theorem lidar_robust_distance_is_median_witness :
    sortedMedian insertionSort (exLidarFour.map (fun p => p.x)) = Except.ok (dbl (5 / 2)) ∧
      sortedMedian insertionSort (exLidarThree.map (fun p => p.x)) = Except.ok (dbl 3) :=
  ⟨(lidar_robust_distance_is_median insertionSort_isStdSort exLidarFour
      (by decide) (by unfold NoNaN; decide!)).2.2.2.2.2 (by decide!),
    (lidar_robust_distance_is_median insertionSort_isStdSort exLidarThree
      (by decide) (by unfold NoNaN; decide!)).2.2.2.2.1 (by decide!)⟩

/-! ## computeTTCCamera -/

theorem index_ok_of_valid {α : Type} (v : List α) (i : Int) (h0 : 0 ≤ i) (h1 : i < v.length) :
    ∃ a, index v i = Except.ok a := by
  have hi : i.toNat < v.length := by omega
  have e : i = (i.toNat : Int) := by omega
  rw [e]
  exact ⟨_, index_natCast v i.toNat hi⟩

theorem pairRatio_ok_of_valid (kptsPrev kptsCurr : List KeyPoint) (po co : KeyPoint) (m : DMatch)
    (hq : 0 ≤ m.queryIdx ∧ m.queryIdx < kptsPrev.length)
    (ht : 0 ≤ m.trainIdx ∧ m.trainIdx < kptsCurr.length) :
    ∃ o, pairRatio kptsPrev kptsCurr po co m = Except.ok o := by
  obtain ⟨a, ha⟩ := index_ok_of_valid kptsPrev m.queryIdx hq.1 hq.2
  obtain ⟨b, hb⟩ := index_ok_of_valid kptsCurr m.trainIdx ht.1 ht.2
  unfold pairRatio
  simp only [ha, hb, bind, Except.bind]
  split <;> exact ⟨_, rfl⟩

theorem pairRatio_some {kptsPrev kptsCurr : List KeyPoint} {po co : KeyPoint} {m : DMatch}
    {r : Dbl} (h : pairRatio kptsPrev kptsCurr po co m = Except.ok (some r)) :
    ∃ pi ci, index kptsPrev m.queryIdx = Except.ok pi ∧ index kptsCurr m.trainIdx = Except.ok ci ∧
      Dbl.lt dblEpsilon (norm (po.pt.sub pi.pt)) = true ∧
      Dbl.lt d90 (norm (co.pt.sub ci.pt)) = true ∧
      r = Dbl.div binary64 (norm (co.pt.sub ci.pt)) (norm (po.pt.sub pi.pt)) := by
  unfold pairRatio at h
  cases ha : index kptsPrev m.queryIdx with
  | error e => simp [ha, bind, Except.bind] at h
  | ok a =>
    cases hb : index kptsCurr m.trainIdx with
    | error e => simp [ha, hb, bind, Except.bind] at h
    | ok b =>
      simp only [ha, hb, bind, Except.bind] at h
      by_cases hc : (Dbl.lt dblEpsilon (norm (po.pt.sub a.pt)) &&
          Dbl.lt d90 (norm (co.pt.sub b.pt))) = true
      · simp only [hc, if_true, pure, Except.pure] at h
        have hr : Dbl.div binary64 (norm (co.pt.sub b.pt)) (norm (po.pt.sub a.pt)) = r := by
          injection h with h
          injection h
        rw [Bool.and_eq_true] at hc
        exact ⟨a, b, rfl, rfl, hc.1, hc.2, hr.symm⟩
      · simp only [hc, pure, Except.pure] at h
        simp at h

theorem innerLoop_ok (kptsPrev kptsCurr : List KeyPoint) (po co : KeyPoint) (l : List DMatch)
    (hv : ValidMatches kptsPrev kptsCurr l) (acc : List Dbl) :
    ∃ out, innerLoop kptsPrev kptsCurr po co l acc = Except.ok out := by
  induction l generalizing acc with
  | nil => exact ⟨acc, rfl⟩
  | cons m rest ih =>
    have hm := hv m (List.mem_cons_self _ _)
    have hrest : ValidMatches kptsPrev kptsCurr rest :=
      fun x hx => hv x (List.mem_cons_of_mem _ hx)
    obtain ⟨o, ho⟩ := pairRatio_ok_of_valid kptsPrev kptsCurr po co m hm.1 hm.2
    unfold innerLoop
    simp only [ho, bind, Except.bind]
    cases o with
    | none => exact ih hrest acc
    | some r => exact ih hrest _

theorem innerLoop_mem {kptsPrev kptsCurr : List KeyPoint} {po co : KeyPoint} (l : List DMatch)
    (acc out : List Dbl) (h : innerLoop kptsPrev kptsCurr po co l acc = Except.ok out) :
    ∀ r ∈ out, r ∈ acc ∨ ∃ m ∈ l, pairRatio kptsPrev kptsCurr po co m = Except.ok (some r) := by
  induction l generalizing acc with
  | nil =>
    intro r hr
    have e : acc = out := by
      simp only [innerLoop, pure, Except.pure] at h
      injection h
    exact Or.inl (e ▸ hr)
  | cons m rest ih =>
    intro r hr
    unfold innerLoop at h
    cases ho : pairRatio kptsPrev kptsCurr po co m with
    | error e => simp [ho, bind, Except.bind] at h
    | ok o =>
      simp only [ho, bind, Except.bind] at h
      cases o with
      | none =>
        rcases ih acc h r hr with h1 | ⟨m', hm', h2⟩
        · exact Or.inl h1
        · exact Or.inr ⟨m', List.mem_cons_of_mem _ hm', h2⟩
      | some r' =>
        rcases ih _ h r hr with h1 | ⟨m', hm', h2⟩
        · rcases List.mem_append.1 h1 with h3 | h3
          · exact Or.inl h3
          · have e : r = r' := by simpa using h3
            exact Or.inr ⟨m, List.mem_cons_self _ _, e ▸ ho⟩
        · exact Or.inr ⟨m', List.mem_cons_of_mem _ hm', h2⟩

theorem outerLoop_ok (kptsPrev kptsCurr : List KeyPoint) (kptMatches l : List DMatch)
    (hall : ValidMatches kptsPrev kptsCurr kptMatches) (hv : ValidMatches kptsPrev kptsCurr l)
    (acc : List Dbl) :
    ∃ out, outerLoop kptsPrev kptsCurr kptMatches l acc = Except.ok out := by
  induction l generalizing acc with
  | nil => exact ⟨acc, rfl⟩
  | cons m rest ih =>
    have hm := hv m (List.mem_cons_self _ _)
    have hrest : ValidMatches kptsPrev kptsCurr rest :=
      fun x hx => hv x (List.mem_cons_of_mem _ hx)
    have hdrop : ValidMatches kptsPrev kptsCurr (kptMatches.drop 1) :=
      fun x hx => hall x (List.mem_of_mem_drop hx)
    obtain ⟨a, ha⟩ := index_ok_of_valid kptsPrev m.queryIdx hm.1.1 hm.1.2
    obtain ⟨b, hb⟩ := index_ok_of_valid kptsCurr m.trainIdx hm.2.1 hm.2.2
    obtain ⟨o, ho⟩ := innerLoop_ok kptsPrev kptsCurr a b (kptMatches.drop 1) hdrop acc
    unfold outerLoop
    simp only [ha, hb, ho, bind, Except.bind]
    exact ih hrest o

theorem outerLoop_mem {kptsPrev kptsCurr : List KeyPoint} {kptMatches : List DMatch}
    (l : List DMatch) (acc out : List Dbl)
    (h : outerLoop kptsPrev kptsCurr kptMatches l acc = Except.ok out) :
    ∀ r ∈ out, r ∈ acc ∨ ∃ m1 ∈ l, ∃ po co, index kptsPrev m1.queryIdx = Except.ok po ∧
      index kptsCurr m1.trainIdx = Except.ok co ∧
      ∃ m2 ∈ kptMatches.drop 1, pairRatio kptsPrev kptsCurr po co m2 = Except.ok (some r) := by
  induction l generalizing acc with
  | nil =>
    intro r hr
    have e : acc = out := by
      simp only [outerLoop, pure, Except.pure] at h
      injection h
    exact Or.inl (e ▸ hr)
  | cons m rest ih =>
    intro r hr
    unfold outerLoop at h
    cases ha : index kptsPrev m.queryIdx with
    | error e => simp [ha, bind, Except.bind] at h
    | ok a =>
      cases hb : index kptsCurr m.trainIdx with
      | error e => simp [ha, hb, bind, Except.bind] at h
      | ok b =>
        cases ho : innerLoop kptsPrev kptsCurr a b (kptMatches.drop 1) acc with
        | error e =>
          simp only [ha, hb, ho, bind, Except.bind] at h
          cases h
        | ok o =>
          simp only [ha, hb, ho, bind, Except.bind] at h
          rcases ih o h r hr with h1 | ⟨m1, hm1, h2⟩
          · rcases innerLoop_mem _ _ _ ho r h1 with h3 | ⟨m2, hm2, h4⟩
            · exact Or.inl h3
            · exact Or.inr ⟨m, List.mem_cons_self _ _, a, b, ha, hb, m2, hm2, h4⟩
          · exact Or.inr ⟨m1, List.mem_cons_of_mem _ hm1, h2⟩

/-- C2. With valid keypoint indices the collection loop of `computeTTCCamera` completes; every
ratio it collects is `currentDistance / prevDistance` for two matches of the list whose
previous-frame distance exceeds the machine epsilon and whose current-frame distance exceeds
90; and when at least one ratio is collected, the value left in `TTC` is
`-(1 / frameRate) / (1 - m)` with `m` the median of the sorted ratios. -/
theorem computeTTCCamera_formula {sort : List Dbl → List Dbl} (hs : IsStdSort sort)
    (kptsPrev kptsCurr : List KeyPoint) (kptMatches : List DMatch) (frameRate : Dbl)
    (hv : ValidMatches kptsPrev kptsCurr kptMatches) :
    ∃ distRatios, collectRatios kptsPrev kptsCurr kptMatches = Except.ok distRatios
      ∧ (∀ r ∈ distRatios, ∃ m1 ∈ kptMatches, ∃ m2 ∈ kptMatches, ∃ po co pi ci,
          index kptsPrev m1.queryIdx = Except.ok po ∧ index kptsCurr m1.trainIdx = Except.ok co ∧
          index kptsPrev m2.queryIdx = Except.ok pi ∧ index kptsCurr m2.trainIdx = Except.ok ci ∧
          Dbl.lt dblEpsilon (norm (po.pt.sub pi.pt)) = true ∧
          Dbl.lt d90 (norm (co.pt.sub ci.pt)) = true ∧
          r = Dbl.div binary64 (norm (co.pt.sub ci.pt)) (norm (po.pt.sub pi.pt)))
      ∧ (distRatios ≠ [] →
          computeTTCCamera sort kptsPrev kptsCurr kptMatches frameRate =
            Except.ok (Dbl.div binary64 (Dbl.neg (Dbl.div binary64 d1 frameRate))
              (Dbl.sub binary64 d1 (medianOf (sort distRatios))))) := by
  obtain ⟨out, hout⟩ := outerLoop_ok kptsPrev kptsCurr kptMatches kptMatches hv hv []
  refine ⟨out, hout, ?_, ?_⟩
  · intro r hr
    rcases outerLoop_mem _ _ _ hout r hr with h | ⟨m1, hm1, po, co, hpo, hco, m2, hm2, hp⟩
    · simp at h
    · obtain ⟨pi, ci, hpi, hci, h1, h2, h3⟩ := pairRatio_some hp
      exact ⟨m1, hm1, m2, List.mem_of_mem_drop hm2, po, co, pi, ci, hpo, hco, hpi, hci, h1, h2, h3⟩
  · intro hne
    have hlen : ¬ (out.length = 0) := fun h => hne (List.length_eq_zero.1 h)
    have hc : collectRatios kptsPrev kptsCurr kptMatches = Except.ok out := hout
    simp only [computeTTCCamera, hc, bind, Except.bind, hlen, if_false,
      sortedMedian_eq_medianOf hs out hne]
    rfl

/-- C7. When the collection loop of `computeTTCCamera` ends with no ratio — as it does when
no pair passes the test, and in particular for a list of zero or one match — the value left
in `TTC` is NaN, whatever the sorting function: the median block is not reached. -/
theorem computeTTCCamera_no_ratio (sort : List Dbl → List Dbl)
    (kptsPrev kptsCurr : List KeyPoint) (kptMatches : List DMatch) (frameRate : Dbl)
    (hv : ValidMatches kptsPrev kptsCurr kptMatches) :
    (collectRatios kptsPrev kptsCurr kptMatches = Except.ok [] →
        computeTTCCamera sort kptsPrev kptsCurr kptMatches frameRate = Except.ok Dbl.nan)
      ∧ ((∀ m1 ∈ kptMatches, ∀ m2 ∈ kptMatches, ∀ po co,
            index kptsPrev m1.queryIdx = Except.ok po →
            index kptsCurr m1.trainIdx = Except.ok co →
            pairRatio kptsPrev kptsCurr po co m2 = Except.ok none) →
          computeTTCCamera sort kptsPrev kptsCurr kptMatches frameRate = Except.ok Dbl.nan)
      ∧ (kptMatches.length ≤ 1 →
          computeTTCCamera sort kptsPrev kptsCurr kptMatches frameRate = Except.ok Dbl.nan) := by
  have hempty : collectRatios kptsPrev kptsCurr kptMatches = Except.ok [] →
      computeTTCCamera sort kptsPrev kptsCurr kptMatches frameRate = Except.ok Dbl.nan := by
    intro h
    simp [computeTTCCamera, h, bind, Except.bind, pure, Except.pure]
  have hnone : (∀ m1 ∈ kptMatches, ∀ m2 ∈ kptMatches, ∀ po co,
        index kptsPrev m1.queryIdx = Except.ok po →
        index kptsCurr m1.trainIdx = Except.ok co →
        pairRatio kptsPrev kptsCurr po co m2 = Except.ok none) →
      collectRatios kptsPrev kptsCurr kptMatches = Except.ok [] := by
    intro hno
    obtain ⟨out, hout⟩ := outerLoop_ok kptsPrev kptsCurr kptMatches kptMatches hv hv []
    have hnil : out = [] := by
      apply List.eq_nil_iff_forall_not_mem.2
      intro r hr
      rcases outerLoop_mem _ _ _ hout r hr with h | ⟨m1, hm1, po, co, hpo, hco, m2, hm2, hp⟩
      · simp at h
      · have := hno m1 hm1 m2 (List.mem_of_mem_drop hm2) po co hpo hco
        rw [this] at hp
        simp at hp
    exact hnil ▸ hout
  refine ⟨hempty, fun hno => hempty (hnone hno), fun hlen => hempty ?_⟩
  match kptMatches, hv, hlen with
  | [], _, _ => rfl
  | [m], hv, _ =>
    have hm := hv m (List.mem_cons_self _ _)
    obtain ⟨a, ha⟩ := index_ok_of_valid kptsPrev m.queryIdx hm.1.1 hm.1.2
    obtain ⟨b, hb⟩ := index_ok_of_valid kptsCurr m.trainIdx hm.2.1 hm.2.2
    simp only [collectRatios, outerLoop, ha, hb, bind, Except.bind, List.drop, innerLoop]
    rfl
  | _ :: _ :: _, _, hlen => simp at hlen

theorem computeTTCCamera_formula_witness :
    ValidMatches exKptsPrev exKptsCurr exMatches ∧
      collectRatios exKptsPrev exKptsCurr exMatches = Except.ok [dbl (11 / 10)] ∧
      computeTTCCamera insertionSort exKptsPrev exKptsCurr exMatches (dbl 10) =
        Except.ok (Dbl.div binary64 (Dbl.neg (Dbl.div binary64 d1 (dbl 10)))
          (Dbl.sub binary64 d1 (dbl (11 / 10)))) := by
  have hv : ValidMatches exKptsPrev exKptsCurr exMatches := by
    unfold ValidMatches
    decide!
  have e : collectRatios exKptsPrev exKptsCurr exMatches = Except.ok [dbl (11 / 10)] := by
    decide!
  obtain ⟨r, hr, _, h⟩ :=
    computeTTCCamera_formula insertionSort_isStdSort exKptsPrev exKptsCurr exMatches (dbl 10) hv
  rw [e] at hr
  injection hr with hr
  subst hr
  refine ⟨hv, e, ?_⟩
  rw [h (by simp)]
  decide!

theorem computeTTCCamera_no_ratio_witness :
    ValidMatches exKptsPrev exKptsCurr [⟨1, 1⟩] ∧
      computeTTCCamera insertionSort exKptsPrev exKptsCurr [⟨1, 1⟩] (dbl 10) =
        Except.ok Dbl.nan :=
  ⟨by unfold ValidMatches; decide!,
    (computeTTCCamera_no_ratio insertionSort exKptsPrev exKptsCurr [⟨1, 1⟩] (dbl 10)
      (by unfold ValidMatches; decide!)).2.2 (by simp)⟩

/-! ## matchBoundingBoxes: the vote table -/

theorem Table.incr_spec (counts : Table) (p c : Int)
    (hp : 0 ≤ p ∧ p < counts.rows) (hc : 0 ≤ c ∧ c < counts.cols) :
    ∃ t, counts.incr p c = Except.ok t ∧ t.rows = counts.rows ∧ t.cols = counts.cols ∧
      ∀ i j : Nat, t.cell i j =
        counts.cell i j + if (i : Int) = p ∧ (j : Int) = c then 1 else 0 := by
  refine ⟨{ counts with cell := fun i j =>
      if i = p.toNat ∧ j = c.toNat then counts.cell i j + 1 else counts.cell i j }, ?_, rfl, rfl, ?_⟩
  · unfold Table.incr
    rw [if_pos ⟨hp.1, hp.2, hc.1, hc.2⟩]
    rfl
  · intro i j
    have e1 : (i = p.toNat) ↔ ((i : Int) = p) := by omega
    have e2 : (j = c.toNat) ↔ ((j : Int) = c) := by omega
    simp only [e1, e2]
    split <;> simp

theorem incrRow_spec (p : Int) (cs : List Int) (counts : Table)
    (hp : 0 ≤ p ∧ p < counts.rows) (hc : ∀ c ∈ cs, 0 ≤ c ∧ c < counts.cols) :
    ∃ t, incrRow p cs counts = Except.ok t ∧ t.rows = counts.rows ∧ t.cols = counts.cols ∧
      ∀ i j : Nat, t.cell i j =
        counts.cell i j + if (i : Int) = p then (cs.count (j : Int) : Int) else 0 := by
  induction cs generalizing counts with
  | nil => exact ⟨counts, rfl, rfl, rfl, fun i j => by simp⟩
  | cons c rest ih =>
    obtain ⟨t1, h1, r1, c1, cell1⟩ :=
      Table.incr_spec counts p c hp (hc c (List.mem_cons_self _ _))
    obtain ⟨t2, h2, r2, c2, cell2⟩ := ih t1 (by rw [r1]; exact hp)
      (fun x hx => by rw [c1]; exact hc x (List.mem_cons_of_mem _ hx))
    refine ⟨t2, ?_, r2.trans r1, c2.trans c1, ?_⟩
    · unfold incrRow
      simp only [h1, bind, Except.bind]
      exact h2
    · intro i j
      rw [cell2, cell1, List.count_cons]
      by_cases hi : (i : Int) = p <;> by_cases hj : (j : Int) = c <;> simp [hi, hj]
      · omega
      · intro h
        exact absurd h.symm hj

theorem incrAll_spec (cs ps : List Int) (counts : Table)
    (hp : ∀ p ∈ ps, 0 ≤ p ∧ p < counts.rows) (hc : ∀ c ∈ cs, 0 ≤ c ∧ c < counts.cols) :
    ∃ t, incrAll cs ps counts = Except.ok t ∧ t.rows = counts.rows ∧ t.cols = counts.cols ∧
      ∀ i j : Nat, t.cell i j =
        counts.cell i j + (ps.count (i : Int) : Int) * (cs.count (j : Int) : Int) := by
  induction ps generalizing counts with
  | nil => exact ⟨counts, rfl, rfl, rfl, fun i j => by simp⟩
  | cons p rest ih =>
    obtain ⟨t1, h1, r1, c1, cell1⟩ :=
      incrRow_spec p cs counts (hp p (List.mem_cons_self _ _)) hc
    obtain ⟨t2, h2, r2, c2, cell2⟩ := ih t1
      (fun x hx => by rw [r1]; exact hp x (List.mem_cons_of_mem _ hx))
      (fun x hx => by rw [c1]; exact hc x hx)
    refine ⟨t2, ?_, r2.trans r1, c2.trans c1, ?_⟩
    · unfold incrAll
      simp only [h1, bind, Except.bind]
      exact h2
    · intro i j
      rw [cell2, cell1, List.count_cons]
      by_cases hi : (i : Int) = p
      · subst hi
        simp only [beq_self_eq_true, if_true]
        push_cast
        ring
      · have : (p == (i : Int)) = false := by
          simp only [beq_eq_false_iff_ne, ne_eq]
          exact fun h => hi h.symm
        simp only [hi, this, if_false]
        simp

/-- The number of ids equal to `i` pushed for the point: one when a box with that id contains
the point, none otherwise, the ids being distinct. -/
theorem count_boxIdsContaining (boundingBoxes : List BoundingBox) (pt : Point) (i : Int)
    (hnd : (boundingBoxes.map (fun b => b.boxID)).Nodup) :
    (boxIdsContaining boundingBoxes pt).count i =
      if boundingBoxes.any (fun b => decide (b.boxID = i) && b.roi.contains pt) then 1 else 0 := by
  induction boundingBoxes with
  | nil => simp [boxIdsContaining]
  | cons b rest ih =>
    rw [List.map_cons, List.nodup_cons] at hnd
    have ih' := ih hnd.2
    unfold boxIdsContaining at ih' ⊢
    by_cases hc : b.roi.contains pt = true
    · by_cases hi : b.boxID = i
      · have hnot : (rest.any fun b => decide (b.boxID = i) && b.roi.contains pt) = false := by
          rw [List.any_eq_false]
          intro x hx
          have : x.boxID ≠ i := by
            intro h
            exact hnd.1 (List.mem_map.2 ⟨x, hx, h.trans hi.symm⟩)
          simp [this]
        simp [List.filter_cons, hc, hi, List.count_cons, ih', hnot]
      · simp [List.filter_cons, hc, hi, List.count_cons, ih']
    · simp [List.filter_cons, hc, List.count_cons, ih']

theorem boxIdsContaining_bounds (boundingBoxes : List BoundingBox) (pt : Point) (n : Nat)
    (h : ∀ b ∈ boundingBoxes, 0 ≤ b.boxID ∧ b.boxID < n) :
    ∀ p ∈ boxIdsContaining boundingBoxes pt, 0 ≤ p ∧ p < n := by
  intro p hp
  unfold boxIdsContaining at hp
  obtain ⟨b, hb, rfl⟩ := List.mem_map.1 hp
  exact h b (List.mem_of_mem_filter hb)

theorem votes_cons (m : DMatch) (rest : List DMatch) (prevFrame currFrame : DataFrame)
    (p c : Int) (kp : KeyPoint) (h : index prevFrame.keypoints m.queryIdx = Except.ok kp) :
    votes (m :: rest) prevFrame currFrame p c =
      (if (prevFrame.boundingBoxes.any
            (fun b => decide (b.boxID = p) && b.roi.contains kp.pt.toPoint) &&
          currFrame.boundingBoxes.any
            (fun b => decide (b.boxID = c) && b.roi.contains kp.pt.toPoint)) = true
        then 1 else 0) + votes rest prevFrame currFrame p c := by
  unfold votes
  rw [List.filter_cons]
  simp only [h]
  split
  · simp
    omega
  · simp

theorem voteLoop_spec (prevFrame currFrame : DataFrame) (matchList : List DMatch)
    (counts : Table)
    (hv : ValidMatches prevFrame.keypoints currFrame.keypoints matchList)
    (hP : IdsWithinBounds prevFrame) (hC : IdsWithinBounds currFrame)
    (hr : counts.rows = prevFrame.boundingBoxes.length)
    (hcl : counts.cols = currFrame.boundingBoxes.length) :
    ∃ t, voteLoop prevFrame currFrame matchList counts = Except.ok t ∧
      t.rows = counts.rows ∧ t.cols = counts.cols ∧
      ∀ i j : Nat, t.cell i j =
        counts.cell i j + (votes matchList prevFrame currFrame (i : Int) (j : Int) : Int) := by
  induction matchList generalizing counts with
  | nil => exact ⟨counts, rfl, rfl, rfl, fun i j => by simp [votes]⟩
  | cons m rest ih =>
    have hm := hv m (List.mem_cons_self _ _)
    have hrest : ValidMatches prevFrame.keypoints currFrame.keypoints rest :=
      fun x hx => hv x (List.mem_cons_of_mem _ hx)
    obtain ⟨a, ha⟩ := index_ok_of_valid prevFrame.keypoints m.queryIdx hm.1.1 hm.1.2
    obtain ⟨b, hb⟩ := index_ok_of_valid currFrame.keypoints m.trainIdx hm.2.1 hm.2.2
    obtain ⟨t1, h1, r1, c1, cell1⟩ := incrAll_spec
      (boxIdsContaining currFrame.boundingBoxes a.pt.toPoint)
      (boxIdsContaining prevFrame.boundingBoxes a.pt.toPoint) counts
      (boxIdsContaining_bounds _ _ _ (by rw [hr]; exact hP.2))
      (boxIdsContaining_bounds _ _ _ (by rw [hcl]; exact hC.2))
    obtain ⟨t2, h2, r2, c2, cell2⟩ := ih t1 hrest (r1.trans hr) (c1.trans hcl)
    refine ⟨t2, ?_, r2.trans r1, c2.trans c1, ?_⟩
    · unfold voteLoop
      simp only [ha, hb, h1, bind, Except.bind]
      exact h2
    · intro i j
      rw [cell2, cell1, votes_cons m rest prevFrame currFrame _ _ a ha,
        count_boxIdsContaining _ _ _ hP.1, count_boxIdsContaining _ _ _ hC.1]
      by_cases h1 : (prevFrame.boundingBoxes.any
          (fun b => decide (b.boxID = (i : Int)) && b.roi.contains a.pt.toPoint)) = true <;>
        by_cases h2 : (currFrame.boundingBoxes.any
          (fun b => decide (b.boxID = (j : Int)) && b.roi.contains a.pt.toPoint)) = true <;>
        simp [h1, h2]
      omega

/-! ## matchBoundingBoxes: the selection of the best match -/

theorem bestInRow_spec (counts : Table) (i : Nat) (len k : Nat) (max_count id_max : Int)
    (h : BestSoFar (counts.cell i) k max_count id_max) :
    ∃ mc, BestSoFar (counts.cell i) (k + len) mc
      (bestInRow counts i (List.range' k len) max_count id_max) := by
  induction len generalizing k max_count id_max with
  | zero => exact ⟨max_count, h⟩
  | succ len ih =>
    rw [List.range'_succ]
    unfold bestInRow
    have e : k + (len + 1) = (k + 1) + len := by omega
    rw [e]
    by_cases hgt : counts.cell i k > max_count
    · rw [if_pos hgt]
      apply ih
      right
      rcases h with ⟨_, h2, h3⟩ | ⟨_, _, h3, _, h5, _⟩
      · refine ⟨by omega, by omega, by omega, by simp, ?_, ?_⟩
        · intro j hj
          by_cases hjk : j = k
          · rw [hjk]
          · have := h3 j (by omega)
            omega
        · intro j hj
          have := h3 j (by omega)
          omega
      · refine ⟨by omega, by omega, by omega, by simp, ?_, ?_⟩
        · intro j hj
          by_cases hjk : j = k
          · rw [hjk]
          · have := h5 j (by omega)
            omega
        · intro j hj
          have := h5 j (by omega)
          omega
    · rw [if_neg hgt]
      apply ih
      rcases h with ⟨h1, h2, h3⟩ | ⟨h1, h2, h3, h4, h5, h6⟩
      · left
        refine ⟨h1, h2, ?_⟩
        intro j hj
        by_cases hjk : j = k
        · rw [hjk]
          omega
        · exact h3 j (by omega)
      · right
        refine ⟨h1, by omega, h3, h4, ?_, h6⟩
        intro j hj
        by_cases hjk : j = k
        · rw [hjk]
          omega
        · exact h5 j (by omega)

theorem mapFind_mapAssign (m : List (Int × Int)) (key value k : Int) :
    mapFind (mapAssign m key value) k = if k = key then some value else mapFind m k := by
  induction m with
  | nil =>
    by_cases h : k = key <;> simp [mapAssign, mapFind, h]
  | cons e rest ih =>
    obtain ⟨k', v'⟩ := e
    unfold mapAssign
    by_cases h1 : key = k'
    · subst h1
      by_cases h : k = key <;> simp [mapFind, h]
    · by_cases h2 : key < k'
      · by_cases h : k = key <;> simp [mapFind, h, h1, h2]
      · by_cases h : k = key
        · subst h
          simp [mapFind, h1, h2, ih]
        · by_cases h3 : k = k'
          · subst h3
            simp [mapFind, h, h1, h2]
          · simp [mapFind, h, h1, h2, h3, ih]

theorem bestLoop_find (counts : Table) (currentSize : Nat) (len k : Nat)
    (m : List (Int × Int)) (i : Nat) :
    mapFind (bestLoop counts currentSize (List.range' k len) m) (i : Int) =
      if k ≤ i ∧ i < k + len then some (bestInRow counts i (List.range currentSize) 0 0)
      else mapFind m (i : Int) := by
  induction len generalizing k m with
  | zero =>
    have : ¬ (k ≤ i ∧ i < k + 0) := by omega
    rw [if_neg this]
    rfl
  | succ len ih =>
    rw [List.range'_succ]
    unfold bestLoop
    rw [ih, mapFind_mapAssign]
    by_cases h1 : i = k
    · subst h1
      have a : ¬ (i + 1 ≤ i ∧ i < i + 1 + len) := by omega
      have b : (i ≤ i ∧ i < i + (len + 1)) := by omega
      simp [a, b]
    · by_cases h2 : k + 1 ≤ i ∧ i < k + 1 + len
      · have b : (k ≤ i ∧ i < k + (len + 1)) := by omega
        simp [h2, b]
      · have b : ¬ (k ≤ i ∧ i < k + (len + 1)) := by omega
        have c : ¬ ((i : Int) = (k : Int)) := by omega
        simp [h2, b, c]

theorem bestSoFar_start (f : Nat → Int) : BestSoFar f 0 0 0 :=
  Or.inl ⟨rfl, rfl, fun j hj => absurd hj (Nat.not_lt_zero j)⟩

/-- What `matchBoundingBoxes` stores for each previous box id `p`: the first current box id
holding the greatest vote count of the row `p`, and 0 when the row holds no vote. Keys outside
`[0, prevSize)` are left as they were on entry. -/
theorem matchBoundingBoxes_best (matchList : List DMatch) (bbBestMatches : List (Int × Int))
    (prevFrame currFrame : DataFrame)
    (hv : ValidMatches prevFrame.keypoints currFrame.keypoints matchList)
    (hP : IdsWithinBounds prevFrame) (hC : IdsWithinBounds currFrame) :
    ∃ out, matchBoundingBoxes matchList bbBestMatches prevFrame currFrame = Except.ok out ∧
      ∀ p : Nat, p < prevFrame.boundingBoxes.length →
        ∃ c : Int, mapFind out (p : Int) = some c ∧ 0 ≤ c ∧
          (c = 0 ∨ c < currFrame.boundingBoxes.length) ∧
          (∀ j : Nat, j < currFrame.boundingBoxes.length →
            votes matchList prevFrame currFrame p j ≤ votes matchList prevFrame currFrame p c) ∧
          (∀ j : Nat, (j : Int) < c →
            votes matchList prevFrame currFrame p j < votes matchList prevFrame currFrame p c) ∧
          ((∀ j : Nat, j < currFrame.boundingBoxes.length →
            votes matchList prevFrame currFrame p j = 0) → c = 0) := by
  obtain ⟨t, ht, _, _, hcell⟩ := voteLoop_spec prevFrame currFrame matchList
    (Table.zeros prevFrame.boundingBoxes.length currFrame.boundingBoxes.length) hv hP hC rfl rfl
  refine ⟨bestLoop t currFrame.boundingBoxes.length
    (List.range prevFrame.boundingBoxes.length) bbBestMatches, ?_, ?_⟩
  · unfold matchBoundingBoxes
    simp only [ht, bind, Except.bind]
    rfl
  · intro p hp
    have hfind := bestLoop_find t currFrame.boundingBoxes.length prevFrame.boundingBoxes.length 0
      bbBestMatches p
    rw [if_pos (by omega), ← List.range_eq_range'] at hfind
    refine ⟨_, hfind, ?_⟩
    have hf : ∀ j : Nat, t.cell p j = (votes matchList prevFrame currFrame p j : Int) := by
      intro j
      rw [hcell]
      simp [Table.zeros]
    obtain ⟨mc, hbest⟩ := bestInRow_spec t p currFrame.boundingBoxes.length 0 0 0
      (bestSoFar_start _)
    rw [Nat.zero_add, ← List.range_eq_range'] at hbest
    generalize bestInRow t p (List.range currFrame.boundingBoxes.length) 0 0 = c at hbest
    rcases hbest with ⟨h1, _, h3⟩ | ⟨h1, h2, h3, h4, h5, h6⟩
    · have hz : ∀ j : Nat, j < currFrame.boundingBoxes.length →
          votes matchList prevFrame currFrame p j = 0 := by
        intro j hj
        have := h3 j hj
        rw [hf] at this
        omega
      refine ⟨by omega, Or.inl h1, ?_, ?_, fun _ => h1⟩
      · intro j hj
        rw [hz j hj]
        exact Nat.zero_le _
      · intro j hj
        omega
    · have hc : c = ((c.toNat : Nat) : Int) := by omega
      have hvc : (votes matchList prevFrame currFrame p c : Int) = mc := by
        rw [← h4, hf]
        rw [← hc]
      refine ⟨h1, Or.inr h2, ?_, ?_, ?_⟩
      · intro j hj
        have := h5 j hj
        rw [hf] at this
        omega
      · intro j hj
        have := h6 j hj
        rw [hf] at this
        omega
      · intro hz
        have := hz c.toNat (by omega)
        rw [← hc] at this
        omega

/-- C3. With valid keypoint indices and distinct box ids within the table bounds,
`matchBoundingBoxes`, entered with an empty map, stores for each previous box id `p` a current
box id `c` whose vote count `V(p, c)` is the greatest of the row; every lower current id has a
strictly smaller count (the lowest index wins a tie), and `c` is 0 when all counts of the row
are zero. With two current boxes and counts `V(p, 0) = 5`, `V(p, 1) = 3`, box `p` maps to 0. -/
theorem matchBoundingBoxes_strict_max (matchList : List DMatch) (prevFrame currFrame : DataFrame)
    (hv : ValidMatches prevFrame.keypoints currFrame.keypoints matchList)
    (hP : IdsWithinBounds prevFrame) (hC : IdsWithinBounds currFrame) :
    ∃ out, matchBoundingBoxes matchList [] prevFrame currFrame = Except.ok out ∧
      ∀ p : Nat, p < prevFrame.boundingBoxes.length →
        ∃ c : Int, mapFind out (p : Int) = some c ∧ 0 ≤ c ∧
          (c = 0 ∨ c < currFrame.boundingBoxes.length) ∧
          (∀ j : Nat, j < currFrame.boundingBoxes.length →
            votes matchList prevFrame currFrame p j ≤ votes matchList prevFrame currFrame p c) ∧
          (∀ j : Nat, (j : Int) < c →
            votes matchList prevFrame currFrame p j < votes matchList prevFrame currFrame p c) ∧
          ((∀ j : Nat, j < currFrame.boundingBoxes.length →
            votes matchList prevFrame currFrame p j = 0) → c = 0) ∧
          (currFrame.boundingBoxes.length = 2 →
            votes matchList prevFrame currFrame p 0 = 5 →
            votes matchList prevFrame currFrame p 1 = 3 → c = 0) := by
  obtain ⟨out, hout, h⟩ := matchBoundingBoxes_best matchList [] prevFrame currFrame hv hP hC
  refine ⟨out, hout, fun p hp => ?_⟩
  obtain ⟨c, h1, h2, h3, h4, h5, h6⟩ := h p hp
  refine ⟨c, h1, h2, h3, h4, h5, h6, ?_⟩
  intro hlen h0 h1'
  by_contra hc
  have hc1 : c = 1 := by omega
  have := h5 0 (by rw [hc1]; decide)
  rw [hc1] at this
  simp only [Nat.cast_zero] at this
  omega

theorem matchBoundingBoxes_strict_max_witness :
    votes exEightMatches exPrevFrame exCurrFrame 0 0 = 5 ∧
      votes exEightMatches exPrevFrame exCurrFrame 0 1 = 3 ∧
      ∃ out, matchBoundingBoxes exEightMatches [] exPrevFrame exCurrFrame = Except.ok out ∧
        mapFind out 0 = some 0 := by
  have hv : ValidMatches exPrevFrame.keypoints exCurrFrame.keypoints exEightMatches := by
    unfold ValidMatches
    decide!
  have hP : IdsWithinBounds exPrevFrame := by
    unfold IdsWithinBounds
    decide!
  have hC : IdsWithinBounds exCurrFrame := by
    unfold IdsWithinBounds
    decide!
  have h5 : votes exEightMatches exPrevFrame exCurrFrame 0 0 = 5 := by decide!
  have h3 : votes exEightMatches exPrevFrame exCurrFrame 0 1 = 3 := by decide!
  obtain ⟨out, hout, h⟩ :=
    matchBoundingBoxes_strict_max exEightMatches exPrevFrame exCurrFrame hv hP hC
  obtain ⟨c, hc, _, _, _, _, _, hex⟩ := h 0 (by decide)
  have hc0 : c = 0 := hex (by decide) h5 h3
  subst hc0
  exact ⟨h5, h3, out, hout, hc⟩

/-! ## matchBoundingBoxes on a frame matched with itself -/

theorem votes_le_self (matchList : List DMatch) (frame : DataFrame) (p c : Int) :
    votes matchList frame frame p c ≤ votes matchList frame frame p p := by
  unfold votes
  apply List.Sublist.length_le
  apply List.monotone_filter_right
  intro m hm
  cases h : index frame.keypoints m.queryIdx with
  | error e => simp [h] at hm
  | ok kp =>
    simp only [h, Bool.and_eq_true] at hm ⊢
    exact ⟨hm.1, hm.1⟩

theorem filter_length_lt_iff {α : Type} (p q : α → Bool) (hqp : ∀ x, q x = true → p x = true) :
    ∀ l : List α, (l.filter q).length < (l.filter p).length ↔
      ∃ x ∈ l, p x = true ∧ q x = false
  | [] => by simp
  | a :: l => by
    have ih := filter_length_lt_iff p q hqp l
    have hle : (l.filter q).length ≤ (l.filter p).length := by
      apply List.Sublist.length_le
      exact List.monotone_filter_right l hqp
    cases hq : q a with
    | true =>
      have hp : p a = true := hqp a hq
      simp only [List.filter_cons, hq, hp, if_true, List.length_cons, Nat.add_lt_add_iff_right,
        List.mem_cons, exists_eq_or_imp, Bool.true_eq_false, and_false, false_or]
      exact ih
    | false =>
      cases hp : p a with
      | true =>
        simp only [List.filter_cons, hq, hp, if_true, List.length_cons, Bool.false_eq_true,
          if_false, List.mem_cons, exists_eq_or_imp, and_self, true_or, iff_true]
        omega
      | false =>
        simp only [List.filter_cons, hq, hp, Bool.false_eq_true, if_false, List.mem_cons,
          exists_eq_or_imp, false_and, false_or]
        exact ih

theorem votes_self_lt_iff (matchList : List DMatch) (frame : DataFrame) (p c : Int) :
    votes matchList frame frame p c < votes matchList frame frame p p ↔
      ∃ m ∈ matchList, ∃ kp, index frame.keypoints m.queryIdx = Except.ok kp ∧
        inBox frame p kp.pt.toPoint = true ∧ inBox frame c kp.pt.toPoint = false := by
  unfold votes
  rw [filter_length_lt_iff]
  · constructor
    · rintro ⟨m, hm, h1, h2⟩
      cases h : index frame.keypoints m.queryIdx with
      | error e => simp [h] at h1
      | ok kp =>
        simp only [h, Bool.and_eq_true, Bool.and_self] at h1 h2
        refine ⟨m, hm, kp, h, h1, ?_⟩
        unfold inBox
        simpa [h1] using h2
    · rintro ⟨m, hm, kp, h, h1, h2⟩
      refine ⟨m, hm, ?_, ?_⟩
      · simp only [h, Bool.and_self]
        exact h1
      · simp only [h]
        unfold inBox at h1 h2
        simp [h1, h2]
  · intro m hm
    cases h : index frame.keypoints m.queryIdx with
    | error e => simp [h] at hm
    | ok kp =>
      simp only [h, Bool.and_eq_true] at hm ⊢
      exact ⟨hm.1, hm.1⟩

theorem votes_eq_zero_of_not_inBox (matchList : List DMatch) (frame : DataFrame) (p c : Int)
    (h : ∀ m ∈ matchList, ∀ kp, index frame.keypoints m.queryIdx = Except.ok kp →
      inBox frame p kp.pt.toPoint = false) :
    votes matchList frame frame p c = 0 := by
  unfold votes
  rw [List.length_eq_zero, List.filter_eq_nil_iff]
  intro m hm
  cases hk : index frame.keypoints m.queryIdx with
  | error e => simp
  | ok kp =>
    have := h m hm kp hk
    unfold inBox at this
    simp [this]

/-- C10 (counterexample). A frame with two disjoint boxes, ids 0 and 1, and a single matched
keypoint, inside box 0: matched with itself, box 1 has no vote and is mapped to box 0. -/
theorem matchBoundingBoxes_zero_motion_not_identity :
    IdsWithinBounds exLonelyFrame ∧
      ValidMatches exLonelyFrame.keypoints exLonelyFrame.keypoints [⟨0, 0⟩] ∧
      matchBoundingBoxes [⟨0, 0⟩] [] exLonelyFrame exLonelyFrame = Except.ok [(0, 0), (1, 0)] ∧
      mapFind [(0, 0), (1, 0)] 1 ≠ some 1 := by
  refine ⟨?_, ?_, ?_, ?_⟩
  · unfold IdsWithinBounds
    decide!
  · unfold ValidMatches
    decide!
  · decide!
  · decide

/-- C10 (amended). On a frame matched with itself (distinct ids `0..n-1`, valid indices, empty
map on entry), `matchBoundingBoxes` maps box `i` to a box `c ≤ i`: the lowest-numbered box
holding as many votes as box `i` itself, `V(i, c) = V(i, i)`. Hence `c = i` exactly when every
lower id `j < i` has strictly fewer votes `V(i, j)` than `V(i, i)`, that is when for every
lower-numbered box some matched keypoint lies in box `i` and not in that box; otherwise `c` is
a lower-numbered box, and `c = 0` when no matched keypoint lies in box `i`. -/
theorem matchBoundingBoxes_zero_motion (matchList : List DMatch) (frame : DataFrame)
    (hv : ValidMatches frame.keypoints frame.keypoints matchList)
    (hI : IdsWithinBounds frame) :
    ∃ out, matchBoundingBoxes matchList [] frame frame = Except.ok out ∧
      ∀ i : Nat, i < frame.boundingBoxes.length →
        ∃ c : Int, mapFind out (i : Int) = some c ∧ 0 ≤ c ∧ c ≤ (i : Int) ∧
          votes matchList frame frame i c = votes matchList frame frame i i ∧
          (∀ j : Nat, (j : Int) < c →
            votes matchList frame frame i j < votes matchList frame frame i i) ∧
          (c = (i : Int) ↔
            ∀ j : Nat, j < i → votes matchList frame frame i j < votes matchList frame frame i i) ∧
          (c = (i : Int) ↔
            ∀ j : Nat, j < i → ∃ m ∈ matchList, ∃ kp,
              index frame.keypoints m.queryIdx = Except.ok kp ∧
                inBox frame i kp.pt.toPoint = true ∧ inBox frame j kp.pt.toPoint = false) ∧
          ((∀ m ∈ matchList, ∀ kp, index frame.keypoints m.queryIdx = Except.ok kp →
            inBox frame i kp.pt.toPoint = false) → c = 0) := by
  obtain ⟨out, hout, h⟩ := matchBoundingBoxes_best matchList [] frame frame hv hI hI
  refine ⟨out, hout, fun i hi => ?_⟩
  obtain ⟨c, h1, h2, h3, h4, h5, h6⟩ := h i hi
  have hmax := h4 i hi
  have hle := votes_le_self matchList frame (i : Int) c
  have hci : c ≤ (i : Int) := by
    by_contra hgt
    have := h5 i (by omega)
    omega
  have hiff : c = (i : Int) ↔
      ∀ j : Nat, j < i → votes matchList frame frame i j < votes matchList frame frame i i := by
    constructor
    · intro hc j hj
      have := h5 j (by omega)
      rw [hc] at this
      exact this
    · intro hlt
      rcases lt_or_eq_of_le hci with hlt' | heq
      · have h6' := hlt c.toNat (by omega)
        have e : ((c.toNat : Nat) : Int) = c := by omega
        rw [e] at h6'
        omega
      · exact heq
  refine ⟨c, h1, h2, hci, by omega, ?_, hiff, ?_, ?_⟩
  · intro j hj
    have := h5 j hj
    omega
  · rw [hiff]
    constructor
    · intro hlt j hj
      exact (votes_self_lt_iff matchList frame i j).mp (hlt j hj)
    · intro hex j hj
      exact (votes_self_lt_iff matchList frame i j).mpr (hex j hj)
  · intro hno
    apply h6
    intro j _
    exact votes_eq_zero_of_not_inBox matchList frame i j hno

theorem matchBoundingBoxes_zero_motion_witness :
    (∃ out, matchBoundingBoxes [⟨0, 0⟩, ⟨1, 1⟩] [] exPairFrame exPairFrame = Except.ok out ∧
      mapFind out 0 = some 0 ∧ mapFind out 1 = some 1) ∧
    (∃ out, matchBoundingBoxes [⟨0, 0⟩] [] exLonelyFrame exLonelyFrame = Except.ok out ∧
      mapFind out 0 = some 0 ∧ mapFind out 1 = some 0) := by
  have hv : ValidMatches exPairFrame.keypoints exPairFrame.keypoints [⟨0, 0⟩, ⟨1, 1⟩] := by
    unfold ValidMatches
    decide!
  have hI : IdsWithinBounds exPairFrame := by
    unfold IdsWithinBounds
    decide!
  have hv' : ValidMatches exLonelyFrame.keypoints exLonelyFrame.keypoints [⟨0, 0⟩] := by
    unfold ValidMatches
    decide!
  have hI' : IdsWithinBounds exLonelyFrame := by
    unfold IdsWithinBounds
    decide!
  constructor
  · obtain ⟨out, hout, h⟩ :=
      matchBoundingBoxes_zero_motion [⟨0, 0⟩, ⟨1, 1⟩] exPairFrame hv hI
    obtain ⟨c0, f0, -, -, -, -, e0, -, -⟩ := h 0 (by decide)
    obtain ⟨c1, f1, -, -, -, -, e1, -, -⟩ := h 1 (by decide)
    have hc0 : c0 = ((0 : Nat) : Int) := e0.mpr (fun j hj => absurd hj (Nat.not_lt_zero j))
    have hc1 : c1 = ((1 : Nat) : Int) := e1.mpr (fun j hj => by
      have : j = 0 := by omega
      subst this
      decide!)
    rw [hc0] at f0
    rw [hc1] at f1
    exact ⟨out, hout, f0, f1⟩
  · obtain ⟨out, hout, h⟩ := matchBoundingBoxes_zero_motion [⟨0, 0⟩] exLonelyFrame hv' hI'
    obtain ⟨c0, f0, -, -, -, -, e0, -, -⟩ := h 0 (by decide)
    obtain ⟨c1, f1, -, -, -, -, -, -, z1⟩ := h 1 (by decide)
    have hc0 : c0 = ((0 : Nat) : Int) := e0.mpr (fun j hj => absurd hj (Nat.not_lt_zero j))
    have hc1 : c1 = 0 := z1 (fun m hm kp hk => by
      rw [List.mem_singleton] at hm
      subst hm
      have hk' : index exLonelyFrame.keypoints (0 : Int) = Except.ok (kpAt 5 5) := by decide!
      have : kp = kpAt 5 5 := by
        have h2 : (Except.ok kp : Except Fault KeyPoint) = Except.ok (kpAt 5 5) := by
          rw [← hk, ← hk']
        injection h2
      subst this
      decide!)
    rw [hc0] at f0
    rw [hc1] at f1
    exact ⟨out, hout, f0, f1⟩

/-! ## clusterLidarWithROI -/

theorem shrunkContains_cons_zero (b : BoundingBox) (rest : List BoundingBox) (s : Dbl)
    (pt : Point) :
    shrunkContains (b :: rest) s pt 0 = (shrinkRoi s b.roi).contains pt := by
  simp [shrunkContains]

theorem shrunkContains_cons_succ (b : BoundingBox) (rest : List BoundingBox) (s : Dbl)
    (pt : Point) (i : Nat) :
    shrunkContains (b :: rest) s pt (i + 1) = shrunkContains rest s pt i := by
  simp [shrunkContains]

theorem shrunkContains_lt {boxes : List BoundingBox} {s : Dbl} {pt : Point} {j : Nat}
    (h : shrunkContains boxes s pt j = true) : j < boxes.length := by
  by_contra hj
  have : boxes[j]? = none := List.getElem?_eq_none (by omega)
  simp [shrunkContains, this] at h

theorem mem_enclosingFrom (s : Dbl) (pt : Point) (l : List BoundingBox) (k j : Nat) :
    j ∈ enclosingFrom s pt k l ↔ ∃ i, j = k + i ∧ shrunkContains l s pt i = true := by
  induction l generalizing k with
  | nil => simp [enclosingFrom, shrunkContains]
  | cons b rest ih =>
    unfold enclosingFrom
    constructor
    · intro h
      by_cases hc : (shrinkRoi s b.roi).contains pt = true
      · rw [if_pos hc] at h
        rcases List.mem_cons.1 h with h | h
        · exact ⟨0, by omega, by rw [shrunkContains_cons_zero]; exact hc⟩
        · obtain ⟨i, hi, hs⟩ := (ih (k + 1)).1 h
          exact ⟨i + 1, by omega, by rw [shrunkContains_cons_succ]; exact hs⟩
      · rw [if_neg hc] at h
        obtain ⟨i, hi, hs⟩ := (ih (k + 1)).1 h
        exact ⟨i + 1, by omega, by rw [shrunkContains_cons_succ]; exact hs⟩
    · rintro ⟨i, hi, hs⟩
      cases i with
      | zero =>
        rw [shrunkContains_cons_zero] at hs
        rw [if_pos hs]
        exact List.mem_cons.2 (Or.inl (by omega))
      | succ i =>
        rw [shrunkContains_cons_succ] at hs
        have hm : j ∈ enclosingFrom s pt (k + 1) rest := (ih (k + 1)).2 ⟨i, by omega, hs⟩
        by_cases hc : (shrinkRoi s b.roi).contains pt = true
        · rw [if_pos hc]
          exact List.mem_cons_of_mem _ hm
        · rw [if_neg hc]
          exact hm

theorem enclosingFrom_nodup (s : Dbl) (pt : Point) (l : List BoundingBox) (k : Nat) :
    (enclosingFrom s pt k l).Nodup := by
  induction l generalizing k with
  | nil => simp [enclosingFrom]
  | cons b rest ih =>
    unfold enclosingFrom
    by_cases hc : (shrinkRoi s b.roi).contains pt = true
    · rw [if_pos hc, List.nodup_cons]
      refine ⟨?_, ih (k + 1)⟩
      intro hk
      obtain ⟨i, hi, _⟩ := (mem_enclosingFrom s pt rest (k + 1) k).1 hk
      omega
    · rw [if_neg hc]
      exact ih (k + 1)

theorem mem_enclosingBoxes (boxes : List BoundingBox) (s : Dbl) (pt : Point) (j : Nat) :
    j ∈ enclosingBoxes boxes s pt ↔ shrunkContains boxes s pt j = true := by
  unfold enclosingBoxes
  rw [mem_enclosingFrom]
  constructor
  · rintro ⟨i, hi, hs⟩
    have : j = i := by omega
    rw [this]
    exact hs
  · intro h
    exact ⟨j, by omega, h⟩

theorem eq_singleton_of_nodup {l : List Nat} {i : Nat} (hn : l.Nodup)
    (h : ∀ x, x ∈ l ↔ x = i) : l = [i] := by
  match l, hn, h with
  | [], _, h => exact absurd ((h i).2 rfl) (List.not_mem_nil i)
  | [a], _, h =>
    have : a = i := (h a).1 (List.mem_cons_self _ _)
    rw [this]
  | a :: b :: rest, hn, h =>
    have ha : a = i := (h a).1 (List.mem_cons_self _ _)
    have hb : b = i := (h b).1 (List.mem_cons_of_mem _ (List.mem_cons_self _ _))
    rw [List.nodup_cons] at hn
    have hab : a = b := ha.trans hb.symm
    exact absurd (hab ▸ List.mem_cons_self b rest) hn.1

theorem enclosedOnlyBy_iff (boxes : List BoundingBox) (s : Dbl) (pt : Point) (i : Nat) :
    enclosedOnlyBy boxes s pt i = true ↔
      (shrunkContains boxes s pt i = true ∧
        ∀ j, j ≠ i → shrunkContains boxes s pt j = false) := by
  unfold enclosedOnlyBy
  rw [Bool.and_eq_true, List.all_eq_true]
  constructor
  · rintro ⟨h1, h2⟩
    refine ⟨h1, fun j hj => ?_⟩
    by_cases hlt : j < boxes.length
    · have := h2 j (List.mem_range.2 hlt)
      simpa [hj] using this
    · cases hs : shrunkContains boxes s pt j
      · rfl
      · exact absurd (shrunkContains_lt hs) hlt
  · rintro ⟨h1, h2⟩
    refine ⟨h1, fun j _ => ?_⟩
    by_cases hj : j = i
    · simp [hj]
    · simp [hj, h2 j hj]

theorem enclosingBoxes_eq_singleton_iff (boxes : List BoundingBox) (s : Dbl) (pt : Point)
    (i : Nat) :
    enclosingBoxes boxes s pt = [i] ↔ enclosedOnlyBy boxes s pt i = true := by
  rw [enclosedOnlyBy_iff]
  constructor
  · intro h
    refine ⟨(mem_enclosingBoxes boxes s pt i).1 (by rw [h]; exact List.mem_cons_self _ _), ?_⟩
    intro j hj
    cases hs : shrunkContains boxes s pt j
    · rfl
    · have := (mem_enclosingBoxes boxes s pt j).2 hs
      rw [h] at this
      exact absurd (List.mem_singleton.1 this) hj
  · rintro ⟨h1, h2⟩
    apply eq_singleton_of_nodup (enclosingFrom_nodup s pt boxes 0)
    intro x
    show x ∈ enclosingBoxes boxes s pt ↔ x = i
    rw [mem_enclosingBoxes]
    constructor
    · intro hx
      by_contra hne
      rw [h2 x hne] at hx
      exact Bool.false_ne_true hx
    · intro hx
      rw [hx]
      exact h1

theorem enclosingFrom_congr (s : Dbl) (pt : Point) (l l' : List BoundingBox) (k : Nat)
    (h : l.map (fun b => b.roi) = l'.map (fun b => b.roi)) :
    enclosingFrom s pt k l = enclosingFrom s pt k l' := by
  induction l generalizing l' k with
  | nil =>
    cases l' with
    | nil => rfl
    | cons b' rest' => simp at h
  | cons b rest ih =>
    cases l' with
    | nil => simp at h
    | cons b' rest' =>
      simp only [List.map_cons, List.cons.injEq] at h
      unfold enclosingFrom
      rw [h.1, ih rest' (k + 1) h.2]

theorem enclosedOnlyBy_congr (s : Dbl) (pt : Point) (l l' : List BoundingBox) (i : Nat)
    (h : l.map (fun b => b.roi) = l'.map (fun b => b.roi)) :
    enclosedOnlyBy l s pt i = enclosedOnlyBy l' s pt i := by
  rw [Bool.eq_iff_iff, ← enclosingBoxes_eq_singleton_iff, ← enclosingBoxes_eq_singleton_iff]
  unfold enclosingBoxes
  rw [enclosingFrom_congr s pt l l' 0 h]

theorem pushLidarPoint_map_roi (l : List BoundingBox) (i : Nat) (p : LidarPoint) :
    (pushLidarPoint l i p).map (fun b => b.roi) = l.map (fun b => b.roi) := by
  induction l generalizing i with
  | nil => rfl
  | cons b rest ih =>
    cases i with
    | zero => rfl
    | succ i =>
      simp only [pushLidarPoint, List.map_cons, ih]

theorem pushLidarPoint_getElem? (l : List BoundingBox) (i : Nat) (p : LidarPoint) (j : Nat) :
    (pushLidarPoint l i p)[j]? =
      (l[j]?).map (fun b =>
        { b with lidarPoints := b.lidarPoints ++ if j = i then [p] else [] }) := by
  induction l generalizing i j with
  | nil => simp [pushLidarPoint]
  | cons b rest ih =>
    cases i with
    | zero =>
      cases j with
      | zero => simp [pushLidarPoint]
      | succ j =>
        simp only [pushLidarPoint, List.getElem?_cons_succ]
        cases rest[j]? <;> simp
    | succ i =>
      cases j with
      | zero => simp [pushLidarPoint]
      | succ j =>
        simp only [pushLidarPoint, List.getElem?_cons_succ, ih]
        simp

theorem clusterStep_map_roi (boxes : List BoundingBox) (s : Dbl)
    (project : LidarPoint → Dbl × Dbl × Dbl) (p : LidarPoint) :
    (clusterStep boxes s project p).map (fun b => b.roi) = boxes.map (fun b => b.roi) := by
  unfold clusterStep
  simp only
  split
  · exact pushLidarPoint_map_roi _ _ _
  · rfl

theorem clusterStep_getElem? (boxes : List BoundingBox) (s : Dbl)
    (project : LidarPoint → Dbl × Dbl × Dbl) (p : LidarPoint) (j : Nat) :
    (clusterStep boxes s project p)[j]? =
      (boxes[j]?).map (fun b =>
        { b with lidarPoints := b.lidarPoints ++
            if enclosedOnlyBy boxes s (projectedPixel project p) j = true then [p] else [] }) := by
  unfold clusterStep
  simp only
  by_cases hlen : (enclosingBoxes boxes s (projectedPixel project p)).length = 1
  · rw [if_pos hlen, pushLidarPoint_getElem?]
    obtain ⟨a, ha⟩ := List.length_eq_one.1 hlen
    have hj : (j = (enclosingBoxes boxes s (projectedPixel project p)).getD 0 0) ↔
        (enclosedOnlyBy boxes s (projectedPixel project p) j = true) := by
      rw [← enclosingBoxes_eq_singleton_iff, ha]
      simp
      exact eq_comm
    simp only [hj]
  · rw [if_neg hlen]
    have hj : ¬ (enclosedOnlyBy boxes s (projectedPixel project p) j = true) := by
      rw [← enclosingBoxes_eq_singleton_iff]
      intro h
      rw [h] at hlen
      exact hlen rfl
    cases boxes[j]? with
    | none => rfl
    | some b => simp [hj]

theorem clusterLidarWithROI_getElem? (boxes : List BoundingBox) (pts : List LidarPoint)
    (s : Dbl) (project : LidarPoint → Dbl × Dbl × Dbl) (j : Nat) :
    (clusterLidarWithROI boxes pts s project)[j]? =
      (boxes[j]?).map (fun b =>
        { b with lidarPoints := b.lidarPoints ++
            pts.filter (fun p => enclosedOnlyBy boxes s (projectedPixel project p) j) }) := by
  induction pts generalizing boxes with
  | nil =>
    unfold clusterLidarWithROI
    cases boxes[j]? <;> simp
  | cons p rest ih =>
    unfold clusterLidarWithROI
    rw [ih, clusterStep_getElem?]
    have hc : ∀ q, enclosedOnlyBy (clusterStep boxes s project p) s (projectedPixel project q) j =
        enclosedOnlyBy boxes s (projectedPixel project q) j :=
      fun q => enclosedOnlyBy_congr s _ _ _ j (clusterStep_map_roi boxes s project p)
    simp only [hc]
    cases boxes[j]? with
    | none => rfl
    | some b =>
      simp only [Option.map_some', List.filter_cons]
      by_cases he : enclosedOnlyBy boxes s (projectedPixel project p) j = true
      · simp [he]
      · simp [he]

theorem clusterLidarWithROI_map_roi (boxes : List BoundingBox) (pts : List LidarPoint)
    (s : Dbl) (project : LidarPoint → Dbl × Dbl × Dbl) :
    (clusterLidarWithROI boxes pts s project).map (fun b => b.roi) =
      boxes.map (fun b => b.roi) := by
  induction pts generalizing boxes with
  | nil => rfl
  | cons p rest ih =>
    unfold clusterLidarWithROI
    rw [ih, clusterStep_map_roi]

/-- C4. `clusterLidarWithROI` keeps the boxes in place and appends to the box at position `j`,
in input order, exactly the input points whose projected pixel lies in the shrunk region of
that box and in the shrunk region of no other box. Hence no point is appended to two boxes,
and a point enclosed by no shrunk region, or by several, is appended to none. -/
theorem clusterLidarWithROI_exclusive (boundingBoxes : List BoundingBox)
    (lidarPoints : List LidarPoint) (shrinkFactor : Dbl)
    (project : LidarPoint → Dbl × Dbl × Dbl) :
    (clusterLidarWithROI boundingBoxes lidarPoints shrinkFactor project).length =
        boundingBoxes.length
      ∧ (∀ j : Nat, (clusterLidarWithROI boundingBoxes lidarPoints shrinkFactor project)[j]? =
          (boundingBoxes[j]?).map (fun b =>
            { b with lidarPoints := b.lidarPoints ++ lidarPoints.filter (fun p =>
                enclosedOnlyBy boundingBoxes shrinkFactor (projectedPixel project p) j) }))
      ∧ (∀ (pt : Point) (i : Nat), enclosedOnlyBy boundingBoxes shrinkFactor pt i = true ↔
          (shrunkContains boundingBoxes shrinkFactor pt i = true ∧
            ∀ j, j ≠ i → shrunkContains boundingBoxes shrinkFactor pt j = false))
      ∧ (∀ (i j : Nat) (p : LidarPoint), i ≠ j →
          ¬ (p ∈ lidarPoints.filter (fun q =>
                enclosedOnlyBy boundingBoxes shrinkFactor (projectedPixel project q) i) ∧
              p ∈ lidarPoints.filter (fun q =>
                enclosedOnlyBy boundingBoxes shrinkFactor (projectedPixel project q) j)))
      ∧ (∀ pt : Point,
          ((∀ j, shrunkContains boundingBoxes shrinkFactor pt j = false) ∨
            (∃ j k, j ≠ k ∧ shrunkContains boundingBoxes shrinkFactor pt j = true ∧
              shrunkContains boundingBoxes shrinkFactor pt k = true)) →
          ∀ i, enclosedOnlyBy boundingBoxes shrinkFactor pt i = false) := by
  refine ⟨?_, clusterLidarWithROI_getElem? _ _ _ _, enclosedOnlyBy_iff _ _, ?_, ?_⟩
  · have h := congrArg List.length
      (clusterLidarWithROI_map_roi boundingBoxes lidarPoints shrinkFactor project)
    simpa using h
  · rintro i j p hij ⟨hi, hj⟩
    have hi' := (List.mem_filter.1 hi).2
    have hj' := (List.mem_filter.1 hj).2
    rw [enclosedOnlyBy_iff] at hi' hj'
    rw [hi'.2 j (fun h => hij h.symm)] at hj'
    exact absurd hj'.1 Bool.false_ne_true
  · intro pt h i
    cases hi : enclosedOnlyBy boundingBoxes shrinkFactor pt i
    · rfl
    · rw [enclosedOnlyBy_iff] at hi
      rcases h with h | ⟨j, k, hjk, hj, hk⟩
      · rw [h i] at hi
        exact absurd hi.1 Bool.false_ne_true
      · by_cases hji : j = i
        · have hki : k ≠ i := fun h => hjk (hji.trans h.symm)
          rw [hi.2 k hki] at hk
          exact absurd hk Bool.false_ne_true
        · rw [hi.2 j hji] at hj
          exact absurd hj Bool.false_ne_true

/-! ## matchBoundingBoxes and the keypoints of the current frame -/

theorem voteLoop_currKeypoints (prevFrame currFrame currFrame2 : DataFrame)
    (matchList : List DMatch) (counts : Table)
    (hb : currFrame2.boundingBoxes = currFrame.boundingBoxes)
    (hv : ValidMatches prevFrame.keypoints currFrame.keypoints matchList)
    (hv2 : ValidMatches prevFrame.keypoints currFrame2.keypoints matchList) :
    voteLoop prevFrame currFrame2 matchList counts =
      voteLoop prevFrame currFrame matchList counts := by
  induction matchList generalizing counts with
  | nil => rfl
  | cons m rest ih =>
    have hm := hv m (List.mem_cons_self _ _)
    have hm2 := hv2 m (List.mem_cons_self _ _)
    obtain ⟨a, ha⟩ := index_ok_of_valid prevFrame.keypoints m.queryIdx hm.1.1 hm.1.2
    obtain ⟨b, hb1⟩ := index_ok_of_valid currFrame.keypoints m.trainIdx hm.2.1 hm.2.2
    obtain ⟨b2, hb2⟩ := index_ok_of_valid currFrame2.keypoints m.trainIdx hm2.2.1 hm2.2.2
    have ih' := fun c => ih c (fun x hx => hv x (List.mem_cons_of_mem _ hx))
      (fun x hx => hv2 x (List.mem_cons_of_mem _ hx))
    unfold voteLoop
    simp only [ha, hb1, hb2, hb, bind, Except.bind]
    cases incrAll (boxIdsContaining currFrame.boundingBoxes a.pt.toPoint)
        (boxIdsContaining prevFrame.boundingBoxes a.pt.toPoint) counts with
    | error e => rfl
    | ok t => exact ih' t

/-- C17. Two runs of `matchBoundingBoxes` that agree on the matches, on the map on entry, on
the previous frame and on the boxes of the current frame, and differ in the keypoints of the
current frame (every index valid in both runs), give the same result: both containment tests
use the coordinates of the previous-frame keypoint. -/
theorem matchBoundingBoxes_ignores_current_keypoints (matchList : List DMatch)
    (bbBestMatches : List (Int × Int)) (prevFrame currFrame currFrame2 : DataFrame)
    (hb : currFrame2.boundingBoxes = currFrame.boundingBoxes)
    (hv : ValidMatches prevFrame.keypoints currFrame.keypoints matchList)
    (hv2 : ValidMatches prevFrame.keypoints currFrame2.keypoints matchList) :
    matchBoundingBoxes matchList bbBestMatches prevFrame currFrame2 =
      matchBoundingBoxes matchList bbBestMatches prevFrame currFrame := by
  unfold matchBoundingBoxes
  simp only [hb, voteLoop_currKeypoints prevFrame currFrame currFrame2 matchList _ hb hv hv2]

theorem matchBoundingBoxes_ignores_current_keypoints_witness :
    exCurrFrameMoved.keypoints ≠ exCurrFrame.keypoints ∧
      matchBoundingBoxes exEightMatches [] exPrevFrame exCurrFrameMoved =
        matchBoundingBoxes exEightMatches [] exPrevFrame exCurrFrame :=
  ⟨by decide!,
    matchBoundingBoxes_ignores_current_keypoints exEightMatches [] exPrevFrame exCurrFrame
      exCurrFrameMoved rfl (by unfold ValidMatches; decide!) (by unfold ValidMatches; decide!)⟩

/-! ## matchBoundingBoxes: the accesses to the vote table -/

theorem Table.incr_ok_iff (counts : Table) (p c : Int) :
    (∃ t, counts.incr p c = Except.ok t) ↔
      (0 ≤ p ∧ p < counts.rows ∧ 0 ≤ c ∧ c < counts.cols) := by
  unfold Table.incr
  constructor
  · rintro ⟨t, ht⟩
    by_contra h
    rw [if_neg h] at ht
    cases ht
  · intro h
    rw [if_pos h]
    exact ⟨_, rfl⟩

theorem voteLoop_ok (prevFrame currFrame : DataFrame) (matchList : List DMatch)
    (counts : Table)
    (hv : ValidMatches prevFrame.keypoints currFrame.keypoints matchList)
    (hP : IdsInTable prevFrame) (hC : IdsInTable currFrame)
    (hr : counts.rows = prevFrame.boundingBoxes.length)
    (hcl : counts.cols = currFrame.boundingBoxes.length) :
    ∃ t, voteLoop prevFrame currFrame matchList counts = Except.ok t := by
  induction matchList generalizing counts with
  | nil => exact ⟨counts, rfl⟩
  | cons m rest ih =>
    have hm := hv m (List.mem_cons_self _ _)
    have hrest : ValidMatches prevFrame.keypoints currFrame.keypoints rest :=
      fun x hx => hv x (List.mem_cons_of_mem _ hx)
    obtain ⟨a, ha⟩ := index_ok_of_valid prevFrame.keypoints m.queryIdx hm.1.1 hm.1.2
    obtain ⟨b, hb⟩ := index_ok_of_valid currFrame.keypoints m.trainIdx hm.2.1 hm.2.2
    obtain ⟨t1, h1, r1, c1, _⟩ := incrAll_spec
      (boxIdsContaining currFrame.boundingBoxes a.pt.toPoint)
      (boxIdsContaining prevFrame.boundingBoxes a.pt.toPoint) counts
      (boxIdsContaining_bounds _ _ _ (by rw [hr]; exact hP))
      (boxIdsContaining_bounds _ _ _ (by rw [hcl]; exact hC))
    obtain ⟨t2, h2⟩ := ih t1 hrest (r1.trans hr) (c1.trans hcl)
    refine ⟨t2, ?_⟩
    unfold voteLoop
    simp only [ha, hb, h1, bind, Except.bind]
    exact h2

theorem voteAccesses_bounds (prevFrame currFrame : DataFrame) (matchList : List DMatch)
    (hP : IdsInTable prevFrame) (hC : IdsInTable currFrame) :
    ∀ a ∈ voteAccesses prevFrame currFrame matchList,
      (0 ≤ a.1 ∧ a.1 < prevFrame.boundingBoxes.length) ∧
        (0 ≤ a.2 ∧ a.2 < currFrame.boundingBoxes.length) := by
  induction matchList with
  | nil => intro a ha; simp [voteAccesses] at ha
  | cons m rest ih =>
    intro a ha
    unfold voteAccesses at ha
    cases hq : index prevFrame.keypoints m.queryIdx with
    | error e => simp [hq] at ha
    | ok kp =>
      simp only [hq] at ha
      rcases List.mem_append.1 ha with h | h
      · obtain ⟨p, hp, hpc⟩ := List.mem_flatMap.1 h
        obtain ⟨c, hc, rfl⟩ := List.mem_map.1 hpc
        exact ⟨boxIdsContaining_bounds _ _ _ hP p hp, boxIdsContaining_bounds _ _ _ hC c hc⟩
      · exact ih a h

/-- C18. When every `boxID` of the previous frame lies in `[0, prevSize)`, every `boxID` of the
current frame in `[0, currentSize)` and every keypoint index is valid, every index pair on
which `counts[prevId][currId]++` is executed lies within the bounds of the table, the call
ends without an out-of-bounds access, and the selection loop reads rows below `prevSize` and
columns below `currentSize` only. -/
theorem matchBoundingBoxes_table_accesses_in_bounds (matchList : List DMatch)
    (bbBestMatches : List (Int × Int)) (prevFrame currFrame : DataFrame)
    (hv : ValidMatches prevFrame.keypoints currFrame.keypoints matchList)
    (hP : IdsInTable prevFrame) (hC : IdsInTable currFrame) :
    (∀ a ∈ voteAccesses prevFrame currFrame matchList,
        (0 ≤ a.1 ∧ a.1 < prevFrame.boundingBoxes.length) ∧
          (0 ≤ a.2 ∧ a.2 < currFrame.boundingBoxes.length))
      ∧ (∃ out, matchBoundingBoxes matchList bbBestMatches prevFrame currFrame = Except.ok out)
      ∧ (∀ i ∈ List.range prevFrame.boundingBoxes.length,
          ∀ j ∈ List.range currFrame.boundingBoxes.length,
            i < (Table.zeros prevFrame.boundingBoxes.length
                currFrame.boundingBoxes.length).rows ∧
              j < (Table.zeros prevFrame.boundingBoxes.length
                currFrame.boundingBoxes.length).cols)
      ∧ (∀ (counts : Table) (p c : Int), (∃ t, counts.incr p c = Except.ok t) ↔
          (0 ≤ p ∧ p < counts.rows ∧ 0 ≤ c ∧ c < counts.cols)) := by
  refine ⟨voteAccesses_bounds prevFrame currFrame matchList hP hC, ?_, ?_, Table.incr_ok_iff⟩
  · obtain ⟨t, ht⟩ := voteLoop_ok prevFrame currFrame matchList
      (Table.zeros prevFrame.boundingBoxes.length currFrame.boundingBoxes.length) hv hP hC rfl rfl
    refine ⟨bestLoop t currFrame.boundingBoxes.length
      (List.range prevFrame.boundingBoxes.length) bbBestMatches, ?_⟩
    unfold matchBoundingBoxes
    simp only [ht, bind, Except.bind]
    rfl
  · intro i hi j hj
    exact ⟨List.mem_range.1 hi, List.mem_range.1 hj⟩

theorem matchBoundingBoxes_table_accesses_in_bounds_witness :
    voteAccesses exOverlapFrame exOverlapFrame [⟨0, 0⟩, ⟨1, 1⟩] =
        [(1, 1), (1, 0), (0, 1), (0, 0), (0, 0)] ∧
      ∃ out, matchBoundingBoxes [⟨0, 0⟩, ⟨1, 1⟩] [] exOverlapFrame exOverlapFrame =
        Except.ok out :=
  ⟨by decide!,
    (matchBoundingBoxes_table_accesses_in_bounds [⟨0, 0⟩, ⟨1, 1⟩] [] exOverlapFrame
      exOverlapFrame (by unfold ValidMatches; decide!) (by unfold IdsInTable; decide!)
      (by unfold IdsInTable; decide!)).2.1⟩

/-! ## The pairs visited by computeTTCCamera -/

theorem innerLoop_eq (kptsPrev kptsCurr : List KeyPoint) (po co : KeyPoint) (l : List DMatch)
    (hv : ValidMatches kptsPrev kptsCurr l) (acc : List Dbl) :
    innerLoop kptsPrev kptsCurr po co l acc =
      Except.ok (acc ++ l.filterMap (fun m2 =>
        match pairRatio kptsPrev kptsCurr po co m2 with
        | Except.ok o => o
        | Except.error _ => none)) := by
  induction l generalizing acc with
  | nil => simp [innerLoop, pure, Except.pure]
  | cons m rest ih =>
    have hm := hv m (List.mem_cons_self _ _)
    have hrest : ValidMatches kptsPrev kptsCurr rest :=
      fun x hx => hv x (List.mem_cons_of_mem _ hx)
    obtain ⟨o, ho⟩ := pairRatio_ok_of_valid kptsPrev kptsCurr po co m hm.1 hm.2
    unfold innerLoop
    simp only [ho, bind, Except.bind, List.filterMap_cons]
    cases o with
    | none => exact ih hrest acc
    | some r =>
      show innerLoop kptsPrev kptsCurr po co rest (acc ++ [r]) = _
      rw [ih hrest]
      simp

theorem outerLoop_eq (kptsPrev kptsCurr : List KeyPoint) (kptMatches l : List DMatch)
    (hall : ValidMatches kptsPrev kptsCurr kptMatches) (hv : ValidMatches kptsPrev kptsCurr l)
    (acc : List Dbl) :
    outerLoop kptsPrev kptsCurr kptMatches l acc =
      Except.ok (acc ++ l.flatMap (fun m1 =>
        (kptMatches.drop 1).filterMap (ratioOf kptsPrev kptsCurr m1))) := by
  induction l generalizing acc with
  | nil => simp [outerLoop, pure, Except.pure]
  | cons m rest ih =>
    have hm := hv m (List.mem_cons_self _ _)
    have hrest : ValidMatches kptsPrev kptsCurr rest :=
      fun x hx => hv x (List.mem_cons_of_mem _ hx)
    have hdrop : ValidMatches kptsPrev kptsCurr (kptMatches.drop 1) :=
      fun x hx => hall x (List.mem_of_mem_drop hx)
    obtain ⟨a, ha⟩ := index_ok_of_valid kptsPrev m.queryIdx hm.1.1 hm.1.2
    obtain ⟨b, hb⟩ := index_ok_of_valid kptsCurr m.trainIdx hm.2.1 hm.2.2
    unfold outerLoop
    simp only [ha, hb, bind, Except.bind, innerLoop_eq kptsPrev kptsCurr a b _ hdrop]
    rw [ih hrest]
    have e : (fun m2 => match pairRatio kptsPrev kptsCurr a b m2 with
        | Except.ok o => o
        | Except.error _ => none) = ratioOf kptsPrev kptsCurr m := by
      funext m2
      simp only [ratioOf, ha, hb]
    simp only [List.flatMap_cons, e, List.append_assoc]

/-- C12 (what the code does). With valid indices, `distRatios` holds one entry for every
ordered pair `(m1, m2)` that passes the test, `m1` ranging over all the matches and `m2` over
the matches from the second one on (`kptMatches.begin() + 1`): a match is paired with itself,
and two distinct matches that are both beyond the first are paired twice. -/
theorem computeTTCCamera_collects_ordered_pairs (kptsPrev kptsCurr : List KeyPoint)
    (kptMatches : List DMatch) (hv : ValidMatches kptsPrev kptsCurr kptMatches) :
    collectRatios kptsPrev kptsCurr kptMatches =
      Except.ok (kptMatches.flatMap (fun m1 =>
        (kptMatches.drop 1).filterMap (ratioOf kptsPrev kptsCurr m1))) := by
  unfold collectRatios
  rw [outerLoop_eq kptsPrev kptsCurr kptMatches kptMatches hv hv []]
  rfl

theorem computeTTCCamera_collects_ordered_pairs_witness :
    collectRatios exThreePrev exThreeCurr exThreeMatches =
        Except.ok [dbl (11 / 10), dbl (23 / 20), dbl (6 / 5), dbl (6 / 5)] ∧
      ratioOf exThreePrev exThreeCurr ⟨1, 1⟩ ⟨2, 2⟩ = some (dbl (6 / 5)) ∧
      ratioOf exThreePrev exThreeCurr ⟨2, 2⟩ ⟨1, 1⟩ = some (dbl (6 / 5)) := by
  refine ⟨?_, by decide!, by decide!⟩
  rw [computeTTCCamera_collects_ordered_pairs exThreePrev exThreeCurr exThreeMatches
    (by unfold ValidMatches; decide!)]
  decide!

/-! ## The entries of the map produced by matchBoundingBoxes -/

theorem mapAssign_append (m : List (Int × Int)) (key value : Int)
    (h : ∀ e ∈ m, e.1 < key) : mapAssign m key value = m ++ [(key, value)] := by
  induction m with
  | nil => rfl
  | cons e rest ih =>
    obtain ⟨k, v⟩ := e
    have hk : k < key := h (k, v) (List.mem_cons_self _ _)
    unfold mapAssign
    rw [if_neg (by omega), if_neg (by omega), ih (fun e he => h e (List.mem_cons_of_mem _ he))]
    rfl

theorem bestLoop_append (counts : Table) (currentSize : Nat) (len k : Nat)
    (m : List (Int × Int)) (h : ∀ e ∈ m, e.1 < (k : Int)) :
    bestLoop counts currentSize (List.range' k len) m =
      m ++ (List.range' k len).map
        (fun (i : Nat) => ((i : Int), bestInRow counts i (List.range currentSize) 0 0)) := by
  induction len generalizing k m with
  | zero => simp [bestLoop]
  | succ len ih =>
    rw [List.range'_succ]
    unfold bestLoop
    rw [mapAssign_append m _ _ h, ih]
    · simp
    · intro e he
      rcases List.mem_append.1 he with h1 | h1
      · have := h e h1
        omega
      · have : e = ((k : Int), bestInRow counts k (List.range currentSize) 0 0) := by
          simpa using h1
        rw [this]
        simp

theorem bestInRow_range_bounds (counts : Table) (i currentSize : Nat) :
    0 ≤ bestInRow counts i (List.range currentSize) 0 0 ∧
      (bestInRow counts i (List.range currentSize) 0 0 = 0 ∨
        bestInRow counts i (List.range currentSize) 0 0 < currentSize) := by
  obtain ⟨mc, h⟩ := bestInRow_spec counts i currentSize 0 0 0 (bestSoFar_start _)
  rw [Nat.zero_add, ← List.range_eq_range'] at h
  rcases h with ⟨h1, _, _⟩ | ⟨h1, h2, _⟩
  · exact ⟨by omega, Or.inl h1⟩
  · exact ⟨h1, Or.inr h2⟩

/-- Distinct ids within `[0, n)`, `n` the number of boxes, are exactly the ids `0 .. n-1`. -/
theorem ids_cover (frame : DataFrame) (h : IdsWithinBounds frame) (j : Nat)
    (hj : j < frame.boundingBoxes.length) : ∃ b ∈ frame.boundingBoxes, b.boxID = (j : Int) := by
  obtain ⟨hnd, hb⟩ := h
  have hnd' : ((frame.boundingBoxes.map (fun b => b.boxID)).map Int.toNat).Nodup := by
    apply List.Nodup.map_on _ hnd
    intro x hx y hy hxy
    obtain ⟨bx, hbx, rfl⟩ := List.mem_map.1 hx
    obtain ⟨b', hb', rfl⟩ := List.mem_map.1 hy
    have := hb bx hbx
    have := hb b' hb'
    omega
  have hsub : ((frame.boundingBoxes.map (fun b => b.boxID)).map Int.toNat) ⊆
      List.range frame.boundingBoxes.length := by
    intro x hx
    obtain ⟨y, hy, rfl⟩ := List.mem_map.1 hx
    obtain ⟨b, hbm, rfl⟩ := List.mem_map.1 hy
    have := hb b hbm
    exact List.mem_range.2 (by omega)
  have hperm := (hnd'.subperm hsub).perm_of_length_le (by simp)
  have hmem : j ∈ ((frame.boundingBoxes.map (fun b => b.boxID)).map Int.toNat) :=
    hperm.mem_iff.2 (List.mem_range.2 hj)
  obtain ⟨y, hy, hyj⟩ := List.mem_map.1 hmem
  obtain ⟨b, hbm, rfl⟩ := List.mem_map.1 hy
  have := hb b hbm
  exact ⟨b, hbm, by omega⟩

theorem matchBoundingBoxes_eq_of_voteLoop (matchList : List DMatch)
    (prevFrame currFrame : DataFrame) (t : Table)
    (ht : voteLoop prevFrame currFrame matchList
      (Table.zeros prevFrame.boundingBoxes.length currFrame.boundingBoxes.length) = Except.ok t) :
    matchBoundingBoxes matchList [] prevFrame currFrame =
      Except.ok ((List.range prevFrame.boundingBoxes.length).map
        (fun (i : Nat) =>
          ((i : Int), bestInRow t i (List.range currFrame.boundingBoxes.length) 0 0))) := by
  unfold matchBoundingBoxes
  simp only [ht, bind, Except.bind]
  rw [List.range_eq_range', bestLoop_append t _ _ 0 [] (by simp)]
  rfl

/-- C14 (counterexample). With a current frame that has no box, the single previous box is
mapped to the value 0, which is the `boxID` of no current box; and a previous frame whose
single box has `boxID` 7 gives a map whose single key is 0, not 7. -/
theorem matchBoundingBoxes_entries_not_boxIDs :
    (matchBoundingBoxes [] [] exOneBoxFrame exNoBoxFrame = Except.ok [(0, 0)] ∧
        ¬ ∃ b ∈ exNoBoxFrame.boundingBoxes, b.boxID = 0)
      ∧ (matchBoundingBoxes [] [] exSparseFrame exOneBoxFrame = Except.ok [(0, 0)] ∧
        exSparseFrame.boundingBoxes.map (fun b => b.boxID) = [7]) := by
  refine ⟨⟨by decide!, by decide!⟩, ⟨by decide!, by decide!⟩⟩

/-- C14 (amended). When in both frames the box ids are distinct and lie in `[0, number of
boxes)`, the current frame has at least one box, the keypoint indices are valid and the map is
empty on entry, the map `matchBoundingBoxes` produces has exactly one entry per previous box,
keyed by the `boxID` of that box, and the value of every entry is the `boxID` of a box of the
current frame. -/
theorem matchBoundingBoxes_one_entry_per_box (matchList : List DMatch)
    (prevFrame currFrame : DataFrame)
    (hv : ValidMatches prevFrame.keypoints currFrame.keypoints matchList)
    (hP : IdsWithinBounds prevFrame) (hC : IdsWithinBounds currFrame)
    (hne : currFrame.boundingBoxes ≠ []) :
    ∃ out, matchBoundingBoxes matchList [] prevFrame currFrame = Except.ok out ∧
      out.length = prevFrame.boundingBoxes.length ∧
      (out.map Prod.fst).Perm (prevFrame.boundingBoxes.map (fun b => b.boxID)) ∧
      (∀ e ∈ out, ∃ b ∈ currFrame.boundingBoxes, b.boxID = e.2) := by
  obtain ⟨t, ht⟩ := voteLoop_ok prevFrame currFrame matchList
    (Table.zeros prevFrame.boundingBoxes.length currFrame.boundingBoxes.length) hv hP.2 hC.2
    rfl rfl
  refine ⟨_, matchBoundingBoxes_eq_of_voteLoop matchList prevFrame currFrame t ht, ?_, ?_, ?_⟩
  · simp
  · have hkeys : ((List.range prevFrame.boundingBoxes.length).map
        (fun (i : Nat) =>
          ((i : Int), bestInRow t i (List.range currFrame.boundingBoxes.length) 0 0))).map
        Prod.fst = (List.range prevFrame.boundingBoxes.length).map (fun (i : Nat) => (i : Int)) := by
      simp [List.map_map, Function.comp_def]
    rw [hkeys]
    apply (List.perm_ext_iff_of_nodup _ hP.1).2
    · intro k
      constructor
      · intro hk
        obtain ⟨i, hi, rfl⟩ := List.mem_map.1 hk
        obtain ⟨b, hb, hbi⟩ := ids_cover prevFrame hP i (List.mem_range.1 hi)
        exact List.mem_map.2 ⟨b, hb, hbi⟩
      · intro hk
        obtain ⟨b, hb, rfl⟩ := List.mem_map.1 hk
        have := hP.2 b hb
        exact List.mem_map.2 ⟨b.boxID.toNat, List.mem_range.2 (by omega), by omega⟩
    · exact (List.nodup_range _).map (fun a b h => by simpa using h)
  · intro e he
    obtain ⟨i, _, rfl⟩ := List.mem_map.1 he
    have hpos : 0 < currFrame.boundingBoxes.length := List.length_pos.2 hne
    obtain ⟨h0, h1⟩ := bestInRow_range_bounds t i currFrame.boundingBoxes.length
    have hlt : bestInRow t i (List.range currFrame.boundingBoxes.length) 0 0 <
        currFrame.boundingBoxes.length := by
      rcases h1 with h1 | h1
      · rw [h1]
        exact_mod_cast hpos
      · exact h1
    obtain ⟨b, hb, hbi⟩ := ids_cover currFrame hC
      (bestInRow t i (List.range currFrame.boundingBoxes.length) 0 0).toNat (by omega)
    exact ⟨b, hb, by simp only []; omega⟩

theorem matchBoundingBoxes_one_entry_per_box_witness :
    matchBoundingBoxes exEightMatches [] exCurrFrame exPrevFrame = Except.ok [(0, 0), (1, 0)] ∧
      ∃ out, matchBoundingBoxes exEightMatches [] exCurrFrame exPrevFrame = Except.ok out ∧
        out.length = exCurrFrame.boundingBoxes.length :=
  ⟨by decide!, by
    obtain ⟨out, h1, h2, _⟩ := matchBoundingBoxes_one_entry_per_box exEightMatches exCurrFrame
      exPrevFrame (by unfold ValidMatches; decide!) (by unfold IdsWithinBounds; decide!)
      (by unfold IdsWithinBounds; decide!) (by decide)
    exact ⟨out, h1, h2⟩⟩

/-! ## The rounding function: error bounds -/

theorem pow2_eq (e : Int) : pow2 e = (2 : ℚ) ^ e := by
  unfold pow2
  split_ifs with h
  · obtain ⟨n, rfl⟩ := Int.eq_ofNat_of_zero_le h
    simp
  · have h' : 0 ≤ -e := by omega
    obtain ⟨n, hn⟩ := Int.eq_ofNat_of_zero_le h'
    have he : e = -(n : Int) := by omega
    subst he
    simp

theorem pow2_pos (e : Int) : 0 < pow2 e := by
  rw [pow2_eq]
  positivity

theorem pow2_add (a b : Int) : pow2 (a + b) = pow2 a * pow2 b := by
  simp only [pow2_eq]
  exact zpow_add₀ (by norm_num) a b

theorem pow2_le {a b : Int} (h : a ≤ b) : pow2 a ≤ pow2 b := by
  simp only [pow2_eq]
  exact zpow_le_zpow_right₀ (by norm_num) h

theorem pow2_lt {a b : Int} (h : a < b) : pow2 a < pow2 b := by
  simp only [pow2_eq]
  exact zpow_lt_zpow_right₀ (by norm_num) h

theorem pow2_succ (a : Int) : pow2 (a + 1) = 2 * pow2 a := by
  rw [pow2_add, mul_comm]
  congr 1

theorem pow2_natCast (n : Nat) : pow2 (n : Int) = (2 : ℚ) ^ n := by
  rw [pow2_eq, zpow_natCast]

theorem bitLenAux_spec : ∀ (fuel n : Nat), n ≤ fuel → 0 < n →
    2 ^ (bitLenAux fuel n) ≤ 2 * n ∧ n < 2 ^ (bitLenAux fuel n)
  | 0, n, h, hn => by omega
  | fuel + 1, n, h, hn => by
    have hn0 : n ≠ 0 := by omega
    simp only [bitLenAux, hn0, if_false]
    by_cases h1 : n / 2 = 0
    · have : n = 1 := by omega
      subst this
      cases fuel <;> simp [bitLenAux]
    · have ih := bitLenAux_spec fuel (n / 2) (by omega) (by omega)
      rw [pow_succ]
      constructor
      · have := ih.1
        omega
      · have := ih.2
        omega

theorem bitLen_spec (n : Nat) (hn : 0 < n) : 2 ^ bitLen n ≤ 2 * n ∧ n < 2 ^ bitLen n :=
  bitLenAux_spec n n le_rfl hn

theorem floorLog2_spec (q : ℚ) (hq : 0 < q) :
    pow2 (floorLog2 q) ≤ q ∧ q < pow2 (floorLog2 q + 1) := by
  have hnum : 0 < q.num := Rat.num_pos.mpr hq
  have hden : 0 < q.den := q.den_pos
  have hn := bitLen_spec q.num.natAbs (by omega)
  have hd := bitLen_spec q.den hden
  set bn := bitLen q.num.natAbs with hbn
  set bd := bitLen q.den with hbd
  have hqD : q * (q.den : ℚ) = (q.num.natAbs : ℚ) := by
    have h1 : ((q.num.natAbs : Nat) : ℚ) = (q.num : ℚ) := by
      rw [← Int.cast_natCast, Int.natAbs_of_nonneg hnum.le]
    rw [h1]
    exact Rat.mul_den_eq_num q
  have n1 : (2 : ℚ) ^ bn ≤ 2 * (q.num.natAbs : ℚ) := by exact_mod_cast hn.1
  have n2 : (q.num.natAbs : ℚ) < (2 : ℚ) ^ bn := by exact_mod_cast hn.2
  have d1 : (2 : ℚ) ^ bd ≤ 2 * (q.den : ℚ) := by exact_mod_cast hd.1
  have d2 : (q.den : ℚ) < (2 : ℚ) ^ bd := by exact_mod_cast hd.2
  have e1 : pow2 ((bn : Int) - (bd : Int)) = (2 : ℚ) ^ bn / (2 : ℚ) ^ bd := by
    rw [pow2_eq, zpow_sub₀ (by norm_num), zpow_natCast, zpow_natCast]
  have hbdpos : (0 : ℚ) < (2 : ℚ) ^ bd := by positivity
  have up : q < 2 * pow2 ((bn : Int) - (bd : Int)) := by
    rw [e1, ← mul_div_assoc, lt_div_iff₀ hbdpos]
    calc q * (2 : ℚ) ^ bd ≤ q * (2 * (q.den : ℚ)) := mul_le_mul_of_nonneg_left d1 hq.le
      _ = 2 * (q * (q.den : ℚ)) := by ring
      _ < 2 * (2 : ℚ) ^ bn := by rw [hqD]; linarith
  have lo : pow2 ((bn : Int) - (bd : Int)) < 2 * q := by
    rw [e1, div_lt_iff₀ hbdpos]
    calc (2 : ℚ) ^ bn ≤ 2 * (q * (q.den : ℚ)) := by rw [hqD]; exact n1
      _ = 2 * q * (q.den : ℚ) := by ring
      _ < 2 * q * (2 : ℚ) ^ bd := mul_lt_mul_of_pos_left d2 (by linarith)
  unfold floorLog2
  simp only [← hbn, ← hbd]
  split_ifs with h
  · exact ⟨h, by rw [pow2_succ]; exact up⟩
  · have h' : q < pow2 ((bn : Int) - (bd : Int)) := lt_of_not_le h
    have e2 : pow2 ((bn : Int) - (bd : Int)) = 2 * pow2 ((bn : Int) - (bd : Int) - 1) := by
      rw [← pow2_succ]
      congr 1
      ring
    constructor
    · rw [e2] at lo
      linarith
    · rw [show (bn : Int) - (bd : Int) - 1 + 1 = (bn : Int) - (bd : Int) by ring]
      exact h'
theorem pow2_lt_iff {a b : Int} : pow2 a < pow2 b ↔ a < b := by
  constructor
  · intro h
    by_contra hn
    exact absurd (pow2_le (not_lt.mp hn)) (not_le.mpr h)
  · exact pow2_lt

theorem floorLog2_eq {q : ℚ} {e : Int} (h1 : pow2 e ≤ q) (h2 : q < pow2 (e + 1)) :
    floorLog2 q = e := by
  have hq : 0 < q := lt_of_lt_of_le (pow2_pos e) h1
  obtain ⟨s1, s2⟩ := floorLog2_spec q hq
  have a : floorLog2 q < e + 1 := pow2_lt_iff.mp (lt_of_le_of_lt s1 h2)
  have b : e < floorLog2 q + 1 := pow2_lt_iff.mp (lt_of_le_of_lt h1 s2)
  omega

theorem rat_floor_eq (x : ℚ) : x.floor = ⌊x⌋ := rfl

theorem roundHalfEven_sub_le (x : ℚ) : |((roundHalfEven x : Int) : ℚ) - x| ≤ 1 / 2 := by
  have h1 : ((⌊x⌋ : Int) : ℚ) ≤ x := Int.floor_le x
  have h2 : x < ((⌊x⌋ : Int) : ℚ) + 1 := Int.lt_floor_add_one x
  unfold roundHalfEven
  simp only [rat_floor_eq]
  rw [abs_le]
  split_ifs with c1 c2 c3
  · constructor <;> linarith
  · push_cast
    constructor <;> linarith
  · have : x - ((⌊x⌋ : Int) : ℚ) = 1 / 2 := le_antisymm (not_lt.mp c2) (not_lt.mp c1)
    constructor <;> linarith
  · have : x - ((⌊x⌋ : Int) : ℚ) = 1 / 2 := le_antisymm (not_lt.mp c2) (not_lt.mp c1)
    push_cast
    constructor <;> linarith

theorem roundHalfEven_intCast (m : Int) : roundHalfEven (m : ℚ) = m := by
  unfold roundHalfEven
  simp [rat_floor_eq]

theorem roundHalfEven_nonneg {x : ℚ} (hx : 0 ≤ x) : 0 ≤ roundHalfEven x := by
  have hf : 0 ≤ ⌊x⌋ := Int.floor_nonneg.mpr hx
  unfold roundHalfEven
  simp only [rat_floor_eq]
  split_ifs <;> omega

theorem round_of_pos (F : Fmt) (n : Bool) {q : ℚ} (hq : 0 < q) :
    round F n q =
      if pow2 F.emax ≤ (roundHalfEven (q / pow2 (quantum F (floorLog2 q))) : ℚ) *
          pow2 (quantum F (floorLog2 q)) then Dbl.inf false
      else if (roundHalfEven (q / pow2 (quantum F (floorLog2 q))) : ℚ) *
          pow2 (quantum F (floorLog2 q)) = 0 then Dbl.zero false
      else Dbl.num ((roundHalfEven (q / pow2 (quantum F (floorLog2 q))) : ℚ) *
          pow2 (quantum F (floorLog2 q))) := by
  have h0 : q ≠ 0 := ne_of_gt hq
  have hneg : ¬ q < 0 := not_lt.mpr hq.le
  unfold round roundMag
  simp only [h0, if_false, abs_of_pos hq, hneg, decide_False]
  split_ifs <;> simp_all

theorem round_neg_arg (F : Fmt) (n m : Bool) {q : ℚ} (hq : q ≠ 0) :
    round F n (-q) = Dbl.neg (round F m q) := by
  have hq' : -q ≠ 0 := neg_ne_zero.mpr hq
  unfold round
  simp only [hq, hq', if_false, abs_neg]
  cases hr : roundMag F |q| with
  | none =>
    simp only [Dbl.neg]
    rcases lt_or_gt_of_ne hq with h | h
    · have : ¬ (-q < 0) := by linarith
      simp [h, this]
    · have : ¬ (q < 0) := by linarith
      have h2 : -q < 0 := by linarith
      simp [h2, this]
  | some v =>
    simp only
    by_cases hv : v = 0
    · simp only [hv, if_true, Dbl.neg]
      rcases lt_or_gt_of_ne hq with h | h
      · have : ¬ (-q < 0) := by linarith
        simp [h, this]
      · have : ¬ (q < 0) := by linarith
        have h2 : -q < 0 := by linarith
        simp [h2, this]
    · simp only [hv, if_false]
      rcases lt_or_gt_of_ne hq with h | h
      · have : ¬ (-q < 0) := by linarith
        simp [h, this, Dbl.neg, hv]
      · have : ¬ (q < 0) := by linarith
        have h2 : -q < 0 := by linarith
        simp [h2, this, Dbl.neg, hv]
/-- Rounding a positive value of the normal range: the result is a finite non-zero value
within the relative error `2 ^ (-prec)`. -/
theorem round_normal_pos (F : Fmt) (hp : 1 ≤ F.prec) (n : Bool) {q : ℚ} (hq : 0 < q)
    (hlo : pow2 (F.emin + (F.prec : Int) - 1) ≤ q)
    (hhi : q * (1 + pow2 (-(F.prec : Int))) < pow2 F.emax) :
    ∃ v, round F n q = Dbl.num v ∧ |v - q| ≤ q * pow2 (-(F.prec : Int)) ∧ 0 < v := by
  obtain ⟨s1, s2⟩ := floorLog2_spec q hq
  set e := floorLog2 q with he
  have hge : F.emin + (F.prec : Int) - 1 ≤ e := by
    have : F.emin + (F.prec : Int) - 1 < e + 1 := pow2_lt_iff.mp (lt_of_le_of_lt hlo s2)
    omega
  have hquant : quantum F e = e - ((F.prec : Int) - 1) := by
    unfold quantum
    exact max_eq_left (by omega)
  set u := pow2 (quantum F e) with hu
  have hupos : 0 < u := pow2_pos _
  have hu2 : u = 2 * pow2 e * pow2 (-(F.prec : Int)) := by
    rw [hu, hquant, show e - ((F.prec : Int) - 1) = (e + -(F.prec : Int)) + 1 by ring,
      pow2_succ, pow2_add]
    ring
  have hεpos : 0 < pow2 (-(F.prec : Int)) := pow2_pos _
  have hε : pow2 (-(F.prec : Int)) ≤ 1 / 2 := by
    have : pow2 (-(F.prec : Int)) ≤ pow2 (-1) := pow2_le (by omega)
    have h1 : pow2 (-1) = 1 / 2 := by decide!
    linarith
  have hr := roundHalfEven_sub_le (q / u)
  set r : ℚ := ((roundHalfEven (q / u) : Int) : ℚ) with hrdef
  have herr : |r * u - q| ≤ q * pow2 (-(F.prec : Int)) := by
    have h1 : r * u - q = (r - q / u) * u := by
      field_simp
    rw [h1, abs_mul, abs_of_pos hupos]
    calc |r - q / u| * u ≤ 1 / 2 * u := mul_le_mul_of_nonneg_right hr hupos.le
      _ = pow2 e * pow2 (-(F.prec : Int)) := by rw [hu2]; ring
      _ ≤ q * pow2 (-(F.prec : Int)) := mul_le_mul_of_nonneg_right s1 hεpos.le
  have hb := abs_le.mp herr
  have hvpos : 0 < r * u := by
    have : q * pow2 (-(F.prec : Int)) ≤ q * (1 / 2) := mul_le_mul_of_nonneg_left hε hq.le
    linarith [hb.1]
  have hvlt : r * u < pow2 F.emax := by
    have : r * u ≤ q * (1 + pow2 (-(F.prec : Int))) := by linarith [hb.2]
    linarith
  refine ⟨r * u, ?_, herr, hvpos⟩
  rw [round_of_pos F n hq]
  simp only [← he, ← hu, ← hrdef]
  rw [if_neg (not_le.mpr hvlt), if_neg (ne_of_gt hvpos)]

/-- Rounding a non-zero value of the normal range, of either sign. -/
theorem round_normal (F : Fmt) (hp : 1 ≤ F.prec) (n : Bool) {q : ℚ}
    (hlo : pow2 (F.emin + (F.prec : Int) - 1) ≤ |q|)
    (hhi : |q| * (1 + pow2 (-(F.prec : Int))) < pow2 F.emax) :
    ∃ v, round F n q = Dbl.num v ∧ |v - q| ≤ |q| * pow2 (-(F.prec : Int)) ∧
      (0 < q → 0 < v) ∧ (q < 0 → v < 0) := by
  have habs : 0 < |q| := lt_of_lt_of_le (pow2_pos _) hlo
  have hq0 : q ≠ 0 := abs_pos.mp habs
  rcases lt_or_gt_of_ne hq0 with hneg | hpos
  · have hq' : 0 < -q := by linarith
    rw [abs_of_neg hneg] at hlo hhi
    obtain ⟨v, hv, herr, hvpos⟩ := round_normal_pos F hp n hq' hlo hhi
    refine ⟨-v, ?_, ?_, ?_, ?_⟩
    · have h := round_neg_arg F n n (ne_of_gt hq')
      rw [neg_neg] at h
      rw [h, hv]
      simp [Dbl.neg, ne_of_gt hvpos]
    · rw [abs_of_neg hneg]
      have : -v - q = -(v - -q) := by ring
      rw [this, abs_neg]
      exact herr
    · intro h
      linarith
    · intro _
      linarith
  · rw [abs_of_pos hpos] at hlo hhi
    obtain ⟨v, hv, herr, hvpos⟩ := round_normal_pos F hp n hpos hlo hhi
    refine ⟨v, hv, ?_, fun _ => hvpos, fun h => ?_⟩
    · rw [abs_of_pos hpos]
      exact herr
    · linarith

/-- The unit roundoff of `double`. -/
theorem pow2_neg53 : pow2 (-53) = 1 / 9007199254740992 := by decide!

/-- Rounding to `double` a value of magnitude between `2 ^ (-1022)` and `2 ^ 1023`. -/
theorem round64 (n : Bool) {q : ℚ} (hlo : pow2 (-1022) ≤ |q|) (hhi : |q| ≤ pow2 1023) :
    ∃ v, round binary64 n q = Dbl.num v ∧ |v - q| ≤ |q| * pow2 (-53) ∧
      (0 < q → 0 < v) ∧ (q < 0 → v < 0) := by
  have habs : 0 < |q| := lt_of_lt_of_le (pow2_pos _) hlo
  apply round_normal binary64 (by decide) n
  · exact hlo
  · show |q| * (1 + pow2 (-53)) < pow2 1024
    have h2 : pow2 1024 = 2 * pow2 1023 := by
      rw [← pow2_succ]
      rfl
    have h3 : pow2 (-53) < 1 := by
      rw [pow2_neg53]
      norm_num
    have h4 : 0 < pow2 1023 := pow2_pos _
    nlinarith
/-! ## The sign of the Lidar time-to-collision -/

theorem Dbl.div_num (F : Fmt) (a b : ℚ) (hb : b ≠ 0) :
    Dbl.div F (Dbl.num a) (Dbl.num b) =
      round F (xor (decide (a < 0)) (decide (b < 0))) (a / b) := by
  simp [Dbl.div, Dbl.toRat, Dbl.sign, hb]

theorem Dbl.mul_num (F : Fmt) (a b : ℚ) :
    Dbl.mul F (Dbl.num a) (Dbl.num b) =
      round F (xor (decide (a < 0)) (decide (b < 0))) (a * b) := by
  simp [Dbl.mul, Dbl.toRat, Dbl.sign]

theorem Dbl.sub_num (F : Fmt) (a b : ℚ) (hb : b ≠ 0) :
    Dbl.sub F (Dbl.num a) (Dbl.num b) =
      round F (decide (a < 0) && decide (-b < 0)) (a - b) := by
  simp [Dbl.sub, Dbl.neg, Dbl.add, Dbl.toRat, Dbl.sign, hb, sub_eq_add_neg]

theorem pow2_pred (a : Int) : pow2 (a - 1) = pow2 a / 2 := by
  have := pow2_succ (a - 1)
  rw [show a - 1 + 1 = a by ring] at this
  linarith

/-- Rounding to `double` a value of magnitude between `2 ^ a` and `2 ^ b`, well inside the
normal range: the result is finite, of the same sign, of magnitude between `2 ^ (a - 1)` and
`2 ^ (b + 1)`. -/
theorem round64_bounds (n : Bool) {q : ℚ} {a b : Int} (ha : -1022 ≤ a) (hb : b ≤ 1023)
    (hlo : pow2 a ≤ |q|) (hhi : |q| ≤ pow2 b) :
    ∃ v, round binary64 n q = Dbl.num v ∧ pow2 (a - 1) ≤ |v| ∧ |v| ≤ pow2 (b + 1) ∧
      (0 < q → 0 < v) ∧ (q < 0 → v < 0) := by
  obtain ⟨v, hv, herr, hpos, hneg⟩ :=
    round64 n (le_trans (pow2_le ha) hlo) (le_trans hhi (pow2_le hb))
  have habs : 0 < |q| := lt_of_lt_of_le (pow2_pos _) hlo
  have hε : |q| * pow2 (-53) ≤ |q| / 2 := by
    rw [pow2_neg53]
    linarith
  have h1 : |q| - |v| ≤ |v - q| := by
    rw [abs_sub_comm v q]
    exact abs_sub_abs_le_abs_sub q v
  have h2 : |v| - |q| ≤ |v - q| := abs_sub_abs_le_abs_sub v q
  refine ⟨v, hv, ?_, ?_, hpos, hneg⟩
  · rw [pow2_pred]
    linarith
  · rw [pow2_succ]
    linarith

theorem abs_div_bounds {x y : ℚ} {a1 b1 a2 b2 : Int} (hx1 : pow2 a1 ≤ |x|) (hx2 : |x| ≤ pow2 b1)
    (hy1 : pow2 a2 ≤ |y|) (hy2 : |y| ≤ pow2 b2) :
    pow2 (a1 - b2) ≤ |x / y| ∧ |x / y| ≤ pow2 (b1 - a2) := by
  have hy : 0 < |y| := lt_of_lt_of_le (pow2_pos _) hy1
  have hx : 0 < |x| := lt_of_lt_of_le (pow2_pos _) hx1
  rw [abs_div]
  constructor
  · rw [le_div_iff₀ hy]
    calc pow2 (a1 - b2) * |y| ≤ pow2 (a1 - b2) * pow2 b2 :=
          mul_le_mul_of_nonneg_left hy2 (pow2_pos _).le
      _ = pow2 a1 := by rw [← pow2_add]; congr 1; ring
      _ ≤ |x| := hx1
  · rw [div_le_iff₀ hy]
    calc |x| ≤ pow2 b1 := hx2
      _ = pow2 (b1 - a2) * pow2 a2 := by rw [← pow2_add]; congr 1; ring
      _ ≤ pow2 (b1 - a2) * |y| := mul_le_mul_of_nonneg_left hy1 (pow2_pos _).le

theorem abs_mul_bounds {x y : ℚ} {a1 b1 a2 b2 : Int} (hx1 : pow2 a1 ≤ |x|) (hx2 : |x| ≤ pow2 b1)
    (hy1 : pow2 a2 ≤ |y|) (hy2 : |y| ≤ pow2 b2) :
    pow2 (a1 + a2) ≤ |x * y| ∧ |x * y| ≤ pow2 (b1 + b2) := by
  rw [abs_mul, pow2_add, pow2_add]
  exact ⟨mul_le_mul hx1 hy1 (pow2_pos _).le (abs_nonneg _),
    mul_le_mul hx2 hy2 (abs_nonneg _) (pow2_pos _).le⟩

/-! ## The square root: error bounds -/

theorem isqrtAux_eq (n : Nat) (hn : 0 < n) : ∀ (fuel x : Nat), Nat.sqrt n ≤ x → 0 < x →
    x - Nat.sqrt n < 2 ^ fuel → Dbl.isqrtAux n fuel x = Nat.sqrt n
  | 0, x, h1, _, h2 => by
    simp only [Dbl.isqrtAux]
    simp at h2
    omega
  | fuel + 1, x, h1, hx, h2 => by
    have hr1 : Nat.sqrt n * Nat.sqrt n ≤ n := Nat.sqrt_le n
    have hr2 : n < (Nat.sqrt n + 1) * (Nat.sqrt n + 1) := Nat.lt_succ_sqrt n
    have hrpos : 0 < Nat.sqrt n := Nat.sqrt_pos.mpr hn
    simp only [Dbl.isqrtAux]
    by_cases hxr : x = Nat.sqrt n
    · -- at the root the iteration stops
      have hdiv : Nat.sqrt n ≤ n / x := by
        rw [hxr, Nat.le_div_iff_mul_le hrpos]
        exact hr1
      have : ¬ (x + n / x) / 2 < x := by
        rw [hxr] at hdiv ⊢
        omega
      rw [if_neg this, hxr]
    · have hgt : Nat.sqrt n < x := lt_of_le_of_ne h1 (Ne.symm hxr)
      have hdiv : n / x ≤ Nat.sqrt n := by
        have : n / x < Nat.sqrt n + 1 := by
          rw [Nat.div_lt_iff_lt_mul hx]
          calc n < (Nat.sqrt n + 1) * (Nat.sqrt n + 1) := hr2
            _ ≤ (Nat.sqrt n + 1) * x := Nat.mul_le_mul_left _ hgt
        omega
      have hy : (x + n / x) / 2 < x := by omega
      rw [if_pos hy]
      -- the next iterate is not below the root
      have hge : Nat.sqrt n ≤ (x + n / x) / 2 := by
        have h4 : 2 * Nat.sqrt n ≤ x + n / x := by
          by_contra hc
          have hc' : x + n / x < 2 * Nat.sqrt n := not_le.mp hc
          -- then n / x < 2 r - x, so n < (2 r - x + 1) x ≤ ... 
          have hg0 : 0 ≤ n / x := Nat.zero_le _
          have hx2 : x < 2 * Nat.sqrt n := by omega
          have h5 : n / x + 1 ≤ 2 * Nat.sqrt n - x := by omega
          have h6 : n < (n / x + 1) * x := by
            have := Nat.lt_succ_iff.mpr (le_refl (n / x))
            exact (Nat.div_lt_iff_lt_mul hx).mp this
          have h7 : (n / x + 1) * x ≤ (2 * Nat.sqrt n - x) * x := Nat.mul_le_mul_right _ h5
          have h8 : (2 * Nat.sqrt n - x) * x ≤ Nat.sqrt n * Nat.sqrt n := by
            obtain ⟨d, hd⟩ : ∃ d, x = Nat.sqrt n + d := ⟨x - Nat.sqrt n, by omega⟩
            have hd2 : 2 * Nat.sqrt n - x = Nat.sqrt n - d := by omega
            have hdle : d ≤ Nat.sqrt n := by omega
            obtain ⟨c, hc2⟩ : ∃ c, Nat.sqrt n = d + c := ⟨Nat.sqrt n - d, by omega⟩
            rw [hd2, hd, hc2]
            have : d + c - d = c := by omega
            rw [this]
            nlinarith
          omega
        omega
      have hpos : 0 < (x + n / x) / 2 := lt_of_lt_of_le hrpos hge
      apply isqrtAux_eq n hn fuel _ hge hpos
      have : (x + n / x) / 2 - Nat.sqrt n ≤ (x - Nat.sqrt n) / 2 := by omega
      have h9 : x - Nat.sqrt n < 2 * 2 ^ fuel := by
        rw [pow_succ] at h2
        omega
      omega

theorem isqrt_eq (n : Nat) : Dbl.isqrt n = Nat.sqrt n := by
  unfold Dbl.isqrt
  by_cases hn : n = 0
  · simp [hn]
  · rw [if_neg hn]
    have hpos : 0 < n := Nat.pos_of_ne_zero hn
    obtain ⟨b1, b2⟩ := bitLen_spec n hpos
    set b := bitLen n
    have hx : Nat.sqrt n < 2 ^ ((b + 1) / 2) := by
      rw [Nat.sqrt_lt']
      calc n < 2 ^ b := b2
        _ ≤ 2 ^ (2 * ((b + 1) / 2)) := Nat.pow_le_pow_right (by norm_num) (by omega)
        _ = (2 ^ ((b + 1) / 2)) ^ 2 := by rw [← pow_mul, mul_comm]
    apply isqrtAux_eq n hpos _ _ hx.le (by positivity)
    calc 2 ^ ((b + 1) / 2) - Nat.sqrt n ≤ 2 ^ ((b + 1) / 2) := Nat.sub_le _ _
      _ < 2 ^ (b + 1) := by
        apply Nat.pow_lt_pow_right (by norm_num)
        have : 1 ≤ b := by
          by_contra hb
          have : b = 0 := by omega
          rw [this] at b2
          simp at b2
          omega
        omega
theorem pow2_two_mul (k : Int) : pow2 (2 * k) = pow2 k * pow2 k := by
  rw [two_mul, pow2_add]

theorem near_root (t f : ℚ) (hf : 1 ≤ f) (h1 : f * f ≤ t) (h2 : t < (f + 1) * (f + 1)) :
    (t ≤ (f + 1 / 2) * (f + 1 / 2) → (f - 1 / 2) ^ 2 ≤ t ∧ t ≤ (f + 1 / 2) ^ 2) ∧
      ((f + 1 / 2) * (f + 1 / 2) ≤ t → (f + 1 - 1 / 2) ^ 2 ≤ t ∧ t ≤ (f + 1 + 1 / 2) ^ 2) := by
  constructor
  · intro h
    constructor <;> nlinarith
  · intro h
    constructor <;> nlinarith

/-- The square root of a `double` not below `2 ^ (-1000)`: the computed root `s` is positive and
`s (1 - 2 ^ (-53)) ≤ √q ≤ s (1 + 2 ^ (-53))`, stated on the squares. -/
theorem sqrtRound64 {q : ℚ} (hlo : pow2 (-1000) ≤ q) :
    0 < Dbl.sqrtRound binary64 q ∧
      (Dbl.sqrtRound binary64 q * (1 - pow2 (-53))) ^ 2 ≤ q ∧
      q ≤ (Dbl.sqrtRound binary64 q * (1 + pow2 (-53))) ^ 2 := by
  have hq : 0 < q := lt_of_lt_of_le (pow2_pos _) hlo
  obtain ⟨s1, s2⟩ := floorLog2_spec q hq
  set e := floorLog2 q with he
  have he1 : -1000 < e + 1 := pow2_lt_iff.mp (lt_of_le_of_lt hlo s2)
  have hquant : quantum binary64 (e / 2) = e / 2 - 52 := by
    unfold quantum
    show max (e / 2 - (((53 : Nat) : Int) - 1)) (-1074) = e / 2 - 52
    rw [max_eq_left (by omega)]
    norm_num
  set k : Int := e / 2 - 52 with hk
  have hkpos : 0 < pow2 k := pow2_pos k
  have h2k : 0 < pow2 (2 * k) := pow2_pos _
  set t : ℚ := q / pow2 (2 * k) with ht
  have htq : q = t * pow2 (2 * k) := by
    rw [ht]
    field_simp
  have ht1 : pow2 104 ≤ t := by
    rw [ht, le_div_iff₀ h2k, ← pow2_add]
    exact le_trans (pow2_le (by omega)) s1
  have h104 : pow2 104 = ((2 ^ 104 : Nat) : ℚ) := by decide!
  have htpos : 0 < t := lt_of_lt_of_le (pow2_pos _) ht1
  have hfl : 0 ≤ ⌊t⌋ := Int.floor_nonneg.mpr htpos.le
  set N : Nat := t.floor.toNat with hN
  have hNt : ((N : Int) : ℚ) ≤ t ∧ t < ((N : Int) : ℚ) + 1 := by
    have : (N : Int) = ⌊t⌋ := by
      rw [hN, rat_floor_eq]
      exact Int.toNat_of_nonneg hfl
    rw [this]
    exact ⟨Int.floor_le t, Int.lt_floor_add_one t⟩
  have hN104 : 2 ^ 104 ≤ N := by
    have : ((2 ^ 104 : Nat) : Int) ≤ ⌊t⌋ := by
      rw [Int.le_floor]
      rw [h104] at ht1
      exact_mod_cast ht1
    have h2 : (N : Int) = ⌊t⌋ := by
      rw [hN, rat_floor_eq]
      exact Int.toNat_of_nonneg hfl
    rw [← h2] at this
    exact_mod_cast this
  set f : Nat := Dbl.isqrt N with hf
  have hfs : f = Nat.sqrt N := isqrt_eq N
  have hf1 : f * f ≤ N := by
    rw [hfs]
    exact Nat.sqrt_le N
  have hf2 : N < (f + 1) * (f + 1) := by
    rw [hfs]
    exact Nat.lt_succ_sqrt N
  have hf52 : 2 ^ 52 ≤ f := by
    rw [hfs, Nat.le_sqrt]
    calc 2 ^ 52 * 2 ^ 52 = 2 ^ 104 := by norm_num
      _ ≤ N := hN104
  have hfq1 : (f : ℚ) * (f : ℚ) ≤ t := by
    have : ((f * f : Nat) : ℚ) ≤ ((N : Nat) : ℚ) := by exact_mod_cast hf1
    have h3 : ((N : Nat) : ℚ) = ((N : Int) : ℚ) := by simp
    rw [h3] at this
    push_cast at this
    linarith [hNt.1]
  have hfq2 : t < ((f : ℚ) + 1) * ((f : ℚ) + 1) := by
    have : ((N + 1 : Nat) : ℚ) ≤ (((f + 1) * (f + 1) : Nat) : ℚ) := by exact_mod_cast hf2
    have h3 : ((N : Nat) : ℚ) = ((N : Int) : ℚ) := by simp
    push_cast at this
    rw [h3] at this
    linarith [hNt.2]
  have hfq52 : (4503599627370496 : ℚ) ≤ (f : ℚ) := by
    have h0 : (4503599627370496 : Nat) ≤ f := by
      have : (2 : Nat) ^ 52 = 4503599627370496 := by norm_num
      omega
    exact_mod_cast h0
  have hfpos : (0 : ℚ) < (f : ℚ) := by linarith
  have hnr := near_root t (f : ℚ) (by linarith) hfq1 hfq2
  -- the rounded integer root
  set r : Nat := if t < ((f : ℚ) + 1 / 2) * ((f : ℚ) + 1 / 2) then f
    else if ((f : ℚ) + 1 / 2) * ((f : ℚ) + 1 / 2) < t then f + 1
    else if f % 2 = 0 then f else f + 1 with hr
  have hval : Dbl.sqrtRound binary64 q = (r : ℚ) * pow2 k := by
    unfold Dbl.sqrtRound
    simp only [← he, hquant, ← hk, ← ht, ← hN, ← hf, ← hr]
  have hrb : ((r : ℚ) - 1 / 2) ^ 2 ≤ t ∧ t ≤ ((r : ℚ) + 1 / 2) ^ 2 ∧ (f : ℚ) ≤ (r : ℚ) := by
    rw [hr]
    split_ifs with c1 c2 c3
    · exact ⟨(hnr.1 c1.le).1, (hnr.1 c1.le).2, le_rfl⟩
    · push_cast
      exact ⟨(hnr.2 c2.le).1, (hnr.2 c2.le).2, by linarith⟩
    · exact ⟨(hnr.1 (not_lt.mp c2)).1, (hnr.1 (not_lt.mp c2)).2, le_rfl⟩
    · push_cast
      exact ⟨(hnr.2 (not_lt.mp c1)).1, (hnr.2 (not_lt.mp c1)).2, by linarith⟩
  obtain ⟨hr1, hr2, hrf⟩ := hrb
  have hrpos : (0 : ℚ) < (r : ℚ) := by linarith
  have hr52 : (4503599627370496 : ℚ) ≤ (r : ℚ) := by linarith
  have hε : pow2 (-53) = 1 / 9007199254740992 := pow2_neg53
  rw [hval, hε]
  refine ⟨mul_pos hrpos hkpos, ?_, ?_⟩
  · have h1 : ((r : ℚ) * pow2 k * (1 - 1 / 9007199254740992)) ^ 2 =
        ((r : ℚ) * (1 - 1 / 9007199254740992)) ^ 2 * pow2 (2 * k) := by
      rw [pow2_two_mul]
      ring
    rw [h1, htq]
    apply mul_le_mul_of_nonneg_right _ h2k.le
    have ha : 0 ≤ (r : ℚ) * (1 - 1 / 9007199254740992) := by
      apply mul_nonneg hrpos.le
      norm_num
    have hb : (r : ℚ) * (1 - 1 / 9007199254740992) ≤ (r : ℚ) - 1 / 2 := by linarith
    calc ((r : ℚ) * (1 - 1 / 9007199254740992)) ^ 2 ≤ ((r : ℚ) - 1 / 2) ^ 2 :=
          pow_le_pow_left₀ ha hb 2
      _ ≤ t := hr1
  · have h1 : ((r : ℚ) * pow2 k * (1 + 1 / 9007199254740992)) ^ 2 =
        ((r : ℚ) * (1 + 1 / 9007199254740992)) ^ 2 * pow2 (2 * k) := by
      rw [pow2_two_mul]
      ring
    rw [h1, htq]
    apply mul_le_mul_of_nonneg_right _ h2k.le
    have ha : 0 ≤ (r : ℚ) + 1 / 2 := by linarith
    have hb : (r : ℚ) + 1 / 2 ≤ (r : ℚ) * (1 + 1 / 9007199254740992) := by linarith
    calc t ≤ ((r : ℚ) + 1 / 2) ^ 2 := hr2
      _ ≤ ((r : ℚ) * (1 + 1 / 9007199254740992)) ^ 2 := pow_le_pow_left₀ ha hb 2
/-! ## Operations on finite values -/

theorem Dbl.sub_finite (F : Fmt) {a b : Dbl} (ha : a.isFinite = true) (hb : b.isFinite = true) :
    ∃ s, Dbl.sub F a b = round F s (a.toRat - b.toRat) := by
  unfold Dbl.sub
  rw [Dbl.add_finite F ha (by rw [Dbl.neg_isFinite]; exact hb), Dbl.neg_toRat, ← sub_eq_add_neg]
  exact ⟨_, rfl⟩

theorem Dbl.mul_finite (F : Fmt) {a b : Dbl} (ha : a.isFinite = true) (hb : b.isFinite = true) :
    Dbl.mul F a b = round F (xor a.sign b.sign) (a.toRat * b.toRat) := by
  cases a <;> cases b <;> simp_all [Dbl.mul, Dbl.isFinite]

theorem Dbl.div_finite (F : Fmt) {a b : Dbl} (ha : a.isFinite = true) (hb : b.isFinite = true)
    (hb0 : b.toRat ≠ 0) :
    Dbl.div F a b = round F (xor a.sign b.sign) (a.toRat / b.toRat) := by
  cases a <;> cases b <;> simp_all [Dbl.div, Dbl.isFinite]

theorem Dbl.abs_isFinite (a : Dbl) : (Dbl.abs a).isFinite = a.isFinite := by
  cases a <;> rfl

theorem Dbl.abs_toRat (a : Dbl) : (Dbl.abs a).toRat = |a.toRat| := by
  cases a <;> simp [Dbl.abs, Dbl.toRat]

theorem Dbl.lt_finite {a b : Dbl} (ha : a.isFinite = true) (hb : b.isFinite = true) :
    Dbl.lt a b = decide (a.toRat < b.toRat) := by
  cases a <;> cases b <;> simp_all [Dbl.lt, Dbl.isFinite]

theorem Dbl.sqrt_finite_pos (F : Fmt) {a : Dbl} (ha : a.isFinite = true) (hpos : 0 < a.toRat) :
    Dbl.sqrt F a = Dbl.num (Dbl.sqrtRound F a.toRat) := by
  cases a with
  | nan => simp [Dbl.isFinite] at ha
  | inf s => simp [Dbl.isFinite] at ha
  | zero s => simp [Dbl.toRat] at hpos
  | num q =>
    simp only [Dbl.toRat] at hpos
    simp [Dbl.sqrt, Dbl.toRat, not_lt.mpr hpos.le, ne_of_gt hpos]

theorem round_zero (F : Fmt) (n : Bool) : round F n 0 = Dbl.zero n := by
  simp [round]

/-- Rounding to `double` a value that is zero or of magnitude between `2 ^ (-1022)` and
`2 ^ 1023`: the result is finite, within the relative error `2 ^ (-53)`. -/
theorem round64_fin (n : Bool) {q : ℚ} (h0 : q = 0 ∨ pow2 (-1022) ≤ |q|)
    (h1 : |q| ≤ pow2 1023) :
    (round binary64 n q).isFinite = true ∧
      |(round binary64 n q).toRat - q| ≤ |q| * pow2 (-53) := by
  rcases h0 with h | h
  · subst h
    rw [round_zero]
    simp [Dbl.isFinite, Dbl.toRat]
  · obtain ⟨v, hv, herr, -, -⟩ := round64 n h h1
    rw [hv]
    exact ⟨rfl, herr⟩

/-- The same for a non-negative value, as a two-sided bound. -/
theorem round64_nonneg (n : Bool) {q : ℚ} (hq : 0 ≤ q) (h0 : q = 0 ∨ pow2 (-1022) ≤ q)
    (h1 : q ≤ pow2 1023) :
    (round binary64 n q).isFinite = true ∧
      q * (1 - pow2 (-53)) ≤ (round binary64 n q).toRat ∧
      (round binary64 n q).toRat ≤ q * (1 + pow2 (-53)) := by
  have habs : |q| = q := abs_of_nonneg hq
  obtain ⟨hf, herr⟩ := round64_fin n (q := q) (by rw [habs]; exact h0) (by rw [habs]; exact h1)
  rw [habs] at herr
  have := abs_le.mp herr
  exact ⟨hf, by linarith [this.1], by linarith [this.2]⟩

/-! ## Accumulated rounding errors -/

theorem one_sub_pow_ge {ε : ℚ} (h1 : ε ≤ 1) (K : Nat) :
    1 - (K : ℚ) * ε ≤ (1 - ε) ^ K := by
  have := one_add_mul_le_pow (show (-2 : ℚ) ≤ -ε by linarith) K
  have e : (1 : ℚ) + -ε = 1 - ε := by ring
  rw [e] at this
  linarith

theorem one_add_pow_le {ε : ℚ} (h0 : 0 ≤ ε) (K : Nat) (hK : 2 * (K : ℚ) * ε ≤ 1) :
    (1 + ε) ^ K ≤ 1 + 2 * (K : ℚ) * ε := by
  induction K with
  | zero => simp
  | succ K ih =>
    have hK' : 2 * (K : ℚ) * ε ≤ 1 := by
      push_cast at hK
      nlinarith
    have ih' := ih hK'
    rw [pow_succ]
    push_cast
    have h1 : (1 + ε) ^ K * (1 + ε) ≤ (1 + 2 * (K : ℚ) * ε) * (1 + ε) :=
      mul_le_mul_of_nonneg_right ih' (by linarith)
    have h2 : 2 * (K : ℚ) * ε * ε ≤ ε := by
      have := mul_le_mul_of_nonneg_right hK' h0
      linarith
    nlinarith

theorem sum_zero_or_ge (c : ℚ) (hc : 0 ≤ c) : ∀ (l : List ℚ), (∀ x ∈ l, x = 0 ∨ c ≤ x) →
    0 ≤ l.sum ∧ (l.sum = 0 ∨ c ≤ l.sum)
  | [], _ => by simp
  | x :: l, h => by
    have hx := h x (List.mem_cons_self _ _)
    obtain ⟨i1, i2⟩ := sum_zero_or_ge c hc l (fun y hy => h y (List.mem_cons_of_mem _ hy))
    rw [List.sum_cons]
    have hx0 : 0 ≤ x := by
      rcases hx with hx | hx
      · rw [hx]
      · linarith
    refine ⟨by linarith, ?_⟩
    rcases hx with hx | hx
    · rcases i2 with i2 | i2
      · left
        rw [hx, i2]
        norm_num
      · right
        linarith
    · right
      linarith

/-- The loop `for (d : l) acc += d` (and `std::accumulate` from `0.0`) over finite non-negative
terms that are zero or not below `2 ^ lo`: the computed sum `R` is finite and
`T (1 - ε) ^ n ≤ R ≤ T (1 + ε) ^ n`, where `T` is the exact sum, `n` the number of terms and
`ε = 2 ^ (-53)`. -/
theorem fsum_bounds (lo : Int) (hlo : -1021 ≤ lo) : ∀ (ts : List Dbl),
    (∀ t ∈ ts, t.isFinite = true ∧ (t.toRat = 0 ∨ pow2 lo ≤ t.toRat)) →
    2 * (ts.map Dbl.toRat).sum ≤ pow2 1023 →
    2 * (ts.length : ℚ) * pow2 (-53) ≤ 1 →
    (ts.foldl (fun acc d => Dbl.add binary64 acc d) d0).isFinite = true ∧
      (ts.map Dbl.toRat).sum * (1 - pow2 (-53)) ^ ts.length ≤
        (ts.foldl (fun acc d => Dbl.add binary64 acc d) d0).toRat ∧
      (ts.foldl (fun acc d => Dbl.add binary64 acc d) d0).toRat ≤
        (ts.map Dbl.toRat).sum * (1 + pow2 (-53)) ^ ts.length := by
  intro ts
  induction ts using List.reverseRecOn with
  | nil =>
    intro _ _ _
    simp [d0, Dbl.isFinite, Dbl.toRat]
  | append_singleton ts t ih =>
    intro hts hhi hlen
    have hε0 : 0 < pow2 (-53) := pow2_pos _
    have hε1 : pow2 (-53) ≤ 1 / 2 := by
      rw [pow2_neg53]
      norm_num
    set ε := pow2 (-53) with hε
    have ht := hts t (by simp)
    have hts' : ∀ x ∈ ts, x.isFinite = true ∧ (x.toRat = 0 ∨ pow2 lo ≤ x.toRat) :=
      fun x hx => hts x (by simp [hx])
    have hsum := sum_zero_or_ge (pow2 lo) (pow2_pos _).le (ts.map Dbl.toRat) (by
      intro x hx
      obtain ⟨y, hy, rfl⟩ := List.mem_map.mp hx
      exact (hts' y hy).2)
    have hτ0 : 0 ≤ t.toRat := by
      rcases ht.2 with h | h
      · rw [h]
      · exact le_trans (pow2_pos _).le h
    set T := (ts.map Dbl.toRat).sum with hT
    set τ := t.toRat with hτ
    have hT' : ((ts ++ [t]).map Dbl.toRat).sum = T + τ := by simp [hT, hτ]
    have hlen' : (ts ++ [t]).length = ts.length + 1 := by simp
    rw [hT'] at hhi ⊢
    rw [hlen'] at hlen ⊢
    push_cast at hlen
    have hlenK : 2 * (ts.length : ℚ) * ε ≤ 1 := by nlinarith
    obtain ⟨ihf, ihlo, ihhi⟩ := ih hts' (by linarith) hlenK
    set R := ts.foldl (fun acc d => Dbl.add binary64 acc d) d0 with hR
    have hfold : (ts ++ [t]).foldl (fun acc d => Dbl.add binary64 acc d) d0 =
        Dbl.add binary64 R t := by
      simp [List.foldl_append, hR]
    rw [hfold, Dbl.add_finite binary64 ihf ht.1]
    -- bounds on the powers
    have hm1 : 1 - (ts.length : ℚ) * ε ≤ (1 - ε) ^ ts.length :=
      one_sub_pow_ge (by linarith) _
    have hp1 : (1 + ε) ^ ts.length ≤ 1 + 2 * (ts.length : ℚ) * ε :=
      one_add_pow_le hε0.le _ hlenK
    have hmpos : (1 : ℚ) / 2 ≤ (1 - ε) ^ ts.length := by nlinarith
    have hmle : (1 - ε) ^ ts.length ≤ 1 := pow_le_one₀ (by linarith) (by linarith)
    have hple : (1 + ε) ^ ts.length ≤ 2 := by linarith
    have hpge : 1 ≤ (1 + ε) ^ ts.length := one_le_pow₀ (by linarith)
    have hRq0 : 0 ≤ R.toRat := le_trans (mul_nonneg hsum.1 (by linarith)) ihlo
    have hq0 : 0 ≤ R.toRat + τ := by linarith
    have hqhi : R.toRat + τ ≤ pow2 1023 := by nlinarith
    have hqlo : R.toRat + τ = 0 ∨ pow2 (-1022) ≤ R.toRat + τ := by
      rcases ht.2 with h | h
      · rcases hsum.2 with hs | hs
        · left
          rw [hs, zero_mul] at ihhi
          rw [h]
          linarith
        · right
          have h1 : pow2 (lo - 1) ≤ R.toRat := by
            rw [pow2_pred]
            nlinarith
          have h2 : pow2 (-1022) ≤ pow2 (lo - 1) := pow2_le (by omega)
          linarith
      · right
        have h2 : pow2 (-1022) ≤ pow2 lo := pow2_le (by omega)
        linarith
    obtain ⟨rf, rlo, rhi⟩ := round64_nonneg (R.sign && t.sign) hq0 hqlo hqhi
    refine ⟨rf, le_trans ?_ rlo, le_trans rhi ?_⟩
    · rw [pow_succ]
      have h1 : T * (1 - ε) ^ ts.length * (1 - ε) ≤ R.toRat * (1 - ε) :=
        mul_le_mul_of_nonneg_right ihlo (by linarith)
      have h2 : τ * ((1 - ε) ^ ts.length * (1 - ε)) ≤ τ * (1 - ε) := by
        apply mul_le_mul_of_nonneg_left _ hτ0
        exact mul_le_of_le_one_left (by linarith) hmle
      linarith only [h1, h2]
    · rw [pow_succ]
      have h1 : R.toRat * (1 + ε) ≤ T * (1 + ε) ^ ts.length * (1 + ε) :=
        mul_le_mul_of_nonneg_right ihhi (by linarith)
      have h2 : τ * (1 + ε) ≤ τ * ((1 + ε) ^ ts.length * (1 + ε)) := by
        apply mul_le_mul_of_nonneg_left _ hτ0
        exact le_mul_of_one_le_left (by linarith) hpge
      linarith only [h1, h2]
theorem eps_facts {ε : ℚ} (h0 : 0 ≤ ε) (h1 : ε ≤ 1 / 2) :
    (1 - ε) * (1 + ε) ≤ 1 ∧ 1 ≤ (1 + ε) * (1 + ε) * (1 - ε) := by
  constructor
  · nlinarith
  · have h2 : 0 ≤ ε * (1 - ε - ε * ε) := by
      apply mul_nonneg h0
      nlinarith
    nlinarith

/-- The quotient `sum / size` that `clusterKptMatchesWithROI` forms twice (the mean distance,
and the mean squared deviation): for at most 65536 finite non-negative terms that are zero or
not below `2 ^ lo`, the computed value `v` is finite and
`(T / n) (1 - ε) ^ (n + 2) ≤ v ≤ (T / n) (1 + ε) ^ (n + 3)`, `T` being the exact sum. -/
theorem avg_bounds (lo : Int) (hlo : -1000 ≤ lo) (ts : List Dbl) (hn1 : 1 ≤ ts.length)
    (hn2 : ts.length ≤ 65536)
    (hts : ∀ t ∈ ts, t.isFinite = true ∧ (t.toRat = 0 ∨ pow2 lo ≤ t.toRat))
    (hhi : (ts.map Dbl.toRat).sum ≤ pow2 1000) :
    (Dbl.div binary64 (ts.foldl (fun acc d => Dbl.add binary64 acc d) d0)
        (Dbl.ofInt binary64 ts.length)).isFinite = true ∧
      (ts.map Dbl.toRat).sum / (ts.length : ℚ) * (1 - pow2 (-53)) ^ (ts.length + 2) ≤
        (Dbl.div binary64 (ts.foldl (fun acc d => Dbl.add binary64 acc d) d0)
          (Dbl.ofInt binary64 ts.length)).toRat ∧
      (Dbl.div binary64 (ts.foldl (fun acc d => Dbl.add binary64 acc d) d0)
          (Dbl.ofInt binary64 ts.length)).toRat ≤
        (ts.map Dbl.toRat).sum / (ts.length : ℚ) * (1 + pow2 (-53)) ^ (ts.length + 3) := by
  have hε0 : 0 < pow2 (-53) := pow2_pos _
  have hεv : pow2 (-53) = 1 / 9007199254740992 := pow2_neg53
  have hε1 : pow2 (-53) ≤ 1 / 9007199254740992 := le_of_eq hεv
  set ε := pow2 (-53) with hε
  have hlenq1 : (1 : ℚ) ≤ (ts.length : ℚ) := by exact_mod_cast hn1
  have hlenq2 : (ts.length : ℚ) ≤ 65536 := by exact_mod_cast hn2
  set n : ℚ := (ts.length : ℚ) with hn
  have hP1023 : pow2 1023 = pow2 1000 * pow2 23 := by rw [← pow2_add]; rfl
  have hP23 : pow2 23 = 8388608 := by decide!
  have hP1000 : 0 < pow2 1000 := pow2_pos _
  have hP16 : pow2 16 = 65536 := by decide!
  have hεhalf : ε ≤ 1 / 2 := by linarith
  have hef := eps_facts hε0.le hεhalf
  -- the size, converted
  have hnr := round64_nonneg false (q := n) (by linarith)
    (Or.inr (le_trans (pow2_le (by norm_num : (-1022 : Int) ≤ 0))
      (by rw [show pow2 0 = 1 by decide!]; exact hlenq1)))
    (le_trans (by rw [hP16]; exact hlenq2) (pow2_le (by norm_num)))
  have hofInt : Dbl.ofInt binary64 (ts.length : Int) = round binary64 false n := by
    simp [Dbl.ofInt, hn]
  rw [hofInt]
  obtain ⟨nf, nlo, nhi⟩ := hnr
  rw [← hε] at nlo nhi
  set n' := round binary64 false n with hn'
  have hn'pos : 0 < n'.toRat := by
    have : n * ε ≤ n * (1 / 2) := mul_le_mul_of_nonneg_left hεhalf (by linarith)
    linarith only [nlo, this, hlenq1]
  -- the sum
  have hlenε : 2 * n * ε ≤ 1 := by
    have : n * ε ≤ 65536 * (1 / 9007199254740992) :=
      mul_le_mul hlenq2 hε1 hε0.le (by norm_num)
    linarith only [this]
  obtain ⟨sf, slo, shi⟩ := fsum_bounds lo (by omega) ts hts
    (by rw [hP1023, hP23]; linarith only [hhi, hP1000]) hlenε
  rw [← hε] at slo shi
  obtain ⟨T0, Tge⟩ := sum_zero_or_ge (pow2 lo) (pow2_pos _).le (ts.map Dbl.toRat) (by
      intro x hx
      obtain ⟨y, hy, rfl⟩ := List.mem_map.mp hx
      exact (hts y hy).2)
  set T := (ts.map Dbl.toRat).sum with hT
  set S := ts.foldl (fun acc d => Dbl.add binary64 acc d) d0 with hS
  have hm1 : 1 - n * ε ≤ (1 - ε) ^ ts.length := one_sub_pow_ge (by linarith) _
  have hp1 : (1 + ε) ^ ts.length ≤ 1 + 2 * n * ε := one_add_pow_le hε0.le _ hlenε
  have hmhalf : (1 : ℚ) / 2 ≤ (1 - ε) ^ ts.length := by linarith only [hm1, hlenε]
  have hmpos : 0 < (1 - ε) ^ ts.length := by linarith
  have hp2 : (1 + ε) ^ ts.length ≤ 2 := by linarith
  have hppos : 0 < (1 + ε) ^ ts.length := by positivity
  have hS0 : 0 ≤ S.toRat := le_trans (mul_nonneg T0 hmpos.le) slo
  rw [Dbl.div_finite binary64 sf nf (ne_of_gt hn'pos)]
  have hq0 : 0 ≤ S.toRat / n'.toRat := div_nonneg hS0 hn'pos.le
  -- the exact quotient, bounded
  have qlo : T / n * (1 - ε) ^ (ts.length + 1) ≤ S.toRat / n'.toRat := by
    rw [le_div_iff₀ hn'pos]
    have h1 : T / n * (1 - ε) ^ (ts.length + 1) * n'.toRat ≤
        T / n * (1 - ε) ^ (ts.length + 1) * (n * (1 + ε)) :=
      mul_le_mul_of_nonneg_left nhi
        (mul_nonneg (div_nonneg T0 (by linarith)) (pow_nonneg (by linarith) _))
    have h2 : T / n * (1 - ε) ^ (ts.length + 1) * (n * (1 + ε)) =
        T * (1 - ε) ^ ts.length * ((1 - ε) * (1 + ε)) := by
      rw [pow_succ]
      field_simp
      ring
    have h3 : T * (1 - ε) ^ ts.length * ((1 - ε) * (1 + ε)) ≤ T * (1 - ε) ^ ts.length :=
      mul_le_of_le_one_right (mul_nonneg T0 hmpos.le) hef.1
    linarith
  have qhi : S.toRat / n'.toRat ≤ T / n * (1 + ε) ^ (ts.length + 2) := by
    rw [div_le_iff₀ hn'pos]
    have h1 : T / n * (1 + ε) ^ (ts.length + 2) * (n * (1 - ε)) ≤
        T / n * (1 + ε) ^ (ts.length + 2) * n'.toRat :=
      mul_le_mul_of_nonneg_left nlo
        (mul_nonneg (div_nonneg T0 (by linarith)) (pow_nonneg (by linarith) _))
    have h2 : T / n * (1 + ε) ^ (ts.length + 2) * (n * (1 - ε)) =
        T * (1 + ε) ^ ts.length * ((1 + ε) * (1 + ε) * (1 - ε)) := by
      rw [pow_succ, pow_succ]
      field_simp
      ring
    have h3 : T * (1 + ε) ^ ts.length ≤ T * (1 + ε) ^ ts.length * ((1 + ε) * (1 + ε) * (1 - ε)) :=
      le_mul_of_one_le_right (mul_nonneg T0 hppos.le) hef.2
    linarith
  -- the range of the exact quotient
  have hn'hi : n'.toRat ≤ 2 * n := by
    have : n * ε ≤ n * (1 / 2) := mul_le_mul_of_nonneg_left hεhalf (by linarith)
    linarith only [nhi, this, hlenq1]
  have hn'lo : n / 2 ≤ n'.toRat := by
    have : n * ε ≤ n * (1 / 2) := mul_le_mul_of_nonneg_left hεhalf (by linarith)
    linarith only [nlo, this]
  have hSlo : T / 2 ≤ S.toRat := by
    have : T * (1 / 2) ≤ T * (1 - ε) ^ ts.length := mul_le_mul_of_nonneg_left hmhalf T0
    linarith only [slo, this]
  have hShi : S.toRat ≤ 2 * T := by
    have : T * (1 + ε) ^ ts.length ≤ T * 2 := mul_le_mul_of_nonneg_left hp2 T0
    linarith only [shi, this]
  have hrange0 : S.toRat / n'.toRat = 0 ∨ pow2 (-1022) ≤ S.toRat / n'.toRat := by
    rcases Tge with h | h
    · left
      have : S.toRat = 0 := by
        rw [h] at hShi
        linarith only [hShi, hS0]
      rw [this, zero_div]
    · right
      rw [le_div_iff₀ hn'pos]
      have h1 : pow2 (-1022 + (lo + 1022)) = pow2 (-1022) * pow2 (lo + 1022) := pow2_add _ _
      rw [show -1022 + (lo + 1022) = lo by ring] at h1
      have h2 : pow2 18 ≤ pow2 (lo + 1022) := pow2_le (by omega)
      have h3 : pow2 18 = 262144 := by decide!
      have h4 : 0 < pow2 (-1022) := pow2_pos _
      have h6 : pow2 (-1022) * n'.toRat ≤ pow2 (-1022) * (2 * 65536) :=
        mul_le_mul_of_nonneg_left (by linarith only [hn'hi, hlenq2]) h4.le
      have h7 : pow2 (-1022) * 262144 ≤ pow2 lo := by
        rw [h1]
        exact mul_le_mul_of_nonneg_left (by linarith only [h2, h3]) h4.le
      linarith only [h6, h7, hSlo, h]
  have hrange1 : S.toRat / n'.toRat ≤ pow2 1023 := by
    rw [div_le_iff₀ hn'pos, hP1023, hP23]
    have h1 : pow2 1000 * 8388608 * (1 / 2) ≤ pow2 1000 * 8388608 * n'.toRat :=
      mul_le_mul_of_nonneg_left (by linarith only [hn'lo, hlenq1]) (by linarith only [hP1000])
    linarith only [h1, hShi, hhi, hP1000]
  obtain ⟨vf, vlo, vhi⟩ := round64_nonneg (xor S.sign n'.sign) hq0 hrange0 hrange1
  rw [← hε] at vlo vhi
  refine ⟨vf, le_trans ?_ vlo, le_trans vhi ?_⟩
  · have h1 : T / n * (1 - ε) ^ (ts.length + 2) = T / n * (1 - ε) ^ (ts.length + 1) * (1 - ε) := by
      rw [pow_succ (1 - ε) (ts.length + 1)]
      ring
    rw [h1]
    exact mul_le_mul_of_nonneg_right qlo (by linarith)
  · have h1 : T / n * (1 + ε) ^ (ts.length + 3) = T / n * (1 + ε) ^ (ts.length + 2) * (1 + ε) := by
      rw [pow_succ (1 + ε) (ts.length + 2)]
      ring
    rw [h1]
    exact mul_le_mul_of_nonneg_right qhi (by linarith)

/-! ## The sign of the Lidar time-to-collision: the claim -/

/-- C20 (counterexample). An object ahead and approaching, and a
positive frame rate, with a time-to-collision that is not strictly positive: `dt / (d0 - d1)`
underflows and `TTC` is `+0.0`. Symmetrically a receding object with `TTC = -0.0`, which is
not strictly negative. -/
theorem computeTTCLidar_sign_lost :
    (computeTTCLidar insertionSort [exFarPoint] [lidarAt 1] exHugeRate =
        Except.ok (Dbl.zero false)
      ∧ Dbl.lt (medianOf (insertionSort ([lidarAt 1].map (fun p => p.x))))
          (medianOf (insertionSort ([exFarPoint].map (fun p => p.x)))) = true
      ∧ Dbl.lt d0 (medianOf (insertionSort ([lidarAt 1].map (fun p => p.x)))) = true
      ∧ Dbl.lt d0 exHugeRate = true
      ∧ Dbl.lt d0 (Dbl.zero false) = false)
    ∧ (computeTTCLidar insertionSort [lidarAt 1] [exFarPoint] exHugeRate =
        Except.ok (Dbl.zero true)
      ∧ Dbl.lt (medianOf (insertionSort ([lidarAt 1].map (fun p => p.x))))
          (medianOf (insertionSort ([exFarPoint].map (fun p => p.x)))) = true
      ∧ Dbl.lt (Dbl.zero true) d0 = false) := by
  refine ⟨⟨by decide!, by decide!, by decide!, by decide!, by decide!⟩,
    by decide!, by decide!, by decide!⟩

/-- C20 (amended). For non-empty point sets whose medians `dPrev` and `dCurr` are finite with
`2 ^ (-200) ≤ dCurr ≤ 2 ^ 200`, `|dPrev| ≤ 2 ^ 200` (zero included) and
`|dPrev - dCurr| ≥ 2 ^ (-200)`, and a finite frame rate between `2 ^ (-200)` and `2 ^ 200`, the
time-to-collision is a finite non-zero value: strictly positive when `dPrev > dCurr`
(approaching), strictly negative when `dPrev < dCurr` (receding). -/
theorem computeTTCLidar_sign {sort : List Dbl → List Dbl} (hs : IsStdSort sort)
    (prev curr : List LidarPoint) (frameRate : Dbl) (hp : prev ≠ []) (hc : curr ≠ [])
    (hpf : (medianOf (sort (prev.map (fun p => p.x)))).isFinite = true)
    (hcf : (medianOf (sort (curr.map (fun p => p.x)))).isFinite = true)
    (hff : frameRate.isFinite = true)
    (hc1 : pow2 (-200) ≤ (medianOf (sort (curr.map (fun p => p.x)))).toRat)
    (hc2 : (medianOf (sort (curr.map (fun p => p.x)))).toRat ≤ pow2 200)
    (hp2 : |(medianOf (sort (prev.map (fun p => p.x)))).toRat| ≤ pow2 200)
    (hd : pow2 (-200) ≤ |(medianOf (sort (prev.map (fun p => p.x)))).toRat -
      (medianOf (sort (curr.map (fun p => p.x)))).toRat|)
    (hf1 : pow2 (-200) ≤ frameRate.toRat) (hf2 : frameRate.toRat ≤ pow2 200) :
    ∃ t, computeTTCLidar sort prev curr frameRate = Except.ok (Dbl.num t) ∧
      ((medianOf (sort (curr.map (fun p => p.x)))).toRat <
        (medianOf (sort (prev.map (fun p => p.x)))).toRat → 0 < t) ∧
      ((medianOf (sort (prev.map (fun p => p.x)))).toRat <
        (medianOf (sort (curr.map (fun p => p.x)))).toRat → t < 0) := by
  rw [computeTTCLidar_eq hs prev curr _ hp hc]
  generalize medianOf (sort (prev.map (fun p => p.x))) = dPrev at *
  generalize medianOf (sort (curr.map (fun p => p.x))) = dCurr at *
  generalize hpq : dPrev.toRat = p at *
  generalize hcq : dCurr.toRat = c at *
  generalize hfq : frameRate.toRat = f at *
  have hcpos : 0 < c := lt_of_lt_of_le (pow2_pos _) hc1
  have hfpos : 0 < f := lt_of_lt_of_le (pow2_pos _) hf1
  -- dt = 1 / frameRate
  have hone : pow2 0 = 1 := by decide!
  have h1a : pow2 0 ≤ |(1 : ℚ)| ∧ |(1 : ℚ)| ≤ pow2 0 := by
    rw [hone, abs_one]
    exact ⟨le_rfl, le_rfl⟩
  have hfa : pow2 (-200) ≤ |f| ∧ |f| ≤ pow2 200 := by
    rw [abs_of_pos hfpos]
    exact ⟨hf1, hf2⟩
  have hq1 := abs_div_bounds h1a.1 h1a.2 hfa.1 hfa.2
  obtain ⟨v1, hv1, v1lo, v1hi, v1pos, -⟩ :=
    round64_bounds (xor d1.sign frameRate.sign) (by norm_num) (by norm_num) hq1.1 hq1.2
  have hv1pos : 0 < v1 := v1pos (by positivity)
  have hdt : Dbl.div binary64 d1 frameRate = Dbl.num v1 := by
    rw [Dbl.div_finite binary64 (show d1.isFinite = true from rfl) hff
      (by rw [hfq]; exact ne_of_gt hfpos), hfq]
    exact hv1
  -- d0 - d1
  have hdhi : |p - c| ≤ pow2 201 := by
    have : |p - c| ≤ |p| + |c| := abs_sub p c
    rw [abs_of_pos hcpos] at this
    have e : pow2 201 = 2 * pow2 200 := by
      rw [← pow2_succ]
      rfl
    linarith
  obtain ⟨sg, hsub⟩ := Dbl.sub_finite binary64 hpf hcf
  rw [hpq, hcq] at hsub
  obtain ⟨v2, hv2, v2lo, v2hi, v2pos, v2neg⟩ :=
    round64_bounds sg (by norm_num) (by norm_num) hd hdhi
  have hv2ne : v2 ≠ 0 := by
    intro h
    rw [h, abs_zero] at v2lo
    exact absurd v2lo (not_le.mpr (pow2_pos _))
  -- dt / (d0 - d1)
  have hq3 := abs_div_bounds v1lo v1hi v2lo v2hi
  obtain ⟨v3, hv3, v3lo, v3hi, v3pos, v3neg⟩ :=
    round64_bounds (xor (decide (v1 < 0)) (decide (v2 < 0))) (by norm_num) (by norm_num)
      hq3.1 hq3.2
  -- d1 * (dt / (d0 - d1))
  have hca : pow2 (-200) ≤ |c| ∧ |c| ≤ pow2 200 := by
    rw [abs_of_pos hcpos]
    exact ⟨hc1, hc2⟩
  have hq4 := abs_mul_bounds hca.1 hca.2 v3lo v3hi
  obtain ⟨t, ht, -, -, tpos, tneg⟩ :=
    round64_bounds (xor dCurr.sign (Dbl.num v3).sign) (by norm_num) (by norm_num)
      hq4.1 hq4.2
  refine ⟨t, ?_, ?_, ?_⟩
  · show Except.ok (Dbl.mul binary64 dCurr
      (Dbl.div binary64 (Dbl.div binary64 d1 frameRate) (Dbl.sub binary64 dPrev dCurr))) = _
    rw [hdt, hsub, hv2, Dbl.div_num binary64 v1 v2 hv2ne, hv3,
      Dbl.mul_finite binary64 hcf (show (Dbl.num v3).isFinite = true from rfl), hcq]
    exact congrArg Except.ok ht
  · intro h
    have h2 : 0 < v2 := v2pos (by linarith)
    have h3 : 0 < v3 := v3pos (div_pos hv1pos h2)
    exact tpos (mul_pos hcpos h3)
  · intro h
    have h2 : v2 < 0 := v2neg (by linarith)
    have h3 : v3 < 0 := v3neg (div_neg_of_pos_of_neg hv1pos h2)
    exact tneg (mul_neg_of_pos_of_neg hcpos h3)

theorem computeTTCLidar_sign_witness :
    (∃ t, computeTTCLidar insertionSort [lidarAt 10] [lidarAt 8] (dbl 10) =
        Except.ok (Dbl.num t) ∧ 0 < t) ∧
    (∃ t, computeTTCLidar insertionSort [lidarAt 0] [lidarAt 8] (dbl 10) =
        Except.ok (Dbl.num t) ∧ t < 0) := by
  constructor
  · obtain ⟨t, h, hpos, -⟩ := computeTTCLidar_sign insertionSort_isStdSort [lidarAt 10]
      [lidarAt 8] (dbl 10) (by simp) (by simp) (by decide!) (by decide!) (by decide!)
      (by decide!) (by decide!) (by decide!) (by decide!) (by decide!) (by decide!)
    exact ⟨t, h, hpos (by decide!)⟩
  · obtain ⟨t, h, -, hneg⟩ := computeTTCLidar_sign insertionSort_isStdSort [lidarAt 0]
      [lidarAt 8] (dbl 10) (by simp) (by simp) (by decide!) (by decide!) (by decide!)
      (by decide!) (by decide!) (by decide!) (by decide!) (by decide!) (by decide!)
    exact ⟨t, h, hneg (by decide!)⟩

/-! ## One outlier among equal distances: the arithmetic -/

/-- The deviations from a mean known up to the relative error `u`, when `n - 1` values are `a`
and one is `b`: with `D = |b - a| / n`, the deviation of `a` is `D` and that of `b` is
`(n - 1) D`, both up to `w D`. -/
theorem pure_mean (n a b μ u G w : ℚ) (hn : 3 ≤ n) (ha : 0 ≤ a) (hb : 0 ≤ b) (hu : 0 ≤ u)
    (hm1 : ((n - 1) * a + b) / n * (1 - u) ≤ μ) (hm2 : μ ≤ ((n - 1) * a + b) / n * (1 + u))
    (hgap : max a b ≤ G * |b - a|) (hw : n * u * G ≤ w) :
    |b - a| / n * (1 - w) ≤ |a - μ| ∧ |a - μ| ≤ |b - a| / n * (1 + w) ∧
      |b - a| / n * (n - 1 - w) ≤ |b - μ| ∧ |b - μ| ≤ |b - a| / n * (n - 1 + w) := by
  have hn0 : 0 < n := by linarith
  set m := ((n - 1) * a + b) / n with hm
  have hma : a - m = (a - b) / n := by
    rw [hm]
    field_simp
    ring
  have hmb : b - m = (n - 1) * ((b - a) / n) := by
    rw [hm]
    field_simp
    ring
  have hm0 : 0 ≤ m := by
    rw [hm]
    apply div_nonneg _ hn0.le
    nlinarith
  have hmmax : m ≤ max a b := by
    rw [hm, div_le_iff₀ hn0]
    have h1 : a ≤ max a b := le_max_left a b
    have h2 : b ≤ max a b := le_max_right a b
    nlinarith
  set δ := |b - a| with hδ
  have hδ0 : 0 ≤ δ := abs_nonneg _
  have hD : |a - m| = δ / n := by
    rw [hma, abs_div, abs_of_pos hn0, hδ, abs_sub_comm]
  have hDb : |b - m| = (n - 1) * (δ / n) := by
    rw [hmb, abs_mul, abs_div, abs_of_pos hn0, abs_of_nonneg (by linarith : (0 : ℚ) ≤ n - 1)]
  have herr : |μ - m| ≤ δ / n * w := by
    have h1 : |μ - m| ≤ u * m := by
      rw [abs_le]
      constructor <;> nlinarith
    have h2 : u * m ≤ u * (G * δ) := mul_le_mul_of_nonneg_left (le_trans hmmax hgap) hu
    have h3 : u * (G * δ) = δ / n * (n * u * G) := by
      field_simp
      ring
    have h4 : δ / n * (n * u * G) ≤ δ / n * w :=
      mul_le_mul_of_nonneg_left hw (div_nonneg hδ0 hn0.le)
    linarith
  have ea : a - μ = (a - m) - (μ - m) := by ring
  have eb : b - μ = (b - m) - (μ - m) := by ring
  have ta1 : |a - m| - |μ - m| ≤ |a - μ| := by
    rw [ea]
    exact abs_sub_abs_le_abs_sub _ _
  have ta2 : |a - μ| ≤ |a - m| + |μ - m| := by
    rw [ea]
    exact abs_sub _ _
  have tb1 : |b - m| - |μ - m| ≤ |b - μ| := by
    rw [eb]
    exact abs_sub_abs_le_abs_sub _ _
  have tb2 : |b - μ| ≤ |b - m| + |μ - m| := by
    rw [eb]
    exact abs_sub _ _
  rw [hD] at ta1 ta2
  rw [hDb] at tb1 tb2
  refine ⟨?_, ?_, ?_, ?_⟩ <;> linarith

theorem lt_of_sq_lt {x y : ℚ} (hy : 0 ≤ y) (h : x ^ 2 < y ^ 2) : x < y := by
  by_contra hc
  have hxy : y ≤ x := not_lt.mp hc
  have : y ^ 2 ≤ x ^ 2 := pow_le_pow_left₀ hy hxy 2
  linarith

theorem le_of_sq_le {x y : ℚ} (hy : 0 ≤ y) (h : x ^ 2 ≤ y ^ 2) : x ≤ y := by
  by_contra hc
  have hxy : y < x := not_le.mp hc
  have : y ^ 2 < x ^ 2 := pow_lt_pow_left₀ hxy hy (by norm_num)
  linarith

/-- The comparison of the two deviations with the standard deviation, all computed quantities
being known up to relative errors of at most one part in a thousand. -/
theorem pure_sd (n D A B xa xb V sd e : ℚ) (hn : 3 ≤ n) (hD : 0 < D)
    (he0 : 0 ≤ e) (he : e ≤ 1 / 1000)
    (hA0 : 0 ≤ A) (hA : A ≤ D * (1 + 1 / 1000)) (hB : D * (n - 1 - 1 / 1000) ≤ B)
    (hxa : xa ≤ A ^ 2 * (1 + 1 / 1000)) (hxa0 : 0 ≤ xa)
    (hxb1 : B ^ 2 * (1 - 1 / 1000) ≤ xb) (hxb2 : xb ≤ B ^ 2 * (1 + 1 / 1000))
    (hV1 : ((n - 1) * xa + xb) / n * (1 - 1 / 1000) ≤ V)
    (hV2 : V ≤ ((n - 1) * xa + xb) / n * (1 + 1 / 1000))
    (hsd0 : 0 < sd) (hsd1 : (sd * (1 - e)) ^ 2 ≤ V) (hsd2 : V ≤ (sd * (1 + e)) ^ 2) :
    A * (1 + e) < sd ∧ sd ≤ B * (1 - e) := by
  have hn0 : 0 < n := by linarith
  have hm : 0 < 1 - e := by linarith
  have hp : 0 < 1 + e := by linarith
  have hB0 : D * (1999 / 1000) ≤ B := by
    have := mul_nonneg hD.le (by linarith : (0 : ℚ) ≤ n - 3)
    linarith only [hB, this]
  have hBpos : 0 < B := by linarith only [hB0, hD]
  have hAB : A ≤ B * (51 / 100) := by linarith only [hA, hB0, hD]
  have hB2 : 0 < B ^ 2 := by positivity
  have hA2 : A ^ 2 ≤ B ^ 2 * (2601 / 10000) := by
    have h1 := pow_le_pow_left₀ hA0 hAB 2
    have h2 : (B * (51 / 100)) ^ 2 = B ^ 2 * (2601 / 10000) := by ring
    linarith only [h1, h2]
  -- the exact mean of the squares, times n
  have hW1 : B ^ 2 * (999 / 1000) ≤ (n - 1) * xa + xb := by
    have := mul_nonneg (by linarith : (0 : ℚ) ≤ n - 1) hxa0
    linarith only [hxb1, this]
  have hW2 : (n - 1) * xa + xb ≤ B ^ 2 * ((n - 1) * (2604 / 10000) + 1001 / 1000) := by
    have h1 : xa ≤ B ^ 2 * (2604 / 10000) := by linarith only [hxa, hA2, hB2]
    have h2 : (n - 1) * xa ≤ (n - 1) * (B ^ 2 * (2604 / 10000)) :=
      mul_le_mul_of_nonneg_left h1 (by linarith)
    linarith only [h2, hxb2]
  have hVn1 : B ^ 2 * (998 / 1000) ≤ V * n := by
    have h1 : ((n - 1) * xa + xb) / n * (1 - 1 / 1000) * n =
        ((n - 1) * xa + xb) * (1 - 1 / 1000) := by
      field_simp
      ring
    have h2 : ((n - 1) * xa + xb) / n * (1 - 1 / 1000) * n ≤ V * n :=
      mul_le_mul_of_nonneg_right hV1 hn0.le
    linarith only [h1, h2, hW1, hB2]
  have hVn2 : V * n ≤ B ^ 2 * (508 / 1000) * n := by
    have h1 : ((n - 1) * xa + xb) / n * (1 + 1 / 1000) * n =
        ((n - 1) * xa + xb) * (1 + 1 / 1000) := by
      field_simp
      ring
    have h2 : V * n ≤ ((n - 1) * xa + xb) / n * (1 + 1 / 1000) * n :=
      mul_le_mul_of_nonneg_right hV2 hn0.le
    have h3 : B ^ 2 * (((n - 1) * (2604 / 10000) + 1001 / 1000) * (1 + 1 / 1000)) ≤
        B ^ 2 * (508 / 1000 * n) :=
      mul_le_mul_of_nonneg_left (by linarith only [hn]) hB2.le
    linarith only [h1, h2, h3, hW2]
  have hV2' : V ≤ B ^ 2 * (508 / 1000) := le_of_mul_le_mul_right hVn2 hn0
  constructor
  · -- the common deviation is below the standard deviation
    have hB3 : D ^ 2 * (133 / 100 * n) ≤ B ^ 2 := by
      have h1 : 0 ≤ D * (n - 1 - 1 / 1000) :=
        mul_nonneg hD.le (by linarith only [hn])
      have h2 := pow_le_pow_left₀ h1 hB 2
      have h3 : 133 / 100 * n ≤ (n - 1 - 1 / 1000) ^ 2 := by
        have := mul_nonneg (by linarith only [hn] : (0 : ℚ) ≤ n - 3)
          (by linarith only [hn] : (0 : ℚ) ≤ n - 332 / 1000)
        linarith only [this, (by ring : (n - 1 - 1 / 1000) ^ 2 =
          (n - 3) * (n - 332 / 1000) + 133 / 100 * n + 6001 / 1000000)]
      have h4 : D ^ 2 * (133 / 100 * n) ≤ D ^ 2 * (n - 1 - 1 / 1000) ^ 2 :=
        mul_le_mul_of_nonneg_left h3 (by positivity)
      have h5 : (D * (n - 1 - 1 / 1000)) ^ 2 = D ^ 2 * (n - 1 - 1 / 1000) ^ 2 := by ring
      linarith only [h2, h4, h5]
    have hD2 : 0 < D ^ 2 := by positivity
    have hV3 : D ^ 2 * (132 / 100) ≤ V := by
      have h0 : 0 ≤ D ^ 2 * n := mul_nonneg hD2.le hn0.le
      have h1 : D ^ 2 * (132 / 100) * n ≤ V * n := by
        linarith only [hVn1, hB3, h0]
      exact le_of_mul_le_mul_right h1 hn0
    have h5 : (D * (114 / 100)) ^ 2 < (sd * (1 + e)) ^ 2 := by
      have : (D * (114 / 100)) ^ 2 = D ^ 2 * (12996 / 10000) := by ring
      linarith only [this, hV3, hsd2, hD2]
    have h6 : D * (114 / 100) < sd * (1 + e) :=
      lt_of_sq_lt (mul_nonneg hsd0.le hp.le) h5
    have h7 : A * (1 + e) * (1 + e) < sd * (1 + e) := by
      have h9 : A * (1 + e) ≤ D * (1 + 1 / 1000) * (1 + 1 / 1000) :=
        mul_le_mul hA (by linarith only [he]) hp.le (by linarith only [hD])
      have h8 : A * (1 + e) * (1 + e) ≤ D * (1 + 1 / 1000) * (1 + 1 / 1000) * (1 + 1 / 1000) :=
        mul_le_mul h9 (by linarith only [he]) hp.le (by linarith only [hD])
      linarith only [h8, h6, hD]
    exact lt_of_mul_lt_mul_right h7 hp.le
  · -- the deviation of the outlier is not below the standard deviation
    have h5 : (sd * (1 - e)) ^ 2 ≤ (B * (72 / 100)) ^ 2 := by
      have : (B * (72 / 100)) ^ 2 = B ^ 2 * (5184 / 10000) := by ring
      linarith only [this, hV2', hsd1, hB2]
    have h6 : sd * (1 - e) ≤ B * (72 / 100) :=
      le_of_sq_le (by linarith only [hBpos]) h5
    have h7 : B * (72 / 100) ≤ B * (1 - e) * (1 - e) := by
      have h8 : (999 / 1000 : ℚ) * (999 / 1000) ≤ (1 - e) * (1 - e) :=
        mul_le_mul (by linarith only [he]) (by linarith only [he]) (by norm_num) hm.le
      have h9 : B * ((999 / 1000 : ℚ) * (999 / 1000)) ≤ B * ((1 - e) * (1 - e)) :=
        mul_le_mul_of_nonneg_left h8 hBpos.le
      linarith only [h9, hBpos]
    have h8 : sd * (1 - e) ≤ B * (1 - e) * (1 - e) := le_trans h6 h7
    exact le_of_mul_le_mul_right h8 hm
theorem pow_small (K : Nat) (hK : K ≤ 10010) :
    (1 + pow2 (-53)) ^ K ≤ 1 + 1 / 274877906944 ∧
      1 - 1 / 274877906944 ≤ (1 - pow2 (-53)) ^ K := by
  have hKq : (K : ℚ) ≤ 10010 := by exact_mod_cast hK
  rw [pow2_neg53]
  have h1 := one_add_pow_le (show (0 : ℚ) ≤ 1 / 9007199254740992 by norm_num) K (by linarith)
  have h2 := one_sub_pow_ge (show (1 : ℚ) / 9007199254740992 ≤ 1 by norm_num) K
  constructor <;> linarith

theorem pattern_sum (f : Dbl → ℚ) (x y : Dbl) (k l : Nat) :
    ((List.replicate k x ++ y :: List.replicate l x).map f).sum =
      ((k : ℚ) + (l : ℚ)) * f x + f y := by
  simp [List.map_append, List.map_replicate, List.sum_replicate]
  ring

theorem pattern_length (x y : Dbl) (k l : Nat) :
    (List.replicate k x ++ y :: List.replicate l x).length = k + l + 1 := by
  simp
  omega

theorem pattern_forall (P : Dbl → Prop) (x y : Dbl) (k l : Nat) (hx : P x) (hy : P y) :
    ∀ t ∈ List.replicate k x ++ y :: List.replicate l x, P t := by
  intro t ht
  rcases List.mem_append.mp ht with h | h
  · rw [(List.mem_replicate.mp h).2]
    exact hx
  · rcases List.mem_cons.mp h with h | h
    · rw [h]
      exact hy
    · rw [(List.mem_replicate.mp h).2]
      exact hx

/-- The mean of `n - 1` equal distances `a` and one distance `b`, as computed, and the exact
deviations of `a` and of `b` from it. -/
theorem outlier_mean (da db : Dbl) (k l : Nat) (hda : da.isFinite = true)
    (hdb : db.isFinite = true) (hn3 : 3 ≤ k + l + 1) (hn : k + l + 1 ≤ 10000)
    (ha : da.toRat = 0 ∨ pow2 (-200) ≤ da.toRat) (ha2 : da.toRat ≤ pow2 200)
    (hb : db.toRat = 0 ∨ pow2 (-200) ≤ db.toRat) (hb2 : db.toRat ≤ pow2 200)
    (hgap : max da.toRat db.toRat ≤ 10000 * |db.toRat - da.toRat|) :
    (meanOf (List.replicate k da ++ db :: List.replicate l da)).isFinite = true ∧
      |db.toRat - da.toRat| / ((k + l + 1 : Nat) : ℚ) * (1 - 1 / 2000) ≤
        |da.toRat - (meanOf (List.replicate k da ++ db :: List.replicate l da)).toRat| ∧
      |da.toRat - (meanOf (List.replicate k da ++ db :: List.replicate l da)).toRat| ≤
        |db.toRat - da.toRat| / ((k + l + 1 : Nat) : ℚ) * (1 + 1 / 2000) ∧
      |db.toRat - da.toRat| / ((k + l + 1 : Nat) : ℚ) * (((k + l + 1 : Nat) : ℚ) - 1 - 1 / 2000) ≤
        |db.toRat - (meanOf (List.replicate k da ++ db :: List.replicate l da)).toRat| ∧
      |db.toRat - (meanOf (List.replicate k da ++ db :: List.replicate l da)).toRat| ≤
        |db.toRat - da.toRat| / ((k + l + 1 : Nat) : ℚ) * (((k + l + 1 : Nat) : ℚ) - 1 + 1 / 2000) := by
  have ha0 : 0 ≤ da.toRat := by
    rcases ha with h | h
    · rw [h]
    · exact le_trans (pow2_pos _).le h
  have hb0 : 0 ≤ db.toRat := by
    rcases hb with h | h
    · rw [h]
    · exact le_trans (pow2_pos _).le h
  set ds := List.replicate k da ++ db :: List.replicate l da with hds
  have hlen : ds.length = k + l + 1 := pattern_length da db k l
  have hsum : (ds.map Dbl.toRat).sum = ((k : ℚ) + (l : ℚ)) * da.toRat + db.toRat :=
    pattern_sum Dbl.toRat da db k l
  have hnq : ((k + l + 1 : Nat) : ℚ) = (k : ℚ) + (l : ℚ) + 1 := by push_cast; ring
  have hn3q : (3 : ℚ) ≤ ((k + l + 1 : Nat) : ℚ) := by exact_mod_cast hn3
  have hnq2 : ((k + l + 1 : Nat) : ℚ) ≤ 10000 := by exact_mod_cast hn
  have hP200 : 0 < pow2 200 := pow2_pos _
  have hP1000 : pow2 1000 = pow2 200 * pow2 800 := by rw [← pow2_add]; rfl
  have hP800 : pow2 14 ≤ pow2 800 := pow2_le (by norm_num)
  have hP14 : pow2 14 = 16384 := by decide!
  have hsumhi : (ds.map Dbl.toRat).sum ≤ pow2 1000 := by
    rw [hsum, hP1000]
    have h1 : ((k : ℚ) + (l : ℚ)) * da.toRat ≤ 10000 * pow2 200 :=
      mul_le_mul (by linarith only [hnq, hnq2]) ha2 ha0 (by norm_num)
    have h2 : pow2 200 * 16384 ≤ pow2 200 * pow2 800 :=
      mul_le_mul_of_nonneg_left (by linarith only [hP800, hP14]) hP200.le
    linarith only [h1, h2, hb2, hP200]
  have hterms : ∀ t ∈ ds, t.isFinite = true ∧ (t.toRat = 0 ∨ pow2 (-200) ≤ t.toRat) :=
    pattern_forall (fun t => t.isFinite = true ∧ (t.toRat = 0 ∨ pow2 (-200) ≤ t.toRat))
      da db k l ⟨hda, ha⟩ ⟨hdb, hb⟩
  obtain ⟨mf, mlo, mhi⟩ := avg_bounds (-200) (by norm_num) ds (by omega) (by omega) hterms hsumhi
  have hmean : meanOf ds = Dbl.div binary64 (ds.foldl (fun acc d => Dbl.add binary64 acc d) d0)
      (Dbl.ofInt binary64 ds.length) := rfl
  rw [← hmean] at mf mlo mhi
  obtain ⟨p1, -⟩ := pow_small (ds.length + 3) (by omega)
  obtain ⟨-, p2⟩ := pow_small (ds.length + 2) (by omega)
  rw [hsum, hlen] at mlo mhi
  rw [hlen] at p1 p2
  generalize meanOf ds = μ at *
  generalize hN : ((k + l + 1 : Nat) : ℚ) = n at *
  have hT : ((k : ℚ) + (l : ℚ)) * da.toRat + db.toRat = (n - 1) * da.toRat + db.toRat := by
    rw [hnq]
    ring
  rw [hT] at mlo mhi
  have hm0 : 0 ≤ ((n - 1) * da.toRat + db.toRat) / n :=
    div_nonneg (add_nonneg (mul_nonneg (by linarith only [hn3q]) ha0) hb0)
      (by linarith only [hn3q])
  have hm1 : ((n - 1) * da.toRat + db.toRat) / n * (1 - 1 / 274877906944) ≤ μ.toRat :=
    le_trans (mul_le_mul_of_nonneg_left p2 hm0) mlo
  have hm2 : μ.toRat ≤ ((n - 1) * da.toRat + db.toRat) / n * (1 + 1 / 274877906944) :=
    le_trans mhi (mul_le_mul_of_nonneg_left p1 hm0)
  have hw : n * (1 / 274877906944) * 10000 ≤ 1 / 2000 := by linarith only [hnq2]
  exact ⟨mf, pure_mean n da.toRat db.toRat μ.toRat (1 / 274877906944) 10000 (1 / 2000) hn3q
    ha0 hb0 (by norm_num) hm1 hm2 hgap hw⟩

/-! ## Sums that stay on a grid -/

theorem roundHalfEven_near (I : Int) (ρ : ℚ)
    (h : |ρ| < 1 / 2 ∨ (|ρ| = 1 / 2 ∧ I % 2 = 0)) : roundHalfEven ((I : ℚ) + ρ) = I := by
  have hle : |ρ| ≤ 1 / 2 := by
    rcases h with h | ⟨h, -⟩
    · exact h.le
    · exact h.le
  obtain ⟨h1, h2⟩ := abs_le.mp hle
  unfold roundHalfEven
  simp only [rat_floor_eq]
  by_cases hneg : ρ < 0
  · have hfl : ⌊(I : ℚ) + ρ⌋ = I - 1 := by
      rw [Int.floor_eq_iff]
      push_cast
      constructor <;> linarith
    rw [hfl]
    push_cast
    by_cases hs : ρ = -(1 / 2)
    · have heven : I % 2 = 0 := by
        rcases h with h | ⟨-, h⟩
        · have := (abs_lt.mp h).1
          rw [hs] at this
          exact absurd this (lt_irrefl _)
        · exact h
      have c1 : ¬ ((I : ℚ) + ρ - ((I : ℚ) - 1) < 1 / 2) := by rw [hs]; norm_num
      have c2 : ¬ ((1 : ℚ) / 2 < (I : ℚ) + ρ - ((I : ℚ) - 1)) := by rw [hs]; norm_num
      have c3 : ¬ ((I - 1) % 2 = 0) := by omega
      rw [if_neg c1, if_neg c2, if_neg c3]
      ring
    · have hgt : -(1 / 2) < ρ := lt_of_le_of_ne h1 (Ne.symm hs)
      have c1 : ¬ ((I : ℚ) + ρ - ((I : ℚ) - 1) < 1 / 2) := by
        rw [not_lt]
        linarith
      have c2 : (1 : ℚ) / 2 < (I : ℚ) + ρ - ((I : ℚ) - 1) := by linarith
      rw [if_neg c1, if_pos c2]
      ring
  · have hnn : 0 ≤ ρ := not_lt.mp hneg
    have hfl : ⌊(I : ℚ) + ρ⌋ = I := by
      rw [Int.floor_eq_iff]
      constructor <;> linarith
    rw [hfl]
    by_cases hs : ρ = 1 / 2
    · have heven : I % 2 = 0 := by
        rcases h with h | ⟨-, h⟩
        · have := (abs_lt.mp h).2
          rw [hs] at this
          exact absurd this (lt_irrefl _)
        · exact h
      have c1 : ¬ ((I : ℚ) + ρ - (I : ℚ) < 1 / 2) := by rw [hs]; norm_num
      have c2 : ¬ ((1 : ℚ) / 2 < (I : ℚ) + ρ - (I : ℚ)) := by rw [hs]; norm_num
      rw [if_neg c1, if_neg c2, if_pos heven]
    · have hlt : ρ < 1 / 2 := lt_of_le_of_ne h2 hs
      have c1 : (I : ℚ) + ρ - (I : ℚ) < 1 / 2 := by linarith
      rw [if_pos c1]

/-- Rounding `g + r` to `double`, where `g` lies on the grid `2 ^ G ℤ` of a binade not finer
than that of `g + r`, and `r` is at most half a unit in the last place of the finest binade
`g + r` can lie in (strictly less, or `g` lies on a grid twice as coarse): the result is `g`. -/
theorem round_grid (n : Bool) (I G L : Int) (g r : ℚ) (hg : g = (I : ℚ) * pow2 G)
    (hG : -1074 ≤ G)
    (hr : |r| < pow2 (L - 1) ∨ (|r| ≤ pow2 (L - 1) ∧ L + 1 ≤ G))
    (hlo : pow2 (52 + L) ≤ g + r) (hhi : g + r < pow2 (53 + G)) (hpos : 0 < g)
    (hov : g < pow2 1024) :
    round binary64 n (g + r) = Dbl.num g := by
  have hq : 0 < g + r := lt_of_lt_of_le (pow2_pos _) hlo
  obtain ⟨s1, s2⟩ := floorLog2_spec (g + r) hq
  have he1 : 52 + L < floorLog2 (g + r) + 1 := pow2_lt_iff.mp (lt_of_le_of_lt hlo s2)
  have he2 : floorLog2 (g + r) < 53 + G := pow2_lt_iff.mp (lt_of_le_of_lt s1 hhi)
  rw [round_of_pos binary64 n hq]
  have hQ : quantum binary64 (floorLog2 (g + r)) =
      max (floorLog2 (g + r) - 52) (-1074) := by
    unfold quantum
    rfl
  rw [hQ]
  generalize floorLog2 (g + r) = e at *
  have hQL : L ≤ max (e - 52) (-1074) := le_trans (by omega) (le_max_left _ _)
  have hQG : max (e - 52) (-1074) ≤ G := max_le (by omega) hG
  generalize max (e - 52) (-1074) = Q at *
  have hu : 0 < pow2 Q := pow2_pos Q
  obtain ⟨d, hd⟩ : ∃ d : Nat, G = Q + d := ⟨(G - Q).toNat, by omega⟩
  have hgu : g / pow2 Q = ((I * 2 ^ d : Int) : ℚ) := by
    rw [hg, hd, pow2_add, pow2_natCast]
    push_cast
    field_simp
    ring
  have hρ : |r / pow2 Q| < 1 / 2 ∨ (|r / pow2 Q| = 1 / 2 ∧ (I * 2 ^ d) % 2 = 0) := by
    rw [abs_div, abs_of_pos hu]
    have hhalf : pow2 (Q - 1) = pow2 Q / 2 := pow2_pred Q
    have hmono : pow2 (L - 1) ≤ pow2 (Q - 1) := pow2_le (by omega)
    rcases hr with h | ⟨h, hL1⟩
    · left
      rw [div_lt_iff₀ hu]
      linarith
    · by_cases hQeq : Q = L
      · have hle : |r| / pow2 Q ≤ 1 / 2 := by
          rw [div_le_iff₀ hu]
          linarith
        rcases lt_or_eq_of_le hle with h' | h'
        · exact Or.inl h'
        · right
          refine ⟨h', ?_⟩
          have hd1 : 1 ≤ d := by omega
          obtain ⟨d', rfl⟩ : ∃ d', d = d' + 1 := ⟨d - 1, by omega⟩
          rw [pow_succ, ← mul_assoc]
          exact Int.mul_emod_left _ 2
      · left
        have hlt : pow2 (L - 1) < pow2 (Q - 1) := pow2_lt (by omega)
        rw [div_lt_iff₀ hu]
        linarith
  have hsplit : (g + r) / pow2 Q = ((I * 2 ^ d : Int) : ℚ) + r / pow2 Q := by
    rw [add_div, hgu]
  rw [hsplit, roundHalfEven_near _ _ hρ, ← hgu]
  have hval : g / pow2 Q * pow2 Q = g := by field_simp
  have hov' : ¬ pow2 binary64.emax ≤ g := not_le.mpr hov
  rw [hval, if_neg hov', if_neg (ne_of_gt hpos)]

/-- A run of the loop `acc += x` during which the sum stays on the grid `2 ^ G ℤ`: when `x`
differs from the grid value `c` by at most half a unit in the last place of every binade the
exact sums pass through, each addition rounds `acc + x` to `acc + c`. -/
theorem sum_phase (x c r : ℚ) (C G L : Int) (hx : x = c + r) (hc : c = (C : ℚ) * pow2 G)
    (hC : 0 ≤ C) (hG : -1074 ≤ G)
    (hr : |r| < pow2 (L - 1) ∨ (|r| ≤ pow2 (L - 1) ∧ L + 1 ≤ G)) :
    ∀ (K : Nat) (S : Int), pow2 (52 + L) ≤ (S : ℚ) * pow2 G + c + r →
      (S : ℚ) * pow2 G + (K : ℚ) * c + r < pow2 (53 + G) →
      (S : ℚ) * pow2 G + (K : ℚ) * c < pow2 1024 →
      (List.replicate K (Dbl.num x)).foldl (fun acc d => Dbl.add binary64 acc d)
          (Dbl.num ((S : ℚ) * pow2 G)) =
        Dbl.num ((S : ℚ) * pow2 G + (K : ℚ) * c) := by
  have hc0 : 0 ≤ c := by
    rw [hc]
    exact mul_nonneg (by exact_mod_cast hC) (pow2_pos _).le
  have hrabs : |r| ≤ pow2 (L - 1) := by
    rcases hr with h | ⟨h, -⟩
    · exact h.le
    · exact h
  have hLlt : pow2 (L - 1) < pow2 (52 + L) := pow2_lt (by omega)
  intro K
  induction K with
  | zero =>
    intro S _ _ _
    simp
  | succ K ih =>
    intro S hlo hhi hov
    push_cast at hhi hov
    have hKc : 0 ≤ (K : ℚ) * c := mul_nonneg (Nat.cast_nonneg K) hc0
    have hstep : Dbl.add binary64 (Dbl.num ((S : ℚ) * pow2 G)) (Dbl.num x) =
        Dbl.num (((S + C : Int) : ℚ) * pow2 G) := by
      have h1 : Dbl.add binary64 (Dbl.num ((S : ℚ) * pow2 G)) (Dbl.num x) =
          round binary64 (decide ((S : ℚ) * pow2 G < 0) && decide (x < 0))
            ((S : ℚ) * pow2 G + x) := rfl
      have h2 : (S : ℚ) * pow2 G + x = ((S + C : Int) : ℚ) * pow2 G + r := by
        rw [hx, hc]
        push_cast
        ring
      have h3 : ((S + C : Int) : ℚ) * pow2 G = (S : ℚ) * pow2 G + c := by
        rw [hc]
        push_cast
        ring
      rw [h1, h2]
      apply round_grid _ (S + C) G L _ r rfl hG hr
      · rw [h3]
        exact hlo
      · rw [h3]
        linarith
      · rw [h3]
        have := (abs_le.mp hrabs).2
        linarith
      · rw [h3]
        linarith
    rw [List.replicate_succ, List.foldl_cons, hstep]
    have h3 : ((S + C : Int) : ℚ) * pow2 G = (S : ℚ) * pow2 G + c := by
      rw [hc]
      push_cast
      ring
    rw [ih (S + C) (by rw [h3]; linarith) (by rw [h3]; linarith) (by rw [h3]; linarith), h3]
    congr 1
    push_cast
    ring
/-! ## Exact operations -/

/-- A positive value `I · 2 ^ G` with `I < 2 ^ 53` is a `double`: rounding returns it. -/
theorem round_exact_pos (n : Bool) (I G : Int) (g : ℚ) (hg : g = (I : ℚ) * pow2 G)
    (hG : -1074 ≤ G) (hI : I < 2 ^ 53) (hpos : 0 < g) (hov : g < pow2 1024) :
    round binary64 n g = Dbl.num g := by
  obtain ⟨s1, -⟩ := floorLog2_spec g hpos
  have h := round_grid n I G (floorLog2 g - 52) g 0 hg hG
    (Or.inl (by rw [abs_zero]; exact pow2_pos _))
    (by rw [add_zero, show 52 + (floorLog2 g - 52) = floorLog2 g by ring]; exact s1)
    (by
      rw [add_zero, hg, pow2_add]
      have h53 : pow2 53 = ((2 ^ 53 : Int) : ℚ) := by decide!
      rw [h53]
      exact mul_lt_mul_of_pos_right (by exact_mod_cast hI) (pow2_pos _))
    hpos hov
  rw [add_zero] at h
  exact h

/-- The same for a non-zero value of either sign. -/
theorem round_exact (n : Bool) (I G : Int) (q : ℚ) (hq : q = (I : ℚ) * pow2 G)
    (hG : -1074 ≤ G) (hI : |I| < 2 ^ 53) (hne : q ≠ 0) (hov : |q| < pow2 1024) :
    round binary64 n q = Dbl.num q := by
  rcases lt_or_gt_of_ne hne with hneg | hpos
  · have h1 : round binary64 n (-q) = Dbl.num (-q) :=
      round_exact_pos n (-I) G (-q) (by rw [hq]; push_cast; ring) hG
        (by have := neg_abs_le I; omega) (by linarith)
        (by rw [abs_of_neg hneg] at hov; exact hov)
    have h2 := round_neg_arg binary64 n n (neg_ne_zero.mpr hne)
    rw [neg_neg, h1] at h2
    rw [h2]
    simp [Dbl.neg, hne]
  · exact round_exact_pos n I G q hq hG (lt_of_le_of_lt (le_abs_self I) hI) hpos
      (by rw [abs_of_pos hpos] at hov; exact hov)

/-- A finite result of rounding a value of magnitude at least `2 ^ E` to `double` lies on the
grid `2 ^ (E - 52) ℤ` (or on a coarser one). -/
theorem round_on_grid (n : Bool) (q : ℚ) (E : Int) (hq : pow2 E ≤ |q|) :
    ∃ J : Int, (round binary64 n q).toRat = (J : ℚ) * pow2 (E - 52) := by
  have habs : 0 < |q| := lt_of_lt_of_le (pow2_pos _) hq
  have hq0 : q ≠ 0 := abs_pos.mp habs
  obtain ⟨s1, s2⟩ := floorLog2_spec |q| habs
  have he : E < floorLog2 |q| + 1 := pow2_lt_iff.mp (lt_of_le_of_lt hq s2)
  unfold round roundMag
  simp only [hq0, if_false]
  have hQ : quantum binary64 (floorLog2 |q|) = max (floorLog2 |q| - 52) (-1074) := rfl
  rw [hQ]
  generalize floorLog2 |q| = e at *
  have hQE : E - 52 ≤ max (e - 52) (-1074) := le_trans (by omega) (le_max_left _ _)
  generalize max (e - 52) (-1074) = Q at *
  obtain ⟨d, hd⟩ : ∃ d : Nat, Q = (E - 52) + d := ⟨(Q - (E - 52)).toNat, by omega⟩
  have hpQ : pow2 Q = ((2 ^ d : Int) : ℚ) * pow2 (E - 52) := by
    rw [hd, pow2_add, pow2_natCast]
    push_cast
    ring
  generalize roundHalfEven (|q| / pow2 Q) = R
  by_cases hov : pow2 binary64.emax ≤ (R : ℚ) * pow2 Q
  · rw [if_pos hov]
    exact ⟨0, by simp [Dbl.toRat]⟩
  · rw [if_neg hov]
    simp only
    by_cases hz : (R : ℚ) * pow2 Q = 0
    · rw [if_pos hz]
      exact ⟨0, by simp [Dbl.toRat]⟩
    · rw [if_neg hz]
      by_cases hneg : q < 0
      · rw [if_pos hneg]
        refine ⟨-(R * 2 ^ d), ?_⟩
        simp only [Dbl.toRat]
        rw [hpQ]
        push_cast
        ring
      · rw [if_neg hneg]
        refine ⟨R * 2 ^ d, ?_⟩
        simp only [Dbl.toRat]
        rw [hpQ]
        push_cast
        ring
/-- The square root of a square: for `y = J · 2 ^ E` with `0 < J < 2 ^ 53`, not below
`2 ^ (-500)`, the computed square root of `y * y` is `y`. -/
theorem sqrtRound_sq (J : Nat) (E : Int) (y : ℚ) (hy : y = (J : ℚ) * pow2 E)
    (hJ : J < 2 ^ 53) (hlo : pow2 (-500) ≤ y) :
    Dbl.sqrtRound binary64 (y * y) = y := by
  have hypos : 0 < y := lt_of_lt_of_le (pow2_pos _) hlo
  have hyy : 0 < y * y := mul_pos hypos hypos
  obtain ⟨l1, l2⟩ := floorLog2_spec y hypos
  obtain ⟨s1, s2⟩ := floorLog2_spec (y * y) hyy
  have hLy : -500 < floorLog2 y + 1 := pow2_lt_iff.mp (lt_of_le_of_lt hlo l2)
  have hJq : (J : ℚ) < pow2 53 := by
    have h53 : pow2 53 = ((2 ^ 53 : Nat) : ℚ) := by decide!
    rw [h53]
    exact_mod_cast hJ
  have hLE : floorLog2 y < 53 + E := by
    apply pow2_lt_iff.mp
    apply lt_of_le_of_lt l1
    rw [hy, pow2_add]
    exact mul_lt_mul_of_pos_right hJq (pow2_pos _)
  have he1 : 2 * floorLog2 y < floorLog2 (y * y) + 1 := by
    apply pow2_lt_iff.mp
    apply lt_of_le_of_lt _ s2
    rw [pow2_two_mul]
    exact mul_le_mul l1 l1 (pow2_pos _).le hypos.le
  have he2 : floorLog2 (y * y) < 2 * (floorLog2 y + 1) := by
    apply pow2_lt_iff.mp
    apply lt_of_le_of_lt s1
    rw [pow2_two_mul]
    exact mul_lt_mul'' l2 l2 hypos.le hypos.le
  have hhalf : floorLog2 (y * y) / 2 = floorLog2 y := by omega
  have hquant : quantum binary64 (floorLog2 (y * y) / 2) = floorLog2 y - 52 := by
    rw [hhalf]
    unfold quantum
    show max (floorLog2 y - (((53 : Nat) : Int) - 1)) (-1074) = floorLog2 y - 52
    rw [max_eq_left (by omega)]
    norm_num
  unfold Dbl.sqrtRound
  simp only [hquant]
  clear hquant hhalf he1 he2 s1 s2
  generalize floorLog2 y = Ly at *
  obtain ⟨d, hd⟩ : ∃ d : Nat, E = (Ly - 52) + d :=
    ⟨(E - (Ly - 52)).toNat, by omega⟩
  have hk : 0 < pow2 (Ly - 52) := pow2_pos _
  have hyw : y = ((J * 2 ^ d : Nat) : ℚ) * pow2 (Ly - 52) := by
    rw [hy, hd, pow2_add, pow2_natCast]
    push_cast
    ring
  have ht : y * y / pow2 (2 * (Ly - 52)) = ((J * 2 ^ d * (J * 2 ^ d) : Nat) : ℚ) := by
    rw [pow2_two_mul]
    conv_lhs => rw [hyw]
    push_cast
    field_simp
    ring
  simp only [ht]
  have hfloor : (((J * 2 ^ d * (J * 2 ^ d) : Nat) : ℚ)).floor.toNat = J * 2 ^ d * (J * 2 ^ d) := by
    rw [rat_floor_eq, Int.floor_natCast]
    exact Int.toNat_natCast _
  rw [hfloor, isqrt_eq, Nat.sqrt_eq]
  have hlt : ((J * 2 ^ d * (J * 2 ^ d) : Nat) : ℚ) <
      (((J * 2 ^ d : Nat) : ℚ) + 1 / 2) * (((J * 2 ^ d : Nat) : ℚ) + 1 / 2) := by
    have h0 : (0 : ℚ) ≤ ((J * 2 ^ d : Nat) : ℚ) := Nat.cast_nonneg _
    push_cast
    push_cast at h0
    nlinarith
  rw [if_pos hlt]
  exact hyw.symm

/-- The structure of a computed square root: a 53-bit integer times a power of two. -/
theorem sqrtRound_repr {q : ℚ} (hlo : pow2 (-1000) ≤ q) :
    ∃ r : Nat, Dbl.sqrtRound binary64 q = (r : ℚ) * pow2 (floorLog2 q / 2 - 52) ∧
      2 ^ 52 ≤ r ∧ r ≤ 2 ^ 53 := by
  have hq : 0 < q := lt_of_lt_of_le (pow2_pos _) hlo
  obtain ⟨s1, s2⟩ := floorLog2_spec q hq
  set e := floorLog2 q with he
  have he1 : -1000 < e + 1 := pow2_lt_iff.mp (lt_of_le_of_lt hlo s2)
  have hquant : quantum binary64 (e / 2) = e / 2 - 52 := by
    unfold quantum
    show max (e / 2 - (((53 : Nat) : Int) - 1)) (-1074) = e / 2 - 52
    rw [max_eq_left (by omega)]
    norm_num
  set k : Int := e / 2 - 52 with hk
  have h2k : 0 < pow2 (2 * k) := pow2_pos _
  set t : ℚ := q / pow2 (2 * k) with ht
  have ht1 : pow2 104 ≤ t := by
    rw [ht, le_div_iff₀ h2k, ← pow2_add]
    exact le_trans (pow2_le (by omega)) s1
  have ht2 : t < pow2 106 := by
    rw [ht, div_lt_iff₀ h2k, ← pow2_add]
    exact lt_of_lt_of_le s2 (pow2_le (by omega))
  have h104 : pow2 104 = ((2 ^ 104 : Nat) : ℚ) := by decide!
  have h106 : pow2 106 = ((2 ^ 106 : Nat) : ℚ) := by decide!
  have htpos : 0 < t := lt_of_lt_of_le (pow2_pos _) ht1
  have hfl : 0 ≤ ⌊t⌋ := Int.floor_nonneg.mpr htpos.le
  set N : Nat := t.floor.toNat with hN
  have hNfl : (N : Int) = ⌊t⌋ := by
    rw [hN, rat_floor_eq]
    exact Int.toNat_of_nonneg hfl
  have hN104 : 2 ^ 104 ≤ N := by
    have : ((2 ^ 104 : Nat) : Int) ≤ ⌊t⌋ := by
      rw [Int.le_floor]
      rw [h104] at ht1
      exact_mod_cast ht1
    rw [← hNfl] at this
    exact_mod_cast this
  have hN106 : N < 2 ^ 106 := by
    have : ⌊t⌋ < ((2 ^ 106 : Nat) : Int) := by
      rw [Int.floor_lt]
      rw [h106] at ht2
      exact_mod_cast ht2
    rw [← hNfl] at this
    exact_mod_cast this
  set f : Nat := Dbl.isqrt N with hf
  have hfs : f = Nat.sqrt N := isqrt_eq N
  have hf52 : 2 ^ 52 ≤ f := by
    rw [hfs, Nat.le_sqrt]
    calc 2 ^ 52 * 2 ^ 52 = 2 ^ 104 := by norm_num
      _ ≤ N := hN104
  have hf53 : f < 2 ^ 53 := by
    rw [hfs, Nat.sqrt_lt]
    calc N < 2 ^ 106 := hN106
      _ = 2 ^ 53 * 2 ^ 53 := by norm_num
  set r : Nat := if t < ((f : ℚ) + 1 / 2) * ((f : ℚ) + 1 / 2) then f
    else if ((f : ℚ) + 1 / 2) * ((f : ℚ) + 1 / 2) < t then f + 1
    else if f % 2 = 0 then f else f + 1 with hr
  have hval : Dbl.sqrtRound binary64 q = (r : ℚ) * pow2 k := by
    unfold Dbl.sqrtRound
    simp only [← he, hquant, ← hk, ← ht, ← hN, ← hf, ← hr]
  refine ⟨r, hval, ?_, ?_⟩
  · rw [hr]
    split_ifs <;> omega
  · rw [hr]
    split_ifs <;> omega
/-- A rounded value of magnitude at least `2 ^ E` lies on the grid `2 ^ (E - 53) ℤ`. -/
theorem round_out_grid (n : Bool) (q : ℚ) (E : Int)
    (h : pow2 E ≤ |(round binary64 n q).toRat|) :
    ∃ J : Int, (round binary64 n q).toRat = (J : ℚ) * pow2 (E - 53) := by
  have hE : 0 < pow2 E := pow2_pos E
  by_cases hq0 : q = 0
  · rw [hq0, round_zero] at h
    simp only [Dbl.toRat, abs_zero] at h
    exact absurd h (not_le.mpr hE)
  have habs : 0 < |q| := abs_pos.mpr hq0
  obtain ⟨s1, s2⟩ := floorLog2_spec |q| habs
  revert h
  unfold round roundMag
  simp only [hq0, if_false]
  have hQ : quantum binary64 (floorLog2 |q|) = max (floorLog2 |q| - 52) (-1074) := rfl
  rw [hQ]
  generalize floorLog2 |q| = e at *
  have hQe : e - 52 ≤ max (e - 52) (-1074) := le_max_left _ _
  generalize max (e - 52) (-1074) = Q at *
  have hu : 0 < pow2 Q := pow2_pos Q
  have hR := roundHalfEven_sub_le (|q| / pow2 Q)
  have hR0 : 0 ≤ roundHalfEven (|q| / pow2 Q) :=
    roundHalfEven_nonneg (div_nonneg habs.le hu.le)
  generalize roundHalfEven (|q| / pow2 Q) = R at *
  have hRq : (0 : ℚ) ≤ (R : ℚ) := by exact_mod_cast hR0
  have hRlt : (R : ℚ) * pow2 Q < pow2 (54 + Q) := by
    have h1 : |q| / pow2 Q < pow2 53 := by
      rw [div_lt_iff₀ hu, ← pow2_add]
      exact lt_of_lt_of_le s2 (pow2_le (by omega))
    have h2 : (R : ℚ) ≤ |q| / pow2 Q + 1 / 2 := by
      have := (abs_le.mp hR).2
      linarith
    have h53 : (1 : ℚ) ≤ pow2 53 := by
      have : pow2 0 ≤ pow2 53 := pow2_le (by norm_num)
      rw [show pow2 0 = 1 by decide!] at this
      exact this
    have h3 : (R : ℚ) < 2 * pow2 53 := by linarith
    have h4 : pow2 (54 + Q) = 2 * pow2 53 * pow2 Q := by
      rw [show 54 + Q = (53 + 1) + Q by ring, pow2_add, pow2_succ]
    rw [h4]
    exact mul_lt_mul_of_pos_right h3 hu
  intro h
  by_cases hov : pow2 binary64.emax ≤ (R : ℚ) * pow2 Q
  · rw [if_pos hov] at h
    simp only [Dbl.toRat, abs_zero] at h
    exact absurd h (not_le.mpr hE)
  · rw [if_neg hov] at h ⊢
    simp only at h ⊢
    by_cases hz : (R : ℚ) * pow2 Q = 0
    · rw [if_pos hz] at h
      simp only [Dbl.toRat, abs_zero] at h
      exact absurd h (not_le.mpr hE)
    · rw [if_neg hz] at h ⊢
      have hv0 : 0 ≤ (R : ℚ) * pow2 Q := mul_nonneg hRq hu.le
      have hEQ : E - 53 ≤ Q := by
        have habsv : |(Dbl.num (if q < 0 then -((R : ℚ) * pow2 Q) else (R : ℚ) * pow2 Q)).toRat|
            = (R : ℚ) * pow2 Q := by
          simp only [Dbl.toRat]
          split_ifs
          · rw [abs_neg, abs_of_nonneg hv0]
          · exact abs_of_nonneg hv0
        rw [habsv] at h
        have : E < 54 + Q := pow2_lt_iff.mp (lt_of_le_of_lt h hRlt)
        omega
      obtain ⟨d, hd⟩ : ∃ d : Nat, Q = (E - 53) + d := ⟨(Q - (E - 53)).toNat, by omega⟩
      have hpQ : pow2 Q = ((2 ^ d : Int) : ℚ) * pow2 (E - 53) := by
        rw [hd, pow2_add, pow2_natCast]
        push_cast
        ring
      by_cases hneg : q < 0
      · rw [if_pos hneg]
        refine ⟨-(R * 2 ^ d), ?_⟩
        simp only [Dbl.toRat]
        rw [hpQ]
        push_cast
        ring
      · rw [if_neg hneg]
        refine ⟨R * 2 ^ d, ?_⟩
        simp only [Dbl.toRat]
        rw [hpQ]
        push_cast
        ring

/-! ## The rounding function is monotone -/

theorem roundHalfEven_mono {x y : ℚ} (h : x ≤ y) : roundHalfEven x ≤ roundHalfEven y := by
  have hx1 : ((⌊x⌋ : Int) : ℚ) ≤ x := Int.floor_le x
  have hx2 : x < ((⌊x⌋ : Int) : ℚ) + 1 := Int.lt_floor_add_one x
  have hy1 : ((⌊y⌋ : Int) : ℚ) ≤ y := Int.floor_le y
  have hy2 : y < ((⌊y⌋ : Int) : ℚ) + 1 := Int.lt_floor_add_one y
  have hfl : ⌊x⌋ ≤ ⌊y⌋ := Int.floor_le_floor h
  have hxle : roundHalfEven x ≤ ⌊x⌋ + 1 := by
    unfold roundHalfEven
    simp only [rat_floor_eq]
    split_ifs <;> omega
  have hyge : ⌊y⌋ ≤ roundHalfEven y := by
    unfold roundHalfEven
    simp only [rat_floor_eq]
    split_ifs <;> omega
  rcases lt_or_eq_of_le hfl with hlt | heq
  · omega
  · unfold roundHalfEven
    simp only [rat_floor_eq, ← heq]
    have hxy : x - ((⌊x⌋ : Int) : ℚ) ≤ y - ((⌊x⌋ : Int) : ℚ) := by linarith
    split_ifs with a1 a2 a3 a4 a5 a6 a7 a8 a9 <;> first
      | omega
      | (exfalso; linarith)

theorem round_toRat_nonneg (F : Fmt) (n : Bool) {q : ℚ} (hq : 0 ≤ q) :
    0 ≤ (round F n q).toRat := by
  rcases eq_or_lt_of_le hq with h | h
  · rw [← h, round_zero]
    exact le_rfl
  · rw [round_of_pos F n h]
    have hu : 0 < pow2 (quantum F (floorLog2 q)) := pow2_pos _
    have hr : 0 ≤ roundHalfEven (q / pow2 (quantum F (floorLog2 q))) :=
      roundHalfEven_nonneg (div_nonneg hq hu.le)
    split_ifs
    · exact le_rfl
    · exact le_rfl
    · exact mul_nonneg (by exact_mod_cast hr) hu.le

/-- The value of a positive exact result after rounding, when the rounding does not overflow. -/
theorem round_pos_toRat (F : Fmt) (n : Bool) {q : ℚ} (hq : 0 < q)
    (hfin : (round F n q).isFinite = true) :
    (round F n q).toRat =
      (roundHalfEven (q / pow2 (quantum F (floorLog2 q))) : ℚ) * pow2 (quantum F (floorLog2 q)) := by
  rw [round_of_pos F n hq] at hfin ⊢
  split_ifs with h1 h2
  · rw [if_pos h1] at hfin
    exact absurd hfin (by simp [Dbl.isFinite])
  · rw [h2]
    rfl
  · rfl

theorem floorLog2_mono {q1 q2 : ℚ} (h1 : 0 < q1) (h : q1 ≤ q2) : floorLog2 q1 ≤ floorLog2 q2 := by
  obtain ⟨a1, -⟩ := floorLog2_spec q1 h1
  obtain ⟨-, b2⟩ := floorLog2_spec q2 (lt_of_lt_of_le h1 h)
  have : floorLog2 q1 < floorLog2 q2 + 1 :=
    pow2_lt_iff.mp (lt_of_le_of_lt a1 (lt_of_le_of_lt h b2))
  omega

/-- Rounding is monotone on the non-negative values, as long as the greater result is
finite. -/
theorem round_mono (F : Fmt) (hp : 1 ≤ F.prec) (n1 n2 : Bool) {q1 q2 : ℚ} (h0 : 0 ≤ q1)
    (h : q1 ≤ q2) (hfin : (round F n2 q2).isFinite = true) :
    (round F n1 q1).toRat ≤ (round F n2 q2).toRat := by
  rcases eq_or_lt_of_le h0 with hz | hq1
  · rw [← hz, round_zero]
    exact round_toRat_nonneg F n2 (le_trans h0 h)
  have hq2 : 0 < q2 := lt_of_lt_of_le hq1 h
  rw [round_pos_toRat F n2 hq2 hfin]
  obtain ⟨a1, b1⟩ := floorLog2_spec q1 hq1
  obtain ⟨a2, b2⟩ := floorLog2_spec q2 hq2
  have he := floorLog2_mono hq1 h
  have hQ1 : quantum F (floorLog2 q1) = max (floorLog2 q1 - ((F.prec : Int) - 1)) F.emin := rfl
  have hQ2 : quantum F (floorLog2 q2) = max (floorLog2 q2 - ((F.prec : Int) - 1)) F.emin := rfl
  have hu1 : 0 < pow2 (quantum F (floorLog2 q1)) := pow2_pos _
  have hu2 : 0 < pow2 (quantum F (floorLog2 q2)) := pow2_pos _
  have hR2 : 0 ≤ roundHalfEven (q2 / pow2 (quantum F (floorLog2 q2))) :=
    roundHalfEven_nonneg (div_nonneg hq2.le hu2.le)
  -- the lesser result, whether finite or not, is at most its finite candidate
  have hle1 : (round F n1 q1).toRat ≤
      (roundHalfEven (q1 / pow2 (quantum F (floorLog2 q1))) : ℚ) *
        pow2 (quantum F (floorLog2 q1)) := by
    have hR1 : 0 ≤ roundHalfEven (q1 / pow2 (quantum F (floorLog2 q1))) :=
      roundHalfEven_nonneg (div_nonneg hq1.le hu1.le)
    have hv : 0 ≤ (roundHalfEven (q1 / pow2 (quantum F (floorLog2 q1))) : ℚ) *
        pow2 (quantum F (floorLog2 q1)) := mul_nonneg (by exact_mod_cast hR1) hu1.le
    rw [round_of_pos F n1 hq1]
    split_ifs with c1 c2
    · exact hv
    · exact hv
    · exact le_rfl
  refine le_trans hle1 ?_
  by_cases hQ : quantum F (floorLog2 q1) = quantum F (floorLog2 q2)
  · rw [hQ]
    apply mul_le_mul_of_nonneg_right _ hu2.le
    have : roundHalfEven (q1 / pow2 (quantum F (floorLog2 q2))) ≤
        roundHalfEven (q2 / pow2 (quantum F (floorLog2 q2))) :=
      roundHalfEven_mono (div_le_div_of_nonneg_right h hu2.le)
    exact_mod_cast this
  · -- a coarser grid for the greater value: a power of two lies between the two results
    have hQlt : quantum F (floorLog2 q1) < quantum F (floorLog2 q2) := by
      rw [hQ1, hQ2] at hQ ⊢
      have : max (floorLog2 q1 - ((F.prec : Int) - 1)) F.emin ≤
          max (floorLog2 q2 - ((F.prec : Int) - 1)) F.emin :=
        max_le_max (by omega) le_rfl
      omega
    have hQ2e : quantum F (floorLog2 q2) = floorLog2 q2 - ((F.prec : Int) - 1) := by
      rw [hQ2]
      apply max_eq_left
      by_contra hc
      rw [hQ1, hQ2] at hQlt
      have h1 : max (floorLog2 q2 - ((F.prec : Int) - 1)) F.emin = F.emin :=
        max_eq_right (by omega)
      have h2 : F.emin ≤ max (floorLog2 q1 - ((F.prec : Int) - 1)) F.emin := le_max_right _ _
      omega
    have helt : floorLog2 q1 < floorLog2 q2 := by
      rw [hQ1, hQ2e] at hQlt
      have : floorLog2 q1 - ((F.prec : Int) - 1) ≤
          max (floorLog2 q1 - ((F.prec : Int) - 1)) F.emin := le_max_left _ _
      omega
    -- the greater result is at least 2 ^ e2
    have hlow : pow2 (floorLog2 q2) ≤
        (roundHalfEven (q2 / pow2 (quantum F (floorLog2 q2))) : ℚ) *
          pow2 (quantum F (floorLog2 q2)) := by
      obtain ⟨d, hd⟩ : ∃ d : Nat, floorLog2 q2 = quantum F (floorLog2 q2) + d :=
        ⟨((F.prec : Int) - 1).toNat, by rw [hQ2e]; omega⟩
      have hx : (((2 ^ d : Nat) : Int) : ℚ) ≤ q2 / pow2 (quantum F (floorLog2 q2)) := by
        rw [le_div_iff₀ hu2]
        have : pow2 (floorLog2 q2) = (2 : ℚ) ^ d * pow2 (quantum F (floorLog2 q2)) := by
          conv_lhs => rw [hd]
          rw [pow2_add, pow2_natCast]
          ring
        push_cast
        rw [← this]
        exact a2
      have hR := roundHalfEven_mono hx
      rw [roundHalfEven_intCast] at hR
      have hRq : (((2 ^ d : Nat) : Int) : ℚ) ≤
          (roundHalfEven (q2 / pow2 (quantum F (floorLog2 q2))) : ℚ) := by exact_mod_cast hR
      have : pow2 (floorLog2 q2) =
          (((2 ^ d : Nat) : Int) : ℚ) * pow2 (quantum F (floorLog2 q2)) := by
        conv_lhs => rw [hd]
        rw [pow2_add, pow2_natCast]
        push_cast
        ring
      rw [this]
      exact mul_le_mul_of_nonneg_right hRq hu2.le
    -- the lesser candidate is at most 2 ^ (e1 + 1), or zero
    have hup : (roundHalfEven (q1 / pow2 (quantum F (floorLog2 q1))) : ℚ) *
        pow2 (quantum F (floorLog2 q1)) ≤ pow2 (floorLog2 q1 + 1) := by
      by_cases hcase : quantum F (floorLog2 q1) ≤ floorLog2 q1 + 1
      · obtain ⟨d, hd⟩ : ∃ d : Nat, floorLog2 q1 + 1 = quantum F (floorLog2 q1) + d :=
          ⟨(floorLog2 q1 + 1 - quantum F (floorLog2 q1)).toNat, by omega⟩
        have hpw : pow2 (floorLog2 q1 + 1) =
            (((2 ^ d : Nat) : Int) : ℚ) * pow2 (quantum F (floorLog2 q1)) := by
          rw [hd, pow2_add, pow2_natCast]
          push_cast
          ring
        have hx : q1 / pow2 (quantum F (floorLog2 q1)) ≤ (((2 ^ d : Nat) : Int) : ℚ) := by
          rw [div_le_iff₀ hu1, ← hpw]
          exact b1.le
        have hR := roundHalfEven_mono hx
        rw [roundHalfEven_intCast] at hR
        have hRq : (roundHalfEven (q1 / pow2 (quantum F (floorLog2 q1))) : ℚ) ≤
            (((2 ^ d : Nat) : Int) : ℚ) := by exact_mod_cast hR
        rw [hpw]
        exact mul_le_mul_of_nonneg_right hRq hu1.le
      · have hlt : floorLog2 q1 + 1 < quantum F (floorLog2 q1) := not_le.mp hcase
        have hx : q1 / pow2 (quantum F (floorLog2 q1)) < 1 / 2 := by
          rw [div_lt_iff₀ hu1]
          have h1 : pow2 (floorLog2 q1 + 1) ≤ pow2 (quantum F (floorLog2 q1) - 1) :=
            pow2_le (by omega)
          rw [pow2_pred] at h1
          linarith
        have hx0 : 0 ≤ q1 / pow2 (quantum F (floorLog2 q1)) := div_nonneg hq1.le hu1.le
        have hR0 : roundHalfEven (q1 / pow2 (quantum F (floorLog2 q1))) = 0 := by
          have hfl : ⌊q1 / pow2 (quantum F (floorLog2 q1))⌋ = 0 := by
            rw [Int.floor_eq_iff]
            constructor
            · simpa using hx0
            · simp only [Int.cast_zero, zero_add]
              linarith
          unfold roundHalfEven
          simp only [rat_floor_eq, hfl, Int.cast_zero, sub_zero]
          rw [if_pos hx]
        rw [hR0]
        simp only [Int.cast_zero, zero_mul]
        exact (pow2_pos _).le
    calc _ ≤ pow2 (floorLog2 q1 + 1) := hup
      _ ≤ pow2 (floorLog2 q2) := pow2_le (by omega)
      _ ≤ _ := hlow
/-- A positive value on the grid of its own binade is a value of the format: rounding
returns it. -/
theorem round_exact_gen (F : Fmt) (n : Bool) (I G : Int) (q : ℚ) (hq : q = (I : ℚ) * pow2 G)
    (hpos : 0 < q) (hQ : quantum F (floorLog2 q) ≤ G) (hov : q < pow2 F.emax) :
    round F n q = Dbl.num q := by
  rw [round_of_pos F n hpos]
  generalize quantum F (floorLog2 q) = Q at *
  have hu : 0 < pow2 Q := pow2_pos Q
  obtain ⟨d, hd⟩ : ∃ d : Nat, G = Q + d := ⟨(G - Q).toNat, by omega⟩
  have hqu : q / pow2 Q = ((I * 2 ^ d : Int) : ℚ) := by
    rw [hq, hd, pow2_add, pow2_natCast]
    push_cast
    field_simp
    ring
  rw [hqu, roundHalfEven_intCast, ← hqu]
  have hval : q / pow2 Q * pow2 Q = q := by field_simp
  rw [hval, if_neg (not_le.mpr hov), if_neg (ne_of_gt hpos)]

/-- Rounding a non-negative value below `2 ^ (E + 1)`: the result is finite and the error is
at most half a unit in the last place of the binade of `2 ^ E`. -/
theorem round_abs_err (F : Fmt) (hp : 1 ≤ F.prec) (n : Bool) {q : ℚ} (E : Int) (h0 : 0 ≤ q)
    (hq : q < pow2 (E + 1)) (hE : F.emin ≤ E - ((F.prec : Int) - 1)) (hov : E + 2 ≤ F.emax) :
    (round F n q).isFinite = true ∧ |(round F n q).toRat - q| ≤ pow2 (E - (F.prec : Int)) := by
  rcases eq_or_lt_of_le h0 with hz | hpos
  · rw [← hz, round_zero]
    refine ⟨rfl, ?_⟩
    simp only [Dbl.toRat, sub_zero, abs_zero]
    exact (pow2_pos _).le
  obtain ⟨s1, s2⟩ := floorLog2_spec q hpos
  have he : floorLog2 q < E + 1 := pow2_lt_iff.mp (lt_of_le_of_lt s1 hq)
  have hQ : quantum F (floorLog2 q) = max (floorLog2 q - ((F.prec : Int) - 1)) F.emin := rfl
  have hQE : quantum F (floorLog2 q) ≤ E - ((F.prec : Int) - 1) := by
    rw [hQ]
    exact max_le (by omega) hE
  rw [round_of_pos F n hpos]
  generalize quantum F (floorLog2 q) = Q at *
  have hu : 0 < pow2 Q := pow2_pos Q
  have hule : pow2 Q ≤ 2 * pow2 (E - (F.prec : Int)) := by
    rw [← pow2_succ]
    exact pow2_le (by omega)
  have hR := roundHalfEven_sub_le (q / pow2 Q)
  have hR0 : 0 ≤ roundHalfEven (q / pow2 Q) := roundHalfEven_nonneg (div_nonneg h0 hu.le)
  generalize roundHalfEven (q / pow2 Q) = R at *
  have herr : |(R : ℚ) * pow2 Q - q| ≤ pow2 (E - (F.prec : Int)) := by
    have h1 : (R : ℚ) * pow2 Q - q = ((R : ℚ) - q / pow2 Q) * pow2 Q := by field_simp
    rw [h1, abs_mul, abs_of_pos hu]
    calc |(R : ℚ) - q / pow2 Q| * pow2 Q ≤ 1 / 2 * pow2 Q :=
          mul_le_mul_of_nonneg_right hR hu.le
      _ ≤ pow2 (E - (F.prec : Int)) := by linarith
  have hnov : ¬ pow2 F.emax ≤ (R : ℚ) * pow2 Q := by
    rw [not_le]
    have h1 := (abs_le.mp herr).2
    have h2 : pow2 (E - (F.prec : Int)) ≤ pow2 (E + 1) := pow2_le (by omega)
    have h3 : pow2 (E + 2) ≤ pow2 F.emax := pow2_le hov
    have h4 : pow2 (E + 2) = 2 * pow2 (E + 1) := by
      rw [show E + 2 = (E + 1) + 1 by ring, pow2_succ]
    linarith
  rw [if_neg hnov]
  split_ifs with hz
  · refine ⟨rfl, ?_⟩
    rw [hz] at herr
    exact herr
  · exact ⟨rfl, herr⟩

/-- An `int` between 0 and `2 ^ 20` converts exactly to `float` and to `double`. -/
theorem ofInt_exact (F : Fmt) (hprec : 21 ≤ F.prec) (hemin : F.emin ≤ 0) (hemax : 21 ≤ F.emax)
    (n : Int) (h0 : 0 ≤ n) (hn : n ≤ 2 ^ 20) :
    (Dbl.ofInt F n).isFinite = true ∧ (Dbl.ofInt F n).toRat = (n : ℚ) := by
  unfold Dbl.ofInt
  rcases eq_or_lt_of_le h0 with hz | hpos
  · rw [← hz]
    simp [round_zero, Dbl.isFinite, Dbl.toRat]
  · have hq : (0 : ℚ) < (n : ℚ) := by exact_mod_cast hpos
    have hle : (n : ℚ) ≤ pow2 20 := by
      rw [show pow2 20 = ((2 ^ 20 : Int) : ℚ) by decide!]
      exact_mod_cast hn
    obtain ⟨s1, s2⟩ := floorLog2_spec (n : ℚ) hq
    have he : floorLog2 (n : ℚ) < 21 :=
      pow2_lt_iff.mp (lt_of_le_of_lt s1 (lt_of_le_of_lt hle (pow2_lt (by norm_num))))
    have hQ : quantum F (floorLog2 (n : ℚ)) ≤ 0 := by
      have h1 : quantum F (floorLog2 (n : ℚ)) =
          max (floorLog2 (n : ℚ) - ((F.prec : Int) - 1)) F.emin := rfl
      rw [h1]
      exact max_le (by omega) hemin
    have hov : (n : ℚ) < pow2 F.emax :=
      lt_of_le_of_lt hle (pow2_lt (by omega))
    rw [round_exact_gen F false n 0 (n : ℚ) (by rw [show pow2 0 = 1 by decide!, mul_one]) hq hQ
      hov]
    exact ⟨rfl, rfl⟩

/-- The conversion to `int` of a finite non-negative value below `2 ^ 31` is its integer
part. -/
theorem toIntTrunc_floor {a : Dbl} (hf : a.isFinite = true) (h0 : 0 ≤ a.toRat)
    (h1 : a.toRat < 2147483648) : a.toIntTrunc = ⌊a.toRat⌋ := by
  rcases a with _ | s | s | q
  · simp [Dbl.isFinite] at hf
  · simp [Dbl.isFinite] at hf
  · simp [Dbl.toIntTrunc, Dbl.toRat]
  · simp only [Dbl.toRat] at h0 h1
    simp only [Dbl.toIntTrunc, Dbl.toRat, not_lt.mpr h0, if_false, rat_floor_eq]
    have hfl0 : 0 ≤ ⌊q⌋ := Int.floor_nonneg.mpr h0
    have hfl1 : ⌊q⌋ < 2147483648 := by
      rw [Int.floor_lt]
      exact_mod_cast h1
    have : Dbl.inIntRange ⌊q⌋ = true := by
      simp only [Dbl.inIntRange, Bool.and_eq_true, decide_eq_true_eq]
      omega
    rw [if_pos this]

/-! ## The library function `pow` -/

theorem IsLibmPow.nan {pow : Dbl → Dbl → Dbl} (hp : IsLibmPow pow) :
    pow Dbl.nan d2 = Dbl.nan := hp Dbl.nan

theorem IsLibmPow.inf {pow : Dbl → Dbl → Dbl} (hp : IsLibmPow pow) (s : Bool) :
    pow (Dbl.inf s) d2 = Dbl.inf false := hp (Dbl.inf s)

theorem IsLibmPow.zero {pow : Dbl → Dbl → Dbl} (hp : IsLibmPow pow) (s : Bool) :
    pow (Dbl.zero s) d2 = Dbl.zero false := hp (Dbl.zero s)

theorem IsLibmPow.num {pow : Dbl → Dbl → Dbl} (hp : IsLibmPow pow) (q : ℚ) :
    pow (Dbl.num q) d2 = roundDir binary64 false (q * q) ∨
      pow (Dbl.num q) d2 = roundDir binary64 true (q * q) := hp (Dbl.num q)

/-- Where the two enclosing values coincide with the nearest one, the contract of `pow` leaves
no choice. -/
theorem IsLibmPow.of_exact {pow : Dbl → Dbl → Dbl} (hp : IsLibmPow pow) (x : Dbl)
    (hx : x.squareIsExact = true) : pow x d2 = Dbl.sqNearest x := by
  rcases x with _ | s | s | q
  · exact hp.nan
  · rw [hp.inf]
    cases s <;> rfl
  · rw [hp.zero]
    cases s <;> decide!
  · simp only [Dbl.squareIsExact, Bool.and_eq_true, decide_eq_true_eq] at hx
    rcases hp.num q with h | h
    · rw [h, hx.1]
    · rw [h, hx.2]

theorem powNearest_two (x : Dbl) : powNearest x d2 = Dbl.sqNearest x := if_pos rfl

theorem powDown_two (x : Dbl) : powDown x d2 = Dbl.sqDown x := if_pos rfl

theorem powDown_isLibmPow : IsLibmPow powDown := by
  intro x
  rw [powDown_two]
  rcases x with _ | s | s | q
  · rfl
  · rfl
  · rfl
  · exact Or.inl rfl

theorem roundHalfEven_floor_or (x : ℚ) :
    roundHalfEven x = x.floor ∨ (roundHalfEven x = x.floor + 1 ∧ (x.floor : ℚ) < x) := by
  unfold roundHalfEven
  simp only
  have h1 : ((x.floor : Int) : ℚ) ≤ x := by
    rw [rat_floor_eq]
    exact Int.floor_le x
  split_ifs with c1 c2 c3
  · exact Or.inl rfl
  · exact Or.inr ⟨rfl, by linarith⟩
  · exact Or.inl rfl
  · exact Or.inr ⟨rfl, by linarith⟩

/-- The value nearest to the exact result is one of the two values that enclose it. -/
theorem round_eq_roundDir (F : Fmt) {q : ℚ} (hq : 0 < q) (hov : q < pow2 F.emax) (n : Bool) :
    round F n q = roundDir F false q ∨ round F n q = roundDir F true q := by
  have hu : 0 < pow2 (quantum F (floorLog2 q)) := pow2_pos _
  have hfl : ((q / pow2 (quantum F (floorLog2 q))).floor : ℚ) ≤
      q / pow2 (quantum F (floorLog2 q)) := by
    rw [rat_floor_eq]
    exact Int.floor_le _
  have hdown : ((q / pow2 (quantum F (floorLog2 q))).floor : ℚ) *
      pow2 (quantum F (floorLog2 q)) ≤ q := by
    rw [← le_div_iff₀ hu]
    exact hfl
  rw [round_of_pos F n hq]
  unfold roundDir
  simp only [Bool.false_and, Bool.true_and, Bool.false_eq_true, if_false, if_true,
    decide_eq_true_eq]
  generalize pow2 (quantum F (floorLog2 q)) = u at *
  rcases roundHalfEven_floor_or (q / u) with h | ⟨h, hlt⟩
  · left
    rw [h]
    have hnov : ¬ pow2 F.emax ≤ ((q / u).floor : ℚ) * u := by
      rw [not_le]
      exact lt_of_le_of_lt hdown hov
    rw [if_neg hnov, if_neg hnov]
  · right
    rw [h, if_pos hlt]

/-- At and beyond the overflow threshold the nearest value and the upward value are `+∞`. -/
theorem round_overflow {q : ℚ} (hov : pow2 binary64.emax ≤ q) (n : Bool) :
    round binary64 n q = Dbl.inf false ∧ roundDir binary64 true q = Dbl.inf false := by
  have hq : 0 < q := lt_of_lt_of_le (pow2_pos _) hov
  obtain ⟨s1, s2⟩ := floorLog2_spec q hq
  have he : binary64.emax < floorLog2 q + 1 := pow2_lt_iff.mp (lt_of_le_of_lt hov s2)
  have hQ : quantum binary64 (floorLog2 q) = floorLog2 q - 52 := by
    have h1 : quantum binary64 (floorLog2 q) = max (floorLog2 q - 52) (-1074) := rfl
    rw [h1]
    have : binary64.emax = 1024 := rfl
    exact max_eq_left (by omega)
  have hu : 0 < pow2 (floorLog2 q - 52) := pow2_pos _
  have h52 : pow2 52 = ((2 ^ 52 : Int) : ℚ) := by decide!
  have hx : ((2 ^ 52 : Int) : ℚ) ≤ q / pow2 (floorLog2 q - 52) := by
    rw [le_div_iff₀ hu, ← h52, ← pow2_add, show 52 + (floorLog2 q - 52) = floorLog2 q by ring]
    exact s1
  have hfloor : (2 ^ 52 : Int) ≤ (q / pow2 (floorLog2 q - 52)).floor := by
    rw [rat_floor_eq, Int.le_floor]
    exact hx
  have hbig : ∀ m : Int, (2 ^ 52 : Int) ≤ m →
      pow2 binary64.emax ≤ (m : ℚ) * pow2 (floorLog2 q - 52) := by
    intro m hm
    have hmq : pow2 52 ≤ (m : ℚ) := by
      rw [h52]
      exact_mod_cast hm
    calc pow2 binary64.emax ≤ pow2 (floorLog2 q) := pow2_le (by omega)
      _ = pow2 52 * pow2 (floorLog2 q - 52) := by
        rw [← pow2_add, show 52 + (floorLog2 q - 52) = floorLog2 q by ring]
      _ ≤ (m : ℚ) * pow2 (floorLog2 q - 52) := mul_le_mul_of_nonneg_right hmq hu.le
  constructor
  · rw [round_of_pos binary64 n hq, hQ]
    have hr : (2 ^ 52 : Int) ≤ roundHalfEven (q / pow2 (floorLog2 q - 52)) := by
      rcases roundHalfEven_floor_or (q / pow2 (floorLog2 q - 52)) with h | ⟨h, -⟩
      · rw [h]
        exact hfloor
      · rw [h]
        omega
    rw [if_pos (hbig _ hr)]
  · unfold roundDir
    simp only [hQ, Bool.true_and, if_true]
    rw [if_pos]
    apply hbig
    split_ifs
    · omega
    · exact hfloor

theorem powNearest_isLibmPow : IsLibmPow powNearest := by
  intro x
  rw [powNearest_two]
  rcases x with _ | s | s | q
  · rfl
  · show Dbl.sqNearest (Dbl.inf s) = Dbl.inf false
    cases s <;> rfl
  · show Dbl.sqNearest (Dbl.zero s) = Dbl.zero false
    cases s <;> decide!
  · show Dbl.sqNearest (Dbl.num q) = roundDir binary64 false (q * q) ∨
      Dbl.sqNearest (Dbl.num q) = roundDir binary64 true (q * q)
    unfold Dbl.sqNearest
    rw [Dbl.mul_num]
    by_cases hq : q = 0
    · left
      subst hq
      decide!
    · have hpos : 0 < q * q := mul_self_pos.mpr hq
      by_cases hov : q * q < pow2 binary64.emax
      · exact round_eq_roundDir binary64 hpos hov _
      · right
        obtain ⟨h1, h2⟩ := round_overflow (not_lt.mp hov)
          (xor (decide (q < 0)) (decide (q < 0)))
        rw [h1, h2]
/-- A positive value `I · 2 ^ G` with `I < 2 ^ 53` is a `double`: rounding it in either
direction returns it. -/
theorem roundDir_exact (up : Bool) (I G : Int) (q : ℚ) (hq : q = (I : ℚ) * pow2 G)
    (hG : -1074 ≤ G) (hI : I < 2 ^ 53) (hpos : 0 < q) (hov : q < pow2 1024) :
    roundDir binary64 up q = Dbl.num q := by
  obtain ⟨s1, s2⟩ := floorLog2_spec q hpos
  have h53 : pow2 53 = ((2 ^ 53 : Int) : ℚ) := by decide!
  have hlt : q < pow2 (53 + G) := by
    rw [hq, pow2_add, h53]
    exact mul_lt_mul_of_pos_right (by exact_mod_cast hI) (pow2_pos _)
  have he : floorLog2 q < 53 + G := pow2_lt_iff.mp (lt_of_le_of_lt s1 hlt)
  have hQ : quantum binary64 (floorLog2 q) = max (floorLog2 q - 52) (-1074) := rfl
  unfold roundDir
  simp only [hQ]
  generalize floorLog2 q = e at *
  have hQG : max (e - 52) (-1074) ≤ G := max_le (by omega) hG
  generalize max (e - 52) (-1074) = Q at *
  have hu : 0 < pow2 Q := pow2_pos Q
  obtain ⟨d, hd⟩ : ∃ d : Nat, G = Q + d := ⟨(G - Q).toNat, by omega⟩
  have hqu : q / pow2 Q = ((I * 2 ^ d : Int) : ℚ) := by
    rw [hq, hd, pow2_add, pow2_natCast]
    push_cast
    field_simp
    ring
  rw [hqu]
  have hfl : (((I * 2 ^ d : Int) : ℚ)).floor = I * 2 ^ d := by
    rw [rat_floor_eq]
    exact Int.floor_intCast _
  rw [hfl]
  have hnlt : ¬ (((I * 2 ^ d : Int) : ℚ) < ((I * 2 ^ d : Int) : ℚ)) := lt_irrefl _
  simp only [hnlt, decide_False, Bool.and_false, Bool.false_eq_true, if_false]
  have hval : ((I * 2 ^ d : Int) : ℚ) * pow2 Q = q := by
    rw [← hqu]
    field_simp
  rw [hval]
  have hov' : ¬ pow2 binary64.emax ≤ q := not_le.mpr hov
  rw [if_neg hov', if_neg (ne_of_gt hpos)]

/-- Rounding a value of the normal range in either direction: the result is finite, positive,
within the relative error `2 ^ (-52)`. -/
theorem roundDir_bounds (up : Bool) {q : ℚ} (hlo : pow2 (-1022) ≤ q) (hhi : q ≤ pow2 1023) :
    ∃ v, roundDir binary64 up q = Dbl.num v ∧ |v - q| ≤ q * pow2 (-52) ∧ 0 < v := by
  have hq : 0 < q := lt_of_lt_of_le (pow2_pos _) hlo
  obtain ⟨s1, s2⟩ := floorLog2_spec q hq
  have he : -1022 < floorLog2 q + 1 := pow2_lt_iff.mp (lt_of_le_of_lt hlo s2)
  have he2 : floorLog2 q < 1024 :=
    pow2_lt_iff.mp (lt_of_le_of_lt s1 (lt_of_le_of_lt hhi (pow2_lt (by norm_num))))
  have hQ : quantum binary64 (floorLog2 q) = floorLog2 q - 52 := by
    have h1 : quantum binary64 (floorLog2 q) = max (floorLog2 q - 52) (-1074) := rfl
    rw [h1]
    exact max_eq_left (by omega)
  unfold roundDir
  simp only [hQ]
  generalize floorLog2 q = e at *
  have hu : 0 < pow2 (e - 52) := pow2_pos _
  have hue : pow2 (e - 52) = pow2 e * pow2 (-52) := by
    rw [← pow2_add]
    rfl
  have hε : 0 < pow2 (-52) := pow2_pos _
  have huq : pow2 (e - 52) ≤ q * pow2 (-52) := by
    rw [hue]
    exact mul_le_mul_of_nonneg_right s1 hε.le
  have h52 : pow2 52 = ((2 ^ 52 : Int) : ℚ) := by decide!
  have hx : ((2 ^ 52 : Int) : ℚ) ≤ q / pow2 (e - 52) := by
    rw [le_div_iff₀ hu, ← h52, ← pow2_add, show 52 + (e - 52) = e by ring]
    exact s1
  have hf1 : ((q / pow2 (e - 52)).floor : ℚ) ≤ q / pow2 (e - 52) := by
    rw [rat_floor_eq]
    exact Int.floor_le _
  have hf2 : q / pow2 (e - 52) < ((q / pow2 (e - 52)).floor : ℚ) + 1 := by
    rw [rat_floor_eq]
    exact Int.lt_floor_add_one _
  have hf3 : (2 ^ 52 : Int) ≤ (q / pow2 (e - 52)).floor := by
    rw [rat_floor_eq, Int.le_floor]
    exact hx
  generalize hm : (if (up && decide (((q / pow2 (e - 52)).floor : ℚ) < q / pow2 (e - 52))) = true
    then (q / pow2 (e - 52)).floor + 1 else (q / pow2 (e - 52)).floor) = m
  have hm1 : |(m : ℚ) - q / pow2 (e - 52)| ≤ 1 := by
    rw [← hm, abs_le]
    split_ifs
    · push_cast
      constructor <;> linarith
    · constructor <;> linarith
  have hm2 : (2 ^ 52 : Int) ≤ m := by
    rw [← hm]
    split_ifs
    · omega
    · exact hf3
  have hmq : (1 : ℚ) ≤ (m : ℚ) := by
    have : (1 : Int) ≤ m := le_trans (by norm_num) hm2
    exact_mod_cast this
  have herr : |(m : ℚ) * pow2 (e - 52) - q| ≤ q * pow2 (-52) := by
    have h1 : (m : ℚ) * pow2 (e - 52) - q = ((m : ℚ) - q / pow2 (e - 52)) * pow2 (e - 52) := by
      field_simp
    rw [h1, abs_mul, abs_of_pos hu]
    calc |(m : ℚ) - q / pow2 (e - 52)| * pow2 (e - 52) ≤ 1 * pow2 (e - 52) :=
          mul_le_mul_of_nonneg_right hm1 hu.le
      _ = pow2 (e - 52) := one_mul _
      _ ≤ q * pow2 (-52) := huq
  have hvpos : 0 < (m : ℚ) * pow2 (e - 52) := mul_pos (by linarith) hu
  have hnov : ¬ pow2 binary64.emax ≤ (m : ℚ) * pow2 (e - 52) := by
    rw [not_le]
    have h1 := (abs_le.mp herr).2
    have h2 : pow2 (-52) ≤ 1 / 2 := by
      have : pow2 (-52) ≤ pow2 (-1) := pow2_le (by norm_num)
      rw [show pow2 (-1) = 1 / 2 by decide!] at this
      exact this
    have h3 : q * pow2 (-52) ≤ q * (1 / 2) := mul_le_mul_of_nonneg_left h2 hq.le
    have h4 : pow2 binary64.emax = 2 * pow2 1023 := by
      rw [← pow2_succ]
      rfl
    have h5 : 0 < pow2 1023 := pow2_pos _
    rw [h4]
    linarith only [h1, h3, hhi, h5]
  refine ⟨(m : ℚ) * pow2 (e - 52), ?_, herr, hvpos⟩
  rw [if_neg hnov, if_neg (ne_of_gt hvpos)]

theorem IsLibmPow.of_toRat_zero {pow : Dbl → Dbl → Dbl} (hp : IsLibmPow pow) {x : Dbl}
    (hx : x.isFinite = true) (h0 : x.toRat = 0) : pow x d2 = Dbl.zero false := by
  rcases x with _ | s | s | q
  · simp [Dbl.isFinite] at hx
  · simp [Dbl.isFinite] at hx
  · exact hp.zero s
  · simp only [Dbl.toRat] at h0
    subst h0
    rcases hp.num 0 with h | h
    · rw [h]
      decide!
    · rw [h]
      decide!

/-- Where the exact square is a `double`, `pow(x, 2)` returns it. -/
theorem IsLibmPow.grid {pow : Dbl → Dbl → Dbl} (hp : IsLibmPow pow) (I G : Int) (q : ℚ)
    (hq : q * q = (I : ℚ) * pow2 G) (hG : -1074 ≤ G) (hI : I < 2 ^ 53) (hne : q ≠ 0)
    (hov : q * q < pow2 1024) : pow (Dbl.num q) d2 = Dbl.num (q * q) := by
  have hpos : 0 < q * q := mul_self_pos.mpr hne
  rcases hp.num q with h | h
  · rw [h]
    exact roundDir_exact false I G (q * q) hq hG hI hpos hov
  · rw [h]
    exact roundDir_exact true I G (q * q) hq hG hI hpos hov

/-- Where the exact square lies in the normal range, `pow(x, 2)` is finite, positive, within
the relative error `2 ^ (-52)`. -/
theorem IsLibmPow.bounds {pow : Dbl → Dbl → Dbl} (hp : IsLibmPow pow) {q : ℚ}
    (hlo : pow2 (-1022) ≤ q * q) (hhi : q * q ≤ pow2 1023) :
    ∃ v, pow (Dbl.num q) d2 = Dbl.num v ∧ |v - q * q| ≤ q * q * pow2 (-52) ∧ 0 < v := by
  rcases hp.num q with h | h
  · rw [h]
    exact roundDir_bounds false hlo hhi
  · rw [h]
    exact roundDir_bounds true hlo hhi

/-! ## The range of a keypoint distance -/

/-- A rounded value is zero (or not finite), or its magnitude lies between the smallest
positive value of the format and the overflow threshold. -/
theorem round_toRat_range (F : Fmt) (n : Bool) (q : ℚ) :
    (round F n q).toRat = 0 ∨
      (pow2 F.emin ≤ |(round F n q).toRat| ∧ |(round F n q).toRat| < pow2 F.emax) := by
  unfold round
  by_cases hq : q = 0
  · simp [hq, Dbl.toRat]
  · simp only [hq, if_false]
    unfold roundMag
    simp only
    have hu : 0 < pow2 (quantum F (floorLog2 |q|)) := pow2_pos _
    have hule : pow2 F.emin ≤ pow2 (quantum F (floorLog2 |q|)) :=
      pow2_le (le_max_right _ _)
    generalize pow2 (quantum F (floorLog2 |q|)) = u at *
    have hr : 0 ≤ roundHalfEven (|q| / u) :=
      roundHalfEven_nonneg (div_nonneg (abs_nonneg q) hu.le)
    generalize roundHalfEven (|q| / u) = r at *
    by_cases hov : pow2 F.emax ≤ (r : ℚ) * u
    · simp [hov, Dbl.toRat]
    · simp only [hov, if_false]
      by_cases hz : (r : ℚ) * u = 0
      · simp [hz, Dbl.toRat]
      · simp only [hz, if_false]
        right
        have hr1 : (1 : ℚ) ≤ (r : ℚ) := by
          have : r ≠ 0 := by
            intro h
            apply hz
            rw [h]
            simp
          have : 1 ≤ r := by omega
          exact_mod_cast this
        have hv : 0 < (r : ℚ) * u := mul_pos (by linarith) hu
        have habs : |(if q < 0 then -((r : ℚ) * u) else (r : ℚ) * u)| = (r : ℚ) * u := by
          split_ifs
          · rw [abs_neg, abs_of_pos hv]
          · exact abs_of_pos hv
        simp only [Dbl.toRat, habs]
        constructor
        · calc pow2 F.emin ≤ u := hule
            _ = 1 * u := (one_mul u).symm
            _ ≤ (r : ℚ) * u := mul_le_mul_of_nonneg_right hr1 hu.le
        · exact not_le.mp hov

theorem Dbl.add_toRat_cases (F : Fmt) (a b : Dbl) :
    (Dbl.add F a b).toRat = 0 ∨ ∃ n, Dbl.add F a b = round F n (a.toRat + b.toRat) := by
  rcases a with _ | s | s | x <;> rcases b with _ | t | t | y
  all_goals first
    | exact Or.inr ⟨_, rfl⟩
    | (left; simp only [Dbl.add]; (try split_ifs) <;> rfl)

theorem sub32_range (x y : Dbl) :
    (Dbl.sub binary32 x y).toRat = 0 ∨
      (pow2 (-149) ≤ |(Dbl.sub binary32 x y).toRat| ∧
        |(Dbl.sub binary32 x y).toRat| ≤ pow2 128) := by
  unfold Dbl.sub
  rcases Dbl.add_toRat_cases binary32 x (Dbl.neg y) with h | ⟨n, h⟩
  · exact Or.inl h
  · rw [h]
    rcases round_toRat_range binary32 n (x.toRat + (Dbl.neg y).toRat) with h | ⟨h1, h2⟩
    · exact Or.inl h
    · exact Or.inr ⟨h1, h2.le⟩
theorem Dbl.mul_toRat_cases (F : Fmt) (a b : Dbl) :
    (Dbl.mul F a b).toRat = 0 ∨ ∃ n, Dbl.mul F a b = round F n (a.toRat * b.toRat) := by
  rcases a with _ | s | s | x <;> rcases b with _ | t | t | y
  all_goals first
    | exact Or.inr ⟨_, rfl⟩
    | (left; simp only [Dbl.mul]; (try split_ifs) <;> rfl)

/-- A finite non-zero result of rounding to `float` is an integer of at most 25 bits times a
power of two not below `2 ^ (-149)`. -/
theorem round32_repr (n : Bool) (r q : ℚ) (h : round binary32 n r = Dbl.num q) :
    ∃ (I G : Int), q = (I : ℚ) * pow2 G ∧ |I| ≤ 2 ^ 24 ∧ -149 ≤ G ∧ |q| < pow2 128 := by
  by_cases hr0 : r = 0
  · rw [hr0, round_zero] at h
    exact absurd h (by simp)
  have habs : 0 < |r| := abs_pos.mpr hr0
  obtain ⟨s1, s2⟩ := floorLog2_spec |r| habs
  revert h
  unfold round roundMag
  simp only [hr0, if_false]
  have hQ : quantum binary32 (floorLog2 |r|) = max (floorLog2 |r| - 23) (-149) := rfl
  rw [hQ]
  generalize floorLog2 |r| = e at *
  have hQe : e - 23 ≤ max (e - 23) (-149) := le_max_left _ _
  have hQm : -149 ≤ max (e - 23) (-149) := le_max_right _ _
  generalize max (e - 23) (-149) = Q at *
  have hu : 0 < pow2 Q := pow2_pos Q
  have hR := roundHalfEven_sub_le (|r| / pow2 Q)
  have hR0 : 0 ≤ roundHalfEven (|r| / pow2 Q) :=
    roundHalfEven_nonneg (div_nonneg habs.le hu.le)
  have h24 : pow2 24 = ((2 ^ 24 : Int) : ℚ) := by decide!
  have hx : |r| / pow2 Q < ((2 ^ 24 : Int) : ℚ) := by
    rw [div_lt_iff₀ hu, ← h24, ← pow2_add]
    exact lt_of_lt_of_le s2 (pow2_le (by omega))
  have hRle : roundHalfEven (|r| / pow2 Q) ≤ 2 ^ 24 := by
    have h1 : ((roundHalfEven (|r| / pow2 Q) : Int) : ℚ) < ((2 ^ 24 : Int) : ℚ) + 1 := by
      have := (abs_le.mp hR).2
      linarith
    have h2 : roundHalfEven (|r| / pow2 Q) < 2 ^ 24 + 1 := by exact_mod_cast h1
    omega
  generalize roundHalfEven (|r| / pow2 Q) = R at *
  intro h
  by_cases hov : pow2 binary32.emax ≤ (R : ℚ) * pow2 Q
  · rw [if_pos hov] at h
    exact absurd h (by simp)
  · rw [if_neg hov] at h
    simp only at h
    by_cases hz : (R : ℚ) * pow2 Q = 0
    · rw [if_pos hz] at h
      exact absurd h (by simp)
    · rw [if_neg hz] at h
      have hv0 : 0 ≤ (R : ℚ) * pow2 Q := mul_nonneg (by exact_mod_cast hR0) hu.le
      have hlt : (R : ℚ) * pow2 Q < pow2 128 := not_le.mp hov
      injection h with h
      by_cases hneg : r < 0
      · rw [if_pos hneg] at h
        refine ⟨-R, Q, ?_, ?_, hQm, ?_⟩
        · rw [← h]
          push_cast
          ring
        · rw [abs_neg, abs_of_nonneg hR0]
          exact hRle
        · rw [← h, abs_neg, abs_of_nonneg hv0]
          exact hlt
      · rw [if_neg hneg] at h
        refine ⟨R, Q, h.symm, ?_, hQm, ?_⟩
        · rw [abs_of_nonneg hR0]
          exact hRle
        · rw [← h, abs_of_nonneg hv0]
          exact hlt

/-- The square of a `float` is a `double`: `pow(x, 2)` on the difference of two `float`
coordinates is the exact square, whatever the library. -/
theorem IsLibmPow.sub32 {pow : Dbl → Dbl → Dbl} (hp : IsLibmPow pow) (a b : Dbl) :
    pow (Dbl.sub binary32 a b) d2 = Dbl.sqNearest (Dbl.sub binary32 a b) := by
  rw [← powNearest_two]
  cases hx : Dbl.sub binary32 a b with
  | nan => rw [hp.nan, powNearest_isLibmPow.nan]
  | inf s => rw [hp.inf, powNearest_isLibmPow.inf]
  | zero s => rw [hp.zero, powNearest_isLibmPow.zero]
  | num q =>
    by_cases hq : q = 0
    · rw [hp.of_toRat_zero (x := Dbl.num q) rfl hq,
        powNearest_isLibmPow.of_toRat_zero (x := Dbl.num q) rfl hq]
    · have hround : ∃ n r, Dbl.num q = round binary32 n r := by
        unfold Dbl.sub at hx
        rcases Dbl.add_toRat_cases binary32 a (Dbl.neg b) with h | ⟨n, h⟩
        · rw [hx] at h
          exact absurd h hq
        · rw [hx] at h
          exact ⟨n, _, h⟩
      obtain ⟨n, r, hr⟩ := hround
      obtain ⟨I, G, hI, hI24, hG, hlt⟩ := round32_repr n r q hr.symm
      have hsq : q * q = ((I * I : Int) : ℚ) * pow2 (2 * G) := by
        rw [hI, pow2_two_mul]
        push_cast
        ring
      have hII : I * I < 2 ^ 53 := by
        have h1 : I * I = |I| * |I| := (abs_mul_abs_self I).symm
        have h2 : |I| * |I| ≤ 2 ^ 24 * 2 ^ 24 :=
          Int.mul_le_mul hI24 hI24 (abs_nonneg I) (by norm_num)
        rw [h1]
        calc |I| * |I| ≤ 2 ^ 24 * 2 ^ 24 := h2
          _ < 2 ^ 53 := by norm_num
      have hov : q * q < pow2 1024 := by
        have h1 : q * q = |q| * |q| := (abs_mul_abs_self q).symm
        have h2 : |q| * |q| ≤ pow2 128 * pow2 128 :=
          mul_le_mul hlt.le hlt.le (abs_nonneg q) (pow2_pos _).le
        rw [h1]
        calc |q| * |q| ≤ pow2 128 * pow2 128 := h2
          _ = pow2 256 := by rw [← pow2_add]; rfl
          _ < pow2 1024 := pow2_lt (by norm_num)
      rw [hp.grid (I * I) (2 * G) q hsq (by omega) hII hq hov,
        powNearest_isLibmPow.grid (I * I) (2 * G) q hsq (by omega) hII hq hov]

/-- The distance pushed onto `distancias` does not depend on the library: both squares are
exact. -/
theorem keypointDistance_pow {pow : Dbl → Dbl → Dbl} (hp : IsLibmPow pow) (p c : KeyPoint) :
    keypointDistance pow p c = keypointDistance powNearest p c := by
  unfold keypointDistance
  rw [hp.sub32, hp.sub32, powNearest_two, powNearest_two]

theorem matchDistance_of_ok (pow : Dbl → Dbl → Dbl) {kptsPrev kptsCurr : List KeyPoint}
    {m : DMatch} {a b : KeyPoint}
    (ha : index kptsPrev m.queryIdx = Except.ok a) (hb : index kptsCurr m.trainIdx = Except.ok b) :
    matchDistance pow kptsPrev kptsCurr m = keypointDistance pow a b := by
  simp only [matchDistance, ha, hb, keypointDistance]

theorem matchDistance_pow {pow : Dbl → Dbl → Dbl} (hp : IsLibmPow pow)
    (kptsPrev kptsCurr : List KeyPoint) (m : DMatch) :
    matchDistance pow kptsPrev kptsCurr m = matchDistance powNearest kptsPrev kptsCurr m := by
  unfold matchDistance
  split
  · rw [hp.sub32, hp.sub32, powNearest_two, powNearest_two]
  · rfl

theorem sq_range (d : Dbl)
    (h : d.toRat = 0 ∨ (pow2 (-149) ≤ |d.toRat| ∧ |d.toRat| ≤ pow2 128)) :
    (Dbl.sqNearest d).toRat = 0 ∨ (pow2 (-299) ≤ (Dbl.sqNearest d).toRat ∧ (Dbl.sqNearest d).toRat ≤ pow2 257) := by
  unfold Dbl.sqNearest
  rcases Dbl.mul_toRat_cases binary64 d d with h0 | ⟨n, hn⟩
  · exact Or.inl h0
  · rw [hn]
    rcases h with h | ⟨h1, h2⟩
    · left
      rw [h, mul_zero, round_zero]
      rfl
    · right
      have hv : d.toRat * d.toRat = |d.toRat| * |d.toRat| := (abs_mul_abs_self _).symm
      generalize d.toRat = v at *
      have h0 : 0 ≤ |v| := abs_nonneg v
      have e1 : pow2 (-298) = pow2 (-149) * pow2 (-149) := by rw [← pow2_add]; rfl
      have e2 : pow2 256 = pow2 128 * pow2 128 := by rw [← pow2_add]; rfl
      have lo : pow2 (-298) ≤ v * v := by
        rw [hv, e1]
        exact mul_le_mul h1 h1 (pow2_pos _).le h0
      have hi : v * v ≤ pow2 256 := by
        rw [hv, e2]
        exact mul_le_mul h2 h2 h0 (pow2_pos _).le
      obtain ⟨-, r1, r2⟩ := round64_nonneg n (mul_self_nonneg v)
        (Or.inr (le_trans (pow2_le (by norm_num)) lo)) (le_trans hi (pow2_le (by norm_num)))
      have hε0 : 0 < pow2 (-53) := pow2_pos _
      have hε1 : pow2 (-53) ≤ 1 / 2 := by
        rw [pow2_neg53]
        norm_num
      generalize pow2 (-53) = ε at *
      have hvv : 0 ≤ v * v := mul_self_nonneg v
      have m1 : v * v * ε ≤ v * v * (1 / 2) := mul_le_mul_of_nonneg_left hε1 hvv
      constructor
      · rw [show (-299 : Int) = -298 - 1 by norm_num, pow2_pred]
        linarith only [r1, m1, lo]
      · rw [show (257 : Int) = 256 + 1 by norm_num, pow2_succ]
        linarith only [r2, m1, hi, hvv]

theorem add_sq_range (x y : Dbl)
    (hx : x.toRat = 0 ∨ (pow2 (-299) ≤ x.toRat ∧ x.toRat ≤ pow2 257))
    (hy : y.toRat = 0 ∨ (pow2 (-299) ≤ y.toRat ∧ y.toRat ≤ pow2 257)) :
    (Dbl.add binary64 x y).toRat = 0 ∨
      (pow2 (-300) ≤ (Dbl.add binary64 x y).toRat ∧ (Dbl.add binary64 x y).toRat ≤ pow2 259) := by
  rcases Dbl.add_toRat_cases binary64 x y with h0 | ⟨n, hn⟩
  · exact Or.inl h0
  · rw [hn]
    have hP : 0 < pow2 (-299) := pow2_pos _
    have hP257 : 0 < pow2 257 := pow2_pos _
    have hx0 : 0 ≤ x.toRat := by
      rcases hx with h | ⟨h, -⟩
      · rw [h]
      · linarith only [h, hP]
    have hy0 : 0 ≤ y.toRat := by
      rcases hy with h | ⟨h, -⟩
      · rw [h]
      · linarith only [h, hP]
    have hxhi : x.toRat ≤ pow2 257 := by
      rcases hx with h | ⟨-, h⟩
      · rw [h]
        exact hP257.le
      · exact h
    have hyhi : y.toRat ≤ pow2 257 := by
      rcases hy with h | ⟨-, h⟩
      · rw [h]
        exact hP257.le
      · exact h
    have hsum : x.toRat + y.toRat = 0 ∨ pow2 (-299) ≤ x.toRat + y.toRat := by
      rcases hx with h | ⟨h, -⟩
      · rcases hy with h' | ⟨h', -⟩
        · left
          rw [h, h']
          norm_num
        · right
          linarith only [h', hx0]
      · right
        linarith only [h, hy0]
    have e258 : pow2 258 = 2 * pow2 257 := by
      rw [show (258 : Int) = 257 + 1 by norm_num, pow2_succ]
    have hqhi : x.toRat + y.toRat ≤ pow2 258 := by
      rw [e258]
      linarith only [hxhi, hyhi]
    have hq0 : 0 ≤ x.toRat + y.toRat := by linarith only [hx0, hy0]
    generalize x.toRat + y.toRat = q at *
    rcases hsum with h | h
    · left
      rw [h, round_zero]
      rfl
    · right
      obtain ⟨-, r1, r2⟩ := round64_nonneg n hq0
        (Or.inr (le_trans (pow2_le (by norm_num)) h)) (le_trans hqhi (pow2_le (by norm_num)))
      have hε0 : 0 < pow2 (-53) := pow2_pos _
      have hε1 : pow2 (-53) ≤ 1 / 2 := by
        rw [pow2_neg53]
        norm_num
      generalize pow2 (-53) = ε at *
      have m1 : q * ε ≤ q * (1 / 2) := mul_le_mul_of_nonneg_left hε1 hq0
      constructor
      · rw [show (-300 : Int) = -299 - 1 by norm_num, pow2_pred]
        linarith only [r1, m1, h]
      · rw [show (259 : Int) = 258 + 1 by norm_num, pow2_succ]
        linarith only [r2, m1, hqhi, hq0]

theorem sqrt_range (s : Dbl)
    (hs : s.toRat = 0 ∨ (pow2 (-300) ≤ s.toRat ∧ s.toRat ≤ pow2 259)) :
    (Dbl.sqrt binary64 s).toRat = 0 ∨
      (pow2 (-200) ≤ (Dbl.sqrt binary64 s).toRat ∧ (Dbl.sqrt binary64 s).toRat ≤ pow2 200) := by
  rcases s with _ | b | b | q
  · exact Or.inl rfl
  · left
    simp only [Dbl.sqrt]
    split_ifs <;> rfl
  · exact Or.inl rfl
  · simp only [Dbl.toRat] at hs
    simp only [Dbl.sqrt]
    rcases hs with h | ⟨h1, h2⟩
    · left
      simp [h, Dbl.toRat]
    · have hq : 0 < q := lt_of_lt_of_le (pow2_pos _) h1
      rw [if_neg (not_lt.mpr hq.le), if_neg (ne_of_gt hq)]
      right
      simp only [Dbl.toRat]
      obtain ⟨r0, r1, r2⟩ := sqrtRound64 (le_trans (pow2_le (by norm_num)) h1)
      have hε0 : 0 < pow2 (-53) := pow2_pos _
      have hε1 : pow2 (-53) ≤ 1 / 2 := by
        rw [pow2_neg53]
        norm_num
      generalize pow2 (-53) = ε at *
      generalize Dbl.sqrtRound binary64 q = r at *
      have e1 : pow2 (-300) = (pow2 (-150)) ^ 2 := by rw [pow_two, ← pow2_add]; rfl
      have e2 : pow2 260 = (pow2 130) ^ 2 := by rw [pow_two, ← pow2_add]; rfl
      have e3 : pow2 259 ≤ pow2 260 := pow2_le (by norm_num)
      have a1 : pow2 (-150) ≤ r * (1 + ε) := by
        apply le_of_sq_le (mul_nonneg r0.le (by linarith only [hε0]))
        rw [← e1]
        exact le_trans h1 r2
      have a2 : r * (1 - ε) ≤ pow2 130 := by
        apply le_of_sq_le (pow2_pos _).le
        rw [← e2]
        exact le_trans r1 (le_trans h2 e3)
      have m1 : r * ε ≤ r * (1 / 2) := mul_le_mul_of_nonneg_left hε1 r0.le
      have e4 : pow2 (-150) = pow2 (-200) * pow2 50 := by rw [← pow2_add]; rfl
      have e5 : pow2 200 = pow2 130 * pow2 70 := by rw [← pow2_add]; rfl
      have e6 : (2 : ℚ) ≤ pow2 50 := by
        have : pow2 1 ≤ pow2 50 := pow2_le (by norm_num)
        rw [show pow2 1 = 2 by decide!] at this
        exact this
      have e7 : (2 : ℚ) ≤ pow2 70 := by
        have : pow2 1 ≤ pow2 70 := pow2_le (by norm_num)
        rw [show pow2 1 = 2 by decide!] at this
        exact this
      have p200 : 0 < pow2 (-200) := pow2_pos _
      have p130 : 0 < pow2 130 := pow2_pos _
      have m2 : pow2 (-200) * 2 ≤ pow2 (-200) * pow2 50 := mul_le_mul_of_nonneg_left e6 p200.le
      have m3 : pow2 130 * 2 ≤ pow2 130 * pow2 70 := mul_le_mul_of_nonneg_left e7 p130.le
      constructor
      · rw [e4] at a1
        linarith only [a1, m1, m2, r0]
      · rw [e5]
        linarith only [a2, m1, m3, r0]

/-- The distance pushed onto `distancias` is zero (or not finite), or lies between `2 ^ (-200)`
and `2 ^ 200`: the coordinate differences are computed in `float`. -/
theorem keypointDistance_range {pow : Dbl → Dbl → Dbl} (hp : IsLibmPow pow) (p c : KeyPoint) :
    (keypointDistance pow p c).toRat = 0 ∨
      (pow2 (-200) ≤ (keypointDistance pow p c).toRat ∧
        (keypointDistance pow p c).toRat ≤ pow2 200) := by
  rw [keypointDistance_pow hp]
  unfold keypointDistance
  rw [powNearest_two, powNearest_two]
  exact sqrt_range _ (add_sq_range _ _ (sq_range _ (sub32_range _ _))
    (sq_range _ (sub32_range _ _)))

theorem matchDistance_range {pow : Dbl → Dbl → Dbl} (hp : IsLibmPow pow)
    (kptsPrev kptsCurr : List KeyPoint) (m : DMatch) :
    (matchDistance pow kptsPrev kptsCurr m).toRat = 0 ∨
      (pow2 (-200) ≤ (matchDistance pow kptsPrev kptsCurr m).toRat ∧
        (matchDistance pow kptsPrev kptsCurr m).toRat ≤ pow2 200) := by
  unfold matchDistance
  split
  · exact keypointDistance_range hp _ _
  · exact Or.inl rfl

/-- A keypoint distance is zero (or not finite), or a 53-bit integer times a power of two. -/
theorem keypointDistance_repr {pow : Dbl → Dbl → Dbl} (hp : IsLibmPow pow) (p c : KeyPoint) :
    (keypointDistance pow p c).toRat = 0 ∨
      ∃ (r : Nat) (K : Int), (keypointDistance pow p c).toRat = (r : ℚ) * pow2 K ∧
        2 ^ 52 ≤ r ∧ r ≤ 2 ^ 53 ∧ -300 ≤ K ∧ K ≤ 300 := by
  rw [keypointDistance_pow hp]
  unfold keypointDistance
  rw [powNearest_two, powNearest_two]
  have hs := add_sq_range _ _ (sq_range _ (sub32_range p.pt.x c.pt.x))
    (sq_range _ (sub32_range p.pt.y c.pt.y))
  generalize Dbl.add binary64 (Dbl.sqNearest (Dbl.sub binary32 p.pt.x c.pt.x))
    (Dbl.sqNearest (Dbl.sub binary32 p.pt.y c.pt.y)) = s at *
  rcases s with _ | b | b | q
  · exact Or.inl rfl
  · left
    simp only [Dbl.sqrt]
    split_ifs <;> rfl
  · exact Or.inl rfl
  · simp only [Dbl.toRat] at hs
    simp only [Dbl.sqrt]
    rcases hs with h | ⟨h1, h2⟩
    · left
      simp [h, Dbl.toRat]
    · have hq : 0 < q := lt_of_lt_of_le (pow2_pos _) h1
      rw [if_neg (not_lt.mpr hq.le), if_neg (ne_of_gt hq)]
      right
      simp only [Dbl.toRat]
      obtain ⟨r, hr, r1, r2⟩ := sqrtRound_repr (le_trans (pow2_le (by norm_num)) h1)
      obtain ⟨s1, s2⟩ := floorLog2_spec q hq
      have e1 : -300 < floorLog2 q + 1 := pow2_lt_iff.mp (lt_of_le_of_lt h1 s2)
      have e2 : floorLog2 q < 260 :=
        pow2_lt_iff.mp (lt_of_le_of_lt s1 (lt_of_le_of_lt h2 (pow2_lt (by norm_num))))
      exact ⟨r, floorLog2 q / 2 - 52, hr, r1, r2, by omega, by omega⟩

theorem matchDistance_repr {pow : Dbl → Dbl → Dbl} (hp : IsLibmPow pow)
    (kptsPrev kptsCurr : List KeyPoint) (m : DMatch) :
    (matchDistance pow kptsPrev kptsCurr m).toRat = 0 ∨
      ∃ (r : Nat) (K : Int), (matchDistance pow kptsPrev kptsCurr m).toRat = (r : ℚ) * pow2 K ∧
        2 ^ 52 ≤ r ∧ r ≤ 2 ^ 53 ∧ -300 ≤ K ∧ K ≤ 300 := by
  unfold matchDistance
  split
  · exact keypointDistance_repr hp _ _
  · exact Or.inl rfl

theorem Dbl.add_nan_left (F : Fmt) (b : Dbl) : Dbl.add F Dbl.nan b = Dbl.nan := by
  cases b <;> rfl

theorem Dbl.add_inf_left (F : Fmt) (s : Bool) (b : Dbl) :
    Dbl.add F (Dbl.inf s) b = Dbl.nan ∨ Dbl.add F (Dbl.inf s) b = Dbl.inf s := by
  rcases b with _ | t | t | y
  · exact Or.inl rfl
  · by_cases h : s = t
    · right
      simp [Dbl.add, h]
    · left
      simp [Dbl.add, h]
  · exact Or.inr rfl
  · exact Or.inr rfl

theorem Dbl.lt_nan_left (b : Dbl) : Dbl.lt Dbl.nan b = false := by
  cases b <;> rfl

theorem Dbl.lt_inf_left (b : Dbl) : Dbl.lt (Dbl.inf false) b = false := by
  rcases b with _ | t | t | y
  · rfl
  · simp [Dbl.lt]
  · rfl
  · rfl

/-- A distance that is not finite never passes the test of line 170. -/
theorem withinOneStdDev_not_finite (d μ sd : Dbl) (h : d.isFinite = false) :
    withinOneStdDev d μ sd = false := by
  unfold withinOneStdDev Dbl.sub
  rcases d with _ | s | s | q
  · rw [Dbl.add_nan_left]
    exact Dbl.lt_nan_left sd
  · rcases Dbl.add_inf_left binary64 s (Dbl.neg μ) with h1 | h1
    · rw [h1]
      exact Dbl.lt_nan_left sd
    · rw [h1]
      exact Dbl.lt_inf_left sd
  · simp [Dbl.isFinite] at h
  · simp [Dbl.isFinite] at h

theorem sqrt_toRat_zero {v : Dbl} (hf : v.isFinite = true) (h0 : v.toRat = 0) :
    (Dbl.sqrt binary64 v).isFinite = true ∧ (Dbl.sqrt binary64 v).toRat = 0 := by
  rcases v with _ | s | s | q
  · simp [Dbl.isFinite] at hf
  · simp [Dbl.isFinite] at hf
  · exact ⟨rfl, rfl⟩
  · simp only [Dbl.toRat] at h0
    simp [Dbl.sqrt, h0, Dbl.isFinite, Dbl.toRat]

/-! ## clusterKptMatchesWithROI -/

theorem distanciasLoop_eq (pow : Dbl → Dbl → Dbl) (kptsPrev kptsCurr : List KeyPoint)
    (l : List DMatch) (hv : ValidMatches kptsPrev kptsCurr l) (acc : List Dbl) :
    distanciasLoop pow kptsPrev kptsCurr l acc =
      Except.ok (acc ++ l.map (matchDistance pow kptsPrev kptsCurr)) := by
  induction l generalizing acc with
  | nil => simp [distanciasLoop, pure, Except.pure]
  | cons m rest ih =>
    have hm := hv m (List.mem_cons_self _ _)
    have hrest : ValidMatches kptsPrev kptsCurr rest :=
      fun x hx => hv x (List.mem_cons_of_mem _ hx)
    obtain ⟨a, ha⟩ := index_ok_of_valid kptsPrev m.queryIdx hm.1.1 hm.1.2
    obtain ⟨b, hb⟩ := index_ok_of_valid kptsCurr m.trainIdx hm.2.1 hm.2.2
    unfold distanciasLoop
    simp only [ha, hb, bind, Except.bind]
    rw [ih hrest]
    simp [matchDistance_of_ok pow ha hb]

theorem retainLoop_range (f : DMatch → Dbl) (kptMatches : List DMatch)
    (meanDistance standarDev : Dbl) (len k : Nat) (boundingBox : BoundingBox)
    (hk : k + len = kptMatches.length) :
    retainLoop (kptMatches.map f) meanDistance standarDev kptMatches
        (List.range' k len) boundingBox =
      Except.ok { boundingBox with
        kptMatches := boundingBox.kptMatches ++ (kptMatches.drop k).filter (fun m =>
          withinOneStdDev (f m) meanDistance standarDev) } := by
  induction len generalizing k boundingBox with
  | zero =>
    have : kptMatches.drop k = [] := List.drop_eq_nil_of_le (by omega)
    simp [retainLoop, this, pure, Except.pure]
  | succ len ih =>
    have hlt : k < kptMatches.length := by omega
    have hlt' : k < (kptMatches.map f).length := by simpa using hlt
    have hdrop : kptMatches.drop k = kptMatches[k] :: kptMatches.drop (k + 1) :=
      List.drop_eq_getElem_cons hlt
    have hd : index (kptMatches.map f) (k : Int) = Except.ok (f kptMatches[k]) := by
      rw [index_natCast _ _ hlt']
      simp
    have hm : index kptMatches (k : Int) = Except.ok kptMatches[k] := by
      rw [index_natCast _ _ hlt]
      rfl
    rw [List.range'_succ]
    unfold retainLoop
    simp only [hd, hm, bind, Except.bind]
    by_cases hw : withinOneStdDev (f kptMatches[k]) meanDistance standarDev = true
    · simp only [hw, if_true]
      rw [ih (k + 1) _ (by omega), hdrop, List.filter_cons, if_pos hw]
      simp only [List.append_assoc, List.singleton_append]
    · have hw' : withinOneStdDev (f kptMatches[k]) meanDistance standarDev = false := by
        simpa using hw
      simp only [hw', Bool.false_eq_true, if_false]
      rw [ih (k + 1) _ (by omega), hdrop, List.filter_cons, if_neg hw]

theorem Dbl.lt_false_of_eq {a b : Dbl} (h : Dbl.eq a b = true) : Dbl.lt a b = false := by
  rcases a with _ | (_|_) | _ | _ <;> rcases b with _ | (_|_) | _ | _ <;>
    simp_all [Dbl.eq, Dbl.lt]

/-- The retained matches in terms of the values the code computes. -/
theorem clusterKptMatchesWithROI_filter (pow : Dbl → Dbl → Dbl) (boundingBox : BoundingBox)
    (kptsPrev kptsCurr : List KeyPoint) (kptMatches : List DMatch)
    (hv : ValidMatches kptsPrev kptsCurr kptMatches) :
    clusterKptMatchesWithROI pow boundingBox kptsPrev kptsCurr kptMatches =
      Except.ok { boundingBox with
        kptMatches := boundingBox.kptMatches ++ kptMatches.filter (fun m =>
          withinOneStdDev (matchDistance pow kptsPrev kptsCurr m)
            (meanOf (kptMatches.map (matchDistance pow kptsPrev kptsCurr)))
            (stdDevOf pow (kptMatches.map (matchDistance pow kptsPrev kptsCurr))
              (meanOf (kptMatches.map (matchDistance pow kptsPrev kptsCurr))))) } := by
  unfold clusterKptMatchesWithROI
  rw [distanciasLoop_eq pow kptsPrev kptsCurr kptMatches hv []]
  simp only [bind, Except.bind, List.nil_append]
  rw [List.range_eq_range', retainLoop_range _ kptMatches _ _ _ 0 _ (by simp)]
  simp

theorem sumFrom_eq_foldl (ds : List Dbl) (acc : Dbl) :
    sumFrom acc ds = ds.foldl (fun acc d => Dbl.add binary64 acc d) acc := by
  induction ds generalizing acc with
  | nil => rfl
  | cons d rest ih =>
    simp only [sumFrom, List.foldl_cons]
    exact ih _

/-- The value the code leaves in `meanDistance` is the mean of the specification. -/
theorem meanOf_eq_meanSpec (ds : List Dbl) : meanOf ds = meanSpec ds := by
  unfold meanOf meanSpec sumSpec
  rw [sumFrom_eq_foldl]

/-- The value the code leaves in `standarDev` is the standard deviation of the specification:
the square root of the mean of the squared deviations from the mean, divisor `n`. -/
theorem stdDevOf_eq_stdDevSpec (pow : Dbl → Dbl → Dbl) (ds : List Dbl) :
    stdDevOf pow ds (meanOf ds) = stdDevSpec pow ds := by
  unfold stdDevOf stdDevSpec
  rw [← meanOf_eq_meanSpec, ← meanOf_eq_meanSpec]
  unfold meanOf
  rw [List.foldl_map, List.length_map]

/-- C5. With valid keypoint indices, and whatever the library function `pow`,
`clusterKptMatchesWithROI` appends to the box's `kptMatches`, in input order, exactly the
matches whose distance `d` satisfies `|d - mean| < stddev`, where `mean` is the sum of the `n`
distances divided by `n` and `stddev` is the square root of the mean squared deviation from that
mean (divisor `n`), both over the distances of all `n` matches passed in; the comparison is
strict, so a match with `|d - mean| == stddev` is not among the retained ones. -/
theorem clusterKptMatchesWithROI_retains (pow : Dbl → Dbl → Dbl) (boundingBox : BoundingBox)
    (kptsPrev kptsCurr : List KeyPoint) (kptMatches : List DMatch)
    (hv : ValidMatches kptsPrev kptsCurr kptMatches) :
    clusterKptMatchesWithROI pow boundingBox kptsPrev kptsCurr kptMatches =
        Except.ok { boundingBox with
          kptMatches := boundingBox.kptMatches ++ kptMatches.filter (fun m =>
            Dbl.lt
              (Dbl.abs (Dbl.sub binary64 (matchDistance pow kptsPrev kptsCurr m)
                (meanSpec (kptMatches.map (matchDistance pow kptsPrev kptsCurr)))))
              (stdDevSpec pow (kptMatches.map (matchDistance pow kptsPrev kptsCurr)))) }
      ∧ ∀ m ∈ kptMatches,
          Dbl.eq
              (Dbl.abs (Dbl.sub binary64 (matchDistance pow kptsPrev kptsCurr m)
                (meanSpec (kptMatches.map (matchDistance pow kptsPrev kptsCurr)))))
              (stdDevSpec pow (kptMatches.map (matchDistance pow kptsPrev kptsCurr))) = true →
            m ∉ kptMatches.filter (fun m =>
              Dbl.lt
                (Dbl.abs (Dbl.sub binary64 (matchDistance pow kptsPrev kptsCurr m)
                  (meanSpec (kptMatches.map (matchDistance pow kptsPrev kptsCurr)))))
                (stdDevSpec pow (kptMatches.map (matchDistance pow kptsPrev kptsCurr)))) := by
  constructor
  · rw [clusterKptMatchesWithROI_filter pow boundingBox kptsPrev kptsCurr kptMatches hv,
      stdDevOf_eq_stdDevSpec, meanOf_eq_meanSpec]
    rfl
  · intro m _ h hmem
    have := (List.mem_filter.mp hmem).2
    rw [Dbl.lt_false_of_eq h] at this
    exact absurd this Bool.false_ne_true

theorem clusterKptMatchesWithROI_retains_witness :
    (ValidMatches exFourPrev exTieCurr exFourMatches
      ∧ exFourMatches.map (matchDistance powNearest exFourPrev exTieCurr) =
          [Dbl.zero false, Dbl.zero false, Dbl.num 1, Dbl.num 1]
      ∧ meanSpec (exFourMatches.map (matchDistance powNearest exFourPrev exTieCurr)) =
          Dbl.num (1 / 2)
      ∧ stdDevSpec powNearest (exFourMatches.map (matchDistance powNearest exFourPrev exTieCurr)) =
          Dbl.num (1 / 2)
      ∧ clusterKptMatchesWithROI powNearest exBox exFourPrev exTieCurr exFourMatches =
          Except.ok exBox)
    ∧ (ValidMatches exFourPrev exFourCurr exFourMatches
      ∧ exFourMatches.map (matchDistance powNearest exFourPrev exFourCurr) =
          [Dbl.num 1, Dbl.num 1, Dbl.num 1, Dbl.num 10]
      ∧ meanSpec (exFourMatches.map (matchDistance powNearest exFourPrev exFourCurr)) =
          Dbl.num (13 / 4)
      ∧ stdDevSpec powNearest (exFourMatches.map (matchDistance powNearest exFourPrev exFourCurr)) =
          Dbl.num (137117520203097 / 35184372088832)
      ∧ clusterKptMatchesWithROI powNearest exBox exFourPrev exFourCurr exFourMatches =
          Except.ok { exBox with kptMatches := [⟨0, 0⟩, ⟨1, 1⟩, ⟨2, 2⟩] }) := by
  have hv : ValidMatches exFourPrev exTieCurr exFourMatches := by
    unfold ValidMatches
    decide!
  have hv' : ValidMatches exFourPrev exFourCurr exFourMatches := by
    unfold ValidMatches
    decide!
  refine ⟨⟨hv, by decide!, by decide!, by decide!, ?_⟩, hv', by decide!, by decide!, ?_, ?_⟩
  · rw [(clusterKptMatchesWithROI_retains powNearest exBox exFourPrev exTieCurr exFourMatches
      hv).1]
    decide!
  · decide!
  · rw [(clusterKptMatchesWithROI_retains powNearest exBox exFourPrev exFourCurr exFourMatches
      hv').1]
    decide!

/-! ## clusterKptMatchesWithROI and the library -/

theorem distanciasLoop_pow {pow : Dbl → Dbl → Dbl} (hp : IsLibmPow pow)
    (kptsPrev kptsCurr : List KeyPoint) (l : List DMatch) (acc : List Dbl) :
    distanciasLoop pow kptsPrev kptsCurr l acc =
      distanciasLoop powNearest kptsPrev kptsCurr l acc := by
  induction l generalizing acc with
  | nil => rfl
  | cons m rest ih =>
    unfold distanciasLoop
    cases index kptsPrev m.queryIdx with
    | error e => rfl
    | ok a =>
      cases index kptsCurr m.trainIdx with
      | error e => rfl
      | ok b =>
        simp only [bind, Except.bind]
        rw [keypointDistance_pow hp]
        exact ih _

theorem foldl_congr_mem {α β : Type} (f g : β → α → β) :
    ∀ (l : List α) (s : β), (∀ x ∈ l, ∀ b, f b x = g b x) → l.foldl f s = l.foldl g s
  | [], _, _ => rfl
  | x :: l, s, h => by
    rw [List.foldl_cons, List.foldl_cons, h x (List.mem_cons_self _ _)]
    exact foldl_congr_mem f g l _ (fun y hy => h y (List.mem_cons_of_mem _ hy))

/-- Where every squared deviation is determined by the contract of `pow`, so is the standard
deviation. -/
theorem stdDevOf_of_exact {pow : Dbl → Dbl → Dbl} (hp : IsLibmPow pow) (ds : List Dbl) (μ : Dbl)
    (h : ∀ d ∈ ds, (Dbl.sub binary64 d μ).squareIsExact = true) :
    stdDevOf pow ds μ = stdDevOf powNearest ds μ := by
  unfold stdDevOf
  rw [foldl_congr_mem _
    (fun acc d => Dbl.add binary64 acc (powNearest (Dbl.sub binary64 d μ) d2)) ds d0]
  intro d hd b
  rw [hp.of_exact _ (h d hd), powNearest_two]

/-- Where every squared deviation is determined by the contract of `pow`, the function does
what it does with the square rounded to nearest. -/
theorem clusterKptMatchesWithROI_of_exact {pow : Dbl → Dbl → Dbl} (hp : IsLibmPow pow)
    (boundingBox : BoundingBox) (kptsPrev kptsCurr : List KeyPoint) (kptMatches : List DMatch)
    (h : deviationsExact kptsPrev kptsCurr kptMatches = true) :
    clusterKptMatchesWithROI pow boundingBox kptsPrev kptsCurr kptMatches =
      clusterKptMatchesWithROI powNearest boundingBox kptsPrev kptsCurr kptMatches := by
  unfold clusterKptMatchesWithROI
  rw [distanciasLoop_pow hp]
  unfold deviationsExact at h
  cases hd : distanciasLoop powNearest kptsPrev kptsCurr kptMatches [] with
  | error e => rfl
  | ok ds =>
    rw [hd] at h
    simp only [List.all_eq_true] at h
    simp only [bind, Except.bind]
    rw [stdDevOf_of_exact hp ds (meanOf ds) h]

/-! ## clusterKptMatchesWithROI on an empty list of matches -/

/-- C16. With an empty list of matches `clusterKptMatchesWithROI` completes (no keypoint is
read, the mean and the standard deviation are `0.0 / 0 = NaN`, the last loop does not run) and
the bounding box, its `kptMatches` in particular, is left exactly as it was. -/
theorem clusterKptMatchesWithROI_empty (pow : Dbl → Dbl → Dbl) (boundingBox : BoundingBox)
    (kptsPrev kptsCurr : List KeyPoint) :
    clusterKptMatchesWithROI pow boundingBox kptsPrev kptsCurr [] = Except.ok boundingBox ∧
      meanOf [] = Dbl.nan ∧ stdDevOf pow [] (meanOf []) = Dbl.nan := by
  refine ⟨rfl, ?_, ?_⟩
  · decide!
  · show Dbl.sqrt binary64 (Dbl.div binary64 d0 (Dbl.ofInt binary64 0)) = Dbl.nan
    decide!

/-! ## clusterKptMatchesWithROI and the region of interest -/

theorem retainLoop_roi (distancias : List Dbl) (meanDistance standarDev : Dbl)
    (kptMatches : List DMatch) (l : List Nat) (boundingBox : BoundingBox) (r : Rect) :
    retainLoop distancias meanDistance standarDev kptMatches l { boundingBox with roi := r } =
      (retainLoop distancias meanDistance standarDev kptMatches l boundingBox).map
        (fun b => { b with roi := r }) := by
  induction l generalizing boundingBox with
  | nil => rfl
  | cons i rest ih =>
    unfold retainLoop
    cases hd : index distancias (i : Int) with
    | error e => rfl
    | ok d =>
      simp only [bind, Except.bind]
      by_cases hw : withinOneStdDev d meanDistance standarDev = true
      · simp only [hw, if_true]
        cases hm : index kptMatches (i : Int) with
        | error e => rfl
        | ok m =>
          show retainLoop distancias meanDistance standarDev kptMatches rest _ = _
          exact ih { boundingBox with kptMatches := boundingBox.kptMatches ++ [m] }
      · have hw' : withinOneStdDev d meanDistance standarDev = false := by simpa using hw
        simp only [hw', Bool.false_eq_true, if_false]
        exact ih _

/-- C13 (what the code does). `clusterKptMatchesWithROI` never reads `boundingBox.roi`: the
matches it retains are the same whatever the region, and whatever the library function `pow`.
On the sample data every keypoint, previous and current, lies outside the region of the box,
and three matches are added to the box all the same, with every library function `pow`
meeting the contract. -/
theorem clusterKptMatchesWithROI_ignores_roi :
    (∀ (pow : Dbl → Dbl → Dbl) (boundingBox : BoundingBox) (kptsPrev kptsCurr : List KeyPoint)
        (kptMatches : List DMatch) (r : Rect),
        clusterKptMatchesWithROI pow { boundingBox with roi := r } kptsPrev kptsCurr kptMatches =
          (clusterKptMatchesWithROI pow boundingBox kptsPrev kptsCurr kptMatches).map
            (fun b => { b with roi := r }))
      ∧ (∀ pow : Dbl → Dbl → Dbl, IsLibmPow pow →
        clusterKptMatchesWithROI pow exBox exFarPrev exFarCurr exFourMatches =
          Except.ok { exBox with kptMatches := [⟨0, 0⟩, ⟨1, 1⟩, ⟨2, 2⟩] })
      ∧ (∀ kp ∈ exFarPrev ++ exFarCurr, exBox.roi.contains kp.pt.toPoint = false) := by
  refine ⟨?_, ?_, ?_⟩
  · intro pow boundingBox kptsPrev kptsCurr kptMatches r
    unfold clusterKptMatchesWithROI
    cases distanciasLoop pow kptsPrev kptsCurr kptMatches [] with
    | error e => rfl
    | ok d =>
      simp only [bind, Except.bind]
      exact retainLoop_roi _ _ _ _ _ _ _
  · intro pow hp
    rw [clusterKptMatchesWithROI_of_exact hp _ _ _ _ (by decide!)]
    decide!
  · decide!

theorem clusterKptMatchesWithROI_ignores_roi_witness :
    (IsLibmPow powNearest ∧
      clusterKptMatchesWithROI powNearest exBox exFarPrev exFarCurr exFourMatches =
        Except.ok { exBox with kptMatches := [⟨0, 0⟩, ⟨1, 1⟩, ⟨2, 2⟩] })
    ∧ (IsLibmPow powDown ∧
      clusterKptMatchesWithROI powDown exBox exFarPrev exFarCurr exFourMatches =
        Except.ok { exBox with kptMatches := [⟨0, 0⟩, ⟨1, 1⟩, ⟨2, 2⟩] }) :=
  ⟨⟨powNearest_isLibmPow,
      clusterKptMatchesWithROI_ignores_roi.2.1 powNearest powNearest_isLibmPow⟩,
    powDown_isLibmPow, clusterKptMatchesWithROI_ignores_roi.2.1 powDown powDown_isLibmPow⟩

/-- The contract of `pow` does not determine the retained matches. On two matches at the
distances `√37` and `√512` the deviations from the mean have squares that are no `double`:
the function retains the first match when the library returns the squares rounded to nearest,
and no match when it returns them rounded toward zero. -/
theorem clusterKptMatchesWithROI_depends_on_pow :
    IsLibmPow powNearest ∧ IsLibmPow powDown
      ∧ ValidMatches exLibPrev exLibCurr exMatches
      ∧ clusterKptMatchesWithROI powNearest exBox exLibPrev exLibCurr exMatches =
        Except.ok { exBox with kptMatches := [⟨0, 0⟩] }
      ∧ clusterKptMatchesWithROI powDown exBox exLibPrev exLibCurr exMatches =
        Except.ok exBox := by
  refine ⟨powNearest_isLibmPow, powDown_isLibmPow, ?_, by decide!, by decide!⟩
  unfold ValidMatches
  decide!

theorem Dbl.eq_num_of_finite {x : Dbl} (hf : x.isFinite = true) (h0 : x.toRat ≠ 0) :
    x = Dbl.num x.toRat := by
  rcases x with _ | s | s | q
  · simp [Dbl.isFinite] at hf
  · simp [Dbl.isFinite] at hf
  · simp [Dbl.toRat] at h0
  · rfl

/-- One term `pow(d - meanDistance, 2)` of the standard deviation, for finite `d` and
`meanDistance` whose exact difference is zero or of magnitude `A` between `2 ^ (-300)` and
`2 ^ 300`: the computed difference has magnitude within `A (1 ± ε)` and the square returned by
the library lies between `A² (1 - ε)⁵` and `A² (1 + ε)⁴`. -/
theorem dev_sq_bounds {pow : Dbl → Dbl → Dbl} (hp : IsLibmPow pow) (d μ : Dbl)
    (hd : d.isFinite = true) (hμ : μ.isFinite = true)
    (h0 : d.toRat - μ.toRat = 0 ∨ pow2 (-300) ≤ |d.toRat - μ.toRat|)
    (h1 : |d.toRat - μ.toRat| ≤ pow2 300) :
    (Dbl.sub binary64 d μ).isFinite = true ∧
      (pow (Dbl.sub binary64 d μ) d2).isFinite = true ∧
      |d.toRat - μ.toRat| * (1 - pow2 (-53)) ≤ |(Dbl.sub binary64 d μ).toRat| ∧
      |(Dbl.sub binary64 d μ).toRat| ≤ |d.toRat - μ.toRat| * (1 + pow2 (-53)) ∧
      |d.toRat - μ.toRat| ^ 2 * (1 - pow2 (-53)) ^ 5 ≤ (pow (Dbl.sub binary64 d μ) d2).toRat ∧
      (pow (Dbl.sub binary64 d μ) d2).toRat ≤ |d.toRat - μ.toRat| ^ 2 * (1 + pow2 (-53)) ^ 4 ∧
      ((pow (Dbl.sub binary64 d μ) d2).toRat = 0 ∨
        pow2 (-603) ≤ (pow (Dbl.sub binary64 d μ) d2).toRat) := by
  have hε0 : 0 < pow2 (-53) := pow2_pos _
  have hε1 : pow2 (-53) ≤ 1 / 4 := by
    rw [pow2_neg53]
    norm_num
  have h52 : pow2 (-52) = 2 * pow2 (-53) := by
    rw [show (-52 : Int) = -53 + 1 by norm_num, pow2_succ]
  generalize hε : pow2 (-53) = ε at *
  obtain ⟨s, hs⟩ := Dbl.sub_finite binary64 hd hμ
  generalize d.toRat - μ.toRat = q at *
  have hqr : q = 0 ∨ pow2 (-1022) ≤ |q| := by
    rcases h0 with h | h
    · exact Or.inl h
    · exact Or.inr (le_trans (pow2_le (by norm_num)) h)
  obtain ⟨vf, verr⟩ := round64_fin s hqr (le_trans h1 (pow2_le (by norm_num)))
  rw [← hs] at vf verr
  generalize Dbl.sub binary64 d μ = dev at *
  have hA0 : 0 ≤ |q| := abs_nonneg q
  have hv1 : |q| - |dev.toRat| ≤ |dev.toRat - q| := by
    rw [abs_sub_comm dev.toRat q]
    exact abs_sub_abs_le_abs_sub q dev.toRat
  have hv2 : |dev.toRat| - |q| ≤ |dev.toRat - q| := abs_sub_abs_le_abs_sub dev.toRat q
  rw [hε] at verr
  have hva1 : |q| * (1 - ε) ≤ |dev.toRat| := by linarith only [hv1, verr]
  have hva2 : |dev.toRat| ≤ |q| * (1 + ε) := by linarith only [hv2, verr]
  have hv0 : 0 ≤ |dev.toRat| := abs_nonneg _
  have hvv : dev.toRat * dev.toRat = |dev.toRat| * |dev.toRat| := (abs_mul_abs_self _).symm
  have hAhalf : |q| / 2 ≤ |dev.toRat| := by
    have : |q| * ε ≤ |q| * (1 / 4) := mul_le_mul_of_nonneg_left hε1 hA0
    linarith only [hva1, this, hA0]
  have hA2 : |dev.toRat| ≤ 2 * |q| := by
    have : |q| * ε ≤ |q| * (1 / 4) := mul_le_mul_of_nonneg_left hε1 hA0
    linarith only [hva2, this, hA0]
  have hm : 0 ≤ 1 - ε := by linarith only [hε1]
  have hpp : 0 ≤ 1 + ε := by linarith only [hε0]
  rcases h0 with h | h
  · -- the deviation is zero
    have hz : dev.toRat = 0 := by
      rw [h, abs_zero] at hA2
      exact abs_eq_zero.mp (le_antisymm (by linarith only [hA2]) hv0)
    have hx := hp.of_toRat_zero vf hz
    rw [hx]
    refine ⟨vf, rfl, hva1, hva2, ?_, ?_, Or.inl rfl⟩
    · rw [h, abs_zero]
      simp [Dbl.toRat]
    · rw [h, abs_zero]
      simp [Dbl.toRat]
  · have h3 : pow2 (-301) ≤ |dev.toRat| := by
      rw [show (-301 : Int) = -300 - 1 by norm_num, pow2_pred]
      linarith only [h, hAhalf]
    have hvne : dev.toRat ≠ 0 := by
      intro hz
      rw [hz, abs_zero] at h3
      exact absurd h3 (not_le.mpr (pow2_pos _))
    have hvvlo : pow2 (-602) ≤ dev.toRat * dev.toRat := by
      have h4 : pow2 (-602) = pow2 (-301) * pow2 (-301) := by
        rw [← pow2_add]
        rfl
      rw [hvv, h4]
      exact mul_le_mul h3 h3 (pow2_pos _).le hv0
    have hvvhi : dev.toRat * dev.toRat ≤ pow2 602 := by
      have h3 : |dev.toRat| ≤ pow2 301 := by
        rw [show (301 : Int) = 300 + 1 by norm_num, pow2_succ]
        linarith only [h1, hA2]
      have h4 : pow2 602 = pow2 301 * pow2 301 := by
        rw [← pow2_add]
        rfl
      rw [hvv, h4]
      exact mul_le_mul h3 h3 hv0 (pow2_pos _).le
    obtain ⟨w, hw, werr, wpos⟩ := hp.bounds (q := dev.toRat)
      (le_trans (pow2_le (by norm_num)) hvvlo) (le_trans hvvhi (pow2_le (by norm_num)))
    rw [h52] at werr
    rw [← Dbl.eq_num_of_finite vf hvne] at hw
    rw [hw]
    have hwt : (Dbl.num w).toRat = w := rfl
    rw [hwt]
    generalize hvdef : dev.toRat = v at *
    have hvsq : 0 ≤ v * v := mul_self_nonneg v
    have wlo : v * v * (1 - 2 * ε) ≤ w := by
      have := (abs_le.mp werr).1
      linarith only [this]
    have whi : w ≤ v * v * (1 + 2 * ε) := by
      have := (abs_le.mp werr).2
      linarith only [this]
    have e1 : (1 - ε) ^ 3 ≤ 1 - 2 * ε := by
      have h5 : 0 ≤ ε * (1 - 3 * ε + ε * ε) := by
        apply mul_nonneg hε0.le
        nlinarith
      have h6 : (1 - ε) ^ 3 = 1 - 2 * ε - ε * (1 - 3 * ε + ε * ε) := by ring
      rw [h6]
      linarith only [h5]
    have e2 : 1 + 2 * ε ≤ (1 + ε) ^ 2 := by
      have h6 : (1 + ε) ^ 2 = 1 + 2 * ε + ε * ε := by ring
      rw [h6]
      have := mul_self_nonneg ε
      linarith only [this]
    refine ⟨vf, rfl, hva1, hva2, ?_, ?_, Or.inr ?_⟩
    · have h4 : (|q| * (1 - ε)) * (|q| * (1 - ε)) ≤ |v| * |v| :=
        mul_le_mul hva1 hva1 (mul_nonneg hA0 hm) hv0
      have h5 : (|q| * (1 - ε)) * (|q| * (1 - ε)) * (1 - ε) ^ 3 ≤ v * v * (1 - ε) ^ 3 := by
        rw [hvv]
        exact mul_le_mul_of_nonneg_right h4 (pow_nonneg hm 3)
      have h6 : v * v * (1 - ε) ^ 3 ≤ v * v * (1 - 2 * ε) :=
        mul_le_mul_of_nonneg_left e1 hvsq
      have h7 : |q| ^ 2 * (1 - ε) ^ 5 = (|q| * (1 - ε)) * (|q| * (1 - ε)) * (1 - ε) ^ 3 := by
        ring
      rw [h7]
      exact le_trans h5 (le_trans h6 wlo)
    · have h4 : |v| * |v| ≤ (|q| * (1 + ε)) * (|q| * (1 + ε)) :=
        mul_le_mul hva2 hva2 hv0 (mul_nonneg hA0 hpp)
      have h5 : v * v * (1 + ε) ^ 2 ≤ (|q| * (1 + ε)) * (|q| * (1 + ε)) * (1 + ε) ^ 2 := by
        rw [hvv]
        exact mul_le_mul_of_nonneg_right h4 (pow_nonneg hpp 2)
      have h6 : v * v * (1 + 2 * ε) ≤ v * v * (1 + ε) ^ 2 :=
        mul_le_mul_of_nonneg_left e2 hvsq
      have h7 : |q| ^ 2 * (1 + ε) ^ 4 = (|q| * (1 + ε)) * (|q| * (1 + ε)) * (1 + ε) ^ 2 := by
        ring
      rw [h7]
      exact le_trans whi (le_trans h6 h5)
    · have h8 : v * v * (1 / 2) ≤ v * v * (1 - 2 * ε) :=
        mul_le_mul_of_nonneg_left (by linarith only [hε1]) hvsq
      rw [show (-603 : Int) = -602 - 1 by norm_num, pow2_pred]
      linarith only [h8, wlo, hvvlo]

theorem stdDevOf_eq (pow : Dbl → Dbl → Dbl) (ds : List Dbl) (μ : Dbl) :
    stdDevOf pow ds μ = Dbl.sqrt binary64 (Dbl.div binary64
      ((ds.map (fun d => pow (Dbl.sub binary64 d μ) d2)).foldl
        (fun acc d => Dbl.add binary64 acc d) d0)
      (Dbl.ofInt binary64 (ds.map (fun d => pow (Dbl.sub binary64 d μ) d2)).length)) := by
  unfold stdDevOf
  rw [List.foldl_map, List.length_map]

/-- The test of line 170 for `n - 1` equal distances and one outlier, `3 ≤ n ≤ 10000`, the
distances being finite, zero or between `2 ^ (-200)` and `2 ^ 200`, and differing by at least
one part in 10000 of the larger: the common distance passes, the outlier does not. -/
theorem outlier_core {pow : Dbl → Dbl → Dbl} (hp : IsLibmPow pow) (da db : Dbl) (k l : Nat)
    (hda : da.isFinite = true)
    (hdb : db.isFinite = true) (hn3 : 3 ≤ k + l + 1) (hn : k + l + 1 ≤ 10000)
    (ha : da.toRat = 0 ∨ pow2 (-200) ≤ da.toRat) (ha2 : da.toRat ≤ pow2 200)
    (hb : db.toRat = 0 ∨ pow2 (-200) ≤ db.toRat) (hb2 : db.toRat ≤ pow2 200)
    (hne : da.toRat ≠ db.toRat)
    (hgap : max da.toRat db.toRat ≤ 10000 * |db.toRat - da.toRat|) :
    withinOneStdDev da (meanOf (List.replicate k da ++ db :: List.replicate l da))
        (stdDevOf pow (List.replicate k da ++ db :: List.replicate l da)
          (meanOf (List.replicate k da ++ db :: List.replicate l da))) = true ∧
      withinOneStdDev db (meanOf (List.replicate k da ++ db :: List.replicate l da))
        (stdDevOf pow (List.replicate k da ++ db :: List.replicate l da)
          (meanOf (List.replicate k da ++ db :: List.replicate l da))) = false := by
  obtain ⟨mf, A1, A2, B1, B2⟩ := outlier_mean da db k l hda hdb hn3 hn ha ha2 hb hb2 hgap
  have ha0 : 0 ≤ da.toRat := by
    rcases ha with h | h
    · rw [h]
    · exact le_trans (pow2_pos _).le h
  have hb0 : 0 ≤ db.toRat := by
    rcases hb with h | h
    · rw [h]
    · exact le_trans (pow2_pos _).le h
  have hn3q : (3 : ℚ) ≤ ((k + l + 1 : Nat) : ℚ) := by exact_mod_cast hn3
  have hnq2 : ((k + l + 1 : Nat) : ℚ) ≤ 10000 := by exact_mod_cast hn
  have hnq : ((k + l + 1 : Nat) : ℚ) = (k : ℚ) + (l : ℚ) + 1 := by push_cast; ring
  rw [stdDevOf_eq]
  have hxs : (List.replicate k da ++ db :: List.replicate l da).map
      (fun d => pow (Dbl.sub binary64 d
        (meanOf (List.replicate k da ++ db :: List.replicate l da))) d2) =
      List.replicate k (pow (Dbl.sub binary64 da
        (meanOf (List.replicate k da ++ db :: List.replicate l da))) d2) ++
      pow (Dbl.sub binary64 db (meanOf (List.replicate k da ++ db :: List.replicate l da))) d2
        :: List.replicate l (pow (Dbl.sub binary64 da
          (meanOf (List.replicate k da ++ db :: List.replicate l da))) d2) := by
    simp [List.map_append, List.map_replicate]
  rw [hxs]
  generalize meanOf (List.replicate k da ++ db :: List.replicate l da) = μ at *
  -- magnitudes
  have hmaxlo : pow2 (-200) ≤ max da.toRat db.toRat := by
    rcases ha with h | h
    · rcases hb with h' | h'
      · exact absurd (h.trans h'.symm) hne
      · exact le_trans h' (le_max_right _ _)
    · exact le_trans h (le_max_left _ _)
  have hmaxhi : max da.toRat db.toRat ≤ pow2 200 := max_le ha2 hb2
  have hδmax : |db.toRat - da.toRat| ≤ max da.toRat db.toRat := by
    rw [abs_le]
    constructor
    · have := le_max_left da.toRat db.toRat
      linarith only [this, hb0]
    · have := le_max_right da.toRat db.toRat
      linarith only [this, ha0]
  generalize hδ : |db.toRat - da.toRat| = δ at *
  generalize hN : ((k + l + 1 : Nat) : ℚ) = n at *
  have hn0 : 0 < n := by linarith only [hn3q]
  have hP200 : 0 < pow2 (-200) := pow2_pos _
  have hδlo : pow2 (-200) ≤ 10000 * δ := le_trans hmaxlo hgap
  have hδ0 : 0 < δ := by linarith only [hδlo, hP200]
  generalize hD : δ / n = D at *
  have hDn : D * n = δ := by
    rw [← hD]
    field_simp
  have hD0 : 0 < D := by
    rw [← hD]
    exact div_pos hδ0 hn0
  have hDlo : pow2 (-227) ≤ D := by
    have h1 : pow2 (-200) = pow2 (-227) * pow2 27 := by rw [← pow2_add]; rfl
    have h2 : pow2 27 = 134217728 := by decide!
    have h3 : 0 < pow2 (-227) := pow2_pos _
    have h4 : D * n ≤ D * 10000 := mul_le_mul_of_nonneg_left hnq2 hD0.le
    rw [h1, h2] at hδlo
    linarith only [hδlo, h4, hDn, h3]
  have hDhi : D * 3 ≤ pow2 200 := by
    have h4 : D * 3 ≤ D * n := mul_le_mul_of_nonneg_left hn3q hD0.le
    linarith only [h4, hDn, hδmax, hmaxhi]
  have hDnhi : D * n ≤ pow2 200 := by linarith only [hDn, hδmax, hmaxhi]
  have hP300 : pow2 (-300) ≤ pow2 (-228) := pow2_le (by norm_num)
  have hP228 : pow2 (-228) = pow2 (-227) / 2 := by
    rw [show (-228 : Int) = -227 - 1 by norm_num, pow2_pred]
  have hP300' : pow2 200 ≤ pow2 300 := pow2_le (by norm_num)
  have hP200' : 0 < pow2 200 := pow2_pos _
  -- the two deviations and their squares
  have hAlo : pow2 (-300) ≤ |da.toRat - μ.toRat| := by linarith only [A1, hDlo, hP300, hP228, hD0]
  have hAhi : |da.toRat - μ.toRat| ≤ pow2 300 := by linarith only [A2, hDhi, hP300', hD0]
  have hBlo : pow2 (-300) ≤ |db.toRat - μ.toRat| := by
    have h4 : D * 3 ≤ D * n := mul_le_mul_of_nonneg_left hn3q hD0.le
    linarith only [B1, hDlo, hP300, hP228, hD0, h4]
  have hBhi : |db.toRat - μ.toRat| ≤ pow2 300 := by
    linarith only [B2, hDnhi, hP300', hD0]
  obtain ⟨fa, xfa, a1, a2, xa1, xa2, xar⟩ := dev_sq_bounds hp da μ hda mf (Or.inr hAlo) hAhi
  obtain ⟨fb, xfb, b1, b2, xb1, xb2, xbr⟩ := dev_sq_bounds hp db μ hdb mf (Or.inr hBlo) hBhi
  unfold withinOneStdDev
  generalize hA : |da.toRat - μ.toRat| = A at *
  generalize hB : |db.toRat - μ.toRat| = B at *
  generalize hdeva : Dbl.sub binary64 da μ = deva at *
  generalize hdevb : Dbl.sub binary64 db μ = devb at *
  generalize hxa : pow deva d2 = xa at *
  generalize hxb : pow devb d2 = xb at *
  have hε0 : 0 < pow2 (-53) := pow2_pos _
  have hε1 : pow2 (-53) ≤ 1 / 1000 := by
    rw [pow2_neg53]
    norm_num
  obtain ⟨p3, -⟩ := pow_small 4 (by norm_num)
  obtain ⟨-, m3⟩ := pow_small 5 (by norm_num)
  obtain ⟨pn, -⟩ := pow_small (k + l + 1 + 3) (by omega)
  obtain ⟨-, mn⟩ := pow_small (k + l + 1 + 2) (by omega)
  generalize hε : pow2 (-53) = ε at *
  have hA0 : 0 ≤ A := le_trans (pow2_pos _).le hAlo
  have hB0 : 0 < B := lt_of_lt_of_le (pow2_pos _) hBlo
  have hA2 : 0 ≤ A ^ 2 := by positivity
  have hB2 : 0 < B ^ 2 := by positivity
  have hxa : xa.toRat ≤ A ^ 2 * (1 + 1 / 1000) :=
    le_trans xa2 (mul_le_mul_of_nonneg_left (by linarith only [p3]) hA2)
  have hxa0 : 0 ≤ xa.toRat :=
    le_trans (mul_nonneg hA2 (by linarith only [m3])) xa1
  have hxb1 : B ^ 2 * (1 - 1 / 1000) ≤ xb.toRat :=
    le_trans (mul_le_mul_of_nonneg_left (by linarith only [m3]) hB2.le) xb1
  have hxb2 : xb.toRat ≤ B ^ 2 * (1 + 1 / 1000) :=
    le_trans xb2 (mul_le_mul_of_nonneg_left (by linarith only [p3]) hB2.le)
  have hxbpos : 0 < xb.toRat := by
    have : 0 < B ^ 2 * (1 - 1 / 1000) := mul_pos hB2 (by norm_num)
    linarith only [this, hxb1]
  have hxblo : pow2 (-603) ≤ xb.toRat := by
    rcases xbr with h | h
    · rw [h] at hxbpos
      exact absurd hxbpos (lt_irrefl _)
    · exact h
  -- the mean of the squares
  have hlen : (List.replicate k xa ++ xb :: List.replicate l xa).length = k + l + 1 :=
    pattern_length xa xb k l
  have hsum : ((List.replicate k xa ++ xb :: List.replicate l xa).map Dbl.toRat).sum =
      (n - 1) * xa.toRat + xb.toRat := by
    rw [pattern_sum Dbl.toRat xa xb k l, hnq]
    ring
  have hP600 : pow2 600 = pow2 300 * pow2 300 := by rw [← pow2_add]; rfl
  have hP1000 : pow2 1000 = pow2 600 * pow2 400 := by rw [← pow2_add]; rfl
  have hP400 : pow2 15 ≤ pow2 400 := pow2_le (by norm_num)
  have hP15 : pow2 15 = 32768 := by decide!
  have hP600pos : 0 < pow2 600 := pow2_pos _
  have hAsq : A ^ 2 ≤ pow2 600 := by
    rw [hP600, pow_two]
    exact mul_le_mul hAhi hAhi hA0 (pow2_pos _).le
  have hBsq : B ^ 2 ≤ pow2 600 := by
    rw [hP600, pow_two]
    exact mul_le_mul hBhi hBhi hB0.le (pow2_pos _).le
  have hsumhi : ((List.replicate k xa ++ xb :: List.replicate l xa).map Dbl.toRat).sum
      ≤ pow2 1000 := by
    rw [hsum, hP1000]
    have h1 : (n - 1) * xa.toRat ≤ 10000 * (pow2 600 * 2) :=
      mul_le_mul (by linarith only [hnq2]) (by linarith only [hxa, hAsq, hA2])
        hxa0 (by norm_num)
    have h2 : pow2 600 * 32768 ≤ pow2 600 * pow2 400 :=
      mul_le_mul_of_nonneg_left (by linarith only [hP400, hP15]) hP600pos.le
    linarith only [h1, h2, hxb2, hBsq, hP600pos]
  have hterms : ∀ t ∈ List.replicate k xa ++ xb :: List.replicate l xa,
      t.isFinite = true ∧ (t.toRat = 0 ∨ pow2 (-603) ≤ t.toRat) :=
    pattern_forall (fun t => t.isFinite = true ∧ (t.toRat = 0 ∨ pow2 (-603) ≤ t.toRat))
      xa xb k l ⟨xfa, xar⟩ ⟨xfb, xbr⟩
  obtain ⟨vf, vlo, vhi⟩ := avg_bounds (-603) (by norm_num)
    (List.replicate k xa ++ xb :: List.replicate l xa) (by omega) (by omega) hterms hsumhi
  rw [hsum, hlen, hN, hε] at vlo vhi
  rw [hlen]
  rw [hlen] at vf
  generalize hV : Dbl.div binary64
    ((List.replicate k xa ++ xb :: List.replicate l xa).foldl
      (fun acc d => Dbl.add binary64 acc d) d0)
    (Dbl.ofInt binary64 ((k + l + 1 : Nat) : Int)) = V at *
  have hW0 : 0 ≤ ((n - 1) * xa.toRat + xb.toRat) / n :=
    div_nonneg (add_nonneg (mul_nonneg (by linarith only [hn3q]) hxa0) hxbpos.le) hn0.le
  have hV1 : ((n - 1) * xa.toRat + xb.toRat) / n * (1 - 1 / 1000) ≤ V.toRat :=
    le_trans (mul_le_mul_of_nonneg_left (by linarith only [mn]) hW0) vlo
  have hV2 : V.toRat ≤ ((n - 1) * xa.toRat + xb.toRat) / n * (1 + 1 / 1000) :=
    le_trans vhi (mul_le_mul_of_nonneg_left (by linarith only [pn]) hW0)
  have hVlo : pow2 (-1000) ≤ V.toRat := by
    have h1 : pow2 (-603) / n ≤ ((n - 1) * xa.toRat + xb.toRat) / n := by
      apply div_le_div_of_nonneg_right _ hn0.le
      have := mul_nonneg (by linarith only [hn3q] : (0 : ℚ) ≤ n - 1) hxa0
      linarith only [this, hxblo]
    have h2 : pow2 (-603) / 10000 ≤ pow2 (-603) / n :=
      div_le_div_of_nonneg_left (pow2_pos _).le hn0 hnq2
    have h3 : pow2 (-603) = pow2 (-1000) * pow2 397 := by rw [← pow2_add]; rfl
    have h4 : pow2 15 ≤ pow2 397 := pow2_le (by norm_num)
    have h5 : 0 < pow2 (-1000) := pow2_pos _
    have h6 : pow2 (-1000) * 32768 ≤ pow2 (-1000) * pow2 397 :=
      mul_le_mul_of_nonneg_left (by linarith only [h4, hP15]) h5.le
    have h8 : pow2 (-603) / 10000 ≤ ((n - 1) * xa.toRat + xb.toRat) / n := le_trans h2 h1
    rw [h3] at h8
    generalize ((n - 1) * xa.toRat + xb.toRat) / n = Wn at *
    linarith only [h8, h6, hV1, h5]
  have hVpos : 0 < V.toRat := lt_of_lt_of_le (pow2_pos _) hVlo
  rw [Dbl.sqrt_finite_pos binary64 vf hVpos]
  obtain ⟨sd0, sd1, sd2⟩ := sqrtRound64 hVlo
  rw [hε] at sd1 sd2
  generalize Dbl.sqrtRound binary64 V.toRat = sd at *
  obtain ⟨r1, r2⟩ := pure_sd n D A B xa.toRat xb.toRat V.toRat sd ε hn3q hD0 hε0.le hε1 hA0
    (by linarith only [A2, hD0]) (by linarith only [B1, hD0]) hxa hxa0 hxb1 hxb2 hV1 hV2
    sd0 sd1 sd2
  constructor
  · rw [Dbl.lt_finite (b := Dbl.num sd) (by rw [Dbl.abs_isFinite]; exact fa) (by rfl),
      Dbl.abs_toRat]
    simp only [Dbl.toRat, decide_eq_true_eq]
    exact lt_of_le_of_lt a2 r1
  · rw [Dbl.lt_finite (b := Dbl.num sd) (by rw [Dbl.abs_isFinite]; exact fb) (by rfl),
      Dbl.abs_toRat]
    simp only [Dbl.toRat, decide_eq_false_iff_not, not_lt]
    exact le_trans r2 b1

/-! ## clusterKptMatchesWithROI: one outlier among equal distances -/

theorem map_eq_replicate_of_forall {α β : Type} (f : α → β) (c : β) (l : List α)
    (h : ∀ x ∈ l, f x = c) : l.map f = List.replicate l.length c := by
  rw [List.eq_replicate_iff]
  refine ⟨by simp, ?_⟩
  intro b hb
  obtain ⟨x, hx, rfl⟩ := List.mem_map.mp hb
  exact h x hx

/-- C15 (counterexample). Two matches at the distance `1.5 + 2 ulp` and one at `1.5 + 3 ulp`:
the computed mean is the distance of the third match, every squared deviation is a `double`
(so that the library function `pow` has no choice), the computed standard deviation is below
one ulp, and the function retains the outlier alone. -/
theorem clusterKptMatchesWithROI_keeps_outlier_alone :
    IsLibmPow powNearest
      ∧ ValidMatches exNearTiePrev exOriginCurr exThreeMatches
      ∧ ∀ pow : Dbl → Dbl → Dbl, IsLibmPow pow →
        exThreeMatches.map (matchDistance pow exNearTiePrev exOriginCurr) =
          [Dbl.num (6755399441055746 / 4503599627370496),
            Dbl.num (6755399441055746 / 4503599627370496),
            Dbl.num (6755399441055747 / 4503599627370496)]
        ∧ clusterKptMatchesWithROI pow exBox exNearTiePrev exOriginCurr exThreeMatches =
          Except.ok { exBox with kptMatches := [⟨2, 2⟩] } := by
  refine ⟨powNearest_isLibmPow, ?_, ?_⟩
  · unfold ValidMatches
    decide!
  · intro pow hp
    constructor
    · have h : exThreeMatches.map (matchDistance pow exNearTiePrev exOriginCurr) =
          exThreeMatches.map (matchDistance powNearest exNearTiePrev exOriginCurr) :=
        List.map_congr_left (fun m _ => matchDistance_pow hp _ _ m)
      rw [h]
      decide!
    · rw [clusterKptMatchesWithROI_of_exact hp _ _ _ _ (by decide!)]
      decide!

/-- C15 (amended). With a library function `pow` meeting its contract, among `n` matches with
valid indices, `3 ≤ n ≤ 10000`, let all but one have the same finite distance `a` and the
remaining one (the outlier) a finite distance `b` that differs from `a` by at least one part in
10000 of the larger of the two. Then `clusterKptMatchesWithROI` adds to the box every match but
the outlier, in order. -/
theorem clusterKptMatchesWithROI_excludes_outlier {pow : Dbl → Dbl → Dbl} (hp : IsLibmPow pow)
    (boundingBox : BoundingBox)
    (kptsPrev kptsCurr : List KeyPoint) (front back : List DMatch) (outlier : DMatch)
    (da db : Dbl)
    (hv : ValidMatches kptsPrev kptsCurr (front ++ outlier :: back))
    (hn3 : 3 ≤ (front ++ outlier :: back).length)
    (hn : (front ++ outlier :: back).length ≤ 10000)
    (hin : ∀ m ∈ front ++ back, matchDistance pow kptsPrev kptsCurr m = da)
    (hout : matchDistance pow kptsPrev kptsCurr outlier = db)
    (hda : da.isFinite = true) (hdb : db.isFinite = true)
    (hne : da.toRat ≠ db.toRat)
    (hgap : max da.toRat db.toRat ≤ 10000 * |db.toRat - da.toRat|) :
    clusterKptMatchesWithROI pow boundingBox kptsPrev kptsCurr (front ++ outlier :: back) =
      Except.ok { boundingBox with
        kptMatches := boundingBox.kptMatches ++ (front ++ back) } := by
  have hlen : (front ++ outlier :: back).length = front.length + back.length + 1 := by
    simp
    omega
  rw [hlen] at hn3 hn
  -- the ranges of the two distances
  have hbr := matchDistance_range hp kptsPrev kptsCurr outlier
  rw [hout] at hbr
  have har : da.toRat = 0 ∨ (pow2 (-200) ≤ da.toRat ∧ da.toRat ≤ pow2 200) := by
    have hex : ∃ m, m ∈ front ++ back := by
      cases hfb : front ++ back with
      | nil =>
        have : (front ++ back).length = 0 := by rw [hfb]; rfl
        rw [List.length_append] at this
        omega
      | cons m rest => exact ⟨m, List.mem_cons_self _ _⟩
    obtain ⟨m, hm⟩ := hex
    have := matchDistance_range hp kptsPrev kptsCurr m
    rw [hin m hm] at this
    exact this
  have hP : 0 < pow2 200 := pow2_pos _
  have ha : da.toRat = 0 ∨ pow2 (-200) ≤ da.toRat := by
    rcases har with h | ⟨h, -⟩
    · exact Or.inl h
    · exact Or.inr h
  have ha2 : da.toRat ≤ pow2 200 := by
    rcases har with h | ⟨-, h⟩
    · rw [h]
      exact hP.le
    · exact h
  have hb : db.toRat = 0 ∨ pow2 (-200) ≤ db.toRat := by
    rcases hbr with h | ⟨h, -⟩
    · exact Or.inl h
    · exact Or.inr h
  have hb2 : db.toRat ≤ pow2 200 := by
    rcases hbr with h | ⟨-, h⟩
    · rw [h]
      exact hP.le
    · exact h
  -- the list of distances
  have hds : (front ++ outlier :: back).map (matchDistance pow kptsPrev kptsCurr) =
      List.replicate front.length da ++ db :: List.replicate back.length da := by
    rw [List.map_append, List.map_cons, hout,
      map_eq_replicate_of_forall _ da front (fun x hx => hin x (List.mem_append_left _ hx)),
      map_eq_replicate_of_forall _ da back (fun x hx => hin x (List.mem_append_right _ hx))]
  obtain ⟨ta, tb⟩ := outlier_core hp da db front.length back.length hda hdb hn3 hn ha ha2 hb hb2
    hne hgap
  rw [clusterKptMatchesWithROI_filter pow boundingBox kptsPrev kptsCurr _ hv, hds]
  generalize meanOf (List.replicate front.length da ++ db :: List.replicate back.length da) = μ
    at *
  generalize stdDevOf pow (List.replicate front.length da ++ db :: List.replicate back.length da) μ
    = sd at *
  have hf : (front ++ outlier :: back).filter (fun m =>
      withinOneStdDev (matchDistance pow kptsPrev kptsCurr m) μ sd) = front ++ back := by
    rw [List.filter_append, List.filter_cons, hout, tb]
    simp only [Bool.false_eq_true, if_false]
    congr 1
    · rw [List.filter_eq_self]
      intro m hm
      rw [hin m (List.mem_append_left _ hm)]
      exact ta
    · rw [List.filter_eq_self]
      intro m hm
      rw [hin m (List.mem_append_right _ hm)]
      exact ta
  rw [hf]

theorem clusterKptMatchesWithROI_excludes_outlier_witness :
    clusterKptMatchesWithROI powDown exBox exFourPrev exFourCurr
        ([⟨0, 0⟩, ⟨1, 1⟩, ⟨2, 2⟩] ++ ⟨3, 3⟩ :: []) =
      Except.ok { exBox with
        kptMatches := exBox.kptMatches ++ ([⟨0, 0⟩, ⟨1, 1⟩, ⟨2, 2⟩] ++ []) } :=
  clusterKptMatchesWithROI_excludes_outlier powDown_isLibmPow exBox exFourPrev exFourCurr
    [⟨0, 0⟩, ⟨1, 1⟩, ⟨2, 2⟩] [] ⟨3, 3⟩ (Dbl.num 1) (Dbl.num 10)
    (by unfold ValidMatches; decide!) (by decide) (by decide) (by decide!) (by decide!)
    (by decide) (by decide) (by decide!) (by decide!)

theorem foldl_replicate_add {α β : Type} (f : β → α → β) (s : β) (x : α) (a b : Nat) :
    (List.replicate (a + b) x).foldl f s =
      (List.replicate b x).foldl f ((List.replicate a x).foldl f s) := by
  rw [List.replicate_add, List.foldl_append]
theorem meanOf_replicate (n : Nat) (da : Dbl) :
    meanOf (List.replicate n da) =
      Dbl.div binary64 ((List.replicate n da).foldl (fun acc d => Dbl.add binary64 acc d) d0)
        (Dbl.ofInt binary64 (n : Int)) := by
  unfold meanOf
  rw [List.length_replicate]

theorem stdDevOf_replicate (pow : Dbl → Dbl → Dbl) (n : Nat) (da μ : Dbl) :
    stdDevOf pow (List.replicate n da) μ =
      Dbl.sqrt binary64 (Dbl.div binary64
        ((List.replicate n (pow (Dbl.sub binary64 da μ) d2)).foldl
          (fun acc d => Dbl.add binary64 acc d) d0)
        (Dbl.ofInt binary64 (n : Int))) := by
  rw [stdDevOf_eq, List.map_replicate, List.length_replicate]

theorem ofInt_small (n : Nat) (hn1 : 1 ≤ n) (hn : n ≤ 10000) :
    Dbl.ofInt binary64 (n : Int) = Dbl.num (n : ℚ) := by
  unfold Dbl.ofInt
  have hq : (0 : ℚ) < ((n : Int) : ℚ) := by exact_mod_cast hn1
  have h2 : ((n : Int) : ℚ) ≤ 10000 := by exact_mod_cast hn
  have h := round_exact_pos false (n : Int) 0 ((n : Int) : ℚ)
    (by rw [show pow2 0 = 1 by decide!, mul_one]) (by norm_num) (by omega) hq
    (lt_of_le_of_lt h2 (by
      have : pow2 14 ≤ pow2 1024 := pow2_le (by norm_num)
      rw [show pow2 14 = 16384 by decide!] at this
      linarith))
  rw [h]
  simp

/-- The mean of `n` equal finite distances `a`, `1 ≤ n ≤ 10000`: finite, within `a (1 ± 2⁻³⁸)`,
and the result of one rounding. -/
theorem equal_mean (da : Dbl) (n : Nat) (hn1 : 1 ≤ n) (hn : n ≤ 10000)
    (hfin : da.isFinite = true)
    (hrange : da.toRat = 0 ∨ (pow2 (-300) ≤ da.toRat ∧ da.toRat ≤ pow2 400)) :
    (meanOf (List.replicate n da)).isFinite = true ∧
      da.toRat * (1 - 1 / 274877906944) ≤ (meanOf (List.replicate n da)).toRat ∧
      (meanOf (List.replicate n da)).toRat ≤ da.toRat * (1 + 1 / 274877906944) ∧
      ∃ s q, meanOf (List.replicate n da) = round binary64 s q := by
  have hP400 : 0 < pow2 400 := pow2_pos _
  have ha0 : 0 ≤ da.toRat := by
    rcases hrange with h | ⟨h, -⟩
    · rw [h]
    · exact le_trans (pow2_pos _).le h
  have ha2 : da.toRat ≤ pow2 400 := by
    rcases hrange with h | ⟨-, h⟩
    · rw [h]
      exact hP400.le
    · exact h
  have hnq1 : (1 : ℚ) ≤ (n : ℚ) := by exact_mod_cast hn1
  have hnq2 : (n : ℚ) ≤ 10000 := by exact_mod_cast hn
  have hterms : ∀ t ∈ List.replicate n da,
      t.isFinite = true ∧ (t.toRat = 0 ∨ pow2 (-300) ≤ t.toRat) := by
    intro t ht
    rw [(List.mem_replicate.mp ht).2]
    refine ⟨hfin, ?_⟩
    rcases hrange with h | ⟨h, -⟩
    · exact Or.inl h
    · exact Or.inr h
  have hsum : ((List.replicate n da).map Dbl.toRat).sum = (n : ℚ) * da.toRat := by
    rw [List.map_replicate, List.sum_replicate]
    simp
  have hP1000 : pow2 1000 = pow2 400 * pow2 600 := by rw [← pow2_add]; rfl
  have hP600 : pow2 14 ≤ pow2 600 := pow2_le (by norm_num)
  have hP14 : pow2 14 = 16384 := by decide!
  have hsumhi : ((List.replicate n da).map Dbl.toRat).sum ≤ pow2 1000 := by
    rw [hsum, hP1000]
    have h1 : (n : ℚ) * da.toRat ≤ 10000 * pow2 400 :=
      mul_le_mul hnq2 ha2 ha0 (by norm_num)
    have h2 : pow2 400 * 16384 ≤ pow2 400 * pow2 600 :=
      mul_le_mul_of_nonneg_left (by linarith only [hP600, hP14]) hP400.le
    linarith only [h1, h2, hP400]
  have hlen : (List.replicate n da).length = n := List.length_replicate n da
  obtain ⟨mf, mlo, mhi⟩ := avg_bounds (-300) (by norm_num) (List.replicate n da)
    (by rw [hlen]; exact hn1) (by rw [hlen]; omega) hterms hsumhi
  obtain ⟨sf, -, -⟩ := fsum_bounds (-300) (by norm_num) (List.replicate n da) hterms
    (by
      have : pow2 1023 = pow2 1000 * pow2 23 := by rw [← pow2_add]; rfl
      rw [this, show pow2 23 = 8388608 by decide!]
      have h0 : 0 < pow2 1000 := pow2_pos _
      linarith only [hsumhi, h0])
    (by
      rw [hlen, pow2_neg53]
      linarith only [hnq2])
  have hmean : meanOf (List.replicate n da) =
      Dbl.div binary64 ((List.replicate n da).foldl (fun acc d => Dbl.add binary64 acc d) d0)
        (Dbl.ofInt binary64 ((List.replicate n da).length : Int)) := rfl
  rw [← hmean] at mf mlo mhi
  have hround : ∃ s q, meanOf (List.replicate n da) = round binary64 s q := by
    rw [meanOf_replicate, ofInt_small n hn1 hn]
    rw [Dbl.div_finite binary64 sf (show (Dbl.num (n : ℚ)).isFinite = true from rfl) (by
      simp only [Dbl.toRat]
      linarith only [hnq1])]
    exact ⟨_, _, rfl⟩
  obtain ⟨p1, -⟩ := pow_small (n + 3) (by omega)
  obtain ⟨-, p2⟩ := pow_small (n + 2) (by omega)
  rw [hsum, hlen] at mlo mhi
  have hdiv : (n : ℚ) * da.toRat / (n : ℚ) = da.toRat := by
    field_simp
  rw [hdiv] at mlo mhi
  exact ⟨mf, le_trans (mul_le_mul_of_nonneg_left p2 ha0) mlo,
    le_trans mhi (mul_le_mul_of_nonneg_left p1 ha0), hround⟩
/-- The sum of `n` copies of a value `X = I · 2 ^ G` with `n · I < 2 ^ 53`: every partial sum
is a `double`, and the computed sum is `n X`. -/
theorem sum_exact (X : ℚ) (I G : Int) (n : Nat) (hX : X = (I : ℚ) * pow2 G) (hI : 1 ≤ I)
    (hG : -1074 ≤ G) (hG2 : G ≤ 900) (hn1 : 1 ≤ n) (hnI : (n : Int) * I < 2 ^ 53) :
    (List.replicate n (Dbl.num X)).foldl (fun acc d => Dbl.add binary64 acc d) d0 =
      Dbl.num ((n : ℚ) * X) := by
  obtain ⟨m, rfl⟩ : ∃ m, n = 1 + m := ⟨n - 1, by omega⟩
  have hIq : (1 : ℚ) ≤ (I : ℚ) := by exact_mod_cast hI
  have hpG : 0 < pow2 G := pow2_pos G
  have hXpos : 0 < X := by
    rw [hX]
    exact mul_pos (by linarith) hpG
  have h53 : pow2 53 = ((2 ^ 53 : Int) : ℚ) := by decide!
  have hnIq : ((1 + m : Nat) : ℚ) * (I : ℚ) < pow2 53 := by
    rw [h53]
    exact_mod_cast hnI
  have hbig : ((1 + m : Nat) : ℚ) * X < pow2 (53 + G) := by
    rw [hX, pow2_add, ← mul_assoc]
    exact mul_lt_mul_of_pos_right hnIq hpG
  have hov : pow2 (53 + G) ≤ pow2 1024 := pow2_le (by omega)
  have hm0 : (0 : ℚ) ≤ (m : ℚ) := Nat.cast_nonneg m
  have hmX : 0 ≤ (m : ℚ) * X := mul_nonneg hm0 hXpos.le
  rw [foldl_replicate_add]
  have p0 : (List.replicate 1 (Dbl.num X)).foldl (fun acc d => Dbl.add binary64 acc d) d0 =
      Dbl.num ((I : ℚ) * pow2 G) := by
    show Dbl.add binary64 d0 (Dbl.num X) = _
    have h1 : Dbl.add binary64 d0 (Dbl.num X) = round binary64 (false && decide (X < 0)) (0 + X) :=
      rfl
    rw [h1, zero_add, ← hX]
    apply round_exact_pos _ I G X hX hG _ hXpos
    · push_cast at hbig
      linarith only [hbig, hov, hmX]
    · have : (1 : Int) * I ≤ ((1 + m : Nat) : Int) * I :=
        Int.mul_le_mul_of_nonneg_right (by omega) (by omega)
      omega
  rw [p0]
  have p1 := sum_phase X X 0 I G (G - 52) (by ring) hX (by omega) hG
    (Or.inl (by rw [abs_zero]; exact pow2_pos _)) m I
    (by
      rw [show 52 + (G - 52) = G by ring, add_zero, ← hX]
      have : pow2 G ≤ X := by
        rw [hX]
        exact le_mul_of_one_le_left hpG.le hIq
      linarith only [this, hXpos])
    (by
      rw [add_zero, ← hX]
      push_cast at hbig
      linarith only [hbig])
    (by
      rw [← hX]
      push_cast at hbig
      linarith only [hbig, hov])
  rw [p1, ← hX]
  have hfin : X + (m : ℚ) * X = ((1 + m : Nat) : ℚ) * X := by
    push_cast
    ring
  rw [hfin]

/-- The test of line 170 on `n` equal distances, `1 ≤ n ≤ 10000`: the deviation of the common
distance from the computed mean is a small multiple of a unit in the last place, its square and
the sum of the squares are computed exactly, the computed standard deviation equals the
magnitude of the deviation, and the strict comparison fails. -/
theorem equal_core {pow : Dbl → Dbl → Dbl} (hp : IsLibmPow pow) (da : Dbl) (n : Nat)
    (hn1 : 1 ≤ n) (hn : n ≤ 10000)
    (hfin : da.isFinite = true)
    (hrep : da.toRat = 0 ∨ ∃ (r : Nat) (K : Int), da.toRat = (r : ℚ) * pow2 K ∧
      2 ^ 52 ≤ r ∧ r ≤ 2 ^ 53 ∧ -300 ≤ K ∧ K ≤ 300) :
    withinOneStdDev da (meanOf (List.replicate n da))
      (stdDevOf pow (List.replicate n da) (meanOf (List.replicate n da))) = false := by
  have h52 : pow2 52 = ((2 ^ 52 : Nat) : ℚ) := by decide!
  have h53 : pow2 53 = ((2 ^ 53 : Nat) : ℚ) := by decide!
  have hrange : da.toRat = 0 ∨ (pow2 (-300) ≤ da.toRat ∧ da.toRat ≤ pow2 400) := by
    rcases hrep with h | ⟨r, K, ha, r1, r2, k1, k2⟩
    · exact Or.inl h
    · right
      have hr1 : pow2 52 ≤ (r : ℚ) := by rw [h52]; exact_mod_cast r1
      have hr2 : (r : ℚ) ≤ pow2 53 := by rw [h53]; exact_mod_cast r2
      rw [ha]
      constructor
      · calc pow2 (-300) ≤ pow2 (52 + K) := pow2_le (by omega)
          _ = pow2 52 * pow2 K := pow2_add _ _
          _ ≤ (r : ℚ) * pow2 K := mul_le_mul_of_nonneg_right hr1 (pow2_pos _).le
      · calc (r : ℚ) * pow2 K ≤ pow2 53 * pow2 K :=
              mul_le_mul_of_nonneg_right hr2 (pow2_pos _).le
          _ = pow2 (53 + K) := (pow2_add _ _).symm
          _ ≤ pow2 400 := pow2_le (by omega)
  obtain ⟨mf, mlo, mhi, s, q, hround⟩ := equal_mean da n hn1 hn hfin hrange
  rw [stdDevOf_replicate]
  obtain ⟨sg, hsub⟩ := Dbl.sub_finite binary64 hfin mf
  unfold withinOneStdDev
  by_cases hdq : da.toRat - (meanOf (List.replicate n da)).toRat = 0
  · -- the mean is the common distance: every quantity below is zero
    rw [hdq, round_zero] at hsub
    rw [hsub]
    have hsq : pow (Dbl.zero sg) d2 = Dbl.zero false := hp.zero sg
    rw [hsq]
    have hterms : ∀ t ∈ List.replicate n (Dbl.zero false),
        t.isFinite = true ∧ (t.toRat = 0 ∨ pow2 0 ≤ t.toRat) := by
      intro t ht
      rw [(List.mem_replicate.mp ht).2]
      exact ⟨rfl, Or.inl rfl⟩
    have hsum0 : ((List.replicate n (Dbl.zero false)).map Dbl.toRat).sum = 0 := by
      rw [List.map_replicate, List.sum_replicate]
      simp [Dbl.toRat]
    have hlen : (List.replicate n (Dbl.zero false)).length = n := List.length_replicate _ _
    obtain ⟨vf, vlo, vhi⟩ := avg_bounds 0 (by norm_num) (List.replicate n (Dbl.zero false))
      (by rw [hlen]; exact hn1) (by rw [hlen]; omega) hterms
      (by rw [hsum0]; exact (pow2_pos _).le)
    rw [hsum0, zero_div, zero_mul] at vlo vhi
    rw [hlen] at vf vlo vhi
    obtain ⟨sf, s0⟩ := sqrt_toRat_zero vf (le_antisymm vhi vlo)
    rw [Dbl.lt_finite (show (Dbl.abs (Dbl.zero sg)).isFinite = true from rfl) sf, s0]
    simp [Dbl.abs, Dbl.toRat]
  · -- the deviation is a non-zero multiple of a quarter of the unit in the last place
    have ha0 : da.toRat ≠ 0 := by
      intro h
      apply hdq
      rw [h] at mlo mhi ⊢
      rw [zero_mul] at mlo mhi
      rw [le_antisymm mhi mlo]
      norm_num
    obtain ⟨r, K, ha, r1, r2, k1, k2⟩ := hrep.resolve_left ha0
    have hr1 : pow2 52 ≤ (r : ℚ) := by rw [h52]; exact_mod_cast r1
    have hr2 : (r : ℚ) ≤ pow2 53 := by rw [h53]; exact_mod_cast r2
    have hpK : 0 < pow2 K := pow2_pos K
    have hapos : 0 < da.toRat := by
      rw [ha]
      exact mul_pos (lt_of_lt_of_le (pow2_pos _) hr1) hpK
    -- the mean lies on the grid 2 ^ (K - 2)
    have hμlo : pow2 (51 + K) ≤ |(meanOf (List.replicate n da)).toRat| := by
      have h1 : pow2 (51 + K) = pow2 52 * pow2 K / 2 := by
        rw [show 51 + K = (52 + K) - 1 by ring, pow2_pred, pow2_add]
      have h2 : pow2 52 * pow2 K ≤ da.toRat := by
        rw [ha]
        exact mul_le_mul_of_nonneg_right hr1 hpK.le
      have h3 : da.toRat / 2 ≤ (meanOf (List.replicate n da)).toRat := by
        linarith only [mlo, hapos]
      have h4 := le_abs_self (meanOf (List.replicate n da)).toRat
      rw [h1]
      linarith only [h2, h3, h4]
    rw [hround] at hμlo
    obtain ⟨J, hJ⟩ := round_out_grid s q (51 + K) hμlo
    rw [← hround, show 51 + K - 53 = K - 2 by ring] at hJ
    have hK4 : pow2 K = 4 * pow2 (K - 2) := by
      rw [show K = (K - 2) + 1 + 1 by ring, pow2_succ, pow2_succ]
      ring_nf
    have hg : 0 < pow2 (K - 2) := pow2_pos _
    -- the deviation
    have hdI : da.toRat - (meanOf (List.replicate n da)).toRat =
        ((4 * (r : Int) - J : Int) : ℚ) * pow2 (K - 2) := by
      rw [hJ, ha, hK4]
      push_cast
      ring
    have hdabs : |da.toRat - (meanOf (List.replicate n da)).toRat| ≤
        131072 * pow2 (K - 2) := by
      have h1 : |da.toRat - (meanOf (List.replicate n da)).toRat| ≤
          da.toRat * (1 / 274877906944) := by
        rw [abs_le]
        constructor
        · linarith only [mhi]
        · linarith only [mlo]
      have h2 : da.toRat ≤ 9007199254740992 * (4 * pow2 (K - 2)) := by
        rw [ha, ← hK4]
        have : pow2 53 = 9007199254740992 := by decide!
        rw [this] at hr2
        exact mul_le_mul_of_nonneg_right hr2 hpK.le
      linarith only [h1, h2, hg]
    generalize hμ : meanOf (List.replicate n da) = μ at *
    generalize hI : (4 * (r : Int) - J : Int) = I at *
    generalize hdv : da.toRat - μ.toRat = dq at *
    have hIabs : |I| ≤ 131072 := by
      have h1 : |dq| = (|I| : Int) * pow2 (K - 2) := by
        rw [hdI, abs_mul, abs_of_pos hg]
        push_cast
        rfl
      rw [h1] at hdabs
      have h2 : ((|I| : Int) : ℚ) ≤ 131072 := le_of_mul_le_mul_right hdabs hg
      exact_mod_cast h2
    have hI0 : I ≠ 0 := by
      intro h
      apply hdq
      rw [hdI, h]
      simp
    have hP1024 : pow2 (17 + (K - 2)) ≤ pow2 1023 := pow2_le (by omega)
    have hP17 : pow2 17 = 131072 := by decide!
    have hdev : Dbl.sub binary64 da μ = Dbl.num dq := by
      rw [hsub]
      apply round_exact sg I (K - 2) dq hdI (by omega) (by omega) hdq
      have h1 : pow2 (17 + (K - 2)) = 131072 * pow2 (K - 2) := by rw [pow2_add, hP17]
      have h2 : pow2 1023 < pow2 1024 := pow2_lt (by norm_num)
      linarith only [hdabs, h1, hP1024, h2]
    rw [hdev]
    -- the square
    have hIsq : (1 : Int) ≤ I * I ∧ I * I ≤ 131072 * 131072 := by
      have h1 : 0 < |I| := abs_pos.mpr hI0
      have h2 : I * I = |I| * |I| := (abs_mul_abs_self I).symm
      rw [h2]
      constructor
      · nlinarith
      · nlinarith
    have hX : dq * dq = ((I * I : Int) : ℚ) * pow2 (2 * (K - 2)) := by
      rw [hdI, pow2_two_mul]
      push_cast
      ring
    have hsq : pow (Dbl.num dq) d2 = Dbl.num (dq * dq) := by
      apply hp.grid (I * I) (2 * (K - 2)) dq hX (by omega) (by omega) hdq
      · rw [hX]
        have h1 : ((I * I : Int) : ℚ) ≤ 131072 * 131072 := by exact_mod_cast hIsq.2
        have h2 : pow2 34 = 131072 * 131072 := by decide!
        have h3 : 0 < pow2 (2 * (K - 2)) := pow2_pos _
        calc ((I * I : Int) : ℚ) * pow2 (2 * (K - 2))
            ≤ pow2 34 * pow2 (2 * (K - 2)) := by
              rw [h2]
              exact mul_le_mul_of_nonneg_right h1 h3.le
          _ = pow2 (34 + 2 * (K - 2)) := (pow2_add _ _).symm
          _ < pow2 1024 := pow2_lt (by omega)
    rw [hsq]
    -- the sum of the squares, the quotient and the square root
    have hsum := sum_exact (dq * dq) (I * I) (2 * (K - 2)) n hX hIsq.1 (by omega) (by omega) hn1
      (by
        have h1 : (n : Int) ≤ 10000 := by exact_mod_cast hn
        have h2 : (n : Int) * (I * I) ≤ 10000 * (131072 * 131072) :=
          Int.mul_le_mul h1 hIsq.2 (by omega) (by norm_num)
        omega)
    rw [hsum, ofInt_small n hn1 hn]
    have hnq : (0 : ℚ) < (n : ℚ) := by exact_mod_cast hn1
    have hdiv : Dbl.div binary64 (Dbl.num ((n : ℚ) * (dq * dq))) (Dbl.num (n : ℚ)) =
        Dbl.num (dq * dq) := by
      rw [Dbl.div_num binary64 _ _ (ne_of_gt hnq)]
      have h1 : (n : ℚ) * (dq * dq) / (n : ℚ) = dq * dq := by field_simp
      rw [h1]
      apply round_exact_pos _ (I * I) (2 * (K - 2)) (dq * dq) hX (by omega) (by omega)
      · exact mul_self_pos.mpr hdq
      · rw [hX]
        have h1 : ((I * I : Int) : ℚ) ≤ 131072 * 131072 := by exact_mod_cast hIsq.2
        have h2 : pow2 34 = 131072 * 131072 := by decide!
        have h3 : 0 < pow2 (2 * (K - 2)) := pow2_pos _
        calc ((I * I : Int) : ℚ) * pow2 (2 * (K - 2))
            ≤ pow2 34 * pow2 (2 * (K - 2)) := by
              rw [h2]
              exact mul_le_mul_of_nonneg_right h1 h3.le
          _ = pow2 (34 + 2 * (K - 2)) := (pow2_add _ _).symm
          _ < pow2 1024 := pow2_lt (by omega)
    rw [hdiv]
    have habsq : dq * dq = |dq| * |dq| := (abs_mul_abs_self dq).symm
    have hyrep : |dq| = ((I.natAbs : Nat) : ℚ) * pow2 (K - 2) := by
      have h1 : |((I : Int) : ℚ)| = ((I.natAbs : Nat) : ℚ) := by
        rw [Nat.cast_natAbs]
        push_cast
        rfl
      rw [hdI, abs_mul, abs_of_pos hg, h1]
    have hylo : pow2 (-500) ≤ |dq| := by
      rw [hyrep]
      have h1 : (1 : ℚ) ≤ ((I.natAbs : Nat) : ℚ) := by
        have : 1 ≤ I.natAbs := Int.natAbs_pos.mpr hI0
        exact_mod_cast this
      calc pow2 (-500) ≤ pow2 (K - 2) := pow2_le (by omega)
        _ ≤ ((I.natAbs : Nat) : ℚ) * pow2 (K - 2) := le_mul_of_one_le_left hg.le h1
    have hsqrt : Dbl.sqrt binary64 (Dbl.num (dq * dq)) = Dbl.num |dq| := by
      have hpos : 0 < dq * dq := mul_self_pos.mpr hdq
      simp only [Dbl.sqrt]
      rw [if_neg (not_lt.mpr hpos.le), if_neg (ne_of_gt hpos), habsq,
        sqrtRound_sq I.natAbs (K - 2) |dq| hyrep (by
          have : (I.natAbs : Int) = |I| := Int.natCast_natAbs I
          omega) hylo]
    rw [hsqrt]
    simp [Dbl.abs, Dbl.lt, Dbl.toRat]

/-! ## clusterKptMatchesWithROI on equal distances -/

/-- The sum of 1778198 copies of `1 + 2 ^ (-33)`, as `std::accumulate` computes it: exact up
to `2 ^ 20` terms, then every addition is a tie and drops the `2 ^ (-33)`. -/
theorem many_sum :
    (List.replicate (1 + 1048574 + 1 + 729622) (Dbl.num (8589934593 * pow2 (-33)))).foldl
        (fun acc d => Dbl.add binary64 acc d) d0 =
      Dbl.num (14566998017 * pow2 (-13)) := by
  rw [foldl_replicate_add, foldl_replicate_add, foldl_replicate_add]
  have p0 : (List.replicate 1 (Dbl.num (8589934593 * pow2 (-33)))).foldl
      (fun acc d => Dbl.add binary64 acc d) d0 =
      Dbl.num (((8589934593 : Int) : ℚ) * pow2 (-33)) := by decide!
  rw [p0]
  have p1 := sum_phase (8589934593 * pow2 (-33)) (8589934593 * pow2 (-33)) 0 8589934593 (-33)
    (-52) (by decide!) (by decide!) (by decide) (by decide) (Or.inl (by decide!))
    1048574 8589934593 (by decide!) (by decide!) (by decide!)
  rw [p1]
  have e1 : Dbl.add binary64
      (Dbl.num (((8589934593 : Int) : ℚ) * pow2 (-33) +
        ((1048574 : Nat) : ℚ) * (8589934593 * pow2 (-33))))
      (Dbl.num (8589934593 * pow2 (-33))) =
      Dbl.num (((8589934593 : Int) : ℚ) * pow2 (-13)) := by decide!
  have p2 : (List.replicate 1 (Dbl.num (8589934593 * pow2 (-33)))).foldl
      (fun acc d => Dbl.add binary64 acc d)
      (Dbl.num (((8589934593 : Int) : ℚ) * pow2 (-33) +
        ((1048574 : Nat) : ℚ) * (8589934593 * pow2 (-33)))) =
      Dbl.num (((8589934593 : Int) : ℚ) * pow2 (-13)) := e1
  rw [p2]
  have p3 := sum_phase (8589934593 * pow2 (-33)) 1 (pow2 (-33)) 8192 (-13)
    (-32) (by decide!) (by decide!) (by decide) (by decide)
    (Or.inr ⟨by decide!, by decide⟩)
    729622 8589934593 (by decide!) (by decide!) (by decide!)
  rw [p3]
  exact congrArg Dbl.num (by decide!)

/-- The sum of 1778198 copies of the squared deviation `215123² · 2 ^ (-104)`: exact for the
first 194632 terms, then each addition drops one unit of `2 ^ (-104)` until the sum reaches
`2 ^ (-48)`, and from there each addition gains seven units. -/
theorem many_sq_sum :
    (List.replicate (1 + 194631 + 1362430 + 1 + 221135)
        (Dbl.num (46277905129 * pow2 (-104)))).foldl
        (fun acc d => Dbl.add binary64 acc d) d0 =
      Dbl.num (82291278344763056 * pow2 (-104)) := by
  rw [foldl_replicate_add, foldl_replicate_add, foldl_replicate_add, foldl_replicate_add]
  have p0 : (List.replicate 1 (Dbl.num (46277905129 * pow2 (-104)))).foldl
      (fun acc d => Dbl.add binary64 acc d) d0 =
      Dbl.num (((46277905129 : Int) : ℚ) * pow2 (-104)) := by decide!
  rw [p0]
  have p1 := sum_phase (46277905129 * pow2 (-104)) (46277905129 * pow2 (-104)) 0 46277905129
    (-104) (-130) (by decide!) (by decide!) (by decide) (by decide) (Or.inl (by decide!))
    194631 46277905129 (by decide!) (by decide!) (by decide!)
  rw [p1]
  have e1 : ((46277905129 : Int) : ℚ) * pow2 (-104) +
      ((194631 : Nat) : ℚ) * (46277905129 * pow2 (-104)) =
      ((1125895153883441 : Int) : ℚ) * pow2 (-101) := by decide!
  rw [e1]
  have p2 := sum_phase (46277905129 * pow2 (-104)) (46277905128 * pow2 (-104)) (pow2 (-104))
    5784738141 (-101) (-103) (by decide!) (by decide!) (by decide) (by decide)
    (Or.inr ⟨by decide!, by decide⟩)
    1362430 1125895153883441 (by decide!) (by decide!) (by decide!)
  rw [p2]
  have p3 : (List.replicate 1 (Dbl.num (46277905129 * pow2 (-104)))).foldl
      (fun acc d => Dbl.add binary64 acc d)
      (Dbl.num (((1125895153883441 : Int) : ℚ) * pow2 (-101) +
        ((1362430 : Nat) : ℚ) * (46277905128 * pow2 (-104)))) =
      Dbl.num (((4503600862032106 : Int) : ℚ) * pow2 (-100)) := by decide!
  rw [p3]
  have p4 := sum_phase (46277905129 * pow2 (-104)) (46277905136 * pow2 (-104))
    (-7 * pow2 (-104)) 2892369071 (-100) (-100) (by decide!) (by decide!) (by decide)
    (by decide) (Or.inl (by decide!))
    221135 4503600862032106 (by decide!) (by decide!) (by decide!)
  rw [p4]
  exact congrArg Dbl.num (by decide!)

/-- On matches that all have the same distance, `clusterKptMatchesWithROI` retains all of
them or none, according to the test of line 170 on the common distance. -/
theorem clusterKptMatchesWithROI_all_or_none (pow : Dbl → Dbl → Dbl) (boundingBox : BoundingBox)
    (kptsPrev kptsCurr : List KeyPoint) (kptMatches : List DMatch) (da : Dbl)
    (hv : ValidMatches kptsPrev kptsCurr kptMatches)
    (heq : ∀ m ∈ kptMatches, matchDistance pow kptsPrev kptsCurr m = da) :
    clusterKptMatchesWithROI pow boundingBox kptsPrev kptsCurr kptMatches =
      Except.ok { boundingBox with
        kptMatches := boundingBox.kptMatches ++
          if withinOneStdDev da (meanOf (List.replicate kptMatches.length da))
              (stdDevOf pow (List.replicate kptMatches.length da)
                (meanOf (List.replicate kptMatches.length da))) = true
          then kptMatches else [] } := by
  rw [clusterKptMatchesWithROI_filter pow boundingBox kptsPrev kptsCurr _ hv,
    map_eq_replicate_of_forall _ da kptMatches heq]
  generalize meanOf (List.replicate kptMatches.length da) = μ
  generalize stdDevOf pow (List.replicate kptMatches.length da) μ = sd
  congr 2
  split_ifs with h
  · congr 1
    rw [List.filter_eq_self]
    intro x hx
    rw [heq x hx]
    exact h
  · congr 1
    rw [List.filter_eq_nil_iff]
    intro x hx
    rw [heq x hx]
    exact h

/-- C19 (counterexample). For 1778198 matches that all have the pixel distance `1 + 2 ^ (-33)`
the accumulated sum of the distances is `1778198 + 2 ^ (-13)`, the computed mean lies `215123`
units in the last place below the common distance, the square of that deviation is a `double`
(so that the library function `pow` has no choice), the computed standard deviation is not zero
but exceeds that deviation, and the function retains every match. -/
theorem clusterKptMatchesWithROI_retains_equal_distances :
    IsLibmPow powNearest
      ∧ meanOf (List.replicate 1778198 (Dbl.num (8589934593 * pow2 (-33)))) =
        Dbl.num (4503599627679661 * pow2 (-52))
      ∧ ∀ pow : Dbl → Dbl → Dbl, IsLibmPow pow →
        matchDistance pow exManyPrev exManyCurr ⟨0, 0⟩ = Dbl.num (8589934593 * pow2 (-33))
        ∧ stdDevOf pow (List.replicate 1778198 (Dbl.num (8589934593 * pow2 (-33))))
            (Dbl.num (4503599627679661 * pow2 (-52))) =
          Dbl.num (7391569996947595 * pow2 (-87))
        ∧ clusterKptMatchesWithROI pow exBox exManyPrev exManyCurr
            (List.replicate 1778198 ⟨0, 0⟩) =
          Except.ok { exBox with kptMatches := List.replicate 1778198 ⟨0, 0⟩ } := by
  have hsum : (List.replicate 1778198 (Dbl.num (8589934593 * pow2 (-33)))).foldl
      (fun acc d => Dbl.add binary64 acc d) d0 = Dbl.num (14566998017 * pow2 (-13)) := many_sum
  have hmean : meanOf (List.replicate 1778198 (Dbl.num (8589934593 * pow2 (-33)))) =
      Dbl.num (4503599627679661 * pow2 (-52)) := by
    rw [meanOf_replicate, hsum]
    decide!
  refine ⟨powNearest_isLibmPow, hmean, ?_⟩
  intro pow hp
  have hd : matchDistance pow exManyPrev exManyCurr ⟨0, 0⟩ =
      Dbl.num (8589934593 * pow2 (-33)) := by
    rw [matchDistance_pow hp]
    decide!
  have hsq : pow (Dbl.sub binary64 (Dbl.num (8589934593 * pow2 (-33)))
      (Dbl.num (4503599627679661 * pow2 (-52)))) d2 = Dbl.num (46277905129 * pow2 (-104)) := by
    rw [hp.of_exact _ (by decide!)]
    decide!
  have hsqsum : (List.replicate 1778198 (Dbl.num (46277905129 * pow2 (-104)))).foldl
      (fun acc d => Dbl.add binary64 acc d) d0 = Dbl.num (82291278344763056 * pow2 (-104)) :=
    many_sq_sum
  have hsd : stdDevOf pow (List.replicate 1778198 (Dbl.num (8589934593 * pow2 (-33))))
      (Dbl.num (4503599627679661 * pow2 (-52))) = Dbl.num (7391569996947595 * pow2 (-87)) := by
    rw [stdDevOf_replicate, hsq, hsqsum]
    decide!
  refine ⟨hd, hsd, ?_⟩
  have hv : ValidMatches exManyPrev exManyCurr (List.replicate 1778198 ⟨0, 0⟩) := by
    intro x hx
    rw [(List.mem_replicate.mp hx).2]
    decide!
  have heq : ∀ m ∈ List.replicate 1778198 (⟨0, 0⟩ : DMatch),
      matchDistance pow exManyPrev exManyCurr m = Dbl.num (8589934593 * pow2 (-33)) := by
    intro x hx
    rw [(List.mem_replicate.mp hx).2]
    exact hd
  rw [clusterKptMatchesWithROI_all_or_none pow exBox exManyPrev exManyCurr _ _ hv heq,
    List.length_replicate, hmean, hsd]
  have ht : withinOneStdDev (Dbl.num (8589934593 * pow2 (-33)))
      (Dbl.num (4503599627679661 * pow2 (-52))) (Dbl.num (7391569996947595 * pow2 (-87))) =
      true := by decide!
  rw [if_pos ht]
  rfl

/-- C19 (amended). With a library function `pow` meeting its contract, for at most 10000
matches with valid indices that all have the same pixel distance between their previous-frame
and their current-frame keypoint, whatever that distance (zero motion and a single match
included), `clusterKptMatchesWithROI` retains no match: the box is left as it was. -/
theorem clusterKptMatchesWithROI_equal_distances {pow : Dbl → Dbl → Dbl} (hp : IsLibmPow pow)
    (boundingBox : BoundingBox)
    (kptsPrev kptsCurr : List KeyPoint) (kptMatches : List DMatch) (da : Dbl)
    (hv : ValidMatches kptsPrev kptsCurr kptMatches) (hn : kptMatches.length ≤ 10000)
    (heq : ∀ m ∈ kptMatches, matchDistance pow kptsPrev kptsCurr m = da) :
    clusterKptMatchesWithROI pow boundingBox kptsPrev kptsCurr kptMatches =
      Except.ok boundingBox := by
  rw [clusterKptMatchesWithROI_all_or_none pow boundingBox kptsPrev kptsCurr kptMatches da hv heq]
  have hnone : (if withinOneStdDev da (meanOf (List.replicate kptMatches.length da))
      (stdDevOf pow (List.replicate kptMatches.length da)
        (meanOf (List.replicate kptMatches.length da))) = true
      then kptMatches else []) = [] := by
    cases hl : kptMatches with
    | nil => simp
    | cons m rest =>
      rw [← hl]
      have hm : m ∈ kptMatches := by rw [hl]; exact List.mem_cons_self _ _
      have hn1 : 1 ≤ kptMatches.length := by rw [hl]; simp
      have hrep := matchDistance_repr hp kptsPrev kptsCurr m
      rw [heq m hm] at hrep
      have htest : withinOneStdDev da (meanOf (List.replicate kptMatches.length da))
          (stdDevOf pow (List.replicate kptMatches.length da)
            (meanOf (List.replicate kptMatches.length da))) = false := by
        by_cases hfin : da.isFinite = true
        · exact equal_core hp da kptMatches.length hn1 hn hfin hrep
        · exact withinOneStdDev_not_finite da _ _ (by simpa using hfin)
      rw [htest]
      simp
  rw [hnone, List.append_nil]

theorem clusterKptMatchesWithROI_equal_distances_witness :
    clusterKptMatchesWithROI powDown exBox exFourPrev exFourCurr [⟨0, 0⟩, ⟨1, 1⟩, ⟨2, 2⟩] =
      Except.ok exBox :=
  clusterKptMatchesWithROI_equal_distances powDown_isLibmPow exBox exFourPrev exFourCurr
    [⟨0, 0⟩, ⟨1, 1⟩, ⟨2, 2⟩] (Dbl.num 1) (by unfold ValidMatches; decide!) (by decide)
    (by decide!)

/-! ## The shrunk rectangle -/

theorem round_toRat_sign (F : Fmt) (n m : Bool) (q : ℚ) :
    (round F n q).toRat = (round F m q).toRat := by
  unfold round
  by_cases h : q = 0
  · simp [h, Dbl.toRat]
  · simp only [h, if_false]

theorem round_isFinite_sign (F : Fmt) (n m : Bool) (q : ℚ) :
    (round F n q).isFinite = (round F m q).isFinite := by
  unfold round
  by_cases h : q = 0
  · simp [h, Dbl.isFinite]
  · simp only [h, if_false]

/-- The value `a` that line 41 (and line 42) truncates to `smallerBox.x`, for a box edge `x0`
and a width `w` within an image of at most `2 ^ 20` pixels and a shrink factor `σ` between 0
and 1: it is finite, at least `x0`, at most `x0 + σ w / 2 + 1/16`, and equal to `x0` for
`σ = 0`. -/
theorem shrink_start (s : Dbl) (x0 w : Int) (hs : s.isFinite = true) (hs0 : 0 ≤ s.toRat)
    (hs1 : s.toRat ≤ 1) (hx : 0 ≤ x0) (hw : 0 ≤ w) (hxw : x0 + w ≤ 2 ^ 20) :
    (Dbl.add binary64 (Dbl.ofInt binary64 x0)
        (Dbl.div binary64 (Dbl.mul binary32 s (Dbl.ofInt binary32 w)) d2)).isFinite = true ∧
      (x0 : ℚ) ≤ (Dbl.add binary64 (Dbl.ofInt binary64 x0)
        (Dbl.div binary64 (Dbl.mul binary32 s (Dbl.ofInt binary32 w)) d2)).toRat ∧
      (Dbl.add binary64 (Dbl.ofInt binary64 x0)
        (Dbl.div binary64 (Dbl.mul binary32 s (Dbl.ofInt binary32 w)) d2)).toRat ≤
          (x0 : ℚ) + s.toRat * (w : ℚ) / 2 + 1 / 16 ∧
      (s.toRat = 0 → (Dbl.add binary64 (Dbl.ofInt binary64 x0)
        (Dbl.div binary64 (Dbl.mul binary32 s (Dbl.ofInt binary32 w)) d2)).toRat = (x0 : ℚ)) := by
  have hx20 : x0 ≤ 2 ^ 20 := by omega
  have hw20 : w ≤ 2 ^ 20 := by omega
  obtain ⟨Wf, Wq⟩ := ofInt_exact binary32 (by decide) (by decide) (by decide) w hw hw20
  obtain ⟨Xf, Xq⟩ := ofInt_exact binary64 (by decide) (by decide) (by decide) x0 hx hx20
  have hwq0 : (0 : ℚ) ≤ (w : ℚ) := by exact_mod_cast hw
  have hxq0 : (0 : ℚ) ≤ (x0 : ℚ) := by exact_mod_cast hx
  have hsum : (x0 : ℚ) + (w : ℚ) ≤ 1048576 := by exact_mod_cast hxw
  have hP20 : pow2 20 = 1048576 := by decide!
  have hP21 : pow2 21 = 2097152 := by decide!
  have hP22 : pow2 22 = 4194304 := by decide!
  have hm4 : pow2 (-4) = 1 / 16 := by decide!
  have hm33 : pow2 (-33) = 1 / 8589934592 := by decide!
  have hm32 : pow2 (-32) = 1 / 4294967296 := by decide!
  -- the product, in float
  have hσw0 : 0 ≤ s.toRat * (w : ℚ) := mul_nonneg hs0 hwq0
  have hσw1 : s.toRat * (w : ℚ) ≤ (w : ℚ) := mul_le_of_le_one_left hwq0 hs1
  rw [Dbl.mul_finite binary32 hs Wf, Wq]
  obtain ⟨Pf, Perr⟩ := round_abs_err binary32 (by decide) (xor s.sign (Dbl.ofInt binary32 w).sign)
    20 hσw0 (by rw [show (20 : Int) + 1 = 21 by norm_num, hP21]; linarith) (by decide)
    (by decide)
  have hP0 := round_toRat_nonneg binary32 (xor s.sign (Dbl.ofInt binary32 w).sign) hσw0
  rw [show (20 : Int) - ((binary32.prec : Nat) : Int) = -4 by decide, hm4] at Perr
  have hPz : s.toRat = 0 →
      (round binary32 (xor s.sign (Dbl.ofInt binary32 w).sign) (s.toRat * (w : ℚ))).toRat = 0 := by
    intro h
    rw [h, zero_mul, round_zero]
    rfl
  generalize round binary32 (xor s.sign (Dbl.ofInt binary32 w).sign) (s.toRat * (w : ℚ)) = p at *
  have hPhi : p.toRat ≤ s.toRat * (w : ℚ) + 1 / 16 := by
    have := (abs_le.mp Perr).2
    linarith
  -- the half, in double
  have h2 : d2.toRat = 2 := rfl
  rw [Dbl.div_finite binary64 Pf (show d2.isFinite = true from rfl) (by rw [h2]; norm_num), h2]
  have hT0' : 0 ≤ p.toRat / 2 := by linarith
  obtain ⟨Tf, Terr⟩ := round_abs_err binary64 (by decide) (xor p.sign d2.sign) 20 hT0'
    (by rw [show (20 : Int) + 1 = 21 by norm_num, hP21]; linarith) (by decide) (by decide)
  have hT0 := round_toRat_nonneg binary64 (xor p.sign d2.sign) hT0'
  rw [show (20 : Int) - ((binary64.prec : Nat) : Int) = -33 by decide, hm33] at Terr
  have hTz : p.toRat = 0 → (round binary64 (xor p.sign d2.sign) (p.toRat / 2)).toRat = 0 := by
    intro h
    rw [h, zero_div, round_zero]
    rfl
  generalize round binary64 (xor p.sign d2.sign) (p.toRat / 2) = t at *
  have hThi : t.toRat ≤ p.toRat / 2 + 1 / 8589934592 := by
    have := (abs_le.mp Terr).2
    linarith
  -- the sum with the edge, in double
  rw [Dbl.add_finite binary64 Xf Tf, Xq]
  have hA0' : 0 ≤ (x0 : ℚ) + t.toRat := by linarith
  obtain ⟨Af, Aerr⟩ := round_abs_err binary64 (by decide)
    ((Dbl.ofInt binary64 x0).sign && t.sign) 21 hA0'
    (by rw [show (21 : Int) + 1 = 22 by norm_num, hP22]; linarith) (by decide) (by decide)
  rw [show (21 : Int) - ((binary64.prec : Nat) : Int) = -32 by decide, hm32] at Aerr
  have hmono := round_mono binary64 (by decide) false
    ((Dbl.ofInt binary64 x0).sign && t.sign) hxq0 (show (x0 : ℚ) ≤ (x0 : ℚ) + t.toRat by linarith)
    Af
  have hX : (round binary64 false (x0 : ℚ)).toRat = (x0 : ℚ) := Xq
  rw [hX] at hmono
  refine ⟨Af, hmono, ?_, ?_⟩
  · have := (abs_le.mp Aerr).2
    linarith
  · intro hz
    rw [hTz (hPz hz), add_zero, round_toRat_sign binary64 _ false, hX]

/-- The value that line 41 truncates to `smallerBox.x` does not decrease when the shrink
factor grows. -/
theorem shrink_start_mono (s1 s2 : Dbl) (x0 w : Int) (hf1 : s1.isFinite = true)
    (hf2 : s2.isFinite = true) (h0 : 0 ≤ s1.toRat) (h12 : s1.toRat ≤ s2.toRat)
    (h1 : s2.toRat ≤ 1) (hx : 0 ≤ x0) (hw : 0 ≤ w) (hxw : x0 + w ≤ 2 ^ 20) :
    (Dbl.add binary64 (Dbl.ofInt binary64 x0)
        (Dbl.div binary64 (Dbl.mul binary32 s1 (Dbl.ofInt binary32 w)) d2)).toRat ≤
      (Dbl.add binary64 (Dbl.ofInt binary64 x0)
        (Dbl.div binary64 (Dbl.mul binary32 s2 (Dbl.ofInt binary32 w)) d2)).toRat := by
  obtain ⟨A2f, -, -, -⟩ := shrink_start s2 x0 w hf2 (le_trans h0 h12) h1 hx hw hxw
  obtain ⟨A1f, -, -, -⟩ := shrink_start s1 x0 w hf1 h0 (le_trans h12 h1) hx hw hxw
  have hx20 : x0 ≤ 2 ^ 20 := by omega
  have hw20 : w ≤ 2 ^ 20 := by omega
  obtain ⟨Wf, Wq⟩ := ofInt_exact binary32 (by decide) (by decide) (by decide) w hw hw20
  obtain ⟨Xf, Xq⟩ := ofInt_exact binary64 (by decide) (by decide) (by decide) x0 hx hx20
  have hwq0 : (0 : ℚ) ≤ (w : ℚ) := by exact_mod_cast hw
  have hxq0 : (0 : ℚ) ≤ (x0 : ℚ) := by exact_mod_cast hx
  have hP21 : pow2 21 = 2097152 := by decide!
  have hwle : (w : ℚ) ≤ 1048576 := by exact_mod_cast hw20
  have h2 : d2.toRat = 2 := rfl
  have hd2 : d2.isFinite = true := rfl
  -- finiteness of the intermediate results for s2 and for s1
  have fin : ∀ s : Dbl, s.isFinite = true → 0 ≤ s.toRat → s.toRat ≤ 1 →
      (Dbl.mul binary32 s (Dbl.ofInt binary32 w)).isFinite = true ∧
      0 ≤ (Dbl.mul binary32 s (Dbl.ofInt binary32 w)).toRat ∧
      (Dbl.div binary64 (Dbl.mul binary32 s (Dbl.ofInt binary32 w)) d2).isFinite = true ∧
      0 ≤ (Dbl.div binary64 (Dbl.mul binary32 s (Dbl.ofInt binary32 w)) d2).toRat := by
    intro s hs hs0 hs1
    have hσw0 : 0 ≤ s.toRat * (w : ℚ) := mul_nonneg hs0 hwq0
    have hσw1 : s.toRat * (w : ℚ) ≤ (w : ℚ) := mul_le_of_le_one_left hwq0 hs1
    rw [Dbl.mul_finite binary32 hs Wf, Wq]
    obtain ⟨Pf, Perr⟩ := round_abs_err binary32 (by decide)
      (xor s.sign (Dbl.ofInt binary32 w).sign) 20 hσw0
      (by rw [show (20 : Int) + 1 = 21 by norm_num, hP21]; linarith) (by decide) (by decide)
    have hP0 := round_toRat_nonneg binary32 (xor s.sign (Dbl.ofInt binary32 w).sign) hσw0
    rw [show (20 : Int) - ((binary32.prec : Nat) : Int) = -4 by decide,
      show pow2 (-4) = 1 / 16 by decide!] at Perr
    generalize round binary32 (xor s.sign (Dbl.ofInt binary32 w).sign) (s.toRat * (w : ℚ)) = p
      at *
    have hPhi : p.toRat ≤ s.toRat * (w : ℚ) + 1 / 16 := by
      have := (abs_le.mp Perr).2
      linarith
    rw [Dbl.div_finite binary64 Pf hd2 (by rw [h2]; norm_num), h2]
    have hT0' : 0 ≤ p.toRat / 2 := by linarith
    obtain ⟨Tf, -⟩ := round_abs_err binary64 (by decide) (xor p.sign d2.sign) 20 hT0'
      (by rw [show (20 : Int) + 1 = 21 by norm_num, hP21]; linarith) (by decide) (by decide)
    exact ⟨Pf, hP0, Tf, round_toRat_nonneg binary64 _ hT0'⟩
  obtain ⟨P1f, P10, T1f, T10⟩ := fin s1 hf1 h0 (le_trans h12 h1)
  obtain ⟨P2f, P20, T2f, T20⟩ := fin s2 hf2 (le_trans h0 h12) h1
  -- the product
  have hP : (Dbl.mul binary32 s1 (Dbl.ofInt binary32 w)).toRat ≤
      (Dbl.mul binary32 s2 (Dbl.ofInt binary32 w)).toRat := by
    have e1 := Dbl.mul_finite binary32 hf1 Wf
    have e2 := Dbl.mul_finite binary32 hf2 Wf
    rw [e2] at P2f
    rw [e1, e2, Wq]
    rw [Wq] at P2f
    exact round_mono binary32 (by decide) _ _ (mul_nonneg h0 hwq0)
      (mul_le_mul_of_nonneg_right h12 hwq0) P2f
  -- the half
  have hT : (Dbl.div binary64 (Dbl.mul binary32 s1 (Dbl.ofInt binary32 w)) d2).toRat ≤
      (Dbl.div binary64 (Dbl.mul binary32 s2 (Dbl.ofInt binary32 w)) d2).toRat := by
    have e1 := Dbl.div_finite binary64 P1f hd2 (by rw [h2]; norm_num)
    have e2 := Dbl.div_finite binary64 P2f hd2 (by rw [h2]; norm_num)
    rw [e2] at T2f
    rw [e1, e2, h2]
    rw [h2] at T2f
    exact round_mono binary64 (by decide) _ _ (by linarith) (by linarith) T2f
  -- the sum
  have e1 := Dbl.add_finite binary64 Xf T1f
  have e2 := Dbl.add_finite binary64 Xf T2f
  rw [e2] at A2f
  rw [e1, e2, Xq]
  rw [Xq] at A2f
  exact round_mono binary64 (by decide) _ _ (by linarith) (by linarith) A2f

/-- The value that line 43 (and line 44) truncates to `smallerBox.width`: it is finite,
non-negative, at most `w (1 - σ) + 1/8`, and equal to `w` for `σ = 0`. -/
theorem shrink_length (s : Dbl) (w : Int) (hs : s.isFinite = true) (hs0 : 0 ≤ s.toRat)
    (hs1 : s.toRat ≤ 1) (hw : 0 ≤ w) (hw20 : w ≤ 2 ^ 20) :
    (Dbl.mul binary32 (Dbl.ofInt binary32 w)
        (Dbl.sub binary32 (Dbl.ofInt binary32 1) s)).isFinite = true ∧
      0 ≤ (Dbl.mul binary32 (Dbl.ofInt binary32 w)
        (Dbl.sub binary32 (Dbl.ofInt binary32 1) s)).toRat ∧
      (Dbl.mul binary32 (Dbl.ofInt binary32 w)
        (Dbl.sub binary32 (Dbl.ofInt binary32 1) s)).toRat ≤
          (w : ℚ) * (1 - s.toRat) + 1 / 8 ∧
      (s.toRat = 0 → (Dbl.mul binary32 (Dbl.ofInt binary32 w)
        (Dbl.sub binary32 (Dbl.ofInt binary32 1) s)).toRat = (w : ℚ)) := by
  obtain ⟨Wf, Wq⟩ := ofInt_exact binary32 (by decide) (by decide) (by decide) w hw hw20
  obtain ⟨Of, Oq⟩ := ofInt_exact binary32 (by decide) (by decide) (by decide) 1 (by norm_num)
    (by norm_num)
  have hwq0 : (0 : ℚ) ≤ (w : ℚ) := by exact_mod_cast hw
  have hwle : (w : ℚ) ≤ 1048576 := by exact_mod_cast hw20
  have hP21 : pow2 21 = 2097152 := by decide!
  have hP1 : pow2 1 = 2 := by decide!
  have hm4 : pow2 (-4) = 1 / 16 := by decide!
  have hm24 : pow2 (-24) = 1 / 16777216 := by decide!
  -- 1 - shrinkFactor, in float
  obtain ⟨sg, hsub⟩ := Dbl.sub_finite binary32 Of hs
  rw [hsub, Oq]
  push_cast
  have hc0' : 0 ≤ 1 - s.toRat := by linarith
  obtain ⟨Cf, Cerr⟩ := round_abs_err binary32 (by decide) sg 0 hc0'
    (by rw [show (0 : Int) + 1 = 1 by norm_num, hP1]; linarith) (by decide) (by decide)
  have hC0 := round_toRat_nonneg binary32 sg hc0'
  rw [show (0 : Int) - ((binary32.prec : Nat) : Int) = -24 by decide, hm24] at Cerr
  have hCz : s.toRat = 0 → (round binary32 sg (1 - s.toRat)).toRat = 1 := by
    intro h
    rw [h, sub_zero, round_toRat_sign binary32 sg false]
    have := Oq
    unfold Dbl.ofInt at this
    push_cast at this
    exact this
  generalize round binary32 sg (1 - s.toRat) = c at *
  have hChi : c.toRat ≤ 1 - s.toRat + 1 / 16777216 := by
    have := (abs_le.mp Cerr).2
    linarith
  -- the product, in float
  rw [Dbl.mul_finite binary32 Wf Cf, Wq]
  have hwc0 : 0 ≤ (w : ℚ) * c.toRat := mul_nonneg hwq0 hC0
  have hwc1 : (w : ℚ) * c.toRat ≤ (w : ℚ) * (1 - s.toRat) + 1 / 16 := by
    have h3 : (w : ℚ) * c.toRat ≤ (w : ℚ) * (1 - s.toRat + 1 / 16777216) :=
      mul_le_mul_of_nonneg_left hChi hwq0
    linarith
  have hwc2 : (w : ℚ) * (1 - s.toRat) ≤ (w : ℚ) := mul_le_of_le_one_right hwq0 (by linarith)
  obtain ⟨Bf, Berr⟩ := round_abs_err binary32 (by decide)
    (xor (Dbl.ofInt binary32 w).sign c.sign) 20 hwc0
    (by rw [show (20 : Int) + 1 = 21 by norm_num, hP21]; linarith) (by decide) (by decide)
  rw [show (20 : Int) - ((binary32.prec : Nat) : Int) = -4 by decide, hm4] at Berr
  refine ⟨Bf, round_toRat_nonneg binary32 _ hwc0, ?_, ?_⟩
  · have := (abs_le.mp Berr).2
    linarith
  · intro hz
    rw [hCz hz, mul_one, round_toRat_sign binary32 _ false]
    exact Wq

theorem Rect.inImage_iff (r : Rect) :
    r.inImage = true ↔ 0 ≤ r.x ∧ 0 ≤ r.y ∧ 0 ≤ r.width ∧ 0 ≤ r.height ∧
      r.x + r.width ≤ 1048576 ∧ r.y + r.height ≤ 1048576 := by
  simp only [Rect.inImage, Bool.and_eq_true, decide_eq_true_eq]
  tauto

theorem Rect.contains_iff (r : Rect) (pt : Point) :
    r.contains pt = true ↔
      r.x ≤ pt.x ∧ pt.x < r.x + r.width ∧ r.y ≤ pt.y ∧ pt.y < r.y + r.height := by
  simp only [Rect.contains, Bool.and_eq_true, decide_eq_true_eq]
  tauto

theorem Rect.disjoint_not_both {r1 r2 : Rect} (h : r1.disjoint r2 = true ∨ r2.disjoint r1 = true)
    (pt : Point) (h1 : r1.contains pt = true) (h2 : r2.contains pt = true) : False := by
  rw [Rect.contains_iff] at h1 h2
  simp only [Rect.disjoint, Bool.or_eq_true, decide_eq_true_eq] at h
  omega

/-- One coordinate of the shrunk rectangle, for a box inside the image and a shrink factor
between 0 and 1: the shrunk interval `[x', x' + w')` lies inside `[x0, x0 + w)`, and it is that
interval for the factor 0. -/
theorem shrink_interval (s : Dbl) (x0 w : Int) (hs : s.isFinite = true) (hs0 : 0 ≤ s.toRat)
    (hs1 : s.toRat ≤ 1) (hx : 0 ≤ x0) (hw : 0 ≤ w) (hxw : x0 + w ≤ 1048576) :
    x0 ≤ Dbl.toIntTrunc (Dbl.add binary64 (Dbl.ofInt binary64 x0)
        (Dbl.div binary64 (Dbl.mul binary32 s (Dbl.ofInt binary32 w)) d2)) ∧
      Dbl.toIntTrunc (Dbl.add binary64 (Dbl.ofInt binary64 x0)
          (Dbl.div binary64 (Dbl.mul binary32 s (Dbl.ofInt binary32 w)) d2)) +
        Dbl.toIntTrunc (Dbl.mul binary32 (Dbl.ofInt binary32 w)
          (Dbl.sub binary32 (Dbl.ofInt binary32 1) s)) ≤ x0 + w ∧
      (s.toRat = 0 →
        Dbl.toIntTrunc (Dbl.add binary64 (Dbl.ofInt binary64 x0)
          (Dbl.div binary64 (Dbl.mul binary32 s (Dbl.ofInt binary32 w)) d2)) = x0 ∧
        Dbl.toIntTrunc (Dbl.mul binary32 (Dbl.ofInt binary32 w)
          (Dbl.sub binary32 (Dbl.ofInt binary32 1) s)) = w) := by
  obtain ⟨Af, A0, A1, Az⟩ := shrink_start s x0 w hs hs0 hs1 hx hw (by omega)
  obtain ⟨Bf, B0, B1, Bz⟩ := shrink_length s w hs hs0 hs1 hw (by omega)
  have hwq0 : (0 : ℚ) ≤ (w : ℚ) := by exact_mod_cast hw
  have hxq0 : (0 : ℚ) ≤ (x0 : ℚ) := by exact_mod_cast hx
  have hsum : (x0 : ℚ) + (w : ℚ) ≤ 1048576 := by exact_mod_cast hxw
  have hσw0 : 0 ≤ s.toRat * (w : ℚ) := mul_nonneg hs0 hwq0
  have hσw1 : s.toRat * (w : ℚ) ≤ (w : ℚ) := mul_le_of_le_one_left hwq0 hs1
  generalize Dbl.add binary64 (Dbl.ofInt binary64 x0)
    (Dbl.div binary64 (Dbl.mul binary32 s (Dbl.ofInt binary32 w)) d2) = a at *
  generalize Dbl.mul binary32 (Dbl.ofInt binary32 w)
    (Dbl.sub binary32 (Dbl.ofInt binary32 1) s) = b at *
  rw [toIntTrunc_floor Af (le_trans hxq0 A0) (by linarith),
    toIntTrunc_floor Bf B0 (by linarith)]
  refine ⟨?_, ?_, ?_⟩
  · rw [Int.le_floor]
    exact A0
  · have h1 : ((⌊a.toRat⌋ : Int) : ℚ) ≤ a.toRat := Int.floor_le _
    have h2 : ((⌊b.toRat⌋ : Int) : ℚ) ≤ b.toRat := Int.floor_le _
    have h3 : ((⌊a.toRat⌋ + ⌊b.toRat⌋ : Int) : ℚ) < ((x0 + w + 1 : Int) : ℚ) := by
      push_cast
      have e : (w : ℚ) * (1 - s.toRat) = (w : ℚ) - s.toRat * (w : ℚ) := by ring
      rw [e] at B1
      linarith
    have h4 : ⌊a.toRat⌋ + ⌊b.toRat⌋ < x0 + w + 1 := by exact_mod_cast h3
    omega
  · intro hz
    rw [Az hz, Bz hz]
    exact ⟨Int.floor_intCast x0, Int.floor_intCast w⟩

/-- The shrunk region of a box inside the image lies inside the region of the box, and is the
region of the box for the shrink factor 0. -/
theorem shrinkRoi_within (s : Dbl) (r : Rect) (hs : s.isFinite = true) (hs0 : 0 ≤ s.toRat)
    (hs1 : s.toRat ≤ 1) (hr : r.inImage = true) :
    (r.x ≤ (shrinkRoi s r).x ∧ (shrinkRoi s r).x + (shrinkRoi s r).width ≤ r.x + r.width ∧
      r.y ≤ (shrinkRoi s r).y ∧ (shrinkRoi s r).y + (shrinkRoi s r).height ≤ r.y + r.height) ∧
      (s.toRat = 0 → shrinkRoi s r = r) := by
  obtain ⟨hx, hy, hw, hh, hxw, hyh⟩ := (Rect.inImage_iff r).mp hr
  obtain ⟨x1, x2, x3⟩ := shrink_interval s r.x r.width hs hs0 hs1 hx hw hxw
  obtain ⟨y1, y2, y3⟩ := shrink_interval s r.y r.height hs hs0 hs1 hy hh hyh
  refine ⟨⟨x1, x2, y1, y2⟩, ?_⟩
  intro hz
  obtain ⟨e1, e2⟩ := x3 hz
  obtain ⟨e3, e4⟩ := y3 hz
  unfold shrinkRoi
  rw [e1, e2, e3, e4]

/-- The left and the top edge of the shrunk region do not move outwards when the shrink factor
grows. -/
theorem shrinkRoi_start_mono (s1 s2 : Dbl) (r : Rect) (hf1 : s1.isFinite = true)
    (hf2 : s2.isFinite = true) (h0 : 0 ≤ s1.toRat) (h12 : s1.toRat ≤ s2.toRat)
    (h1 : s2.toRat ≤ 1) (hr : r.inImage = true) :
    (shrinkRoi s1 r).x ≤ (shrinkRoi s2 r).x ∧ (shrinkRoi s1 r).y ≤ (shrinkRoi s2 r).y := by
  obtain ⟨hx, hy, hw, hh, hxw, hyh⟩ := (Rect.inImage_iff r).mp hr
  have key : ∀ x0 w : Int, 0 ≤ x0 → 0 ≤ w → x0 + w ≤ 1048576 →
      Dbl.toIntTrunc (Dbl.add binary64 (Dbl.ofInt binary64 x0)
        (Dbl.div binary64 (Dbl.mul binary32 s1 (Dbl.ofInt binary32 w)) d2)) ≤
      Dbl.toIntTrunc (Dbl.add binary64 (Dbl.ofInt binary64 x0)
        (Dbl.div binary64 (Dbl.mul binary32 s2 (Dbl.ofInt binary32 w)) d2)) := by
    intro x0 w hx hw hxw
    have hm := shrink_start_mono s1 s2 x0 w hf1 hf2 h0 h12 h1 hx hw (by omega)
    obtain ⟨A1f, A10, A11, -⟩ := shrink_start s1 x0 w hf1 h0 (le_trans h12 h1) hx hw (by omega)
    obtain ⟨A2f, A20, A21, -⟩ := shrink_start s2 x0 w hf2 (le_trans h0 h12) h1 hx hw (by omega)
    have hwq0 : (0 : ℚ) ≤ (w : ℚ) := by exact_mod_cast hw
    have hxq0 : (0 : ℚ) ≤ (x0 : ℚ) := by exact_mod_cast hx
    have hsum : (x0 : ℚ) + (w : ℚ) ≤ 1048576 := by exact_mod_cast hxw
    have b1 : s1.toRat * (w : ℚ) ≤ (w : ℚ) := mul_le_of_le_one_left hwq0 (le_trans h12 h1)
    have b2 : s2.toRat * (w : ℚ) ≤ (w : ℚ) := mul_le_of_le_one_left hwq0 h1
    have c1 : 0 ≤ s1.toRat * (w : ℚ) := mul_nonneg h0 hwq0
    have c2 : 0 ≤ s2.toRat * (w : ℚ) := mul_nonneg (le_trans h0 h12) hwq0
    rw [toIntTrunc_floor A1f (le_trans hxq0 A10) (by linarith),
      toIntTrunc_floor A2f (le_trans hxq0 A20) (by linarith)]
    exact Int.floor_le_floor hm
  exact ⟨key r.x r.width hx hw hxw, key r.y r.height hy hh hyh⟩

/-- Monotonicity from a pointwise comparison of the regions: when every pixel of an input
point that lies in the `s2`-shrunk region of a box lies in the `s1`-shrunk region of that box
and of no other, the points assigned with `s2` are among those assigned with `s1`. -/
theorem clusterLidarWithROI_monotone_of (boundingBoxes : List BoundingBox)
    (lidarPoints : List LidarPoint) (s1 s2 : Dbl) (project : LidarPoint → Dbl × Dbl × Dbl)
    (h : ∀ p ∈ lidarPoints, ∀ j, j < boundingBoxes.length →
      shrunkContains boundingBoxes s2 (projectedPixel project p) j = true →
      enclosedOnlyBy boundingBoxes s1 (projectedPixel project p) j = true) :
    ∀ j : Nat,
      (lidarPoints.filter (fun p =>
          enclosedOnlyBy boundingBoxes s2 (projectedPixel project p) j)).Sublist
        (lidarPoints.filter (fun p =>
          enclosedOnlyBy boundingBoxes s1 (projectedPixel project p) j))
      ∧ ∀ b1 b2, (clusterLidarWithROI boundingBoxes lidarPoints s1 project)[j]? = some b1 →
          (clusterLidarWithROI boundingBoxes lidarPoints s2 project)[j]? = some b2 →
          b2.lidarPoints.length ≤ b1.lidarPoints.length := by
  intro j
  have hsub : (lidarPoints.filter (fun p =>
      enclosedOnlyBy boundingBoxes s2 (projectedPixel project p) j)).Sublist
      (lidarPoints.filter (fun p =>
        enclosedOnlyBy boundingBoxes s1 (projectedPixel project p) j)) := by
    have e : lidarPoints.filter (fun p =>
        enclosedOnlyBy boundingBoxes s2 (projectedPixel project p) j) =
        (lidarPoints.filter (fun p =>
          enclosedOnlyBy boundingBoxes s1 (projectedPixel project p) j)).filter (fun p =>
            enclosedOnlyBy boundingBoxes s2 (projectedPixel project p) j) := by
      rw [List.filter_filter]
      apply List.filter_congr
      intro p hp
      cases h2 : enclosedOnlyBy boundingBoxes s2 (projectedPixel project p) j
      · simp
      · have hc := ((enclosedOnlyBy_iff _ _ _ _).1 h2).1
        simp [h p hp j (shrunkContains_lt hc) hc]
    rw [e]
    exact List.filter_sublist _
  refine ⟨hsub, ?_⟩
  intro b1 b2 h1 h2
  rw [clusterLidarWithROI_getElem?] at h1 h2
  cases hb : boundingBoxes[j]? with
  | none => simp [hb] at h1
  | some b =>
    simp only [hb, Option.map_some', Option.some.injEq] at h1 h2
    subst h1 h2
    simp only [List.length_append]
    have := hsub.length_le
    omega

theorem shrunkContains_iff (boxes : List BoundingBox) (s : Dbl) (pt : Point) (j : Nat) :
    shrunkContains boxes s pt j = true ↔
      ∃ b, boxes[j]? = some b ∧ (shrinkRoi s b.roi).contains pt = true := by
  unfold shrunkContains
  cases boxes[j]? with
  | none => simp
  | some b => simp

theorem mem_of_getElem?_eq {α : Type} {l : List α} {i : Nat} {a : α} (h : l[i]? = some a) :
    a ∈ l := by
  obtain ⟨hi, rfl⟩ := List.getElem?_eq_some_iff.mp h
  exact List.getElem_mem hi

theorem pairwise_getElem? {α : Type} {R : α → α → Prop} {l : List α} (h : l.Pairwise R)
    {i j : Nat} {a b : α} (hi : l[i]? = some a) (hj : l[j]? = some b) (hij : i ≠ j) :
    R a b ∨ R b a := by
  obtain ⟨hil, rfl⟩ := List.getElem?_eq_some_iff.mp hi
  obtain ⟨hjl, rfl⟩ := List.getElem?_eq_some_iff.mp hj
  rcases lt_or_gt_of_ne hij with hlt | hgt
  · exact Or.inl (List.pairwise_iff_getElem.mp h i j hil hjl hlt)
  · exact Or.inr (List.pairwise_iff_getElem.mp h j i hjl hil hgt)

/-! ## clusterLidarWithROI under two shrink factors -/

/-- C11 (counterexample). Three inputs on which a box receives a point with the larger shrink
factor and not with the smaller one. Two boxes inside a small image that overlap for
`80 ≤ x < 100`, and a point projected to the pixel `(85, 50)`: with the factor 0 both regions
contain the pixel and the point is dropped, with the factor 0.2 only the first shrunk region
`[10, 90)` contains it. A single box `(0, 0, 10, 10)` and a point projected to `(8, 5)`: the
shrunk region is `[0, 8)` for the factor 0.19 and `[1, 9)` for the factor 0.2, the truncations
to `int` moving its right edge outwards. Two disjoint boxes side by side, the first of a width
that `float` rounds upwards, and a point projected to the first pixel column of the second box:
with the factor 0 the "shrunk" first region reaches into the second box and the point is
dropped, with the factor `2 ^ (-23)` the second box receives it. -/
theorem clusterLidarWithROI_not_monotone :
    ((∀ b ∈ exOverlapBoxes, b.roi.inImage = true)
        ∧ (clusterLidarWithROI exOverlapBoxes [lidarPixel 85 50] d0 exProject).map
          (fun b => b.lidarPoints.length) = [0, 0]
        ∧ (clusterLidarWithROI exOverlapBoxes [lidarPixel 85 50] (flt (1 / 5)) exProject).map
          (fun b => b.lidarPoints.length) = [1, 0])
      ∧ ((∀ b ∈ exSmallBox, b.roi.inImage = true)
        ∧ (0 ≤ (flt (19 / 100)).toRat ∧ (flt (19 / 100)).toRat ≤ (flt (1 / 5)).toRat ∧
          (flt (1 / 5)).toRat ≤ 1)
        ∧ (clusterLidarWithROI exSmallBox [lidarPixel 8 5] (flt (19 / 100)) exProject).map
          (fun b => b.lidarPoints.length) = [0]
        ∧ (clusterLidarWithROI exSmallBox [lidarPixel 8 5] (flt (1 / 5)) exProject).map
          (fun b => b.lidarPoints.length) = [1]
        ∧ shrinkRoi (flt (19 / 100)) ⟨0, 0, 10, 10⟩ = ⟨0, 0, 8, 8⟩
        ∧ shrinkRoi (flt (1 / 5)) ⟨0, 0, 10, 10⟩ = ⟨1, 1, 8, 8⟩)
      ∧ (exWideBoxes.Pairwise (fun a b => a.roi.disjoint b.roi = true)
        ∧ (clusterLidarWithROI exWideBoxes [lidarPixel 16777219 5] d0 exProject).map
          (fun b => b.lidarPoints.length) = [0, 0]
        ∧ (clusterLidarWithROI exWideBoxes [lidarPixel 16777219 5] (Dbl.num (pow2 (-23)))
          exProject).map (fun b => b.lidarPoints.length) = [0, 1]
        ∧ shrinkRoi d0 ⟨0, 0, 16777219, 10⟩ = ⟨0, 0, 16777220, 10⟩) := by
  refine ⟨⟨by decide!, by decide!, by decide!⟩,
    ⟨by decide!, ⟨by decide!, by decide!, by decide!⟩, by decide!, by decide!, by decide!,
      by decide!⟩,
    by decide, by decide!, by decide!, by decide!⟩

/-- C11 (amended). Take bounding boxes whose regions are pairwise disjoint and lie within an
image of at most `2 ^ 20` pixels a side, and two shrink factors `0 ≤ s1 ≤ s2 ≤ 1` such that
`s1 = 0` or, for every box, the right edge `x + width` and the bottom edge `y + height` of the
`s2`-shrunk region do not lie beyond those of the `s1`-shrunk region (the truncations to `int`
do not ensure it). Then every point `clusterLidarWithROI` assigns to a box with `s2` it assigns
to the same box with `s1`, and the number of points a box holds after the run with `s2` is at
most the number it holds after the run with `s1`. -/
theorem clusterLidarWithROI_monotone (boundingBoxes : List BoundingBox)
    (lidarPoints : List LidarPoint) (s1 s2 : Dbl) (project : LidarPoint → Dbl × Dbl × Dbl)
    (hf1 : s1.isFinite = true) (hf2 : s2.isFinite = true)
    (h0 : 0 ≤ s1.toRat) (h12 : s1.toRat ≤ s2.toRat) (h1 : s2.toRat ≤ 1)
    (himg : ∀ b ∈ boundingBoxes, b.roi.inImage = true)
    (hdis : boundingBoxes.Pairwise (fun a b => a.roi.disjoint b.roi = true))
    (hedge : s1.toRat = 0 ∨ ∀ b ∈ boundingBoxes,
      (shrinkRoi s2 b.roi).x + (shrinkRoi s2 b.roi).width ≤
          (shrinkRoi s1 b.roi).x + (shrinkRoi s1 b.roi).width ∧
        (shrinkRoi s2 b.roi).y + (shrinkRoi s2 b.roi).height ≤
          (shrinkRoi s1 b.roi).y + (shrinkRoi s1 b.roi).height) :
    ∀ j : Nat,
      (lidarPoints.filter (fun p =>
          enclosedOnlyBy boundingBoxes s2 (projectedPixel project p) j)).Sublist
        (lidarPoints.filter (fun p =>
          enclosedOnlyBy boundingBoxes s1 (projectedPixel project p) j))
      ∧ ∀ b1 b2, (clusterLidarWithROI boundingBoxes lidarPoints s1 project)[j]? = some b1 →
          (clusterLidarWithROI boundingBoxes lidarPoints s2 project)[j]? = some b2 →
          b2.lidarPoints.length ≤ b1.lidarPoints.length := by
  apply clusterLidarWithROI_monotone_of
  intro p _ j _ hc
  generalize projectedPixel project p = pt at *
  obtain ⟨b, hb, hcb⟩ := (shrunkContains_iff _ _ _ _).mp hc
  have hbmem : b ∈ boundingBoxes := mem_of_getElem?_eq hb
  have hs10 : s1.toRat ≤ 1 := le_trans h12 h1
  have hs20 : 0 ≤ s2.toRat := le_trans h0 h12
  obtain ⟨⟨w1, w2, w3, w4⟩, wz⟩ := shrinkRoi_within s1 b.roi hf1 h0 hs10 (himg b hbmem)
  obtain ⟨⟨v1, v2, v3, v4⟩, -⟩ := shrinkRoi_within s2 b.roi hf2 hs20 h1 (himg b hbmem)
  obtain ⟨m1, m2⟩ := shrinkRoi_start_mono s1 s2 b.roi hf1 hf2 h0 h12 h1 (himg b hbmem)
  have hcb' := (Rect.contains_iff _ _).mp hcb
  -- the pixel lies in the region of the box
  have hroi : b.roi.contains pt = true := by
    rw [Rect.contains_iff]
    omega
  rw [enclosedOnlyBy_iff]
  constructor
  · -- the region shrunk by s1 contains the region shrunk by s2
    rw [shrunkContains_iff]
    refine ⟨b, hb, ?_⟩
    rcases hedge with hz | he
    · rw [wz hz]
      exact hroi
    · obtain ⟨e1, e2⟩ := he b hbmem
      rw [Rect.contains_iff]
      omega
  · -- no other region contains the pixel
    intro i hi
    cases hci : shrunkContains boundingBoxes s1 pt i
    · rfl
    · exfalso
      obtain ⟨c, hcget, hcc⟩ := (shrunkContains_iff _ _ _ _).mp hci
      have hcmem : c ∈ boundingBoxes := mem_of_getElem?_eq hcget
      obtain ⟨⟨u1, u2, u3, u4⟩, -⟩ := shrinkRoi_within s1 c.roi hf1 h0 hs10 (himg c hcmem)
      have hcc' := (Rect.contains_iff _ _).mp hcc
      have hroic : c.roi.contains pt = true := by
        rw [Rect.contains_iff]
        omega
      exact Rect.disjoint_not_both (pairwise_getElem? hdis hb hcget (Ne.symm hi)) pt hroi
        hroic

theorem clusterLidarWithROI_monotone_witness :
    ((clusterLidarWithROI exDisjointBoxes
          [lidarPixel 5 5, lidarPixel 25 25, lidarPixel 0 0, lidarPixel 15 15] d0
          exProject).map (fun b => b.lidarPoints.length) = [2, 1]
      ∧ (clusterLidarWithROI exDisjointBoxes
          [lidarPixel 5 5, lidarPixel 25 25, lidarPixel 0 0, lidarPixel 15 15] (flt (1 / 5))
          exProject).map (fun b => b.lidarPoints.length) = [1, 1]
      ∧ ∀ j : Nat,
          ([lidarPixel 5 5, lidarPixel 25 25, lidarPixel 0 0, lidarPixel 15 15].filter (fun p =>
            enclosedOnlyBy exDisjointBoxes (flt (1 / 5)) (projectedPixel exProject p) j)).Sublist
          ([lidarPixel 5 5, lidarPixel 25 25, lidarPixel 0 0, lidarPixel 15 15].filter (fun p =>
            enclosedOnlyBy exDisjointBoxes d0 (projectedPixel exProject p) j)))
    ∧ ((clusterLidarWithROI exDisjointBoxes
          [lidarPixel 5 5, lidarPixel 25 25, lidarPixel 0 0, lidarPixel 15 15] (flt (1 / 10))
          exProject).map (fun b => b.lidarPoints.length) = [2, 1]
      ∧ (clusterLidarWithROI exDisjointBoxes
          [lidarPixel 5 5, lidarPixel 25 25, lidarPixel 0 0, lidarPixel 15 15] (flt (1 / 2))
          exProject).map (fun b => b.lidarPoints.length) = [1, 1]
      ∧ ∀ j : Nat,
          ([lidarPixel 5 5, lidarPixel 25 25, lidarPixel 0 0, lidarPixel 15 15].filter (fun p =>
            enclosedOnlyBy exDisjointBoxes (flt (1 / 2)) (projectedPixel exProject p) j)).Sublist
          ([lidarPixel 5 5, lidarPixel 25 25, lidarPixel 0 0, lidarPixel 15 15].filter (fun p =>
            enclosedOnlyBy exDisjointBoxes (flt (1 / 10)) (projectedPixel exProject p) j))) :=
  ⟨⟨by decide!, by decide!, fun j =>
    (clusterLidarWithROI_monotone exDisjointBoxes
      [lidarPixel 5 5, lidarPixel 25 25, lidarPixel 0 0, lidarPixel 15 15] d0 (flt (1 / 5))
      exProject (by decide!) (by decide!) (by decide!) (by decide!) (by decide!) (by decide)
      (by decide) (Or.inl (by decide!)) j).1⟩,
   ⟨by decide!, by decide!, fun j =>
    (clusterLidarWithROI_monotone exDisjointBoxes
      [lidarPixel 5 5, lidarPixel 25 25, lidarPixel 0 0, lidarPixel 15 15] (flt (1 / 10))
      (flt (1 / 2)) exProject (by decide!) (by decide!) (by decide!) (by decide!) (by decide!)
      (by decide) (by decide) (Or.inr (by decide!)) j).1⟩⟩

end CamFusion
